import Mathlib

/-!
# i2cdriver: protocol engine

A shallow embedding of the protocol engine of `c/linux/i2cdriver.cpp` and of
`c/common/crc_pec.h`: the PEC checksum, the capture decoder `decodeCapture`,
the echo encoder `i2c_rdwr_dump` and the message transfer engine `i2c_rdwr`.

Machine integers are natural numbers; a conversion to a narrower C type is an
explicit `%`.  Bytes are natural numbers below 256.
-/

namespace I2c

/-! ## crc_pec.h -/

/-- `CRC_PEC::POLY`. -/
def POLY : Nat := 0x1070 <<< 3

/-- The `for` loop of `CRC_PEC::crc8`, `i` iterations left; `data` is the
`uint16_t` register. -/
def crc8Loop : Nat → Nat → Nat
  | 0, data => data
  | i + 1, data =>
    let data1 := if data &&& 0x8000 ≠ 0 then (data ^^^ POLY) % 65536 else data
    crc8Loop i ((data1 <<< 1) % 65536)

/-- `CRC_PEC::crc8`. -/
def crc8 (data : Nat) : Nat := (crc8Loop 8 data >>> 8) % 256

/-- `CRC_PEC::add(uint8_t b)`: the new value of the member `crc`. -/
def CRC_PEC.add (crc b : Nat) : Nat := crc8 ((((crc ^^^ b) % 65536) <<< 8) % 65536)

/-- `CRC_PEC::add(uint8_t* buf, unsigned count)`, on the `count` bytes read from `buf`. -/
def CRC_PEC.addBuf (crc : Nat) : List Nat → Nat
  | [] => crc
  | b :: bs => CRC_PEC.addBuf (CRC_PEC.add crc b) bs

/-- `CRC_PEC::sum()`, for the value `crc` of the member. -/
def CRC_PEC.sum (crc : Nat) : Nat := crc

/-- The table `PEC_Table` written in the closing comment of `crc_pec.h`. -/
def PEC_Table : List Nat := [
    0,   7,   14,  9,   28,  27,  18,  21,  56,  63,  54,  49,  36,  35,  42,  45,  112, 119, 126, 121, 108, 107,
    98,  101, 72,  79,  70,  65,  84,  83,  90,  93,  224, 231, 238, 233, 252, 251, 242, 245, 216, 223, 214, 209,
    196, 195, 202, 205, 144, 151, 158, 153, 140, 139, 130, 133, 168, 175, 166, 161, 180, 179, 186, 189, 199, 192,
    201, 206, 219, 220, 213, 210, 255, 248, 241, 246, 227, 228, 237, 234, 183, 176, 185, 190, 171, 172, 165, 162,
    143, 136, 129, 134, 147, 148, 157, 154, 39,  32,  41,  46,  59,  60,  53,  50,  31,  24,  17,  22,  3,   4,
    13,  10,  87,  80,  89,  94,  75,  76,  69,  66,  111, 104, 97,  102, 115, 116, 125, 122, 137, 142, 135, 128,
    149, 146, 155, 156, 177, 182, 191, 184, 173, 170, 163, 164, 249, 254, 247, 240, 229, 226, 235, 236, 193, 198,
    207, 200, 221, 218, 211, 212, 105, 110, 103, 96,  117, 114, 123, 124, 81,  86,  95,  88,  77,  74,  67,  68,
    25,  30,  23,  16,  5,   2,   11,  12,  33,  38,  47,  40,  61,  58,  51,  52,  78,  73,  64,  71,  82,  85,
    92,  91,  118, 113, 120, 127, 106, 109, 100, 99,  62,  57,  48,  55,  34,  37,  44,  43,  6,   1,   8,   15,
    26,  29,  20,  19,  174, 169, 160, 167, 178, 181, 188, 187, 150, 145, 152, 159, 138, 141, 132, 131, 222, 217,
    208, 215, 194, 197, 204, 203, 230, 225, 232, 239, 250, 253, 244, 243]

/-- The commented-out body of `add`: `crc = PEC_Table[(uint8_t)(crc ^ b)]`. -/
def CRC_PEC.addTable (crc b : Nat) : Nat := PEC_Table.getD ((crc ^^^ b) % 256) 0

/-! ## decodeCapture -/

/-- The function-local static variables of `decodeCapture`. -/
structure DecState where
  count : Nat
  cur : Nat
  inData : Bool
deriving DecidableEq, Repr

/-- What `decodeCapture` and `i2c_rdwr_dump` print, one constructor per kind of
`fprintf`; the colour escapes are left out.  In `addressByte` and `dataByte`
the field `ack` is the index into `acknack`: 0 prints `.` (ACK), 1 prints
`'` (NACK). -/
inductive Out where
  | framingError (cur bits : Nat)
  | addressByte (addr : Nat) (isRead : Bool) (ack : Nat)
  | dataByte (value : Nat) (ack : Nat)
  | newline
  | stop
  | start
  | undocumented (b : Nat)
  | pec (value : Nat)
  | endl
deriving DecidableEq, Repr

/-- One turn of the `for` loop of `decodeCapture`, on the nibble `b`. -/
def decodeNibble (st : DecState) (b : Nat) : DecState × List Out :=
  let idle := st.count == 0
  let flush := decide (st.count > 0) && decide (b < 8)
  let st1 : DecState := if flush then { count := 0, cur := 0, inData := false } else st
  let o1 : List Out := if flush then [Out.framingError st.cur (st.count * 3)] else []
  if b ≥ 8 then
    let cur := ((st1.cur <<< 3) ||| (b - 8)) % 2 ^ 32
    let count := st1.count + 1
    if count = 3 then
      let ack := cur &&& 1
      let cur1 := cur >>> 1
      if !st1.inData then
        let isRead := decide (cur1 &&& 1 ≠ 0)
        let cur2 := cur1 >>> 1
        ({ count := 0, cur := 0, inData := true }, o1 ++ [Out.addressByte cur2 isRead ack])
      else
        ({ count := 0, cur := 0, inData := true }, o1 ++ [Out.dataByte cur1 ack])
    else
      ({ count := count, cur := cur, inData := st1.inData }, o1)
  else if b = 0 then
    ({ st1 with inData := false }, o1 ++ (if !idle then [Out.newline] else []))
  else if b = 2 then
    ({ st1 with inData := false }, o1 ++ [Out.stop])
  else if b = 1 then
    ({ st1 with inData := false }, o1 ++ [Out.start])
  else if b ≥ 3 ∧ b < 8 then
    (st1, o1 ++ [Out.undocumented b])
  else
    (st1, o1)

/-- A run of loop turns of `decodeCapture` over a list of nibbles. -/
def decodeNibbles (st : DecState) : List Nat → DecState × List Out
  | [] => (st, [])
  | b :: bs =>
    let r1 := decodeNibble st b
    let r2 := decodeNibbles r1.1 bs
    (r2.1, r1.2 ++ r2.2)

/-- The two nibbles the loop of `decodeCapture` takes from `data`:
`(data >> 4) & 0xF`, then `(data >> 0) & 0xF`. -/
def nibblesOf (data : Nat) : List Nat := [(data >>> 4) &&& 0xF, (data >>> 0) &&& 0xF]

/-- `decodeCapture(uint8_t data)`. -/
def decodeCapture (st : DecState) (data : Nat) : DecState × List Out :=
  decodeNibbles st (nibblesOf data)

/-- Successive calls of `decodeCapture`, one per byte. -/
def decodeBytes (st : DecState) : List Nat → DecState × List Out
  | [] => (st, [])
  | d :: ds =>
    let r1 := decodeCapture st d
    let r2 := decodeBytes r1.1 ds
    (r2.1, r1.2 ++ r2.2)

/-! ## i2c_msg -/

/-- `I2C_M_RD` of `linux/i2c.h`. -/
def I2C_M_RD : Nat := 0x0001

/-- `I2C_M_RECV_LEN` of `linux/i2c.h`. -/
def I2C_M_RECV_LEN : Nat := 0x0400

/-- `struct i2c_msg` of `linux/i2c.h`; `buf = none` is the null pointer, and
`some bs` points to the bytes `bs`. -/
structure i2c_msg where
  addr : Nat
  flags : Nat
  len : Nat
  buf : Option (List Nat)
deriving DecidableEq, Repr

/-! ## i2c_rdwr_dump -/

/-- The nibbles `a`, `b`, `c` that `i2c_rdwr_dump` computes from the payload
byte `*buf`, with `len` its value before `len--`. -/
def dumpTriple (rd len x : Nat) : Nat × Nat × Nat :=
  ((8 + (x >>> 5)) % 256,
   (8 + ((x >>> 2) &&& 7)) % 256,
   (8 + ((x <<< 1) &&& 7) + (rd &&& (if len = 1 then 1 else 0))) % 256)

/-- The `while (1)` loop of `i2c_rdwr_dump`, entered at its top
(`atSkip = false`) or at the label `skip` (`atSkip = true`).  Returns the
arguments of the calls of `decodeCapture` it makes, in order, and the value of
`delayed` at the `break`. -/
def dumpLoop (rd : Nat) : Nat → Bool → Nat → Nat → Nat → List Nat → List Nat × Nat
  | 0, false, a, b, c, _ => ([((a <<< 4) ||| b) % 256], ((c <<< 4) ||| 1) % 256)
  | 0, true, _, _, _, _ => ([], 0)
  | len + 1, false, a, b, c, buf =>
    let t := dumpTriple rd (len + 1) (buf.headD 0)
    let r := dumpLoop rd len true t.1 t.2.1 t.2.2 buf.tail
    ([((a <<< 4) ||| b) % 256, ((c <<< 4) ||| t.1) % 256, ((t.2.1 <<< 4) ||| t.2.2) % 256] ++ r.1, r.2)
  | len + 1, true, _, _, _, buf =>
    let t := dumpTriple rd (len + 1) (buf.headD 0)
    dumpLoop rd len false t.1 t.2.1 t.2.2 buf.tail

/-- The body of the `for` loop of `i2c_rdwr_dump` for a message that is not
skipped: the arguments of its calls of `decodeCapture` and the new `delayed`. -/
def dumpMsg (delayed : Nat) (msg : i2c_msg) (buf : List Nat) : List Nat × Nat :=
  let len := if msg.flags &&& I2C_M_RECV_LEN ≠ 0 then buf.headD 0 + 1 else msg.len
  let rd := msg.flags &&& I2C_M_RD
  let addr := (((msg.addr &&& 0x7f) <<< 1) ||| rd) <<< 1
  let a := (8 + (addr >>> 6)) % 256
  let b := (8 + ((addr >>> 3) &&& 7)) % 256
  let c := (8 + (addr &&& 7)) % 256
  if delayed = 0 then
    let r := dumpLoop rd len true a b c buf
    ([((1 <<< 4) ||| a) % 256, ((b <<< 4) ||| c) % 256] ++ r.1, r.2)
  else if delayed ≠ 255 then
    let r := dumpLoop rd len false a b c buf
    (delayed :: r.1, r.2)
  else
    dumpLoop rd len false a b c buf

/-- The `for` loop of `i2c_rdwr_dump` over the messages. -/
def dumpMsgs (dumpwrites : Bool) : Nat → List i2c_msg → List Nat × Nat
  | delayed, [] => ([], delayed)
  | delayed, msg :: rest =>
    match msg.buf with
    | none => dumpMsgs dumpwrites delayed rest
    | some buf =>
      if msg.flags &&& I2C_M_RD = 0 ∧ dumpwrites = false then
        dumpMsgs dumpwrites delayed rest
      else
        let r1 := dumpMsg delayed msg buf
        let r2 := dumpMsgs dumpwrites r1.2 rest
        (r1.1 ++ r2.1, r2.2)

/-- All arguments of the calls of `decodeCapture` made by `i2c_rdwr_dump`, in order. -/
def dumpFeed (msgs : List i2c_msg) (dumpwrites : Bool) : List Nat :=
  let r := dumpMsgs dumpwrites 255 msgs
  [1] ++ r.1 ++ [if r.2 = 0 ∨ r.2 = 255 then 0x20 else (r.2 + 1) % 256]

/-- `i2c_rdwr_dump(rdwr, dumpwrites, pec)`; `add_pec` is the global of that
name and `st` the static state of `decodeCapture`. -/
def i2c_rdwr_dump (add_pec : Bool) (st : DecState) (msgs : List i2c_msg) (dumpwrites : Bool)
    (pec : Nat) : DecState × List Out :=
  let r := decodeBytes st (dumpFeed msgs dumpwrites)
  (r.1, r.2 ++ (if add_pec then [Out.pec pec] else []) ++ [Out.endl])

/-! ## The byte channel -/

/-- The place in `i2c_rdwr` a call of `i2cd.writeAll` is made from. -/
inductive TxKind where
  | start
  | readAck
  | readNack
  | writeCmd
  | payload
  | pec
  | stop
deriving DecidableEq, Repr

/-- The place in `i2c_rdwr` a call of `i2cd.read` is made from: the clearing
of the input buffer, `i2cdriverErr`, or the read of received bytes into
`msg.buf`. -/
inductive RxKind where
  | drain
  | status
  | data
deriving DecidableEq, Repr

/-- One call on the channel: `writeAll` with the bytes passed, or `read` with
the byte count asked for and the bytes received. -/
inductive Ev where
  | tx (kind : TxKind) (bytes : List Nat)
  | rx (kind : RxKind) (count : Nat) (got : List Nat)
deriving DecidableEq, Repr

/-- Modelled from the spec: the Byte Channel, class `File` of `file.h`, which
is not among the sources: "a duplex byte stream to the adapter with blocking
reads bounded by a byte-count, an inter-byte timeout, and an overall timeout;
write is all-or-nothing".  `log` is the calls made so far, oldest first.  `rx`
is what the adapter will deliver: `some b` is the byte `b`, and `none` is a
silence that outlasts the timeout of the read that meets it. -/
structure File where
  log : List Ev
  rx : List (Option Nat)
deriving DecidableEq, Repr

/-- Modelled from the spec: `File::writeAll`. -/
def File.writeAll (f : File) (kind : TxKind) (bytes : List Nat) : File :=
  { f with log := f.log ++ [Ev.tx kind bytes] }

/-- Modelled from the spec: the bytes a read bounded by `count` receives, and
what is left of the stream: the read ends after `count` bytes, at a silence
(which it uses up), or at the end of the stream. -/
def rxTake : Nat → List (Option Nat) → List Nat × List (Option Nat)
  | 0, rx => ([], rx)
  | _ + 1, [] => ([], [])
  | _ + 1, none :: rx => ([], rx)
  | n + 1, some b :: rx =>
    let r := rxTake n rx
    (b :: r.1, r.2)

/-- Modelled from the spec: `File::read(buf, count, ...)`: the bytes received;
the return value of the call is their number when positive, and a value
`<= 0` when there is none. -/
def File.read (f : File) (kind : RxKind) (count : Nat) : List Nat × File :=
  let r := rxTake count f.rx
  (r.1, { log := f.log ++ [Ev.rx kind count r.1], rx := r.2 })

/-- The calls of `writeAll` in a log: kind and bytes. -/
def txOf : List Ev → List (TxKind × List Nat)
  | [] => []
  | Ev.tx kind bytes :: es => (kind, bytes) :: txOf es
  | Ev.rx _ _ _ :: es => txOf es

/-- The calls of `writeAll` made on a channel so far. -/
def File.tx (f : File) : List (TxKind × List Nat) := txOf f.log

/-- The memory at `buf` after a read has stored the bytes `got` from index
`idx` on (`buf` has to be long enough). -/
def store (buf : List Nat) (idx : Nat) (got : List Nat) : List Nat :=
  buf.take idx ++ got ++ buf.drop (idx + got.length)

/-! ## i2c_rdwr -/

/-- `i2cdriverErr()`. -/
def i2cdriverErr (f : File) : Bool × File :=
  let r := f.read RxKind.status 2
  (match r.1 with
   | [] => true
   | [b0] => b0 != 0b110001
   | b0 :: b1 :: _ => b0 != 0b110001 || b1 != 0b110001, r.2)

/-- The variables of `i2c_rdwr` that the processing of one message changes. -/
structure Loc where
  chan : File
  pec : Nat
  buf : List Nat
  len : Nat
  datidx : Nat
  ioerror : Bool
deriving DecidableEq, Repr

/-- The loop `while (len > 64)` of the read path; it stops early (the
`goto endoftransmission`) with `ioerror` set. -/
def ackAllLoop : Nat → Loc → Loc
  | 0, s => s
  | fuel + 1, s =>
    if s.len > 64 then
      let l := if s.len > 255 then 255 else s.len - 1
      let c1 := s.chan.writeAll TxKind.readAck [0x61, l % 256]
      let r := c1.read RxKind.data l
      let buf1 := store s.buf s.datidx r.1
      if r.1.length ≠ l then
        { s with chan := r.2, buf := buf1, ioerror := true }
      else
        ackAllLoop fuel
          { chan := r.2, pec := CRC_PEC.addBuf s.pec ((buf1.drop s.datidx).take l), buf := buf1,
            len := s.len - l, datidx := s.datidx + l, ioerror := false }
    else s

/-- The loop `while (len > 0)` of the write path; it stops early (the
`goto endoftransmission`) with `ioerror` set. -/
def writeLoop : Nat → Loc → Loc
  | 0, s => s
  | fuel + 1, s =>
    if s.len > 0 then
      let l := if s.len > 64 then 64 else s.len
      let c1 := s.chan.writeAll TxKind.writeCmd [((l - 1) ||| 0b11000000) % 256]
      let data := (s.buf.drop s.datidx).take l
      let c2 := c1.writeAll TxKind.payload data
      let pec1 := CRC_PEC.addBuf s.pec data
      let e := i2cdriverErr c2
      if e.1 then
        { s with chan := e.2, pec := pec1, ioerror := true }
      else
        writeLoop fuel { s with chan := e.2, pec := pec1, len := s.len - l, datidx := s.datidx + l,
                                ioerror := false }
    else s

/-- The variables of `i2c_rdwr` that live across messages. -/
structure RdwrState where
  chan : File
  pec : Nat
  ioerror : Bool
  do_add_pec : Bool
deriving DecidableEq, Repr

/-- The block `if (msg.flags & I2C_M_RECV_LEN)` of the read path: the read of
the length byte; it leaves by `goto endoftransmission` with `ioerror` set. -/
def recvLen (s : Loc) : Loc :=
  let c1 := s.chan.writeAll TxKind.readAck [0x61, 1]
  let r := c1.read RxKind.data 1
  let buf1 := store s.buf s.datidx r.1
  if r.1.length ≠ 1 then
    { s with chan := r.2, buf := buf1, ioerror := true }
  else
    { chan := r.2, pec := CRC_PEC.add s.pec (buf1.getD s.datidx 0 % 256), buf := buf1,
      len := buf1.getD s.datidx 0 % 256, datidx := s.datidx + 1, ioerror := false }

/-- The end of the read path, "at this point 1 <= len <= 64": the
read-with-final-NACK command and the read of the last `len` bytes. -/
def finalNack (s : Loc) : Loc :=
  let c3 := s.chan.writeAll TxKind.readNack [((s.len - 1) ||| 0b10000000) % 256]
  let r := c3.read RxKind.data s.len
  let buf3 := store s.buf s.datidx r.1
  if r.1.length ≠ s.len then
    { s with chan := r.2, buf := buf3, ioerror := true }
  else
    { s with chan := r.2, pec := CRC_PEC.addBuf s.pec ((buf3.drop s.datidx).take s.len),
             buf := buf3, ioerror := false }

/-- The variables of `i2c_rdwr` when the read path of a message is left with
the variables `s`; `stop` tells whether it is left by a
`goto endoftransmission`.  The read path has cleared `do_add_pec`. -/
def readExit (s : Loc) (msg : i2c_msg) (stop : Bool) : RdwrState × i2c_msg × Bool :=
  ({ chan := s.chan, pec := s.pec, ioerror := s.ioerror, do_add_pec := false },
   { msg with buf := some s.buf }, stop)

/-- The read branch of the body of the `for` loop of `i2c_rdwr`, after the
START has been acknowledged.  The third component tells whether the branch
left by a `goto endoftransmission`. -/
def rdwrRead (st : RdwrState) (msg : i2c_msg) (buf : List Nat) (len : Nat) :
    RdwrState × i2c_msg × Bool :=
  let s0 : Loc := { chan := st.chan, pec := st.pec, buf := buf, len := len, datidx := 0,
                    ioerror := false }
  let s1 : Loc := if msg.flags &&& I2C_M_RECV_LEN ≠ 0 then recvLen s0 else s0
  if s1.ioerror then readExit s1 msg true
  else if s1.len = 0 then readExit s1 msg true
  else
    let s2 := ackAllLoop s1.len s1
    if s2.ioerror then readExit s2 msg true
    else
      let s3 := finalNack s2
      readExit s3 msg s3.ioerror

/-- The body of the `for` loop of `i2c_rdwr` for a message whose `buf` is not
null.  The third component tells whether the body left by a
`goto endoftransmission`. -/
def rdwrMsg (st : RdwrState) (msg0 : i2c_msg) (buf : List Nat) : RdwrState × i2c_msg × Bool :=
  let len := msg0.len
  -- 0-length writes are not permitted. Convert to 0-length read.
  let msg : i2c_msg :=
    if len = 0 then
      { msg0 with flags := ((msg0.flags ||| I2C_M_RD) &&& (0xFFFF ^^^ I2C_M_RECV_LEN)) % 65536 }
    else msg0
  let c1 := st.chan.writeAll TxKind.start
    [0x73, ((msg.addr <<< 1) ||| (msg.flags &&& I2C_M_RD)) % 256]
  let pec1 := CRC_PEC.add st.pec (((msg.addr <<< 1) ||| (msg.flags &&& I2C_M_RD)) % 256)
  let e := i2cdriverErr c1
  if e.1 then
    ({ st with chan := e.2, pec := pec1, ioerror := true }, msg, true)
  else if msg.flags &&& I2C_M_RD ≠ 0 then
    rdwrRead { st with chan := e.2, pec := pec1, ioerror := false } msg buf len
  else
    let s := writeLoop len { chan := e.2, pec := pec1, buf := buf, len := len, datidx := 0,
                             ioerror := false }
    ({ st with chan := s.chan, pec := s.pec, ioerror := s.ioerror }, msg, s.ioerror)

/-- The `for` loop of `i2c_rdwr` over the messages: the state at the label
`endoftransmission` and the messages as the loop leaves them. -/
def rdwrLoop : List i2c_msg → RdwrState → RdwrState × List i2c_msg
  | [], st => (st, [])
  | msg :: rest, st =>
    match msg.buf with
    | none =>
      let r := rdwrLoop rest st
      (r.1, msg :: r.2)
    | some buf =>
      let r1 := rdwrMsg st msg buf
      if r1.2.2 then (r1.1, r1.2.1 :: rest)
      else
        let r2 := rdwrLoop rest r1.1
        (r2.1, r1.2.1 :: r2.2)

/-- What a call of `i2c_rdwr` leaves behind: the channel, the messages, the
final `pec.sum()`, the return value, the static state of `decodeCapture` and
the text printed. -/
structure RdwrResult where
  chan : File
  msgs : List i2c_msg
  pec : Nat
  ok : Bool
  dec : DecState
  out : List Out
deriving DecidableEq, Repr

/-- `i2c_rdwr(rdwr)` with `rdwr.msgs = msgs` and `rdwr.nmsgs = msgs.length`;
`add_pec` is the global of that name, `chan` is `i2cd` and `dec` the static
state of `decodeCapture`. -/
def i2c_rdwr (add_pec : Bool) (dec : DecState) (chan : File) (msgs : List i2c_msg) : RdwrResult :=
  if msgs.length = 0 then
    { chan := chan, msgs := msgs, pec := 0, ok := true, dec := dec, out := [] }
  else
    -- clear input buffer
    let c0 := (chan.read RxKind.drain 32).2
    let r := rdwrLoop msgs { chan := c0, pec := 0, ioerror := false, do_add_pec := add_pec }
    let st := r.1
    let st1 : RdwrState :=
      if st.do_add_pec && !st.ioerror then
        let c1 := st.chan.writeAll TxKind.pec [0b11000000, st.pec % 256]
        let e := i2cdriverErr c1
        { st with chan := e.2, ioerror := e.1 }
      else st
    let c2 := st1.chan.writeAll TxKind.stop [0x70]
    let d := i2c_rdwr_dump add_pec dec r.2 true st1.pec
    { chan := c2, msgs := r.2, pec := st1.pec, ok := !st1.ioerror, dec := d.1, out := d.2 }


/-! ## The C library: strtol and strtoul with base 0

These functions are not part of the repository; they are written after the C
standard (7.22.1.4), for `long` of 64 bits. -/

/-- `isspace` of the C library in the C locale. -/
def isspace (c : Char) : Bool :=
  c == ' ' || c == '\t' || c == '\n' || c == '\x0b' || c == '\x0c' || c == '\r'

/-- The value of a character as a digit for `strtol` and `strtoul`: 0..9 for
the decimal digits, 10..35 for the letters of either case, and 36, which is a
digit in no base, for every other character. -/
def digitValue (c : Char) : Nat :=
  if '0' ≤ c ∧ c ≤ '9' then c.toNat - 48
  else if 'a' ≤ c ∧ c ≤ 'z' then c.toNat - 97 + 10
  else if 'A' ≤ c ∧ c ≤ 'Z' then c.toNat - 65 + 10
  else 36

/-- The longest run of digits of `base`: its value on top of `acc`, and the
characters after it. -/
def scanDigits (base : Nat) : Nat → List Char → Nat × List Char
  | acc, [] => (acc, [])
  | acc, c :: cs =>
    if digitValue c < base then scanDigits base (acc * base + digitValue c) cs
    else (acc, c :: cs)

/-- What `strtol` and `strtoul` with base 0 read: white space, an optional
sign, then a hexadecimal number after `0x` or `0X`, an octal number after `0`,
or else a decimal number.  `none` when there is no number; otherwise whether
there is a minus sign, the magnitude, and the characters after the number
(for `0x` without a hexadecimal digit the number is the `0` and the `x`
follows). -/
def strtoParts (s : List Char) : Option (Bool × Nat × List Char) :=
  let s1 := s.dropWhile isspace
  let neg := s1.head? == some '-'
  let s2 := if s1.head? == some '-' ∨ s1.head? == some '+' then s1.tail else s1
  match s2 with
  | '0' :: x :: t =>
    if x = 'x' ∨ x = 'X' then
      if (scanDigits 16 0 t).2.length = t.length then some (neg, 0, x :: t)
      else some (neg, (scanDigits 16 0 t).1, (scanDigits 16 0 t).2)
    else some (neg, (scanDigits 8 0 (x :: t)).1, (scanDigits 8 0 (x :: t)).2)
  | ['0'] => some (neg, 0, [])
  | _ =>
    if (scanDigits 10 0 s2).2.length = s2.length then none
    else some (neg, (scanDigits 10 0 s2).1, (scanDigits 10 0 s2).2)

/-- `ULONG_MAX`, for `unsigned long` of 64 bits. -/
def ULONG_MAX : Nat := 2 ^ 64 - 1

/-- `LONG_MAX`, for `long` of 64 bits. -/
def LONG_MAX : Nat := 2 ^ 63 - 1

/-- `strtoul(s, &end, 0)`: the value and the characters at `end`; `end` is `s`
itself when there is no number. -/
def strtoul (s : List Char) : Nat × List Char :=
  match strtoParts s with
  | none => (0, s)
  | some (neg, v, rest) =>
    (if v > ULONG_MAX then ULONG_MAX else if neg then (2 ^ 64 - v) % 2 ^ 64 else v, rest)

/-- `strtol(s, &end, 0)`: the value and the characters at `end`; `end` is `s`
itself when there is no number. -/
def strtol (s : List Char) : Int × List Char :=
  match strtoParts s with
  | none => (0, s)
  | some (neg, v, rest) =>
    (if neg then (if v > LONG_MAX + 1 then -((LONG_MAX : Int) + 1) else -(v : Int))
     else (if v > LONG_MAX then (LONG_MAX : Int) else (v : Int)), rest)

/-! ## Arg::Int7 and parse_transfer -/

/-- The loop of `Arg::Int7` that skips leading zeros, "prevent interpretation
as octal". -/
def skipZeros : List Char → List Char
  | c0 :: c1 :: cs =>
    if c1 ≠ 'x' ∧ c1 ≠ 'X' ∧ c0 = '0' then skipZeros (c1 :: cs) else c0 :: c1 :: cs
  | cs => cs

/-- `Arg::Int7(arg)` for a string `arg` (not the null pointer).  Two pointers
into `arg` are equal when as many characters follow them. -/
def Int7 (arg : List Char) : Int :=
  let r := strtol (skipZeros arg)
  if r.2.length ≠ arg.length ∧ r.2 = [] ∧ r.1 ≥ 0 ∧ r.1 < 128 then r.1 else -1

/-- `I2C_RDWR_IOCTL_MAX_MSGS` of `linux/i2c-dev.h`, the number of entries of the
array `msgs`; `I2C_RDRW_IOCTL_MAX_MSGS` is defined there as the same number. -/
def I2C_RDWR_IOCTL_MAX_MSGS : Nat := 42

/-- `enum parse_state`. -/
inductive parse_state where
  | PARSE_GET_DESC
  | PARSE_GET_DATA
deriving DecidableEq, Repr

/-- The variables of `parse_transfer`.  `msgs` holds the entries of the array
stored so far, `msgs[0]` first; an entry of the array never stored is not in
the list.  `filled` is no variable of the code: for each entry of `msgs` it
records the value of `buf_idx` when the parser last worked on the entry, which
is the number of data bytes stored into its buffer, as the stores go to
`buf[0]`, `buf[1]`, ... in order. -/
structure ParseSt where
  address : Int
  nmsgs : Nat
  msgs : List i2c_msg
  state : parse_state
  buf_idx : Nat
  filled : List Nat
deriving DecidableEq, Repr

/-- The store `msgs[nmsgs] = m`. -/
def setMsg (msgs : List i2c_msg) (nmsgs : Nat) (m : i2c_msg) : List i2c_msg :=
  msgs.take nmsgs ++ [m]

/-- The memory `malloc(len)` returns after `memset(buf, 0, len)` and, for a
message of dynamic length, `buf[0] = 1`. -/
def allocBuf (flags len : Nat) : List Nat :=
  if flags &&& I2C_M_RECV_LEN ≠ 0 then (List.replicate len 0).set 0 1 else List.replicate len 0

/-- The end of `case PARSE_GET_DESC`, from the assignment of `msgs[nmsgs]` on;
`address` is not negative here. -/
def descStore (st : ParseSt) (flags len : Nat) (address : Int) : ParseSt :=
  let m : i2c_msg :=
    { addr := address.toNat % 65536, flags := flags, len := len % 65536,
      buf := some (allocBuf flags len) }
  let msgs1 := setMsg st.msgs st.nmsgs m
  let filled1 := st.filled.take st.nmsgs ++ [0]
  if flags &&& I2C_M_RD ≠ 0 ∨ len = 0 then
    { st with address := address, msgs := msgs1, filled := filled1, nmsgs := st.nmsgs + 1 }
  else
    { st with address := address, msgs := msgs1, filled := filled1, buf_idx := 0,
              state := parse_state.PARSE_GET_DATA }

/-- The part of `case PARSE_GET_DESC` after the length: the address.  `rest`
is the string at `arg_ptr`.  The second component is false for `return false`. -/
def descAddr (st : ParseSt) (flags len : Nat) (rest : List Char) : ParseSt × Bool :=
  match rest with
  | [] =>
    -- Reuse last address if possible
    if st.address < 0 then (st, false) else (descStore st flags len st.address, true)
  | c :: r =>
    if c ≠ '@' then (st, false)
    else if Int7 r < 0 then ({ st with address := Int7 r }, false)
    else (descStore st flags len (Int7 r), true)

/-- `case PARSE_GET_DESC` of `parse_transfer` on the token `arg`.  The second
component is false for `return false`. -/
def parseDesc (st : ParseSt) (arg : List Char) : ParseSt × Bool :=
  match arg with
  | [] => (st, false)
  | d :: rest =>
    if d ≠ 'r' ∧ d ≠ 'w' then (st, false)
    else
      let flags := if d = 'r' then I2C_M_RD else 0
      match rest with
      | '?' :: rest1 =>
        if flags &&& I2C_M_RD = 0 then (st, false)
        else descAddr st (flags ||| I2C_M_RECV_LEN) 256 rest1
      | _ =>
        let r := strtoul rest
        if r.1 > 0xffff ∨ r.2.length = rest.length then (st, false)
        else descAddr st flags r.1 r.2

/-- The step of the data generator for the suffix `c`, on the `__u8` variable
`data`; `none` for a character that is no suffix. -/
def suffixStep (c : Char) (data : Nat) : Option Nat :=
  if c = 'p' then
    some (((((data ^^^ 27) + 13) % 256) <<< 1 ||| (((data ^^^ 27) + 13) % 256) >>> 7) % 256)
  else if c = '+' then some ((data + 1) % 256)
  else if c = '-' then some ((data + 255) % 256)
  else if c = '=' then some data
  else none

/-- The loop `while (buf_idx < len)` of `case PARSE_GET_DATA`, with `e` the
string at `end`: the buffer and `buf_idx` after it, and false for
`return false`.  The first argument bounds the number of turns; `len` turns
are enough, as every turn adds one to `buf_idx`. -/
def fillLoop (e : List Char) : Nat → List Nat → Nat → Nat → Nat → List Nat × Nat × Bool
  | 0, buf, buf_idx, _, _ => (buf, buf_idx, true)
  | fuel + 1, buf, buf_idx, len, data =>
    if buf_idx < len then
      match e with
      | [] => (buf.set buf_idx data, buf_idx + 1, true)
      | c :: _ =>
        match suffixStep c data with
        | none => (buf.set buf_idx data, buf_idx + 1, false)
        | some data1 => fillLoop e fuel (buf.set buf_idx data) (buf_idx + 1) len data1
    else (buf, buf_idx, true)

/-- `case PARSE_GET_DATA` of `parse_transfer` on the token `arg`.  The second
component is false for `return false`. -/
def parseData (st : ParseSt) (arg : List Char) : ParseSt × Bool :=
  let r := strtoul arg
  if r.1 > 0xff ∨ r.2.length = arg.length then (st, false)
  else
    let m := st.msgs.getD st.nmsgs { addr := 0, flags := 0, len := 0, buf := none }
    let f := fillLoop r.2 m.len (m.buf.getD []) st.buf_idx m.len r.1
    let msgs1 := setMsg st.msgs st.nmsgs { m with buf := some f.1 }
    let filled1 := st.filled.take st.nmsgs ++ [f.2.1]
    if f.2.2 = false then
      ({ st with msgs := msgs1, filled := filled1, buf_idx := f.2.1 }, false)
    else if f.2.1 = m.len then
      ({ st with msgs := msgs1, filled := filled1, buf_idx := f.2.1, nmsgs := st.nmsgs + 1,
                 state := parse_state.PARSE_GET_DESC }, true)
    else ({ st with msgs := msgs1, filled := filled1, buf_idx := f.2.1 }, true)

/-- The loop `while (arg_idx < argc)` of `parse_transfer` over the tokens left.
The second component is false for `return false`. -/
def parseLoop : List (List Char) → ParseSt → ParseSt × Bool
  | [], st => (st, true)
  | arg :: rest, st =>
    if st.nmsgs > I2C_RDWR_IOCTL_MAX_MSGS then (st, false)
    else
      match st.state with
      | parse_state.PARSE_GET_DESC =>
        if (parseDesc st arg).2 then parseLoop rest (parseDesc st arg).1
        else ((parseDesc st arg).1, false)
      | parse_state.PARSE_GET_DATA =>
        if (parseData st arg).2 then parseLoop rest (parseData st arg).1
        else ((parseData st arg).1, false)

/-- The variables of `parse_transfer` before its loop. -/
def parseInit : ParseSt :=
  { address := -1, nmsgs := 0, msgs := [], state := parse_state.PARSE_GET_DESC, buf_idx := 0,
    filled := [] }

/-- What `parse_transfer` leaves: the return value, `nmsgs`, the entries of
`msgs` stored, and `filled` as in `ParseSt`. -/
structure ParseResult where
  ok : Bool
  nmsgs : Nat
  msgs : List i2c_msg
  filled : List Nat
deriving DecidableEq, Repr

/-- `parse_transfer(argc, argv, msgs, nmsgs)` on the tokens `argv`. -/
def parse_transfer (argv : List (List Char)) : ParseResult :=
  let r := parseLoop argv parseInit
  if r.2 = false then
    { ok := false, nmsgs := r.1.nmsgs, msgs := r.1.msgs, filled := r.1.filled }
  else if r.1.state ≠ parse_state.PARSE_GET_DESC ∨ r.1.nmsgs = 0 then
    { ok := false, nmsgs := r.1.nmsgs, msgs := r.1.msgs, filled := r.1.filled }
  else { ok := true, nmsgs := r.1.nmsgs, msgs := r.1.msgs, filled := r.1.filled }

/-! ## crc.h -/

/-- `CRC::add(uint8_t* buf, unsigned count)` of `crc.h`, for a checksum whose
`add(uint8_t b)` is `add` on the state of the object: the loop runs `count`
times and each time reads `buf[count]`.  `none` when `buf[count]` lies behind
the buffer. -/
def CRC.add {σ : Type} (add : σ → Nat → σ) (crc : σ) (buf : List Nat) (count : Nat) : Option σ :=
  if count = 0 then some crc
  else
    match buf.get? count with
    | none => none
    | some b => some ((List.replicate count b).foldl add crc)

/-! ## waitReady -/

/-- `EWOULDBLOCK` of `errno.h` on Linux. -/
def EWOULDBLOCK : Nat := 11

/-- Modelled from the spec: what the far end of the Byte Channel (class `File`
of `file.h`, which is not among the sources) does at one call: the bytes it
delivers within the timeouts if the call is a read, and the error state of the
channel after the call, `none` for no error and else the `errno`. -/
structure Reply where
  got : List Nat
  err : Option Nat
deriving DecidableEq, Repr

/-- Modelled from the spec: the Byte Channel `i2cd` as `waitReady` uses it:
the number of calls of `writeAll` and `read` made so far, the byte strings
written, oldest first, and the error state (`hasError`, `errNo`). -/
structure TtyFile where
  calls : Nat
  written : List (List Nat)
  err : Option Nat
deriving DecidableEq, Repr

/-- Modelled from the spec: `File::writeAll`, when the far end answers the
`n`-th call on the channel by `env n`. -/
def TtyFile.writeAll (env : Nat → Reply) (f : TtyFile) (bytes : List Nat) : TtyFile :=
  { calls := f.calls + 1, written := f.written ++ [bytes], err := (env f.calls).err }

/-- Modelled from the spec: `File::read(buf, count, ...)`: the bytes received,
at most `count`; the return value of the call is positive when there is one. -/
def TtyFile.read (env : Nat → Reply) (f : TtyFile) (count : Nat) : List Nat × TtyFile :=
  ((env f.calls).got.take count, { f with calls := f.calls + 1, err := (env f.calls).err })

/-- How one turn of the loop of `waitReady` ends: `return 0`, `return -1`, or
the next turn, with the channel as the turn leaves it. -/
inductive Attempt where
  | ready (f : TtyFile)
  | ioerror (f : TtyFile)
  | again (f : TtyFile)
deriving DecidableEq, Repr

/-- The body of the loop of `waitReady`. -/
def waitReadyBody (env : Nat → Reply) (f : TtyFile) : Attempt :=
  -- i2cd.writeAll("@i e\n", 5)
  let f1 := f.writeAll env [64, 105, 32, 101, 10]
  let r1 := f1.read env 4
  if r1.1.head? = some 10 then
    -- i2cd.writeAll("e\0", 2)
    let f2 := r1.2.writeAll env [101, 0]
    let r2 := f2.read env 4
    if r2.1.head? = some 0 then Attempt.ready r2.2
    else if r2.2.err.isSome ∧ r2.2.err ≠ some EWOULDBLOCK then Attempt.ioerror r2.2
    else Attempt.again { r2.2 with err := none }
  else if r1.2.err.isSome ∧ r1.2.err ≠ some EWOULDBLOCK then Attempt.ioerror r1.2
  else Attempt.again { r1.2 with err := none }

/-- The loop `for (i = 0; i < 100; i++)` of `waitReady` with `100 - i` turns
left, and the `return 1` after it. -/
def waitReadyLoop (env : Nat → Reply) : Nat → TtyFile → Int × TtyFile
  | 0, f => (1, f)
  | n + 1, f =>
    match waitReadyBody env f with
    | Attempt.ready g => (0, g)
    | Attempt.ioerror g => (-1, g)
    | Attempt.again g => waitReadyLoop env n g

/-- `waitReady()`: the return value and the channel afterwards. -/
def waitReady (env : Nat → Reply) (f : TtyFile) : Int × TtyFile :=
  waitReadyLoop env 100 f

/-! ## transfer -/

/-- The comparison `*arg <= ' '` of `transfer` for the character `c`.  `char`
is signed or unsigned as the platform has it, which `sgn` tells: where it is
signed, the characters from 128 on are negative. -/
def leSpace (sgn : Bool) (c : Char) : Bool :=
  if sgn ∧ 128 ≤ c.toNat then true else decide (c.toNat ≤ 32)

/-- The loop `while (*arg != 0 && (*arg <= ' ' || *arg == ','))  *arg++ = 0;`
of `transfer` on the string at `arg`: the characters written, and the string
at `arg` afterwards.  The end of the list is the terminating 0. -/
def zeroSeps (sgn : Bool) : List Char → List Char × List Char
  | [] => ([], [])
  | c :: cs =>
    if c ≠ '\x00' ∧ (leSpace sgn c = true ∨ c = ',') then
      ('\x00' :: (zeroSeps sgn cs).1, (zeroSeps sgn cs).2)
    else ([], c :: cs)

/-- The loop `while (*arg != 0 && *arg > ' ' && *arg != ',')  ++arg;` of
`transfer`: the characters passed, and the string at `arg` afterwards. -/
def tokChars (sgn : Bool) : List Char → List Char × List Char
  | [] => ([], [])
  | c :: cs =>
    if c ≠ '\x00' ∧ leSpace sgn c = false ∧ c ≠ ',' then
      (c :: (tokChars sgn cs).1, (tokChars sgn cs).2)
    else ([], c :: cs)

/-- The loop `while (argc < max - 1)` of `transfer` with `max - 1 - argc` turns
left: `done` is the part of the copy `vararg` before `arg`, `rest` the string
at `arg`, and `argv` holds the offsets in `vararg` of the pointers stored.  The
result is `vararg` and `argv` after the loop. -/
def transferLoop (sgn : Bool) : Nat → List Char → List Char → List Nat → List Char × List Nat
  | 0, done, rest, argv => (done ++ rest, argv)
  | n + 1, done, rest, argv =>
    if (zeroSeps sgn rest).2 = [] then (done ++ (zeroSeps sgn rest).1, argv)
    else
      transferLoop sgn n
        (done ++ (zeroSeps sgn rest).1 ++ (tokChars sgn (zeroSeps sgn rest).2).1)
        (tokChars sgn (zeroSeps sgn rest).2).2 (argv ++ [(done ++ (zeroSeps sgn rest).1).length])

/-- The C string at the offset `i` of the memory `buf`: the characters up to
the first 0 (or to the end of `buf`, where the terminating 0 stands). -/
def cstr (buf : List Char) (i : Nat) : List Char :=
  (buf.drop i).takeWhile (fun c => c ≠ '\x00')

/-- The strings `argv[0]`, ..., `argv[argc - 1]` that `transfer(carg)` passes
to `parse_transfer`, with `max` = 1024. -/
def transferArgs (sgn : Bool) (carg : List Char) : List (List Char) :=
  (transferLoop sgn 1023 [] carg []).2.map (cstr (transferLoop sgn 1023 [] carg []).1)


/-! ## decodeCapture: the initial state -/

/-- The values with which the static variables of `decodeCapture` start:
`count = 0`, `cur = 0`, `inData = false`. -/
def decodeInit : DecState := { count := 0, cur := 0, inData := false }
/-! ## Definitions used to state the properties -/

/-- The 9-bit value of a group of three DATA nibbles. -/
def groupValue (n1 n2 n3 : Nat) : Nat := (n1 - 8) * 64 + (n2 - 8) * 8 + (n3 - 8)

/-- What `decodeCapture` prints for a complete group of value `v`. -/
def groupOut (inData : Bool) (v : Nat) : Out :=
  if inData then Out.dataByte (v >>> 1) (v % 2)
  else Out.addressByte (v >>> 2) (decide ((v >>> 1) % 2 = 1)) (v % 2)

/-- The adapter's acknowledgement, as `i2cdriverErr` reads it: at least one
byte was received and every received byte is `0b110001`. -/
def isAck (got : List Nat) : Bool := !got.isEmpty && got.all (fun b => b == 0b110001)

/-- A read that makes `i2c_rdwr` set `ioerror`: a status that is not an
acknowledgement, or a byte count different from the one asked for. -/
def Ev.failed : Ev → Bool
  | Ev.rx RxKind.status _ got => !isAck got
  | Ev.rx RxKind.data count got => got.length != count
  | _ => false

/-- The two writes made at the label `endoftransmission`: the PEC chunk and STOP. -/
def Ev.isFinal : Ev → Bool
  | Ev.tx TxKind.pec _ => true
  | Ev.tx TxKind.stop _ => true
  | _ => false

/-- The bytes of a log that cross the I2C wire, in order: the address byte of
each START command, each payload written, and each chunk received in full. -/
def wire : List Ev → List Nat
  | [] => []
  | Ev.tx TxKind.start bytes :: es => bytes.drop 1 ++ wire es
  | Ev.tx TxKind.payload bytes :: es => bytes ++ wire es
  | Ev.rx RxKind.data count got :: es => (if got.length = count then got else []) ++ wire es
  | _ :: es => wire es

/-- A stretch of log in which no read failed (`err = false`), or in which
exactly the last call is a failed read (`err = true`). -/
def FailLast (err : Bool) (body : List Ev) : Prop :=
  if err then ∃ pre ev, body = pre ++ [ev] ∧ (∀ e ∈ pre, e.failed = false) ∧ ev.failed = true
  else ∀ e ∈ body, e.failed = false

/-- A stretch of log without the final writes that is a `FailLast`. -/
def Trace (err : Bool) (body : List Ev) : Prop :=
  (∀ e ∈ body, e.isFinal = false) ∧ FailLast err body

/-- What the processing of one message keeps true, from the variables `s` to
the variables `t` later on: the log grows by a `Trace`, the stream is only
used up, the checksum stays a byte, and, under the condition `P` on the
buffer, the checksum is folded over the bytes on the wire. -/
def LocInv (P : Prop) (s t : Loc) : Prop :=
  ∃ body, t.chan.log = s.chan.log ++ body ∧ Trace t.ioerror body ∧
    (∀ x ∈ t.chan.rx, x ∈ s.chan.rx) ∧
    (s.pec < 256 → t.pec < 256) ∧
    (P → t.pec = CRC_PEC.addBuf s.pec (wire body) ∧ t.buf.length = s.buf.length ∧
      (t.ioerror = false → t.datidx + t.len ≤ t.buf.length))

/-- The buffer of a message is large enough for the transfer: `len` bytes,
and 256 bytes for a read of dynamic length. -/
def MsgOk (msg : i2c_msg) (buf : List Nat) : Prop :=
  msg.len ≤ buf.length ∧ (msg.flags &&& I2C_M_RECV_LEN ≠ 0 → 256 ≤ buf.length)

/-- A message that `i2c_rdwr` transmits as a read: the read bit is set, or
the length is 0. -/
def isReadMsg (msg : i2c_msg) : Prop := msg.flags &&& I2C_M_RD ≠ 0 ∨ msg.len = 0

/-- What the body of the `for` loop keeps true, from the variables `st` to the
variables `u` later on: as `LocInv`, and `do_add_pec` is never set again. -/
def StInv (P : Prop) (st u : RdwrState) : Prop :=
  ∃ body, u.chan.log = st.chan.log ++ body ∧ Trace u.ioerror body ∧
    (∀ x ∈ u.chan.rx, x ∈ st.chan.rx) ∧
    (st.pec < 256 → u.pec < 256) ∧
    (P → u.pec = CRC_PEC.addBuf st.pec (wire body)) ∧
    (u.do_add_pec = true → st.do_add_pec = true)

/-- The variables of `i2c_rdwr` at the label `endoftransmission`. -/
def atEnd (add_pec : Bool) (chan : File) (msgs : List i2c_msg) : RdwrState :=
  (rdwrLoop msgs { chan := (chan.read RxKind.drain 32).2, pec := 0, ioerror := false,
                   do_add_pec := add_pec }).1

/-- The lengths `l` that the loop `while (len > 64)` of the read path asks
for, from the value `len` on. -/
def ackAllSizes : Nat → Nat → List Nat
  | 0, _ => []
  | fuel + 1, len =>
    if len > 64 then
      (if len > 255 then 255 else len - 1) ::
        ackAllSizes fuel (len - (if len > 255 then 255 else len - 1))
    else []

/-- The lengths `l` of the chunks that the loop `while (len > 0)` of the write
path sends, from the value `len` on. -/
def writeSizes : Nat → Nat → List Nat
  | 0, _ => []
  | fuel + 1, len =>
    if len > 0 then
      (if len > 64 then 64 else len) :: writeSizes fuel (len - (if len > 64 then 64 else len))
    else []

/-- The status stream of an adapter that acknowledges: one `0b110001` and
then silence, or two `0b110001`. -/
def IsAckReply (r : List (Option Nat)) : Prop :=
  r = [some 0b110001, none] ∨ r = [some 0b110001, some 0b110001]

/-- The calls of `writeAll` for write chunks of the lengths `ls` over the
bytes `data`: for each chunk the command byte `0xC0 | (l - 1)` and then the
next `l` bytes. -/
def writeChunks : List Nat → List Nat → List (TxKind × List Nat)
  | [], _ => []
  | l :: ls, data =>
    (TxKind.writeCmd, [0xC0 ||| (l - 1)]) :: (TxKind.payload, data.take l) ::
      writeChunks ls (data.drop l)

/-- The payload bytes of a list of calls of `writeAll`, concatenated. -/
def payloadsOf : List (TxKind × List Nat) → List Nat
  | [] => []
  | (TxKind.payload, bs) :: cs => bs ++ payloadsOf cs
  | _ :: cs => payloadsOf cs

/-- The number of payload bytes `i2c_rdwr_dump` echoes for a message: for a
message of dynamic length `buf[0] + 1`, the length byte first. -/
def echoLen (msg : i2c_msg) (buf : List Nat) : Nat :=
  if msg.flags &&& I2C_M_RECV_LEN ≠ 0 then buf.headD 0 + 1 else msg.len

/-- The data bytes of a message as bus events: every byte ACKed (index 0)
except the last byte of a read, which is NACKed (index 1). -/
def dataEvents (isRead : Bool) : List Nat → List Out
  | [] => []
  | b :: bs => Out.dataByte b (if isRead ∧ bs = [] then 1 else 0) :: dataEvents isRead bs

/-- A message as bus events: the address byte with the read/write bit and ACK,
then the data bytes. -/
def msgEvents (msg : i2c_msg) : List Out :=
  Out.addressByte msg.addr (decide (msg.flags &&& I2C_M_RD ≠ 0)) 0 ::
    dataEvents (decide (msg.flags &&& I2C_M_RD ≠ 0))
      ((msg.buf.getD []).take (echoLen msg (msg.buf.getD [])))

/-- The messages after the first as bus events, each after a repeated Start,
and the final Stop. -/
def echoTail : List i2c_msg → List Out
  | [] => [Out.stop]
  | msg :: rest => Out.start :: msgEvents msg ++ echoTail rest

/-- A Transfer as bus events: Start, the messages joined by repeated Starts, Stop. -/
def echoEvents : List i2c_msg → List Out
  | [] => [Out.start, Out.stop]
  | msg :: rest => Out.start :: msgEvents msg ++ echoTail rest

/-- A message that `i2c_rdwr_dump` can echo: the buffer is not null and holds
the bytes echoed, and the address has 7 bits. -/
def EchoOk (msg : i2c_msg) : Prop :=
  ∃ buf, msg.buf = some buf ∧ msg.addr < 128 ∧ echoLen msg buf ≤ buf.length ∧ ∀ x ∈ buf, x < 256

/-- The nibbles of the data groups that the loop of `i2c_rdwr_dump` derives
from the next `len` bytes at `buf`. -/
def dataNibs (rd : Nat) : Nat → List Nat → List Nat
  | 0, _ => []
  | len + 1, buf =>
    [(dumpTriple rd (len + 1) (buf.headD 0)).1, (dumpTriple rd (len + 1) (buf.headD 0)).2.1,
     (dumpTriple rd (len + 1) (buf.headD 0)).2.2] ++ dataNibs rd len buf.tail

/-- The nibble that `delayed` holds back, if any. -/
def pend (delayed : Nat) : List Nat := if delayed = 0 ∨ delayed = 255 then [] else [delayed / 16]

/-- The values `delayed` takes at a `break` of the loop of `i2c_rdwr_dump`. -/
def DelayedOk (d : Nat) : Prop := d = 0 ∨ ∃ c, 8 ≤ c ∧ c ≤ 15 ∧ d = c * 16 + 1

/-- The nibbles `a`, `b`, `c` of the address group that `i2c_rdwr_dump`
computes from `msg.addr` and `rd`. -/
def addrNibs (addr rd : Nat) : List Nat :=
  [(8 + (((((addr &&& 0x7f) <<< 1) ||| rd) <<< 1) >>> 6)) % 256,
   (8 + ((((((addr &&& 0x7f) <<< 1) ||| rd) <<< 1) >>> 3) &&& 7)) % 256,
   (8 + (((((addr &&& 0x7f) <<< 1) ||| rd) <<< 1) &&& 7)) % 256]

/-- The nibbles of all groups of a message. -/
def msgNibs (msg : i2c_msg) (buf : List Nat) : List Nat :=
  addrNibs msg.addr (msg.flags &&& I2C_M_RD) ++
    dataNibs (msg.flags &&& I2C_M_RD) (echoLen msg buf) buf

/-- The nibbles of the groups of the messages, with a START nibble before
each message but the very first. -/
def msgsNibs : Bool → List i2c_msg → List Nat
  | _, [] => []
  | first, msg :: rest =>
    (if first then [] else [1]) ++ msgNibs msg (msg.buf.getD []) ++ msgsNibs false rest

/-- Whether a number in decimal notation ends before the characters `ds`: there
is none, or the first is no digit and no `x`. -/
def stops : List Char → Bool
  | [] => true
  | c :: _ => c != 'x' && c != 'X' && decide (10 ≤ digitValue c)

/-- The direction and the length a descriptor can state: `w` or `r` with a
length read by `strtoul`, or `r?` with the length 256. -/
def FlagsOk (flags len : Nat) : Prop :=
  ((flags = 0 ∨ flags = I2C_M_RD) ∧ len ≤ 0xffff) ∨
    (flags = (I2C_M_RD ||| I2C_M_RECV_LEN) ∧ len = 256)

/-- A message within the ranges of the parser: a 7-bit address, a length of at
most 65535, the length 256 and the read direction when the length is dynamic,
and a buffer of the length. -/
def GoodMsg (m : i2c_msg) : Prop :=
  m.addr < 128 ∧ m.len ≤ 65535 ∧
    (m.flags &&& I2C_M_RECV_LEN ≠ 0 → m.len = 256 ∧ m.flags &&& I2C_M_RD ≠ 0) ∧
    ∃ buf, m.buf = some buf ∧ buf.length = m.len

/-- A write message whose declared bytes are all filled: `f` bytes were stored
into the buffer of `m`, and `f` is the length of `m` when `m` is a write. -/
def Complete (m : i2c_msg) (f : Nat) : Prop :=
  m.flags &&& I2C_M_RD = 0 → f = m.len

/-- The shape of the variables of `parse_transfer` between two tokens: `nmsgs`
finished messages, and in the state `PARSE_GET_DATA` one more entry, a write
message that still lacks bytes.  `address` is the address of the last entry. -/
def ParseInv (st : ParseSt) : Prop :=
  ∃ done fdone, done.length = st.nmsgs ∧ List.Forall₂ Complete done fdone ∧
    (∀ m ∈ done, GoodMsg m) ∧
    ((st.state = parse_state.PARSE_GET_DESC ∧ st.msgs = done ∧ st.filled = fdone ∧
        (done = [] → st.address = -1) ∧
        (∀ m, done.getLast? = some m → st.address = (m.addr : Int))) ∨
      (st.state = parse_state.PARSE_GET_DATA ∧ ∃ m, st.msgs = done ++ [m] ∧
        st.filled = fdone ++ [st.buf_idx] ∧ GoodMsg m ∧ m.flags &&& I2C_M_RD = 0 ∧
        st.buf_idx < m.len ∧ st.address = (m.addr : Int)))

/-- The variables of `parse_transfer` in the state `PARSE_GET_DESC` with the
finished messages `done`. -/
def descSt (address : Int) (done : List i2c_msg) (fdone : List Nat) (buf_idx : Nat) : ParseSt :=
  { address := address, nmsgs := done.length, msgs := done,
    state := parse_state.PARSE_GET_DESC, buf_idx := buf_idx, filled := fdone }

/-- The variables of `parse_transfer` in the state `PARSE_GET_DATA`, after the
finished messages `done`, within a message with the fields `addr`, `flags`,
`len` whose buffer holds the bytes `pre` stored so far and then `post`. -/
def dataSt (address : Int) (done : List i2c_msg) (fdone : List Nat) (addr flags len : Nat)
    (pre post : List Nat) : ParseSt :=
  { address := address, nmsgs := done.length,
    msgs := done ++ [{ addr := addr, flags := flags, len := len, buf := some (pre ++ post) }],
    state := parse_state.PARSE_GET_DATA, buf_idx := pre.length, filled := fdone ++ [pre.length] }

/-- Rotation of an 8-bit value to the left by one bit. -/
def rotl8 (x : Nat) : Nat := (x * 2) % 256 + x / 128

/-- The step of the data generator as the usage text describes it: the identity
for `=`, plus one modulo 256 for `+`, minus one modulo 256 for `-`, and for `p`
the rotation to the left by one bit of `((v xor 27) + 13) mod 256`. -/
def genStep (c : Char) (v : Nat) : Nat :=
  if c = '=' then v
  else if c = '+' then (v + 1) % 256
  else if c = '-' then (((v : Int) - 1) % 256).toNat
  else rotl8 (((v ^^^ 27) + 13) % 256)

/-- A character that separates tokens in a transfer string: a comma, or a
character with a code of at most 0x20. -/
def isSep (c : Char) : Bool := c == ',' || decide (c.toNat ≤ 0x20)

/-- The maximal runs of characters of `s` that are no separators, in their
order, without the empty runs. -/
def tokens (s : List Char) : List (List Char) :=
  (s.splitOnP isSep).filter (fun t => !t.isEmpty)

/-- The reply to the first probe in the turn of `waitReady` that starts with
the channel `f`: what the read after the write of the probe receives, the
second call of the turn. -/
def reply1 (env : Nat → Reply) (f : TtyFile) : List Nat := (env (f.calls + 1)).got.take 4

/-- The reply to the second probe in the turn that starts with `f`, when the
second probe is written: what the fourth call of the turn receives. -/
def reply2 (env : Nat → Reply) (f : TtyFile) : List Nat := (env (f.calls + 3)).got.take 4

/-- The turn that starts with `f` gets both replies: the reply to the first
probe starts with `'\n'` and the reply to the second with the byte 0. -/
def attemptReady (env : Nat → Reply) (f : TtyFile) : Bool :=
  (reply1 env f).head? = some 10 && (reply2 env f).head? = some 0

/-- The error state of the channel at the end of the turn that starts with
`f`: the one the last call of the turn leaves. -/
def attemptErr (env : Nat → Reply) (f : TtyFile) : Option Nat :=
  if (reply1 env f).head? = some 10 then (env (f.calls + 3)).err else (env (f.calls + 1)).err

/-- The turn that starts with `f` ends with a channel error other than
would-block. -/
def attemptFatal (env : Nat → Reply) (f : TtyFile) : Bool :=
  (attemptErr env f).isSome && attemptErr env f != some EWOULDBLOCK

/-- The channel at the start of the turn after the one that starts with `f`,
when that one ends neither ready nor with a fatal error. -/
def nextStart (env : Nat → Reply) (f : TtyFile) : TtyFile :=
  if (reply1 env f).head? = some 10 then
    { calls := f.calls + 4, written := f.written ++ [[64, 105, 32, 101, 10], [101, 0]], err := none }
  else { calls := f.calls + 2, written := f.written ++ [[64, 105, 32, 101, 10]], err := none }

/-- The channel at the start of the turn number `k`, counted from 0, of a
call of `waitReady` on the channel `f` in which no earlier turn returns. -/
def startOf (env : Nat → Reply) (f : TtyFile) : Nat → TtyFile
  | 0 => f
  | k + 1 => nextStart env (startOf env f k)

/-- A string of ASCII characters: no 0, which ends a C string, and no
character from 128 on. -/
def Ascii (s : List Char) : Prop := ∀ c ∈ s, c ≠ '\x00' ∧ c.toNat < 128

/-- The byte counts asked for by the reads into a message buffer
(`RxKind.data`) in a log, oldest first. -/
def dataCounts : List Ev → List Nat
  | [] => []
  | Ev.rx RxKind.data count _ :: es => count :: dataCounts es
  | _ :: es => dataCounts es

/-- The calls `i2cd.read(msg.buf + datidx, l, ...)` that the loop
`while (len > 64)` makes from the variables `s`, each as the offset `datidx`
and the count `l`; a turn with a short read is the last. -/
def ackAllSpans : Nat → Loc → List (Nat × Nat)
  | 0, _ => []
  | fuel + 1, s =>
    if s.len > 64 then
      (s.datidx, if s.len > 255 then 255 else s.len - 1) ::
        (if (ackAllLoop 1 s).ioerror then [] else ackAllSpans fuel (ackAllLoop 1 s))
    else []

/-- The calls `i2cd.read(msg.buf + datidx, count, ...)` that the read path of
`i2c_rdwr` makes for the message `msg`, each as offset and count: the read of
the length byte of a dynamic read, the reads of the loop `while (len > 64)`,
and the read after the final-NACK command. -/
def readSpans (st : RdwrState) (msg : i2c_msg) (buf : List Nat) (len : Nat) : List (Nat × Nat) :=
  let s0 : Loc := { chan := st.chan, pec := st.pec, buf := buf, len := len, datidx := 0,
                    ioerror := false }
  let s1 : Loc := if msg.flags &&& I2C_M_RECV_LEN ≠ 0 then recvLen s0 else s0
  (if msg.flags &&& I2C_M_RECV_LEN ≠ 0 then [(s0.datidx, 1)] else []) ++
    (if s1.ioerror = true ∨ s1.len = 0 then []
     else ackAllSpans s1.len s1 ++
       (if (ackAllLoop s1.len s1).ioerror then []
        else [((ackAllLoop s1.len s1).datidx, (ackAllLoop s1.len s1).len)]))

/-- The reads into the buffer that the body of the `for` loop of `i2c_rdwr`
makes for the message `msg0`, each as offset and count: none when the START is
not acknowledged and none for a write, else those of the read path, which is
entered as in `rdwrMsg`. -/
def msgSpans (st : RdwrState) (msg0 : i2c_msg) (buf : List Nat) : List (Nat × Nat) :=
  let msg : i2c_msg :=
    if msg0.len = 0 then
      { msg0 with flags := ((msg0.flags ||| I2C_M_RD) &&& (0xFFFF ^^^ I2C_M_RECV_LEN)) % 65536 }
    else msg0
  let ab := ((msg.addr <<< 1) ||| (msg.flags &&& I2C_M_RD)) % 256
  let e := i2cdriverErr (st.chan.writeAll TxKind.start [0x73, ab])
  if e.1 then []
  else if msg.flags &&& I2C_M_RD ≠ 0 then
    readSpans { st with chan := e.2, pec := CRC_PEC.add st.pec ab, ioerror := false } msg buf
      msg0.len
  else []


/-- The static variables of `decodeCapture` between two turns of its loop:
`count` is 0, 1 or 2 and `cur` is below `8 ^ count`. -/
def DecInv (st : DecState) : Prop := st.count ≤ 2 ∧ st.cur < 8 ^ st.count

/-- The state of `decodeCapture` after the first `k` nibbles of the bytes `ds`,
from the initial state. -/
def decodeAfter (ds : List Nat) (k : Nat) : DecState :=
  (decodeNibbles decodeInit ((ds.flatMap nibblesOf).take k)).1

/-- What is printed stays in range: a framing error has the bit count 3 or 6
and partial bits below `2 ^ bits`, so below 64; a completed group has a value
of 9 bits, so an address below 128 after the two shifts, a data byte below 256
after the one shift, and an acknowledge bit below 2. -/
def OutOk : Out → Prop
  | Out.framingError cur bits => (bits = 3 ∨ bits = 6) ∧ cur < 2 ^ bits ∧ cur < 64
  | Out.addressByte addr _ ack => addr < 128 ∧ ack < 2
  | Out.dataByte value ack => value < 256 ∧ ack < 2
  | _ => True

/-! ## The bytes of a Transfer that cross the wire -/

/-- The byte that crosses the wire with the START command of a message:
`(addr << 1) | rw`, where `rw` is 1 for a read and for a message of length 0,
which is sent as a read. -/
def addrByte (msg : i2c_msg) : Nat :=
  ((msg.addr <<< 1) ||| (if msg.flags &&& I2C_M_RD ≠ 0 ∨ msg.len = 0 then 1 else 0)) % 256

/-- The sizes of the chunks in which a read of `n` bytes is asked for: those
of the read-all-ACK commands and then what is left for the final-NACK
command. -/
def readSizes (n : Nat) : List Nat := ackAllSizes n n ++ [n - (ackAllSizes n n).sum]

/-- The chunks of the sizes `sizes` as the adapter delivers them from the
stream `rx`: the bytes of the chunks received in full, in order, the stream
that is left, and whether a chunk came back short, which ends the Transfer. -/
def recvChunks : List Nat → List (Option Nat) → List Nat × List (Option Nat) × Bool
  | [], rx => ([], rx, false)
  | l :: ls, rx =>
    if (rxTake l rx).1.length = l then
      ((rxTake l rx).1 ++ (recvChunks ls (rxTake l rx).2).1,
       (recvChunks ls (rxTake l rx).2).2.1, (recvChunks ls (rxTake l rx).2).2.2)
    else ([], (rxTake l rx).2, true)

/-- The chunks of the sizes `sizes` of the bytes `data` as they are sent, each
followed by the status of the adapter read from the stream `rx`: the bytes of
the chunks sent, in order, the stream that is left, and whether a status was
no acknowledgement, which ends the Transfer after the chunk. -/
def sentChunks : List Nat → List Nat → List (Option Nat) → List Nat × List (Option Nat) × Bool
  | [], _, rx => ([], rx, false)
  | l :: ls, data, rx =>
    if isAck (rxTake 2 rx).1 then
      (data.take l ++ (sentChunks ls (data.drop l) (rxTake 2 rx).2).1,
       (sentChunks ls (data.drop l) (rxTake 2 rx).2).2.1,
       (sentChunks ls (data.drop l) (rxTake 2 rx).2).2.2)
    else (data.take l, (rxTake 2 rx).2, true)

/-- The payload of a read whose START was acknowledged, on the stream `rx`
after the status: for a read of dynamic length the length byte, if one is
received, and then the chunks of as many bytes as it says; for a read of fixed
length the chunks of `msg.len` bytes.  A length 0 ends the Transfer, as does a
length byte that is not received. -/
def readWire (msg : i2c_msg) (rx : List (Option Nat)) : List Nat × List (Option Nat) × Bool :=
  if msg.len = 0 then ([], rx, true)
  else if msg.flags &&& I2C_M_RECV_LEN ≠ 0 then
    match (rxTake 1 rx).1 with
    | [n] =>
      if n = 0 then ([n], (rxTake 1 rx).2, true)
      else (n :: (recvChunks (readSizes n) (rxTake 1 rx).2).1,
            (recvChunks (readSizes n) (rxTake 1 rx).2).2.1,
            (recvChunks (readSizes n) (rxTake 1 rx).2).2.2)
    | _ => ([], (rxTake 1 rx).2, true)
  else recvChunks (readSizes msg.len) rx

/-- The bytes that cross the wire for one processed message with the data
`buf`, on the stream `rx` of the adapter: the address byte sent in its START
command and then, if the START is acknowledged, the length byte and the chunks
received in full for a read, the chunks sent for a write.  With them the
stream that is left and whether the Transfer ends with this message. -/
def msgWire (rx : List (Option Nat)) (msg : i2c_msg) (buf : List Nat) :
    List Nat × List (Option Nat) × Bool :=
  if isAck (rxTake 2 rx).1 then
    if msg.flags &&& I2C_M_RD ≠ 0 ∨ msg.len = 0 then
      (addrByte msg :: (readWire msg (rxTake 2 rx).2).1, (readWire msg (rxTake 2 rx).2).2.1,
       (readWire msg (rxTake 2 rx).2).2.2)
    else
      (addrByte msg :: (sentChunks (writeSizes msg.len msg.len) buf (rxTake 2 rx).2).1,
       (sentChunks (writeSizes msg.len msg.len) buf (rxTake 2 rx).2).2.1,
       (sentChunks (writeSizes msg.len msg.len) buf (rxTake 2 rx).2).2.2)
  else ([addrByte msg], (rxTake 2 rx).2, true)

/-- The bytes that cross the wire for the messages of a Transfer, in order,
on the stream `rx` of the adapter: those of each processed message, up to the
message with which the Transfer ends.  A message with a null `buf` is not
processed. -/
def wireBytes : List (Option Nat) → List i2c_msg → List Nat
  | _, [] => []
  | rx, msg :: rest =>
    match msg.buf with
    | none => wireBytes rx rest
    | some buf =>
      (msgWire rx msg buf).1 ++
        (if (msgWire rx msg buf).2.2 then [] else wireBytes (msgWire rx msg buf).2.1 rest)

/-- The bytes of a Transfer that cross the wire when it starts on the stream
`rx`: the input buffer is drained by a read of up to 32 bytes first. -/
def transferBytes (rx : List (Option Nat)) (msgs : List i2c_msg) : List Nat :=
  wireBytes (rxTake 32 rx).2 msgs
/-! # Properties -/

/-! ## PEC: the bit-by-bit CRC and the table -/

set_option maxRecDepth 100000 in
theorem crc8_eq_table_entry :
    ∀ x, x < 256 → crc8 (((x % 65536) <<< 8) % 65536) = PEC_Table.getD (x % 256) 0 := by
  decide

set_option maxRecDepth 100000 in
theorem PEC_Table_length : PEC_Table.length = 256 := by
  decide

/-- Claim C1. For every 8-bit checksum `c` and every byte `b`, `CRC_PEC::add`
leaves the checksum equal to entry `c xor b` of the 256-entry table of
`crc_pec.h`: the bit-by-bit `crc8` and the table lookup agree. -/
theorem CRC_PEC_add_eq_table (c b : Nat) (hc : c < 256) (hb : b < 256) :
    PEC_Table.length = 256 ∧
    CRC_PEC.add c b = PEC_Table.getD (c ^^^ b) 0 ∧
    CRC_PEC.add c b = CRC_PEC.addTable c b := by
  have hx : c ^^^ b < 256 := Nat.xor_lt_two_pow (n := 8) hc hb
  have h := crc8_eq_table_entry (c ^^^ b) hx
  have hm : (c ^^^ b) % 256 = c ^^^ b := Nat.mod_eq_of_lt hx
  refine ⟨PEC_Table_length, ?_, ?_⟩
  · rw [CRC_PEC.add, h, hm]
  · rw [CRC_PEC.add, CRC_PEC.addTable, h]

theorem CRC_PEC_add_eq_table_witness :
    PEC_Table.length = 256 ∧
    CRC_PEC.add 0x5A 0x3C = PEC_Table.getD (0x5A ^^^ 0x3C) 0 ∧
    CRC_PEC.add 0x5A 0x3C = CRC_PEC.addTable 0x5A 0x3C :=
  CRC_PEC_add_eq_table 0x5A 0x3C (by decide) (by decide)

/-! ## decodeCapture -/

theorem decodeNibbles_append (st : DecState) (xs ys : List Nat) :
    decodeNibbles st (xs ++ ys) =
      ((decodeNibbles (decodeNibbles st xs).1 ys).1,
       (decodeNibbles st xs).2 ++ (decodeNibbles (decodeNibbles st xs).1 ys).2) := by
  induction xs generalizing st with
  | nil => simp [decodeNibbles]
  | cons x xs ih => simp [decodeNibbles, ih, List.append_assoc]

set_option maxRecDepth 1000000 in
theorem decodeNibbles_group_fin :
    ∀ (m1 m2 m3 : Fin 8) (inData : Bool),
      decodeNibbles { count := 0, cur := 0, inData := inData } [8 + m1.val, 8 + m2.val, 8 + m3.val] =
        ({ count := 0, cur := 0, inData := true },
         [groupOut inData (groupValue (8 + m1.val) (8 + m2.val) (8 + m3.val))]) := by
  decide

theorem decodeNibbles_group (n1 n2 n3 : Nat) (h1 : 8 ≤ n1 ∧ n1 ≤ 15) (h2 : 8 ≤ n2 ∧ n2 ≤ 15)
    (h3 : 8 ≤ n3 ∧ n3 ≤ 15) (inData : Bool) :
    decodeNibbles { count := 0, cur := 0, inData := inData } [n1, n2, n3] =
      ({ count := 0, cur := 0, inData := true }, [groupOut inData (groupValue n1 n2 n3)]) := by
  have h := decodeNibbles_group_fin ⟨n1 - 8, by omega⟩ ⟨n2 - 8, by omega⟩ ⟨n3 - 8, by omega⟩ inData
  have e1 : 8 + (n1 - 8) = n1 := by omega
  have e2 : 8 + (n2 - 8) = n2 := by omega
  have e3 : 8 + (n3 - 8) = n3 := by omega
  simpa only [e1, e2, e3] using h

theorem nibblesOf_eq (data : Nat) : nibblesOf data = [data / 16 % 16, data % 16] := by
  simp only [nibblesOf, Nat.shiftRight_zero]
  have h15 : (0xF : Nat) = 2 ^ 4 - 1 := by norm_num
  rw [h15, Nat.and_pow_two_sub_one_eq_mod, Nat.and_pow_two_sub_one_eq_mod, Nat.shiftRight_eq_div_pow]

set_option maxRecDepth 1000000 in
theorem decodeNibbles_partial_fin :
    ∀ (m1 m2 : Fin 8) (inData : Bool),
      decodeNibbles { count := 0, cur := 0, inData := inData } [8 + m1.val, 0] =
        ({ count := 0, cur := 0, inData := false }, [Out.framingError m1.val 3, Out.newline]) ∧
      decodeNibbles { count := 0, cur := 0, inData := inData } [8 + m1.val, 8 + m2.val, 0] =
        ({ count := 0, cur := 0, inData := false },
         [Out.framingError (m1.val * 8 + m2.val) 6, Out.newline]) := by
  decide

theorem decodeNibbles_partial (p1 p2 : Nat) (h1 : 8 ≤ p1 ∧ p1 ≤ 15) (h2 : 8 ≤ p2 ∧ p2 ≤ 15)
    (inData : Bool) :
    decodeNibbles { count := 0, cur := 0, inData := inData } [p1, 0] =
      ({ count := 0, cur := 0, inData := false }, [Out.framingError (p1 - 8) 3, Out.newline]) ∧
    decodeNibbles { count := 0, cur := 0, inData := inData } [p1, p2, 0] =
      ({ count := 0, cur := 0, inData := false },
       [Out.framingError ((p1 - 8) * 8 + (p2 - 8)) 6, Out.newline]) := by
  have h := decodeNibbles_partial_fin ⟨p1 - 8, by omega⟩ ⟨p2 - 8, by omega⟩ inData
  have e1 : 8 + (p1 - 8) = p1 := by omega
  have e2 : 8 + (p2 - 8) = p2 := by omega
  simpa only [e1, e2] using h

/-- Claim C10. With no group in progress, when one or two DATA nibbles are
followed by an IDLE nibble, `decodeCapture` prints exactly one framing error,
with the partial bits and the bit count 3 or 6 (and the line break of the IDLE
nibble), drops the partial group, and decodes the next three DATA nibbles as
one complete group, an address byte of their value, with no further error. -/
theorem decodeCapture_idle_mid_group (p1 p2 n1 n2 n3 : Nat) (hp1 : 8 ≤ p1 ∧ p1 ≤ 15)
    (hp2 : 8 ≤ p2 ∧ p2 ≤ 15) (h1 : 8 ≤ n1 ∧ n1 ≤ 15) (h2 : 8 ≤ n2 ∧ n2 ≤ 15)
    (h3 : 8 ≤ n3 ∧ n3 ≤ 15) (inData : Bool) :
    (decodeNibbles { count := 0, cur := 0, inData := inData } [p1, 0] =
      ({ count := 0, cur := 0, inData := false }, [Out.framingError (p1 - 8) 3, Out.newline])) ∧
    (decodeNibbles { count := 0, cur := 0, inData := inData } [p1, p2, 0] =
      ({ count := 0, cur := 0, inData := false },
       [Out.framingError ((p1 - 8) * 8 + (p2 - 8)) 6, Out.newline])) ∧
    (decodeNibbles { count := 0, cur := 0, inData := inData } [p1, 0, n1, n2, n3] =
      ({ count := 0, cur := 0, inData := true },
       [Out.framingError (p1 - 8) 3, Out.newline,
        Out.addressByte (groupValue n1 n2 n3 >>> 2) (decide ((groupValue n1 n2 n3 >>> 1) % 2 = 1))
          (groupValue n1 n2 n3 % 2)])) ∧
    (decodeNibbles { count := 0, cur := 0, inData := inData } [p1, p2, 0, n1, n2, n3] =
      ({ count := 0, cur := 0, inData := true },
       [Out.framingError ((p1 - 8) * 8 + (p2 - 8)) 6, Out.newline,
        Out.addressByte (groupValue n1 n2 n3 >>> 2) (decide ((groupValue n1 n2 n3 >>> 1) % 2 = 1))
          (groupValue n1 n2 n3 % 2)])) := by
  have hp := decodeNibbles_partial p1 p2 hp1 hp2 inData
  have hg := decodeNibbles_group n1 n2 n3 h1 h2 h3 false
  refine ⟨hp.1, hp.2, ?_, ?_⟩
  · have e : [p1, 0, n1, n2, n3] = [p1, 0] ++ [n1, n2, n3] := rfl
    rw [e, decodeNibbles_append, hp.1, hg]
    simp [groupOut]
  · have e : [p1, p2, 0, n1, n2, n3] = [p1, p2, 0] ++ [n1, n2, n3] := rfl
    rw [e, decodeNibbles_append, hp.2, hg]
    simp [groupOut]

theorem decodeCapture_idle_mid_group_witness :
    (decodeNibbles { count := 0, cur := 0, inData := true } [9, 0] =
      ({ count := 0, cur := 0, inData := false }, [Out.framingError (9 - 8) 3, Out.newline])) ∧
    (decodeNibbles { count := 0, cur := 0, inData := true } [9, 15, 0] =
      ({ count := 0, cur := 0, inData := false },
       [Out.framingError ((9 - 8) * 8 + (15 - 8)) 6, Out.newline])) ∧
    (decodeNibbles { count := 0, cur := 0, inData := true } [9, 0, 13, 8, 11] =
      ({ count := 0, cur := 0, inData := true },
       [Out.framingError (9 - 8) 3, Out.newline,
        Out.addressByte (groupValue 13 8 11 >>> 2) (decide ((groupValue 13 8 11 >>> 1) % 2 = 1))
          (groupValue 13 8 11 % 2)])) ∧
    (decodeNibbles { count := 0, cur := 0, inData := true } [9, 15, 0, 13, 8, 11] =
      ({ count := 0, cur := 0, inData := true },
       [Out.framingError ((9 - 8) * 8 + (15 - 8)) 6, Out.newline,
        Out.addressByte (groupValue 13 8 11 >>> 2) (decide ((groupValue 13 8 11 >>> 1) % 2 = 1))
          (groupValue 13 8 11 % 2)])) :=
  decodeCapture_idle_mid_group 9 15 13 8 11 (by decide) (by decide) (by decide) (by decide)
    (by decide) true


/-! ## The channel -/

theorem rxTake_length_le (n : Nat) (rx : List (Option Nat)) : (rxTake n rx).1.length ≤ n := by
  induction n generalizing rx with
  | zero => simp [rxTake]
  | succ n ih =>
    match rx with
    | [] => simp [rxTake]
    | none :: rx => simp [rxTake]
    | some b :: rx =>
      simp only [rxTake, List.length_cons]
      have := ih rx
      omega

theorem rxTake_sub (n : Nat) (rx : List (Option Nat)) :
    (∀ b ∈ (rxTake n rx).1, some b ∈ rx) ∧ (∀ x ∈ (rxTake n rx).2, x ∈ rx) := by
  induction n generalizing rx with
  | zero => simp [rxTake]
  | succ n ih =>
    match rx with
    | [] => simp [rxTake]
    | none :: rx =>
      simp only [rxTake]
      exact ⟨by simp, fun x hx => List.mem_cons_of_mem _ hx⟩
    | some b :: rx =>
      simp only [rxTake]
      have h := ih rx
      refine ⟨?_, fun x hx => List.mem_cons_of_mem _ (h.2 x hx)⟩
      intro c hc
      rcases List.mem_cons.1 hc with rfl | hc
      · exact List.mem_cons_self _ _
      · exact List.mem_cons_of_mem _ (h.1 c hc)

theorem rxTake_data (data : List Nat) (rest : List (Option Nat)) (n : Nat) (h : n ≤ data.length) :
    rxTake n (data.map some ++ rest) = (data.take n, (data.drop n).map some ++ rest) := by
  induction n generalizing data with
  | zero => simp [rxTake]
  | succ n ih =>
    match data, h with
    | d :: ds, h =>
      have h1 : n ≤ ds.length := by simpa using h
      simp [rxTake, ih ds h1]

@[simp] theorem writeAll_log (f : File) (k : TxKind) (bs : List Nat) :
    (f.writeAll k bs).log = f.log ++ [Ev.tx k bs] := rfl

@[simp] theorem writeAll_rx (f : File) (k : TxKind) (bs : List Nat) :
    (f.writeAll k bs).rx = f.rx := rfl

@[simp] theorem read_log (f : File) (k : RxKind) (n : Nat) :
    (f.read k n).2.log = f.log ++ [Ev.rx k n (rxTake n f.rx).1] := rfl

@[simp] theorem read_rx (f : File) (k : RxKind) (n : Nat) :
    (f.read k n).2.rx = (rxTake n f.rx).2 := rfl

@[simp] theorem read_got (f : File) (k : RxKind) (n : Nat) :
    (f.read k n).1 = (rxTake n f.rx).1 := rfl

theorem i2cdriverErr_match : ∀ got : List Nat, got.length ≤ 2 →
    (match got with
     | [] => true
     | [b0] => b0 != 0b110001
     | b0 :: b1 :: _ => b0 != 0b110001 || b1 != 0b110001) = !isAck got := by
  intro got h
  rcases got with _ | ⟨b0, _ | ⟨b1, _ | ⟨b2, t⟩⟩⟩
  · simp [isAck]
  · simp [isAck, bne]
  · simp only [isAck, List.isEmpty_cons, Bool.not_false, Bool.true_and, List.all_cons, List.all_nil,
      Bool.and_true, bne]
    cases (b0 == 0b110001) <;> cases (b1 == 0b110001) <;> rfl
  · simp at h

theorem i2cdriverErr_fst (f : File) : (i2cdriverErr f).1 = !isAck (rxTake 2 f.rx).1 := by
  simp only [i2cdriverErr, read_got]
  exact i2cdriverErr_match _ (rxTake_length_le 2 f.rx)

@[simp] theorem i2cdriverErr_log (f : File) :
    (i2cdriverErr f).2.log = f.log ++ [Ev.rx RxKind.status 2 (rxTake 2 f.rx).1] := rfl

@[simp] theorem i2cdriverErr_rx (f : File) : (i2cdriverErr f).2.rx = (rxTake 2 f.rx).2 := rfl

/-! ## Traces -/

theorem FailLast_append {a b : List Ev} {err : Bool} (ha : FailLast false a)
    (hb : FailLast err b) : FailLast err (a ++ b) := by
  unfold FailLast at *
  simp only [Bool.false_eq_true, ↓reduceIte] at ha
  cases err with
  | false =>
    simp only [Bool.false_eq_true, ↓reduceIte] at hb ⊢
    intro e he
    rcases List.mem_append.1 he with h | h
    · exact ha e h
    · exact hb e h
  | true =>
    simp only [↓reduceIte] at hb ⊢
    obtain ⟨pre, ev, rfl, hpre, hev⟩ := hb
    refine ⟨a ++ pre, ev, by simp, ?_, hev⟩
    intro e he
    rcases List.mem_append.1 he with h | h
    · exact ha e h
    · exact hpre e h

theorem FailLast_single (e : Ev) : FailLast e.failed [e] := by
  unfold FailLast
  cases h : e.failed with
  | false => simpa using h
  | true => exact ⟨[], e, rfl, by simp, h⟩

theorem Trace_nil : Trace false [] := by
  simp [Trace, FailLast]

theorem Trace_append {a b : List Ev} {err : Bool} (ha : Trace false a) (hb : Trace err b) :
    Trace err (a ++ b) := by
  obtain ⟨ha1, ha2⟩ := ha
  obtain ⟨hb1, hb2⟩ := hb
  refine ⟨?_, FailLast_append ha2 hb2⟩
  intro e he
  rcases List.mem_append.1 he with h | h
  · exact ha1 e h
  · exact hb1 e h

theorem Trace_tx (k : TxKind) (bs : List Nat) (h1 : k ≠ TxKind.pec) (h2 : k ≠ TxKind.stop) :
    Trace false [Ev.tx k bs] := by
  refine ⟨?_, ?_⟩
  · intro e he
    simp only [List.mem_singleton] at he
    subst he
    cases k <;> simp_all [Ev.isFinal]
  · exact FailLast_single (Ev.tx k bs)

theorem Trace_rx (k : RxKind) (n : Nat) (got : List Nat) :
    Trace (Ev.rx k n got).failed [Ev.rx k n got] :=
  ⟨by simp [Ev.isFinal], FailLast_single _⟩

theorem Trace_data_ok (n : Nat) (got : List Nat) (h : got.length = n) :
    Trace false [Ev.rx RxKind.data n got] := by
  have e : (Ev.rx RxKind.data n got).failed = false := by simp [Ev.failed, h]
  have := Trace_rx RxKind.data n got
  rwa [e] at this

theorem Trace_data_fail (n : Nat) (got : List Nat) (h : ¬ got.length = n) :
    Trace true [Ev.rx RxKind.data n got] := by
  have e : (Ev.rx RxKind.data n got).failed = true := by simp [Ev.failed, h]
  have := Trace_rx RxKind.data n got
  rwa [e] at this

theorem Trace_status (got : List Nat) : Trace (!isAck got) [Ev.rx RxKind.status 2 got] :=
  Trace_rx RxKind.status 2 got

theorem add_lt (c b : Nat) : CRC_PEC.add c b < 256 := by
  unfold CRC_PEC.add crc8
  exact Nat.mod_lt _ (by norm_num)

theorem addBuf_lt (c : Nat) (bs : List Nat) (h : c < 256) : CRC_PEC.addBuf c bs < 256 := by
  induction bs generalizing c with
  | nil => simpa [CRC_PEC.addBuf] using h
  | cons b bs ih => simpa [CRC_PEC.addBuf] using ih _ (add_lt c b)

theorem addBuf_append (c : Nat) (xs ys : List Nat) :
    CRC_PEC.addBuf c (xs ++ ys) = CRC_PEC.addBuf (CRC_PEC.addBuf c xs) ys := by
  induction xs generalizing c with
  | nil => rfl
  | cons x xs ih => simp [CRC_PEC.addBuf, ih]

theorem wire_append (a b : List Ev) : wire (a ++ b) = wire a ++ wire b := by
  induction a with
  | nil => rfl
  | cons e a ih =>
    cases e with
    | tx k bs => cases k <;> simp [wire, ih]
    | rx k n got => cases k <;> simp [wire, ih]

theorem store_length (buf : List Nat) (idx : Nat) (got : List Nat)
    (h : idx + got.length ≤ buf.length) : (store buf idx got).length = buf.length := by
  simp only [store, List.length_append, List.length_take, List.length_drop]
  omega

theorem store_read (buf : List Nat) (idx : Nat) (got : List Nat) (h : idx ≤ buf.length) :
    ((store buf idx got).drop idx).take got.length = got := by
  have hl : (buf.take idx).length = idx := by simp [List.length_take]; omega
  simp only [store, List.append_assoc]
  rw [List.drop_append_eq_append_drop, hl, List.drop_eq_nil_of_le (le_of_eq hl)]
  simp

/-! ## The loops of one message -/

theorem LocInv_refl (s : Loc) (hs : s.ioerror = false) :
    LocInv (s.datidx + s.len ≤ s.buf.length) s s := by
  refine ⟨[], by simp, ?_, fun x hx => hx, fun h => h, fun h => ⟨by simp [wire, CRC_PEC.addBuf], rfl, fun _ => h⟩⟩
  rw [hs]
  exact Trace_nil

theorem ackAllLoop_inv (fuel : Nat) : ∀ s : Loc, s.ioerror = false →
    LocInv (s.datidx + s.len ≤ s.buf.length) s (ackAllLoop fuel s) := by
  induction fuel with
  | zero => intro s hs; exact LocInv_refl s hs
  | succ fuel ih =>
    intro s hs
    unfold ackAllLoop
    by_cases hlen : s.len > 64
    · simp only [hlen, ↓reduceIte]
      generalize hl : (if s.len > 255 then 255 else s.len - 1) = l
      have hl1 : l ≤ s.len := by
        rw [← hl]; split <;> omega
      have hgl := rxTake_length_le l s.chan.rx
      have hsub := rxTake_sub l s.chan.rx
      by_cases hgot : (rxTake l s.chan.rx).1.length = l
      · -- the chunk arrived in full
        simp only [read_got, writeAll_rx, hgot, ne_eq, not_true_eq_false, ↓reduceIte]
        obtain ⟨body, hb1, hb2, hb3, hb4, hb5⟩ := ih
          { chan := ((s.chan.writeAll TxKind.readAck [0x61, l % 256]).read RxKind.data l).2,
            pec := CRC_PEC.addBuf s.pec
              (((store s.buf s.datidx (rxTake l s.chan.rx).1).drop s.datidx).take l),
            buf := store s.buf s.datidx (rxTake l s.chan.rx).1,
            len := s.len - l, datidx := s.datidx + l, ioerror := false } rfl
        refine ⟨[Ev.tx TxKind.readAck [0x61, l % 256], Ev.rx RxKind.data l (rxTake l s.chan.rx).1] ++ body,
          ?_, ?_, ?_, ?_, ?_⟩
        · rw [hb1]; simp
        · refine Trace_append (Trace_append (a := [_]) (b := [_])
            (Trace_tx _ _ (by decide) (by decide)) (Trace_data_ok _ _ hgot)) hb2
        · intro x hx
          exact hsub.2 x (by simpa using hb3 x hx)
        · intro _
          exact hb4 (addBuf_lt _ _ ‹_›)
        · intro hbuf
          have hst : (store s.buf s.datidx (rxTake l s.chan.rx).1).length = s.buf.length :=
            store_length _ _ _ (by omega)
          have hrd := store_read s.buf s.datidx (rxTake l s.chan.rx).1 (by omega)
          rw [hgot] at hrd
          obtain ⟨h51, h52, h53⟩ := hb5 (by simp only [hst]; omega)
          refine ⟨?_, by rw [h52, hst], h53⟩
          rw [h51, hrd, wire_append]
          simp [wire, hgot, addBuf_append]
      · -- short read: goto endoftransmission
        simp only [read_got, writeAll_rx, ne_eq, hgot, not_false_eq_true, ↓reduceIte]
        refine ⟨[Ev.tx TxKind.readAck [0x61, l % 256], Ev.rx RxKind.data l (rxTake l s.chan.rx).1],
          by simp, ?_, ?_, fun h => h, ?_⟩
        · exact Trace_append (a := [_]) (b := [_]) (Trace_tx _ _ (by decide) (by decide))
            (Trace_data_fail _ _ hgot)
        · intro x hx
          exact hsub.2 x (by simpa using hx)
        · intro hbuf
          refine ⟨by simp [wire, hgot, CRC_PEC.addBuf], store_length _ _ _ (by omega), by simp⟩
    · simp only [hlen, ↓reduceIte]
      exact LocInv_refl s hs

theorem writeLoop_inv (fuel : Nat) : ∀ s : Loc, s.ioerror = false →
    LocInv (s.datidx + s.len ≤ s.buf.length) s (writeLoop fuel s) := by
  induction fuel with
  | zero => intro s hs; exact LocInv_refl s hs
  | succ fuel ih =>
    intro s hs
    unfold writeLoop
    by_cases hlen : s.len > 0
    · simp only [hlen, ↓reduceIte]
      generalize hl : (if s.len > 64 then 64 else s.len) = l
      have hl1 : l ≤ s.len := by
        rw [← hl]; split <;> omega
      have hsub := rxTake_sub 2 s.chan.rx
      generalize hcmd : [((l - 1) ||| 0b11000000) % 256] = cmd
      generalize hdata : (s.buf.drop s.datidx).take l = data
      have htr : ∀ err, Trace err [Ev.rx RxKind.status 2 (rxTake 2 s.chan.rx).1] →
          Trace err ([Ev.tx TxKind.writeCmd cmd, Ev.tx TxKind.payload data] ++
            [Ev.rx RxKind.status 2 (rxTake 2 s.chan.rx).1]) := fun err h =>
        Trace_append (Trace_append (a := [_]) (b := [_]) (Trace_tx _ _ (by decide) (by decide))
          (Trace_tx _ _ (by decide) (by decide))) h
      have hst := Trace_status (rxTake 2 s.chan.rx).1
      obtain ⟨e, he⟩ : ∃ e, e = i2cdriverErr ((s.chan.writeAll TxKind.writeCmd cmd).writeAll
        TxKind.payload data) := ⟨_, rfl⟩
      have he1 : e.1 = !isAck (rxTake 2 s.chan.rx).1 := by rw [he, i2cdriverErr_fst]; rfl
      have he2 : e.2.log = s.chan.log ++ ([Ev.tx TxKind.writeCmd cmd, Ev.tx TxKind.payload data] ++
            [Ev.rx RxKind.status 2 (rxTake 2 s.chan.rx).1]) := by rw [he]; simp
      have he3 : e.2.rx = (rxTake 2 s.chan.rx).2 := by rw [he]; rfl
      simp only [← he]
      rw [← he1] at hst
      cases herr : e.1 with
      | true =>
        rw [herr] at hst
        simp only [↓reduceIte]
        refine ⟨_, he2, htr true hst, ?_, fun _ => addBuf_lt _ _ ‹_›, ?_⟩
        · intro x hx
          exact hsub.2 x (by simpa [he3] using hx)
        · intro _
          exact ⟨by simp [wire, wire_append], rfl, by simp⟩
      | false =>
        rw [herr] at hst
        simp only [Bool.false_eq_true, ↓reduceIte]
        obtain ⟨body, hb1, hb2, hb3, hb4, hb5⟩ := ih
          { chan := e.2, pec := CRC_PEC.addBuf s.pec data, buf := s.buf,
            len := s.len - l, datidx := s.datidx + l, ioerror := false } rfl
        refine ⟨_ ++ body, ?_, Trace_append (htr false hst) hb2, ?_, ?_, ?_⟩
        · rw [hb1]; simp [he2]
        · intro x hx
          exact hsub.2 x (by simpa [he3] using hb3 x hx)
        · intro _
          exact hb4 (addBuf_lt _ _ ‹_›)
        · intro hbuf
          obtain ⟨h51, h52, h53⟩ := hb5 (by simp only; omega)
          refine ⟨?_, h52, h53⟩
          rw [h51, wire_append]
          simp [wire, addBuf_append]
    · simp only [hlen, ↓reduceIte]
      exact LocInv_refl s hs

theorem LocInv_trans {P : Prop} {s t u : Loc} (h1 : LocInv P s t) (ht : t.ioerror = false)
    (h2 : LocInv (t.datidx + t.len ≤ t.buf.length) t u) : LocInv P s u := by
  obtain ⟨b1, a1, a2, a3, a4, a5⟩ := h1
  obtain ⟨b2, c1, c2, c3, c4, c5⟩ := h2
  rw [ht] at a2
  refine ⟨b1 ++ b2, by rw [c1, a1, List.append_assoc], Trace_append a2 c2,
    fun x hx => a3 x (c3 x hx), fun h => c4 (a4 h), ?_⟩
  intro hP
  obtain ⟨a51, a52, a53⟩ := a5 hP
  obtain ⟨c51, c52, c53⟩ := c5 (a53 ht)
  exact ⟨by rw [c51, a51, wire_append, addBuf_append], by rw [c52, a52], c53⟩

theorem finalNack_inv (s : Loc) : LocInv (s.datidx + s.len ≤ s.buf.length) s (finalNack s) := by
  unfold finalNack
  generalize hcmd : [((s.len - 1) ||| 0b10000000) % 256] = cmd
  have hgl := rxTake_length_le s.len s.chan.rx
  have hsub := rxTake_sub s.len s.chan.rx
  by_cases hgot : (rxTake s.len s.chan.rx).1.length = s.len
  · simp only [read_got, writeAll_rx, hgot, ne_eq, not_true_eq_false, ↓reduceIte]
    refine ⟨[Ev.tx TxKind.readNack cmd, Ev.rx RxKind.data s.len (rxTake s.len s.chan.rx).1],
      by simp, ?_, ?_, fun _ => addBuf_lt _ _ ‹_›, ?_⟩
    · exact Trace_append (a := [_]) (b := [_]) (Trace_tx _ _ (by decide) (by decide))
        (Trace_data_ok _ _ hgot)
    · intro x hx
      exact hsub.2 x (by simpa using hx)
    · intro hbuf
      have hst : (store s.buf s.datidx (rxTake s.len s.chan.rx).1).length = s.buf.length :=
        store_length _ _ _ (by omega)
      have hrd := store_read s.buf s.datidx (rxTake s.len s.chan.rx).1 (by omega)
      rw [hgot] at hrd
      refine ⟨?_, hst, ?_⟩
      · rw [hrd]; simp [wire, hgot]
      · intro _; simp only [hst]; exact hbuf
  · simp only [read_got, writeAll_rx, ne_eq, hgot, not_false_eq_true, ↓reduceIte]
    refine ⟨[Ev.tx TxKind.readNack cmd, Ev.rx RxKind.data s.len (rxTake s.len s.chan.rx).1],
      by simp, ?_, ?_, fun h => h, ?_⟩
    · exact Trace_append (a := [_]) (b := [_]) (Trace_tx _ _ (by decide) (by decide))
        (Trace_data_fail _ _ hgot)
    · intro x hx
      exact hsub.2 x (by simpa using hx)
    · intro hbuf
      exact ⟨by simp [wire, hgot, CRC_PEC.addBuf], store_length _ _ _ (by omega), by simp⟩

theorem store_getD (buf : List Nat) (b : Nat) : (store buf 0 [b]).getD 0 0 = b := by
  simp [store]

theorem recvLen_inv (s : Loc) (h0 : s.datidx = 0) :
    LocInv (256 ≤ s.buf.length ∧ ∀ b, some b ∈ s.chan.rx → b < 256) s (recvLen s) := by
  unfold recvLen
  have hgl := rxTake_length_le 1 s.chan.rx
  have hsub := rxTake_sub 1 s.chan.rx
  by_cases hgot : (rxTake 1 s.chan.rx).1.length = 1
  · simp only [read_got, writeAll_rx, hgot, ne_eq, not_true_eq_false, ↓reduceIte]
    obtain ⟨b, hb⟩ := List.length_eq_one.1 hgot
    refine ⟨[Ev.tx TxKind.readAck [0x61, 1], Ev.rx RxKind.data 1 (rxTake 1 s.chan.rx).1],
      by simp, ?_, ?_, fun _ => add_lt _ _, ?_⟩
    · exact Trace_append (a := [_]) (b := [_]) (Trace_tx _ _ (by decide) (by decide))
        (Trace_data_ok _ _ hgot)
    · intro x hx
      exact hsub.2 x (by simpa using hx)
    · rintro ⟨hbuf, hrx⟩
      have hb256 : b < 256 := hrx b (hsub.1 b (by rw [hb]; exact List.mem_singleton_self b))
      have hst : (store s.buf s.datidx (rxTake 1 s.chan.rx).1).length = s.buf.length :=
        store_length _ _ _ (by omega)
      rw [h0, hb, store_getD, Nat.mod_eq_of_lt hb256] at *
      refine ⟨by simp [wire, CRC_PEC.addBuf], hst, ?_⟩
      intro _
      simp only [hst]
      omega
  · simp only [read_got, writeAll_rx, ne_eq, hgot, not_false_eq_true, ↓reduceIte]
    refine ⟨[Ev.tx TxKind.readAck [0x61, 1], Ev.rx RxKind.data 1 (rxTake 1 s.chan.rx).1],
      by simp, ?_, ?_, fun h => h, ?_⟩
    · exact Trace_append (a := [_]) (b := [_]) (Trace_tx _ _ (by decide) (by decide))
        (Trace_data_fail _ _ hgot)
    · intro x hx
      exact hsub.2 x (by simpa using hx)
    · rintro ⟨hbuf, _⟩
      exact ⟨by simp [wire, hgot, CRC_PEC.addBuf], store_length _ _ _ (by omega), by simp⟩

theorem LocInv_mono {P Q : Prop} {s t : Loc} (hPQ : P → Q) (h : LocInv Q s t) : LocInv P s t := by
  obtain ⟨b, a1, a2, a3, a4, a5⟩ := h
  exact ⟨b, a1, a2, a3, a4, fun hP => a5 (hPQ hP)⟩

/-! ## The body of the message loop -/

theorem readExit_inv {P : Prop} (st : RdwrState) (buf : List Nat) (len : Nat) (s : Loc)
    (msg : i2c_msg) (stop : Bool)
    (h : LocInv P { chan := st.chan, pec := st.pec, buf := buf, len := len, datidx := 0,
                    ioerror := false } s) :
    StInv P st (readExit s msg stop).1 := by
  obtain ⟨b, a1, a2, a3, a4, a5⟩ := h
  exact ⟨b, a1, a2, a3, a4, fun hP => (a5 hP).1, fun h => by simp [readExit] at h⟩

theorem rdwrRead_inv (st : RdwrState) (msg : i2c_msg) (buf : List Nat) (len : Nat) :
    StInv (len ≤ buf.length ∧ (msg.flags &&& I2C_M_RECV_LEN ≠ 0 → 256 ≤ buf.length) ∧
        ∀ b, some b ∈ st.chan.rx → b < 256) st (rdwrRead st msg buf len).1 ∧
      (rdwrRead st msg buf len).1.do_add_pec = false ∧
      ((rdwrRead st msg buf len).1.ioerror = true → (rdwrRead st msg buf len).2.2 = true) := by
  unfold rdwrRead
  dsimp only
  generalize hs0 :
    ({ chan := st.chan, pec := st.pec, buf := buf, len := len, datidx := 0, ioerror := false } : Loc) = s0
  generalize hs1 : (if msg.flags &&& I2C_M_RECV_LEN ≠ 0 then recvLen s0 else s0) = s1
  have h01 : LocInv (len ≤ buf.length ∧ (msg.flags &&& I2C_M_RECV_LEN ≠ 0 → 256 ≤ buf.length) ∧
        ∀ b, some b ∈ st.chan.rx → b < 256) s0 s1 := by
    rw [← hs1]
    by_cases hf : msg.flags &&& I2C_M_RECV_LEN ≠ 0
    · rw [if_pos hf]
      refine LocInv_mono ?_ (recvLen_inv s0 (by rw [← hs0]))
      rintro ⟨_, h2, h3⟩
      rw [← hs0]
      exact ⟨h2 hf, h3⟩
    · rw [if_neg hf]
      refine LocInv_mono ?_ (LocInv_refl s0 (by rw [← hs0]))
      rintro ⟨h1, _, _⟩
      rw [← hs0]
      simpa using h1
  by_cases he1 : s1.ioerror = true
  · simp only [he1, ↓reduceIte]
    exact ⟨readExit_inv st buf len s1 msg true (hs0 ▸ h01), rfl, fun _ => rfl⟩
  · simp only [he1, Bool.false_eq_true, ↓reduceIte]
    have he1f : s1.ioerror = false := by simpa using he1
    by_cases hl0 : s1.len = 0
    · simp only [hl0, ↓reduceIte]
      exact ⟨readExit_inv st buf len s1 msg true (hs0 ▸ h01), rfl, fun _ => rfl⟩
    · simp only [hl0, ↓reduceIte]
      have h12 := LocInv_trans h01 he1f (ackAllLoop_inv s1.len s1 he1f)
      by_cases he2 : (ackAllLoop s1.len s1).ioerror = true
      · simp only [he2, ↓reduceIte]
        exact ⟨readExit_inv st buf len _ msg true (hs0 ▸ h12), rfl, fun _ => rfl⟩
      · simp only [he2, Bool.false_eq_true, ↓reduceIte]
        have he2f : (ackAllLoop s1.len s1).ioerror = false := by simpa using he2
        have h13 := LocInv_trans h12 he2f (finalNack_inv _)
        exact ⟨readExit_inv st buf len _ msg _ (hs0 ▸ h13), rfl, fun h => h⟩

theorem flags_rewrite_rd (f : Nat) :
    (((f ||| I2C_M_RD) &&& (0xFFFF ^^^ I2C_M_RECV_LEN)) % 65536) &&& I2C_M_RD = 1 := by
  have h1 : (0xFFFF ^^^ I2C_M_RECV_LEN) = 0xFBFF := by decide
  rw [h1]
  simp only [I2C_M_RD]
  apply Nat.eq_of_testBit_eq
  intro i
  have h65 : (65536 : Nat) = 2 ^ 16 := by norm_num
  rw [h65]
  simp only [Nat.testBit_and, Nat.testBit_mod_two_pow, Nat.testBit_or]
  rcases i with _ | i
  · simp [Nat.testBit_zero]
  · have : Nat.testBit 1 (i + 1) = false := by
      simp [Nat.testBit_succ]
    simp [this]

theorem flags_rewrite_recv (f : Nat) :
    (((f ||| I2C_M_RD) &&& (0xFFFF ^^^ I2C_M_RECV_LEN)) % 65536) &&& I2C_M_RECV_LEN = 0 := by
  have h1 : (0xFFFF ^^^ I2C_M_RECV_LEN) = 0xFBFF := by decide
  rw [h1]
  have h2 : I2C_M_RECV_LEN = 2 ^ 10 := by decide
  rw [h2]
  apply Nat.eq_of_testBit_eq
  intro i
  have h65 : (65536 : Nat) = 2 ^ 16 := by norm_num
  rw [h65]
  simp only [Nat.testBit_and, Nat.testBit_mod_two_pow, Nat.testBit_or, Nat.testBit_two_pow,
    Nat.zero_testBit]
  by_cases hi : 10 = i
  · subst hi
    have : Nat.testBit 0xFBFF 10 = false := by decide
    simp [this]
  · simp [hi]

theorem StInv_trans {P Q : Prop} {st t u : RdwrState} (h1 : StInv P st t) (ht : t.ioerror = false)
    (h2 : StInv Q t u) (hPQ : P → Q) : StInv P st u := by
  obtain ⟨b1, a1, a2, a3, a4, a5, a6⟩ := h1
  obtain ⟨b2, c1, c2, c3, c4, c5, c6⟩ := h2
  rw [ht] at a2
  refine ⟨b1 ++ b2, by rw [c1, a1, List.append_assoc], Trace_append a2 c2,
    fun x hx => a3 x (c3 x hx), fun h => c4 (a4 h), ?_, fun h => a6 (c6 h)⟩
  intro hP
  rw [c5 (hPQ hP), a5 hP, wire_append, addBuf_append]

theorem StInv_refl (P : Prop) (st : RdwrState) (h : st.ioerror = false) : StInv P st st := by
  refine ⟨[], by simp, ?_, fun x hx => hx, fun h => h, fun _ => by simp [wire, CRC_PEC.addBuf],
    fun h => h⟩
  rw [h]
  exact Trace_nil

/-- The START command of a message and the check of its status. -/
theorem start_inv (st : RdwrState) (ab : Nat) :
    StInv True st
      { st with chan := (i2cdriverErr (st.chan.writeAll TxKind.start [0x73, ab])).2,
                pec := CRC_PEC.add st.pec ab,
                ioerror := (i2cdriverErr (st.chan.writeAll TxKind.start [0x73, ab])).1 } := by
  have hsub := rxTake_sub 2 st.chan.rx
  refine ⟨[Ev.tx TxKind.start [0x73, ab], Ev.rx RxKind.status 2 (rxTake 2 st.chan.rx).1],
    by simp, ?_, ?_, fun _ => add_lt _ _, fun _ => by simp [wire, CRC_PEC.addBuf], fun h => h⟩
  · refine Trace_append (a := [_]) (b := [_]) (Trace_tx _ _ (by decide) (by decide)) ?_
    have := Trace_status (rxTake 2 st.chan.rx).1
    rw [i2cdriverErr_fst]
    exact this
  · intro x hx
    exact hsub.2 x (by simpa using hx)

theorem writeExit_inv (t : RdwrState) (buf : List Nat) (len : Nat) (s : Loc)
    (h : LocInv (len ≤ buf.length)
      { chan := t.chan, pec := t.pec, buf := buf, len := len, datidx := 0, ioerror := false } s) :
    StInv (len ≤ buf.length) t { t with chan := s.chan, pec := s.pec, ioerror := s.ioerror } := by
  obtain ⟨b, a1, a2, a3, a4, a5⟩ := h
  exact ⟨b, a1, a2, a3, a4, fun hP => (a5 hP).1, fun h => h⟩

theorem StInv_mono {P Q : Prop} {st u : RdwrState} (hPQ : P → Q) (h : StInv Q st u) :
    StInv P st u := by
  obtain ⟨b, a1, a2, a3, a4, a5, a6⟩ := h
  exact ⟨b, a1, a2, a3, a4, fun hP => a5 (hPQ hP), a6⟩

theorem rdwrMsg_inv (st : RdwrState) (msg0 : i2c_msg) (buf : List Nat) :
    StInv (MsgOk msg0 buf ∧ ∀ b, some b ∈ st.chan.rx → b < 256) st (rdwrMsg st msg0 buf).1 ∧
    ((rdwrMsg st msg0 buf).1.ioerror = true → (rdwrMsg st msg0 buf).2.2 = true) ∧
    ((rdwrMsg st msg0 buf).2.2 = true →
      (rdwrMsg st msg0 buf).1.ioerror = true ∨ (rdwrMsg st msg0 buf).1.do_add_pec = false) ∧
    (isReadMsg msg0 →
      (rdwrMsg st msg0 buf).1.ioerror = true ∨ (rdwrMsg st msg0 buf).1.do_add_pec = false) ∧
    (¬ isReadMsg msg0 → (rdwrMsg st msg0 buf).1.do_add_pec = st.do_add_pec) := by
  unfold rdwrMsg
  dsimp only
  generalize hmsg : (if msg0.len = 0 then _ else msg0) = msg
  have hrd : isReadMsg msg0 → msg.flags &&& I2C_M_RD ≠ 0 := by
    intro h
    rw [← hmsg]
    by_cases h0 : msg0.len = 0
    · rw [if_pos h0]
      simp only [flags_rewrite_rd]
      decide
    · rw [if_neg h0]
      rcases h with h | h
      · exact h
      · exact absurd h h0
  have hnrd : ¬ isReadMsg msg0 → msg.flags &&& I2C_M_RD = 0 := by
    intro h
    have h0 : ¬ msg0.len = 0 := fun h0 => h (Or.inr h0)
    rw [← hmsg, if_neg h0]
    by_contra hc
    exact h (Or.inl hc)
  have hrecv : msg.flags &&& I2C_M_RECV_LEN ≠ 0 → msg0.flags &&& I2C_M_RECV_LEN ≠ 0 := by
    rw [← hmsg]
    by_cases h0 : msg0.len = 0
    · rw [if_pos h0]
      simp only [flags_rewrite_recv]
      intro h
      exact absurd rfl h
    · rw [if_neg h0]
      exact fun h => h
  generalize ((msg.addr <<< 1) ||| (msg.flags &&& I2C_M_RD)) % 256 = ab
  have hstart := start_inv st ab
  generalize i2cdriverErr (st.chan.writeAll TxKind.start [0x73, ab]) = e at hstart ⊢
  have hsub : ∀ x ∈ e.2.rx, x ∈ st.chan.rx := by
    obtain ⟨_, _, _, a3, _⟩ := hstart
    exact a3
  cases herr : e.1 with
  | true =>
    rw [herr] at hstart
    simp only [↓reduceIte]
    refine ⟨?_, by simp, by simp, by simp, by simp⟩
    obtain ⟨b, a1, a2, a3, a4, a5, a6⟩ := hstart
    exact ⟨b, a1, a2, a3, a4, fun _ => a5 trivial, a6⟩
  | false =>
    rw [herr] at hstart
    simp only [Bool.false_eq_true, ↓reduceIte]
    by_cases hr : msg.flags &&& I2C_M_RD ≠ 0
    · rw [if_pos hr]
      obtain ⟨r1, r2, r3⟩ := rdwrRead_inv
        { chan := e.2, pec := CRC_PEC.add st.pec ab, ioerror := false, do_add_pec := st.do_add_pec }
        msg buf msg0.len
      refine ⟨?_, r3, fun _ => Or.inr r2, fun _ => Or.inr r2, ?_⟩
      · refine StInv_trans (StInv_mono (fun _ => trivial) hstart) rfl r1 ?_
        rintro ⟨⟨h1, h2⟩, h3⟩
        exact ⟨h1, fun h => h2 (hrecv h), fun b hb => h3 b (hsub _ hb)⟩
      · intro h
        exact absurd (hnrd h) hr
    · rw [if_neg hr]
      have hw := writeLoop_inv msg0.len
        { chan := e.2, pec := CRC_PEC.add st.pec ab, buf := buf, len := msg0.len, datidx := 0, ioerror := false }
        rfl
      have hw2 := writeExit_inv
        { chan := e.2, pec := CRC_PEC.add st.pec ab, ioerror := false, do_add_pec := st.do_add_pec }
        buf msg0.len _ (LocInv_mono (fun h => by simpa using h) hw)
      refine ⟨?_, fun h => h, fun h => Or.inl h, ?_, fun _ => rfl⟩
      · refine StInv_trans (StInv_mono (fun _ => trivial) hstart) rfl hw2 ?_
        rintro ⟨⟨h1, _⟩, _⟩
        exact h1
      · intro h
        exact absurd (hrd h) hr

/-! ## The message loop -/

theorem rdwrLoop_inv : ∀ (msgs : List i2c_msg) (st : RdwrState), st.ioerror = false →
    StInv ((∀ msg ∈ msgs, ∀ buf, msg.buf = some buf → MsgOk msg buf) ∧
        ∀ b, some b ∈ st.chan.rx → b < 256) st (rdwrLoop msgs st).1 ∧
    ((∃ msg ∈ msgs, msg.buf ≠ none ∧ isReadMsg msg) →
      (rdwrLoop msgs st).1.ioerror = true ∨ (rdwrLoop msgs st).1.do_add_pec = false) ∧
    ((∀ msg ∈ msgs, msg.buf ≠ none → ¬ isReadMsg msg) →
      (rdwrLoop msgs st).1.do_add_pec = st.do_add_pec) := by
  intro msgs
  induction msgs with
  | nil =>
    intro st hst
    simp only [rdwrLoop]
    exact ⟨StInv_refl _ st hst, by simp, by simp⟩
  | cons msg rest ih =>
    intro st hst
    cases hbuf : msg.buf with
    | none =>
      simp only [rdwrLoop, hbuf]
      obtain ⟨i1, i2, i3⟩ := ih st hst
      refine ⟨StInv_mono ?_ i1, ?_, ?_⟩
      · rintro ⟨h1, h2⟩
        exact ⟨fun m hm => h1 m (List.mem_cons_of_mem _ hm), h2⟩
      · rintro ⟨m, hm, hm1, hm2⟩
        rcases List.mem_cons.1 hm with rfl | hm
        · exact absurd hbuf hm1
        · exact i2 ⟨m, hm, hm1, hm2⟩
      · intro h
        exact i3 (fun m hm => h m (List.mem_cons_of_mem _ hm))
    | some buf =>
      simp only [rdwrLoop, hbuf]
      obtain ⟨m1, m2, m3, m4, m5⟩ := rdwrMsg_inv st msg buf
      have hm1 : StInv ((∀ m ∈ msg :: rest, ∀ buf, m.buf = some buf → MsgOk m buf) ∧
          ∀ b, some b ∈ st.chan.rx → b < 256) st (rdwrMsg st msg buf).1 := by
        refine StInv_mono ?_ m1
        rintro ⟨h1, h2⟩
        exact ⟨h1 msg (List.mem_cons_self _ _) buf hbuf, h2⟩
      have hne : msg.buf ≠ none := by rw [hbuf]; simp
      by_cases hstop : (rdwrMsg st msg buf).2.2 = true
      · rw [if_pos hstop]
        refine ⟨hm1, fun _ => m3 hstop, ?_⟩
        intro h
        exact m5 (h msg (List.mem_cons_self _ _) hne)
      · rw [if_neg hstop]
        have herr : (rdwrMsg st msg buf).1.ioerror = false := by
          cases h : (rdwrMsg st msg buf).1.ioerror with
          | false => rfl
          | true => exact absurd (m2 h) hstop
        obtain ⟨i1, i2, i3⟩ := ih (rdwrMsg st msg buf).1 herr
        have hmono : (rdwrLoop rest (rdwrMsg st msg buf).1).1.do_add_pec = true →
            (rdwrMsg st msg buf).1.do_add_pec = true := by
          obtain ⟨_, _, _, _, _, _, a6⟩ := i1
          exact a6
        have hsub : ∀ x ∈ (rdwrMsg st msg buf).1.chan.rx, x ∈ st.chan.rx := by
          obtain ⟨_, _, _, a3, _⟩ := m1
          exact a3
        refine ⟨StInv_trans hm1 herr i1 ?_, ?_, ?_⟩
        · rintro ⟨h1, h2⟩
          exact ⟨fun m hm => h1 m (List.mem_cons_of_mem _ hm), fun b hb => h2 b (hsub _ hb)⟩
        · rintro ⟨m, hm, hmb, hmr⟩
          rcases List.mem_cons.1 hm with rfl | hm
          · rcases m4 hmr with h | h
            · rw [herr] at h
              exact absurd h (by simp)
            · right
              cases hd : (rdwrLoop rest (rdwrMsg st m buf).1).1.do_add_pec with
              | false => rfl
              | true =>
                rw [hmono hd] at h
                exact absurd h (by simp)
          · exact i2 ⟨m, hm, hmb, hmr⟩
        · intro h
          rw [i3 (fun m hm => h m (List.mem_cons_of_mem _ hm)),
            m5 (h msg (List.mem_cons_self _ _) hne)]

/-! ## i2c_rdwr -/

theorem i2c_rdwr_end (add_pec : Bool) (dec : DecState) (chan : File) (msgs : List i2c_msg)
    (h : msgs ≠ []) (st : RdwrState)
    (hst : st = (rdwrLoop msgs { chan := (chan.read RxKind.drain 32).2, pec := 0, ioerror := false, do_add_pec := add_pec }).1) :
    (i2c_rdwr add_pec dec chan msgs).pec = st.pec ∧
    (st.do_add_pec = true ∧ st.ioerror = false →
      (i2c_rdwr add_pec dec chan msgs).chan.log = st.chan.log ++
        [Ev.tx TxKind.pec [0b11000000, st.pec % 256],
         Ev.rx RxKind.status 2 (rxTake 2 st.chan.rx).1, Ev.tx TxKind.stop [0x70]] ∧
      (i2c_rdwr add_pec dec chan msgs).ok = isAck (rxTake 2 st.chan.rx).1) ∧
    (¬ (st.do_add_pec = true ∧ st.ioerror = false) →
      (i2c_rdwr add_pec dec chan msgs).chan.log = st.chan.log ++ [Ev.tx TxKind.stop [0x70]] ∧
      (i2c_rdwr add_pec dec chan msgs).ok = !st.ioerror) := by
  have hl : ¬ msgs.length = 0 := by
    intro h0
    exact h (List.length_eq_zero.1 h0)
  unfold i2c_rdwr
  rw [if_neg hl]
  dsimp only
  rw [← hst]
  by_cases hc : st.do_add_pec = true ∧ st.ioerror = false
  · have hc2 : (st.do_add_pec && !st.ioerror) = true := by simp [hc.1, hc.2]
    rw [if_pos hc2]
    refine ⟨rfl, fun _ => ⟨by simp, ?_⟩, fun hn => absurd hc hn⟩
    simp only [i2cdriverErr_fst, writeAll_rx, Bool.not_not]
  · have hc2 : ¬ (st.do_add_pec && !st.ioerror) = true := by
      intro h2
      simp only [Bool.and_eq_true, Bool.not_eq_true'] at h2
      exact hc h2
    rw [if_neg hc2]
    exact ⟨rfl, fun hp => absurd hp hc, fun _ => ⟨by simp, rfl⟩⟩

theorem drain_inv (add_pec : Bool) (chan : File) (msgs : List i2c_msg) :
    ∃ body, (rdwrLoop msgs { chan := (chan.read RxKind.drain 32).2, pec := 0, ioerror := false, do_add_pec := add_pec }).1.chan.log = chan.log ++ (Ev.rx RxKind.drain 32 (rxTake 32 chan.rx).1 :: body) ∧
      Trace (rdwrLoop msgs { chan := (chan.read RxKind.drain 32).2, pec := 0, ioerror := false, do_add_pec := add_pec }).1.ioerror body ∧
      (rdwrLoop msgs { chan := (chan.read RxKind.drain 32).2, pec := 0, ioerror := false, do_add_pec := add_pec }).1.pec < 256 ∧
      ((∀ msg ∈ msgs, ∀ buf, msg.buf = some buf → MsgOk msg buf) → (∀ b, some b ∈ chan.rx → b < 256) →
        (rdwrLoop msgs { chan := (chan.read RxKind.drain 32).2, pec := 0, ioerror := false, do_add_pec := add_pec }).1.pec = CRC_PEC.addBuf 0 (wire body)) := by
  obtain ⟨⟨body, a1, a2, a3, a4, a5, a6⟩, _, _⟩ := rdwrLoop_inv msgs
    { chan := (chan.read RxKind.drain 32).2, pec := 0, ioerror := false, do_add_pec := add_pec } rfl
  refine ⟨body, ?_, a2, a4 (by norm_num), ?_⟩
  · rw [a1]; simp
  · intro h1 h2
    refine a5 ⟨h1, ?_⟩
    intro b hb
    exact h2 b ((rxTake_sub 32 chan.rx).2 _ (by simpa using hb))

theorem i2c_rdwr_shape (add_pec : Bool) (dec : DecState) (chan : File) (msgs : List i2c_msg)
    (h : msgs ≠ []) :
    ∃ mid, (i2c_rdwr add_pec dec chan msgs).chan.log = chan.log ++ mid ++ [Ev.tx TxKind.stop [0x70]] ∧
      (∀ e ∈ mid, ∀ bs, e ≠ Ev.tx TxKind.stop bs) ∧
      FailLast (!(i2c_rdwr add_pec dec chan msgs).ok) mid := by
  obtain ⟨e1, e2, e3⟩ := i2c_rdwr_end add_pec dec chan msgs h (atEnd add_pec chan msgs) rfl
  obtain ⟨body, d1, d2, _, _⟩ := drain_inv add_pec chan msgs
  change (atEnd add_pec chan msgs).chan.log = _ at d1
  change Trace (atEnd add_pec chan msgs).ioerror body at d2
  have hdrain : FailLast false [Ev.rx RxKind.drain 32 (rxTake 32 chan.rx).1] :=
    FailLast_single (Ev.rx RxKind.drain 32 (rxTake 32 chan.rx).1)
  have hbody : ∀ e ∈ body, ∀ bs, e ≠ Ev.tx TxKind.stop bs := by
    intro e he bs hc
    have := d2.1 e he
    rw [hc] at this
    simp [Ev.isFinal] at this
  by_cases hc : (atEnd add_pec chan msgs).do_add_pec = true ∧ (atEnd add_pec chan msgs).ioerror = false
  · obtain ⟨l1, l2⟩ := e2 hc
    refine ⟨Ev.rx RxKind.drain 32 (rxTake 32 chan.rx).1 :: body ++
      [Ev.tx TxKind.pec [0b11000000, (atEnd add_pec chan msgs).pec % 256],
       Ev.rx RxKind.status 2 (rxTake 2 (atEnd add_pec chan msgs).chan.rx).1], ?_, ?_, ?_⟩
    · rw [l1, d1]; simp
    · intro e he bs
      simp only [List.cons_append, List.mem_cons, List.mem_append, List.mem_singleton,
        List.not_mem_nil, or_false] at he
      rcases he with rfl | he | rfl | rfl
      · simp
      · exact hbody e he bs
      · simp
      · simp
    · rw [l2]
      have hb := d2.2
      rw [hc.2] at hb
      have := FailLast_append (FailLast_append hdrain hb)
        (FailLast_append (FailLast_single (Ev.tx TxKind.pec [0b11000000, (atEnd add_pec chan msgs).pec % 256]))
          (FailLast_single (Ev.rx RxKind.status 2 (rxTake 2 (atEnd add_pec chan msgs).chan.rx).1)))
      simpa [Ev.failed] using this
  · obtain ⟨l1, l2⟩ := e3 hc
    refine ⟨Ev.rx RxKind.drain 32 (rxTake 32 chan.rx).1 :: body, ?_, ?_, ?_⟩
    · rw [l1, d1]
    · intro e he bs
      rcases List.mem_cons.1 he with rfl | he
      · simp
      · exact hbody e he bs
    · rw [l2]
      have := FailLast_append hdrain d2.2
      simpa using this

theorem FailLast_split {err : Bool} {mid pre post : List Ev} {ev stp : Ev}
    (hfl : FailLast err mid) (hs : stp.failed = false)
    (heq : mid ++ [stp] = pre ++ ev :: post) (hf : ev.failed = true) :
    post = [stp] ∧ err = true := by
  unfold FailLast at hfl
  cases err with
  | false =>
    simp only [Bool.false_eq_true, ↓reduceIte] at hfl
    have hmem : ev ∈ mid ++ [stp] := by rw [heq]; simp
    rcases List.mem_append.1 hmem with h | h
    · rw [hfl ev h] at hf
      exact absurd hf (by simp)
    · rw [List.mem_singleton.1 h, hs] at hf
      exact absurd hf (by simp)
  | true =>
    simp only [↓reduceIte] at hfl
    obtain ⟨p, f, rfl, hp, hff⟩ := hfl
    refine ⟨?_, rfl⟩
    have heq2 : p ++ f :: [stp] = pre ++ ev :: post := by simpa using heq
    rcases List.append_eq_append_iff.1 heq2 with ⟨a, rfl, ha⟩ | ⟨c, rfl, hc⟩
    · rcases a with _ | ⟨x, a⟩
      · simp only [List.nil_append, List.cons.injEq] at ha
        exact ha.2.symm
      · simp only [List.cons_append, List.cons.injEq] at ha
        obtain ⟨_, ha2⟩ := ha
        rcases a with _ | ⟨y, a⟩
        · simp only [List.nil_append, List.cons.injEq] at ha2
          rw [← ha2.1, hs] at hf
          exact absurd hf (by simp)
        · simp at ha2
    · rcases c with _ | ⟨x, c⟩
      · simp only [List.nil_append, List.cons.injEq] at hc
        exact hc.2
      · simp only [List.cons_append, List.cons.injEq] at hc
        have : ev ∈ pre ++ x :: c := by rw [hc.1]; simp
        rw [hp ev this] at hf
        exact absurd hf (by simp)

/-- Claim C4. For every Transfer with at least one message and every behaviour
of the adapter, `i2c_rdwr` issues the STOP command, the single byte 0x70,
exactly once, and it is the last call made on the channel. -/
theorem i2c_rdwr_stop_once (add_pec : Bool) (dec : DecState) (chan : File) (msgs : List i2c_msg)
    (h : msgs ≠ []) :
    ∃ mid, (i2c_rdwr add_pec dec chan msgs).chan.log =
        chan.log ++ mid ++ [Ev.tx TxKind.stop [0x70]] ∧
      ∀ e ∈ mid, ∀ bs, e ≠ Ev.tx TxKind.stop bs := by
  obtain ⟨mid, h1, h2, _⟩ := i2c_rdwr_shape add_pec dec chan msgs h
  exact ⟨mid, h1, h2⟩

/-- Claim C7. If a status read after a START command or a write chunk is not
an acknowledgement, or a read of received bytes returns a count different from
the one asked for, then the only call `i2c_rdwr` makes on the channel after it
is the STOP byte, and `i2c_rdwr` returns false. -/
theorem i2c_rdwr_abort (add_pec : Bool) (dec : DecState) (chan : File) (msgs : List i2c_msg)
    (h : msgs ≠ []) (pre post : List Ev) (ev : Ev)
    (hlog : (i2c_rdwr add_pec dec chan msgs).chan.log = chan.log ++ pre ++ ev :: post)
    (hf : ev.failed = true) :
    post = [Ev.tx TxKind.stop [0x70]] ∧ (i2c_rdwr add_pec dec chan msgs).ok = false := by
  obtain ⟨mid, h1, _, h3⟩ := i2c_rdwr_shape add_pec dec chan msgs h
  have heq : mid ++ [Ev.tx TxKind.stop [0x70]] = pre ++ ev :: post := by
    rw [h1, List.append_assoc, List.append_assoc] at hlog
    exact List.append_cancel_left hlog
  obtain ⟨r1, r2⟩ := FailLast_split h3 (by simp [Ev.failed]) heq hf
  exact ⟨r1, by simpa using r2⟩

theorem i2c_rdwr_out (add_pec : Bool) (dec : DecState) (chan : File) (msgs : List i2c_msg)
    (h : msgs ≠ []) :
    (i2c_rdwr add_pec dec chan msgs).out =
      (decodeBytes dec (dumpFeed (i2c_rdwr add_pec dec chan msgs).msgs true)).2 ++
        (if add_pec then [Out.pec (i2c_rdwr add_pec dec chan msgs).pec] else []) ++ [Out.endl] := by
  have hl : ¬ msgs.length = 0 := by
    intro h0
    exact h (List.length_eq_zero.1 h0)
  unfold i2c_rdwr
  rw [if_neg hl]
  rfl

/-- Claim C5. `i2c_rdwr` writes the extra chunk `{0xC0, pec.sum()}` and reads
its status, right before STOP, if and only if `add_pec` is set, the message
loop ended without I/O error and no message with a buffer is a read (a write
of length 0 counts as a read); otherwise STOP follows the message loop
directly, and the message loop itself writes neither a PEC chunk nor STOP.  In
particular no PEC chunk is written once a message with a buffer is a read. -/
theorem i2c_rdwr_pec_chunk (add_pec : Bool) (dec : DecState) (chan : File) (msgs : List i2c_msg)
    (h : msgs ≠ []) :
    (∃ body, (atEnd add_pec chan msgs).chan.log = chan.log ++ body ∧
      ∀ e ∈ body, ∀ bs, e ≠ Ev.tx TxKind.pec bs ∧ e ≠ Ev.tx TxKind.stop bs) ∧
    ((add_pec = true ∧ (atEnd add_pec chan msgs).ioerror = false ∧
        ∀ msg ∈ msgs, msg.buf ≠ none → ¬ isReadMsg msg) →
      ∃ got, (i2c_rdwr add_pec dec chan msgs).chan.log = (atEnd add_pec chan msgs).chan.log ++
        [Ev.tx TxKind.pec [0xC0, (i2c_rdwr add_pec dec chan msgs).pec],
         Ev.rx RxKind.status 2 got, Ev.tx TxKind.stop [0x70]]) ∧
    (¬ (add_pec = true ∧ (atEnd add_pec chan msgs).ioerror = false ∧
        ∀ msg ∈ msgs, msg.buf ≠ none → ¬ isReadMsg msg) →
      (i2c_rdwr add_pec dec chan msgs).chan.log =
        (atEnd add_pec chan msgs).chan.log ++ [Ev.tx TxKind.stop [0x70]]) ∧
    ((∃ msg ∈ msgs, msg.buf ≠ none ∧ isReadMsg msg) →
      (i2c_rdwr add_pec dec chan msgs).chan.log =
        (atEnd add_pec chan msgs).chan.log ++ [Ev.tx TxKind.stop [0x70]]) := by
  obtain ⟨e1, e2, e3⟩ := i2c_rdwr_end add_pec dec chan msgs h (atEnd add_pec chan msgs) rfl
  obtain ⟨body, d1, d2, d3, _⟩ := drain_inv add_pec chan msgs
  change (atEnd add_pec chan msgs).chan.log = _ at d1
  change Trace (atEnd add_pec chan msgs).ioerror body at d2
  change (atEnd add_pec chan msgs).pec < 256 at d3
  obtain ⟨_, i2, i3⟩ := rdwrLoop_inv msgs
    { chan := (chan.read RxKind.drain 32).2, pec := 0, ioerror := false, do_add_pec := add_pec } rfl
  change _ → (atEnd add_pec chan msgs).ioerror = true ∨ (atEnd add_pec chan msgs).do_add_pec = false at i2
  change _ → (atEnd add_pec chan msgs).do_add_pec = add_pec at i3
  have key : ((atEnd add_pec chan msgs).do_add_pec = true ∧ (atEnd add_pec chan msgs).ioerror = false) ↔
      (add_pec = true ∧ (atEnd add_pec chan msgs).ioerror = false ∧
        ∀ msg ∈ msgs, msg.buf ≠ none → ¬ isReadMsg msg) := by
    constructor
    · rintro ⟨h1, h2⟩
      have hall : ∀ msg ∈ msgs, msg.buf ≠ none → ¬ isReadMsg msg := by
        intro m hm hmb hmr
        rcases i2 ⟨m, hm, hmb, hmr⟩ with h3 | h3
        · rw [h2] at h3; exact absurd h3 (by simp)
        · rw [h1] at h3; exact absurd h3 (by simp)
      exact ⟨by rw [← i3 hall]; exact h1, h2, hall⟩
    · rintro ⟨h1, h2, h3⟩
      exact ⟨by rw [i3 h3]; exact h1, h2⟩
  refine ⟨⟨Ev.rx RxKind.drain 32 (rxTake 32 chan.rx).1 :: body, d1, ?_⟩, ?_, ?_, ?_⟩
  · intro e he bs
    rcases List.mem_cons.1 he with rfl | he
    · simp
    · have := d2.1 e he
      constructor <;> (intro hc; rw [hc] at this; simp [Ev.isFinal] at this)
  · intro hc
    obtain ⟨l1, _⟩ := e2 (key.2 hc)
    refine ⟨(rxTake 2 (atEnd add_pec chan msgs).chan.rx).1, ?_⟩
    rw [l1, e1, Nat.mod_eq_of_lt d3]
  · intro hc
    exact (e3 (fun hk => hc (key.1 hk))).1
  · rintro ⟨m, hm, hmb, hmr⟩
    refine (e3 ?_).1
    rintro ⟨h1, h2⟩
    rcases i2 ⟨m, hm, hmb, hmr⟩ with h3 | h3
    · rw [h2] at h3; exact absurd h3 (by simp)
    · rw [h1] at h3; exact absurd h3 (by simp)

/-- The checksum `i2c_rdwr` holds when it finishes, for buffers that are
large enough and a channel of bytes, is the CRC-8 folded from 0 over the bytes
of its own log that cross the wire, in order.  It is the byte of the PEC
chunk, if one is written, and the byte passed to the echo. -/
theorem i2c_rdwr_pec_wire (add_pec : Bool) (dec : DecState) (chan : File) (msgs : List i2c_msg)
    (hbuf : ∀ msg ∈ msgs, ∀ buf, msg.buf = some buf → MsgOk msg buf)
    (hrx : ∀ b, some b ∈ chan.rx → b < 256) :
    ∃ body, (i2c_rdwr add_pec dec chan msgs).chan.log = chan.log ++ body ∧
      (i2c_rdwr add_pec dec chan msgs).pec = CRC_PEC.addBuf 0 (wire body) ∧
      (∀ bs, Ev.tx TxKind.pec bs ∈ body → bs = [0xC0, (i2c_rdwr add_pec dec chan msgs).pec]) ∧
      (msgs ≠ [] → add_pec = true →
        Out.pec (i2c_rdwr add_pec dec chan msgs).pec ∈ (i2c_rdwr add_pec dec chan msgs).out) := by
  by_cases h : msgs = []
  · subst h
    exact ⟨[], by simp [i2c_rdwr], by simp [i2c_rdwr, wire, CRC_PEC.addBuf], by simp,
      fun hn => absurd rfl hn⟩
  · obtain ⟨e1, e2, e3⟩ := i2c_rdwr_end add_pec dec chan msgs h (atEnd add_pec chan msgs) rfl
    obtain ⟨body, d1, d2, d3, d4⟩ := drain_inv add_pec chan msgs
    change (atEnd add_pec chan msgs).chan.log = _ at d1
    change Trace (atEnd add_pec chan msgs).ioerror body at d2
    change (atEnd add_pec chan msgs).pec < 256 at d3
    change _ → _ → (atEnd add_pec chan msgs).pec = _ at d4
    have hpec := d4 hbuf hrx
    have hnp : ∀ bs, Ev.tx TxKind.pec bs ∉ body := by
      intro bs hc
      have := d2.1 _ hc
      simp [Ev.isFinal] at this
    have hout : add_pec = true →
        Out.pec (i2c_rdwr add_pec dec chan msgs).pec ∈ (i2c_rdwr add_pec dec chan msgs).out := by
      intro ha
      rw [i2c_rdwr_out add_pec dec chan msgs h, ha]
      simp
    by_cases hc : (atEnd add_pec chan msgs).do_add_pec = true ∧ (atEnd add_pec chan msgs).ioerror = false
    · obtain ⟨l1, _⟩ := e2 hc
      refine ⟨Ev.rx RxKind.drain 32 (rxTake 32 chan.rx).1 :: body ++
        [Ev.tx TxKind.pec [0b11000000, (atEnd add_pec chan msgs).pec % 256],
         Ev.rx RxKind.status 2 (rxTake 2 (atEnd add_pec chan msgs).chan.rx).1,
         Ev.tx TxKind.stop [0x70]], ?_, ?_, ?_, fun _ => hout⟩
      · rw [l1, d1]; simp
      · rw [e1, hpec]
        simp [wire, wire_append]
      · intro bs hb
        simp only [List.cons_append, List.mem_cons, List.mem_append, List.mem_singleton,
          List.not_mem_nil, or_false, reduceCtorEq, false_or, Ev.tx.injEq, true_and] at hb
        rcases hb with hb | hb | hb
        · exact absurd hb (hnp bs)
        · rw [hb, e1, Nat.mod_eq_of_lt d3]
        · exact absurd hb.1 (by decide)
    · obtain ⟨l1, _⟩ := e3 hc
      refine ⟨Ev.rx RxKind.drain 32 (rxTake 32 chan.rx).1 :: body ++ [Ev.tx TxKind.stop [0x70]],
        ?_, ?_, ?_, fun _ => hout⟩
      · rw [l1, d1]; simp
      · rw [e1, hpec]
        simp [wire, wire_append]
      · intro bs hb
        simp only [List.cons_append, List.mem_cons, List.mem_append, List.mem_singleton,
          List.not_mem_nil, or_false, reduceCtorEq, false_or, Ev.tx.injEq] at hb
        rcases hb with hb | hb
        · exact absurd hb (hnp bs)
        · exact absurd hb.1 (by decide)

/-! ## Transfers that the adapter acknowledges -/

theorem txOf_append (a b : List Ev) : txOf (a ++ b) = txOf a ++ txOf b := by
  induction a with
  | nil => rfl
  | cons e a ih => cases e <;> simp [txOf, ih]

@[simp] theorem writeAll_tx (f : File) (k : TxKind) (bs : List Nat) :
    (f.writeAll k bs).tx = f.tx ++ [(k, bs)] := by
  simp [File.tx, txOf_append, txOf]

@[simp] theorem read_tx (f : File) (k : RxKind) (n : Nat) : (f.read k n).2.tx = f.tx := by
  simp [File.tx, txOf_append, txOf]

@[simp] theorem i2cdriverErr_tx (f : File) : (i2cdriverErr f).2.tx = f.tx := by
  simp [File.tx, txOf_append, txOf]

theorem i2cdriverErr_ack (f : File) (r rest : List (Option Nat)) (hr : IsAckReply r)
    (hrx : f.rx = r ++ rest) :
    (i2cdriverErr f).1 = false ∧ (i2cdriverErr f).2.rx = rest := by
  rw [i2cdriverErr_fst, i2cdriverErr_rx, hrx]
  rcases hr with rfl | rfl <;> simp [rxTake, isAck]

theorem ackAllSizes_spec (fuel : Nat) : ∀ len, len ≤ fuel →
    (∀ l ∈ ackAllSizes fuel len, 64 ≤ l ∧ l ≤ 255) ∧
    (ackAllSizes fuel len).sum ≤ len ∧
    len - (ackAllSizes fuel len).sum ≤ 64 ∧
    (1 ≤ len → 1 ≤ len - (ackAllSizes fuel len).sum) := by
  induction fuel with
  | zero =>
    intro len h
    simp only [ackAllSizes, List.not_mem_nil, false_implies, implies_true, List.sum_nil, true_and]
    omega
  | succ fuel ih =>
    intro len h
    unfold ackAllSizes
    by_cases hlen : len > 64
    · rw [if_pos hlen]
      generalize hl : (if len > 255 then 255 else len - 1) = l
      have hl1 : 64 ≤ l ∧ l ≤ 255 ∧ l < len := by
        rw [← hl]; split <;> omega
      obtain ⟨i1, i2, i3, i4⟩ := ih (len - l) (by omega)
      refine ⟨?_, ?_, ?_, ?_⟩
      · intro x hx
        rcases List.mem_cons.1 hx with rfl | hx
        · exact ⟨hl1.1, hl1.2.1⟩
        · exact i1 x hx
      · simp only [List.sum_cons]; omega
      · simp only [List.sum_cons]; omega
      · intro _
        simp only [List.sum_cons]
        have := i4 (by omega)
        omega
    · rw [if_neg hlen]
      simp only [List.not_mem_nil, false_implies, implies_true, List.sum_nil, true_and]
      omega

theorem ackAllLoop_good (fuel : Nat) : ∀ (s : Loc) (data : List Nat) (rest : List (Option Nat))
    (pre post : List Nat), s.chan.rx = data.map some ++ rest → data.length = s.len →
    s.buf = pre ++ post → pre.length = s.datidx → post.length = s.len → s.len ≤ fuel →
    s.ioerror = false →
    (ackAllLoop fuel s).ioerror = false ∧
    (ackAllLoop fuel s).chan.tx =
      s.chan.tx ++ (ackAllSizes fuel s.len).map (fun l => (TxKind.readAck, [0x61, l])) ∧
    (ackAllLoop fuel s).len = s.len - (ackAllSizes fuel s.len).sum ∧
    (ackAllLoop fuel s).datidx = s.datidx + (ackAllSizes fuel s.len).sum ∧
    (ackAllLoop fuel s).buf = pre ++ data.take (ackAllSizes fuel s.len).sum ++
      post.drop (ackAllSizes fuel s.len).sum ∧
    (ackAllLoop fuel s).chan.rx = (data.drop (ackAllSizes fuel s.len).sum).map some ++ rest := by
  induction fuel with
  | zero =>
    intro s data rest pre post h1 h2 h3 h4 h5 h6 h7
    simp [ackAllLoop, ackAllSizes, h7, h1, h3]
  | succ fuel ih =>
    intro s data rest pre post h1 h2 h3 h4 h5 h6 h7
    unfold ackAllLoop ackAllSizes
    by_cases hlen : s.len > 64
    · simp only [hlen, ↓reduceIte]
      generalize hl : (if s.len > 255 then 255 else s.len - 1) = l
      have hl1 : 64 ≤ l ∧ l ≤ 255 ∧ l < s.len := by
        rw [← hl]; split <;> omega
      have hrx : rxTake l s.chan.rx = (data.take l, (data.drop l).map some ++ rest) := by
        rw [h1]; exact rxTake_data data rest l (by omega)
      have hgot : (data.take l).length = l := by
        rw [List.length_take]; omega
      have hst : store s.buf s.datidx (data.take l) = (pre ++ data.take l) ++ post.drop l := by
        rw [store, h3, ← h4, List.take_left' rfl, List.drop_append, hgot]
      simp only [read_got, writeAll_rx, hrx, hgot, ne_eq, not_true_eq_false, ↓reduceIte]
      obtain ⟨i1, i2, i3, i4, i5, i6⟩ := ih
        { chan := ((s.chan.writeAll TxKind.readAck [0x61, l % 256]).read RxKind.data l).2, pec := CRC_PEC.addBuf s.pec (((store s.buf s.datidx (data.take l)).drop s.datidx).take l), buf := store s.buf s.datidx (data.take l), len := s.len - l, datidx := s.datidx + l, ioerror := false }
        (data.drop l) rest (pre ++ data.take l) (post.drop l)
        (by simp [hrx]) (by simp; omega) hst (by simp [hgot, h4]) (by simp; omega)
        (by simp only; omega) rfl
      simp only [read_tx, writeAll_tx] at i2
      refine ⟨i1, ?_, ?_, ?_, ?_, ?_⟩
      · rw [i2, Nat.mod_eq_of_lt (by omega : l < 256)]; simp
      · rw [i3]; simp only [List.sum_cons]; omega
      · rw [i4]; simp only [List.sum_cons]; omega
      · rw [i5]
        simp only [List.sum_cons, List.append_assoc, List.drop_drop, List.append_cancel_left_eq]
        rw [← List.append_assoc, List.take_add]
      · rw [i6]
        simp only [List.sum_cons, List.drop_drop, Nat.add_comm]
    · simp [hlen, h7, h1, h3]

theorem nack_cmd : ∀ j, j < 64 → ((j ||| 0b10000000) % 256 = 0x80 ||| j ∧ 0x80 ≤ (0x80 ||| j) ∧
    (0x80 ||| j) ≤ 0xBF) := by
  decide

theorem rdwrMsg_read_good (st : RdwrState) (msg : i2c_msg) (buf data : List Nat)
    (ack rest : List (Option Nat)) (n : Nat) (hn : 1 ≤ n) (hlen : msg.len = n)
    (hrd : msg.flags &&& I2C_M_RD ≠ 0) (hfix : msg.flags &&& I2C_M_RECV_LEN = 0)
    (hbuf : buf.length = n) (hdata : data.length = n) (hack : IsAckReply ack)
    (hrx : st.chan.rx = ack ++ (data.map some ++ rest)) :
    (rdwrMsg st msg buf).1.chan.tx = st.chan.tx ++
      [(TxKind.start, [0x73, ((msg.addr <<< 1) ||| (msg.flags &&& I2C_M_RD)) % 256])] ++
      (ackAllSizes n n).map (fun l => (TxKind.readAck, [0x61, l])) ++
      [(TxKind.readNack, [0x80 ||| (n - (ackAllSizes n n).sum - 1)])] ∧
    (rdwrMsg st msg buf).2.1 = { msg with buf := some data } ∧
    (rdwrMsg st msg buf).1.ioerror = false ∧
    (rdwrMsg st msg buf).1.do_add_pec = false ∧
    (rdwrMsg st msg buf).2.2 = false ∧
    (rdwrMsg st msg buf).1.chan.rx = rest := by
  have hn0 : ¬ msg.len = 0 := by omega
  obtain ⟨s1, s2, s3, s4⟩ := ackAllSizes_spec n n (le_refl n)
  unfold rdwrMsg
  dsimp only
  rw [if_neg hn0]
  generalize ((msg.addr <<< 1) ||| (msg.flags &&& I2C_M_RD)) % 256 = ab
  obtain ⟨a1, a2⟩ := i2cdriverErr_ack (st.chan.writeAll TxKind.start [0x73, ab]) ack
    (data.map some ++ rest) hack (by simpa using hrx)
  have a3 : (i2cdriverErr (st.chan.writeAll TxKind.start [0x73, ab])).2.tx =
      st.chan.tx ++ [(TxKind.start, [0x73, ab])] := by simp
  generalize i2cdriverErr (st.chan.writeAll TxKind.start [0x73, ab]) = e at a1 a2 a3 ⊢
  rw [a1]
  simp only [Bool.false_eq_true, ↓reduceIte]
  rw [if_pos hrd]
  unfold rdwrRead
  dsimp only
  have hfix2 : ¬ (msg.flags &&& I2C_M_RECV_LEN ≠ 0) := by simpa using hfix
  rw [if_neg hfix2]
  simp only [Bool.false_eq_true, ↓reduceIte, hn0]
  obtain ⟨g1, g2, g3, g4, g5, g6⟩ := ackAllLoop_good msg.len
    { chan := e.2, pec := CRC_PEC.add st.pec ab, buf := buf, len := msg.len, datidx := 0, ioerror := false }
    data rest [] buf a2 (by rw [hdata, hlen]) rfl rfl (by rw [hbuf, hlen]) (le_refl _) rfl
  simp only [hlen] at g1 g2 g3 g4 g5 g6 ⊢
  generalize ackAllLoop n { chan := e.2, pec := CRC_PEC.add st.pec ab, buf := buf, len := n, datidx := 0, ioerror := false } = t at g1 g2 g3 g4 g5 g6 ⊢
  rw [g1]
  simp only [Bool.false_eq_true, ↓reduceIte]
  have hk := s4 hn
  have hrxk : rxTake t.len t.chan.rx = (data.drop (ackAllSizes n n).sum, rest) := by
    rw [g6, g3]
    have := rxTake_data (data.drop (ackAllSizes n n).sum) rest (n - (ackAllSizes n n).sum)
      (by rw [List.length_drop, hdata])
    rw [this]
    simp only [List.drop_drop, Prod.mk.injEq, List.append_left_eq_self, List.map_eq_nil_iff,
      and_true]
    constructor
    · rw [List.take_of_length_le]
      rw [List.length_drop, hdata]
    · rw [List.drop_eq_nil_iff]
      omega
  have hgot : (data.drop (ackAllSizes n n).sum).length = t.len := by
    rw [List.length_drop, hdata, g3]
  have hstore : store t.buf t.datidx (data.drop (ackAllSizes n n).sum) = data := by
    have hpre : (data.take (ackAllSizes n n).sum).length = t.datidx := by
      rw [List.length_take, hdata, g4]; omega
    rw [store, g5]
    simp only [List.nil_append]
    rw [← hpre, List.take_left' rfl, List.drop_append, hgot, g3]
    have hnil : List.drop (n - (ackAllSizes n n).sum) (List.drop (ackAllSizes n n).sum buf) = [] := by
      apply List.drop_eq_nil_of_le
      rw [List.length_drop, hbuf]
    rw [hnil]
    simp
  unfold finalNack
  simp only [read_got, writeAll_rx, hrxk, hgot, ne_eq, not_true_eq_false, ↓reduceIte, readExit,
    hstore, read_tx, writeAll_tx, read_rx, g2, a3, and_self, and_true]
  rw [g3, (nack_cmd (n - (ackAllSizes n n).sum - 1) (by omega)).1]
  simp only [List.append_assoc, and_self, true_and]
  rw [hlen]

theorem rdwrLoop_single (st : RdwrState) (msg : i2c_msg) (buf : List Nat)
    (hb : msg.buf = some buf) :
    rdwrLoop [msg] st = ((rdwrMsg st msg buf).1, [(rdwrMsg st msg buf).2.1]) := by
  simp only [rdwrLoop, hb]
  split <;> rfl

theorem i2c_rdwr_single (add_pec : Bool) (dec : DecState) (chan : File) (msg : i2c_msg)
    (buf : List Nat) (hb : msg.buf = some buf) (rx1 : List (Option Nat))
    (hrx : chan.rx = none :: rx1) :
    ∃ st : RdwrState, st.chan.tx = chan.tx ∧ st.chan.rx = rx1 ∧ st.do_add_pec = add_pec ∧
      st.pec = 0 ∧
      atEnd add_pec chan [msg] = (rdwrMsg st msg buf).1 ∧
      (i2c_rdwr add_pec dec chan [msg]).msgs = [(rdwrMsg st msg buf).2.1] := by
  refine ⟨{ chan := (chan.read RxKind.drain 32).2, pec := 0, ioerror := false, do_add_pec := add_pec },
    by simp, by simp [hrx, rxTake], rfl, rfl, ?_, ?_⟩
  · rw [atEnd, rdwrLoop_single _ msg buf hb]
  · unfold i2c_rdwr
    rw [if_neg (by simp)]
    dsimp only
    rw [rdwrLoop_single _ msg buf hb]

theorem i2c_rdwr_no_pec (add_pec : Bool) (dec : DecState) (chan : File) (msgs : List i2c_msg)
    (h : msgs ≠ []) (hp : (atEnd add_pec chan msgs).do_add_pec = false) :
    (i2c_rdwr add_pec dec chan msgs).chan.tx = (atEnd add_pec chan msgs).chan.tx ++
      [(TxKind.stop, [0x70])] ∧
    (i2c_rdwr add_pec dec chan msgs).ok = !(atEnd add_pec chan msgs).ioerror := by
  obtain ⟨_, _, e3⟩ := i2c_rdwr_end add_pec dec chan msgs h (atEnd add_pec chan msgs) rfl
  obtain ⟨l1, l2⟩ := e3 (by rw [hp]; simp)
  refine ⟨?_, l2⟩
  rw [File.tx, l1, txOf_append]
  rfl

/-- Claim C2. For a fixed-length read message of `n` bytes, `1 <= n <= 65535`,
on a channel that acknowledges the START and delivers the `n` bytes `data`,
the body of the message loop of `i2c_rdwr` (`rdwrMsg`, from any state `st`)
writes the START command, then ACK-all commands `{0x61, l}` with lengths `ls`,
`1 <= l <= 255`, then exactly one final-NACK command `0x80|(k-1)` with
`1 <= k <= 64`, a byte in `0x80..0xBF`; the lengths sum to `n`, the ACK-all
commands leave the last byte, and the message's buffer holds `data` in order.
`i2c_rdwr` on the Transfer of that one message writes exactly these commands
and STOP and returns true.  For `n = 300` the commands are `{0x61, 255}` and
`0x80|44`. -/
theorem i2c_rdwr_read_chunks (msg : i2c_msg) (buf data : List Nat) (ack rest : List (Option Nat))
    (n : Nat) (hn : 1 ≤ n ∧ n ≤ 65535) (hlen : msg.len = n) (hmb : msg.buf = some buf)
    (hrd : msg.flags &&& I2C_M_RD ≠ 0) (hfix : msg.flags &&& I2C_M_RECV_LEN = 0)
    (hbuf : buf.length = n) (hdata : data.length = n) (hack : IsAckReply ack) :
    ∃ (ls : List Nat) (k : Nat),
      (∀ l ∈ ls, 1 ≤ l ∧ l ≤ 255) ∧ 1 ≤ k ∧ k ≤ 64 ∧
      0x80 ≤ (0x80 ||| (k - 1)) ∧ (0x80 ||| (k - 1)) ≤ 0xBF ∧
      ls.sum + k = n ∧ ls.sum < n ∧
      (n = 300 → ls = [255] ∧ k = 45) ∧
      (∀ st : RdwrState, st.chan.rx = ack ++ (data.map some ++ rest) →
        (rdwrMsg st msg buf).1.chan.tx = st.chan.tx ++
          [(TxKind.start, [0x73, ((msg.addr <<< 1) ||| (msg.flags &&& I2C_M_RD)) % 256])] ++
          ls.map (fun l => (TxKind.readAck, [0x61, l])) ++
          [(TxKind.readNack, [0x80 ||| (k - 1)])] ∧
        (rdwrMsg st msg buf).2.1 = { msg with buf := some data } ∧
        (rdwrMsg st msg buf).1.ioerror = false ∧
        (rdwrMsg st msg buf).2.2 = false ∧
        (rdwrMsg st msg buf).1.chan.rx = rest) ∧
      (∀ (add_pec : Bool) (dec : DecState) (chan : File),
        chan.rx = none :: (ack ++ (data.map some ++ rest)) →
        (i2c_rdwr add_pec dec chan [msg]).chan.tx = chan.tx ++
          [(TxKind.start, [0x73, ((msg.addr <<< 1) ||| (msg.flags &&& I2C_M_RD)) % 256])] ++
          ls.map (fun l => (TxKind.readAck, [0x61, l])) ++
          [(TxKind.readNack, [0x80 ||| (k - 1)]), (TxKind.stop, [0x70])] ∧
        (i2c_rdwr add_pec dec chan [msg]).msgs = [{ msg with buf := some data }] ∧
        (i2c_rdwr add_pec dec chan [msg]).ok = true) := by
  obtain ⟨s1, s2, s3, s4⟩ := ackAllSizes_spec n n (le_refl n)
  have hk := s4 hn.1
  obtain ⟨_, c2, c3⟩ := nack_cmd (n - (ackAllSizes n n).sum - 1) (by omega)
  refine ⟨ackAllSizes n n, n - (ackAllSizes n n).sum, ?_, hk, s3, c2, c3, by omega, by omega,
    ?_, ?_, ?_⟩
  · intro l hl
    have := s1 l hl
    omega
  · intro h300
    subst h300
    decide
  · intro st hrx
    obtain ⟨g1, g2, g3, _, g5, g6⟩ :=
      rdwrMsg_read_good st msg buf data ack rest n hn.1 hlen hrd hfix hbuf hdata hack hrx
    exact ⟨g1, g2, g3, g5, g6⟩
  · intro add_pec dec chan hrx
    obtain ⟨st, t1, t2, _, _, t5, t6⟩ := i2c_rdwr_single add_pec dec chan msg buf hmb _ hrx
    obtain ⟨g1, g2, g3, g4, g5, g6⟩ :=
      rdwrMsg_read_good st msg buf data ack rest n hn.1 hlen hrd hfix hbuf hdata hack t2
    obtain ⟨n1, n2⟩ := i2c_rdwr_no_pec add_pec dec chan [msg] (by simp) (by rw [t5]; exact g4)
    refine ⟨?_, by rw [t6, g2], by rw [n2, t5, g3]; rfl⟩
    rw [n1, t5, g1, t1]
    simp

theorem write_cmd : ∀ j, j < 64 → (j ||| 0b11000000) % 256 = 0xC0 ||| j := by
  decide

theorem writeSizes_zero (fuel : Nat) : writeSizes fuel 0 = [] := by
  cases fuel <;> simp [writeSizes]

theorem writeSizes_spec (fuel : Nat) : ∀ len, len ≤ fuel →
    (writeSizes fuel len).length = (len + 63) / 64 ∧
    (∀ l ∈ writeSizes fuel len, 1 ≤ l ∧ l ≤ 64) ∧
    (∀ l ∈ (writeSizes fuel len).dropLast, l = 64) ∧
    (writeSizes fuel len).sum = len := by
  induction fuel with
  | zero =>
    intro len h
    have : len = 0 := by omega
    subst this
    simp [writeSizes]
  | succ fuel ih =>
    intro len h
    unfold writeSizes
    by_cases hlen : len > 0
    · rw [if_pos hlen]
      by_cases h64 : len > 64
      · simp only [h64, ↓reduceIte]
        obtain ⟨i1, i2, i3, i4⟩ := ih (len - 64) (by omega)
        have hne : writeSizes fuel (len - 64) ≠ [] := by
          intro hc
          rw [hc] at i1
          simp only [List.length_nil] at i1
          omega
        refine ⟨?_, ?_, ?_, ?_⟩
        · simp only [List.length_cons, i1]; omega
        · intro l hl
          rcases List.mem_cons.1 hl with rfl | hl
          · omega
          · exact i2 l hl
        · intro l hl
          rw [List.dropLast_cons_of_ne_nil hne] at hl
          rcases List.mem_cons.1 hl with rfl | hl
          · rfl
          · exact i3 l hl
        · simp only [List.sum_cons, i4]; omega
      · simp only [h64, ↓reduceIte, Nat.sub_self, writeSizes_zero]
        refine ⟨?_, ?_, ?_, ?_⟩
        · simp only [List.length_singleton]; omega
        · intro l hl
          simp only [List.mem_singleton] at hl
          omega
        · simp
        · simp
    · rw [if_neg hlen]
      have : len = 0 := by omega
      subst this
      simp

theorem payloadsOf_writeChunks (ls : List Nat) : ∀ data : List Nat,
    payloadsOf (writeChunks ls data) = data.take ls.sum := by
  induction ls with
  | nil => intro data; simp [writeChunks, payloadsOf]
  | cons l ls ih =>
    intro data
    simp only [writeChunks, payloadsOf, ih, List.sum_cons]
    rw [List.take_add]

theorem writeLoop_good (fuel : Nat) : ∀ (s : Loc) (acks : List (List (Option Nat)))
    (rest : List (Option Nat)), s.ioerror = false → s.len ≤ fuel →
    (∀ a ∈ acks, IsAckReply a) → acks.length = (writeSizes fuel s.len).length →
    s.chan.rx = acks.flatten ++ rest →
    (writeLoop fuel s).ioerror = false ∧
    (writeLoop fuel s).chan.tx =
      s.chan.tx ++ writeChunks (writeSizes fuel s.len) (s.buf.drop s.datidx) ∧
    (writeLoop fuel s).chan.rx = rest := by
  induction fuel with
  | zero =>
    intro s acks rest h1 h2 h3 h4 h5
    simp only [writeSizes, List.length_nil, List.length_eq_zero] at h4
    subst h4
    simp [writeLoop, writeSizes, writeChunks, h1, h5]
  | succ fuel ih =>
    intro s acks rest h1 h2 h3 h4 h5
    unfold writeLoop
    unfold writeSizes at h4 ⊢
    by_cases hlen : s.len > 0
    · simp only [hlen, ↓reduceIte] at h4 ⊢
      generalize hl : (if s.len > 64 then 64 else s.len) = l at h4 ⊢
      have hl1 : 1 ≤ l ∧ l ≤ 64 ∧ l ≤ s.len := by
        rw [← hl]; split <;> omega
      rcases acks with _ | ⟨a, acks⟩
      · simp at h4
      have ha := h3 a (List.mem_cons_self _ _)
      obtain ⟨e1, e2⟩ := i2cdriverErr_ack
        ((s.chan.writeAll TxKind.writeCmd [((l - 1) ||| 0b11000000) % 256]).writeAll TxKind.payload ((s.buf.drop s.datidx).take l))
        a (acks.flatten ++ rest) ha (by simpa using h5)
      rw [e1]
      simp only [Bool.false_eq_true, ↓reduceIte]
      obtain ⟨i1, i2, i3⟩ := ih
        { s with chan := (i2cdriverErr ((s.chan.writeAll TxKind.writeCmd [((l - 1) ||| 0b11000000) % 256]).writeAll TxKind.payload ((s.buf.drop s.datidx).take l))).2, pec := CRC_PEC.addBuf s.pec ((s.buf.drop s.datidx).take l), len := s.len - l, datidx := s.datidx + l, ioerror := false }
        acks rest rfl (by simp only; omega) (fun x hx => h3 x (List.mem_cons_of_mem _ hx))
        (by simpa using h4) e2
      refine ⟨i1, ?_, i3⟩
      rw [i2]
      simp only [i2cdriverErr_tx, writeAll_tx, writeChunks, List.append_assoc, List.cons_append,
        List.nil_append, List.drop_drop]
      rw [write_cmd (l - 1) (by omega)]
    · simp only [hlen, ↓reduceIte, List.length_nil, List.length_eq_zero] at h4 ⊢
      subst h4
      simp [writeChunks, h1, h5]

theorem rdwrMsg_write_good (st : RdwrState) (msg : i2c_msg) (buf : List Nat)
    (ack0 : List (Option Nat)) (acks : List (List (Option Nat))) (rest : List (Option Nat))
    (n : Nat) (hn : 1 ≤ n) (hlen : msg.len = n) (hwr : msg.flags &&& I2C_M_RD = 0)
    (hack0 : IsAckReply ack0) (hacks : ∀ a ∈ acks, IsAckReply a)
    (hcount : acks.length = (n + 63) / 64)
    (hrx : st.chan.rx = ack0 ++ (acks.flatten ++ rest)) :
    (rdwrMsg st msg buf).1.chan.tx = st.chan.tx ++
      [(TxKind.start, [0x73, ((msg.addr <<< 1) ||| (msg.flags &&& I2C_M_RD)) % 256])] ++
      writeChunks (writeSizes n n) buf ∧
    (rdwrMsg st msg buf).2.1 = msg ∧
    (rdwrMsg st msg buf).1.ioerror = false ∧
    (rdwrMsg st msg buf).1.do_add_pec = st.do_add_pec ∧
    (rdwrMsg st msg buf).2.2 = false ∧
    (rdwrMsg st msg buf).1.chan.rx = rest := by
  have hn0 : ¬ msg.len = 0 := by omega
  obtain ⟨s1, _, _, _⟩ := writeSizes_spec n n (le_refl n)
  unfold rdwrMsg
  dsimp only
  rw [if_neg hn0]
  generalize ((msg.addr <<< 1) ||| (msg.flags &&& I2C_M_RD)) % 256 = ab
  obtain ⟨a1, a2⟩ := i2cdriverErr_ack (st.chan.writeAll TxKind.start [0x73, ab]) ack0
    (acks.flatten ++ rest) hack0 (by simpa using hrx)
  have a3 : (i2cdriverErr (st.chan.writeAll TxKind.start [0x73, ab])).2.tx =
      st.chan.tx ++ [(TxKind.start, [0x73, ab])] := by simp
  generalize i2cdriverErr (st.chan.writeAll TxKind.start [0x73, ab]) = e at a1 a2 a3 ⊢
  rw [a1]
  simp only [Bool.false_eq_true, ↓reduceIte]
  have hwr2 : ¬ (msg.flags &&& I2C_M_RD ≠ 0) := by simpa using hwr
  rw [if_neg hwr2]
  obtain ⟨g1, g2, g3⟩ := writeLoop_good msg.len
    { chan := e.2, pec := CRC_PEC.add st.pec ab, buf := buf, len := msg.len, datidx := 0, ioerror := false }
    acks rest rfl (le_refl _) hacks (by simp only [hlen, s1, hcount]) a2
  simp only [hlen] at g1 g2 g3 ⊢
  simp only [g1, g2, g3, a3, List.drop_zero, and_self, and_true]

/-- Claim C3. For a write message of `n >= 1` bytes, `n <= 65535`, whose START
and chunks are all acknowledged, the body of the message loop of `i2c_rdwr`
(`rdwrMsg`, from any state `st`) writes the START command and then exactly
`ceil(n/64)` chunks: each a command byte `0xC0|(l-1)` followed by `l` payload
bytes, `1 <= l <= 64`, every chunk but the last with `l = 64`, and the
payloads concatenated are the `n` bytes of the message in order.  `i2c_rdwr`
without PEC on the Transfer of that one message writes exactly these calls and
STOP and returns true. -/
theorem i2c_rdwr_write_chunks (msg : i2c_msg) (buf : List Nat) (ack0 : List (Option Nat))
    (acks : List (List (Option Nat))) (rest : List (Option Nat)) (n : Nat)
    (hn : 1 ≤ n ∧ n ≤ 65535) (hlen : msg.len = n) (hmb : msg.buf = some buf)
    (hwr : msg.flags &&& I2C_M_RD = 0) (hbuf : buf.length = n)
    (hack0 : IsAckReply ack0) (hacks : ∀ a ∈ acks, IsAckReply a)
    (hcount : acks.length = (n + 63) / 64) :
    ∃ ls : List Nat,
      ls.length = (n + 63) / 64 ∧ (∀ l ∈ ls, 1 ≤ l ∧ l ≤ 64) ∧ (∀ l ∈ ls.dropLast, l = 64) ∧
      ls.sum = n ∧ payloadsOf (writeChunks ls buf) = buf ∧
      (writeChunks ls buf).length = 2 * ((n + 63) / 64) ∧
      (∀ st : RdwrState, st.chan.rx = ack0 ++ (acks.flatten ++ rest) →
        (rdwrMsg st msg buf).1.chan.tx = st.chan.tx ++
          [(TxKind.start, [0x73, ((msg.addr <<< 1) ||| (msg.flags &&& I2C_M_RD)) % 256])] ++
          writeChunks ls buf ∧
        (rdwrMsg st msg buf).1.ioerror = false ∧
        (rdwrMsg st msg buf).2.2 = false ∧
        (rdwrMsg st msg buf).1.chan.rx = rest) ∧
      (∀ (dec : DecState) (chan : File), chan.rx = none :: (ack0 ++ (acks.flatten ++ rest)) →
        (i2c_rdwr false dec chan [msg]).chan.tx = chan.tx ++
          [(TxKind.start, [0x73, ((msg.addr <<< 1) ||| (msg.flags &&& I2C_M_RD)) % 256])] ++
          writeChunks ls buf ++ [(TxKind.stop, [0x70])] ∧
        (i2c_rdwr false dec chan [msg]).ok = true) := by
  obtain ⟨s1, s2, s3, s4⟩ := writeSizes_spec n n (le_refl n)
  have hlenc : ∀ (ls : List Nat) (data : List Nat), (writeChunks ls data).length = 2 * ls.length := by
    intro ls
    induction ls with
    | nil => intro data; rfl
    | cons l ls ih => intro data; simp only [writeChunks, List.length_cons, ih]; omega
  refine ⟨writeSizes n n, s1, s2, s3, s4, ?_, by rw [hlenc, s1], ?_, ?_⟩
  · rw [payloadsOf_writeChunks, s4, ← hbuf, List.take_length]
  · intro st hrx
    obtain ⟨g1, _, g3, _, g5, g6⟩ :=
      rdwrMsg_write_good st msg buf ack0 acks rest n hn.1 hlen hwr hack0 hacks hcount hrx
    exact ⟨g1, g3, g5, g6⟩
  · intro dec chan hrx
    obtain ⟨st, t1, t2, t3, _, t5, _⟩ := i2c_rdwr_single false dec chan msg buf hmb _ hrx
    obtain ⟨g1, _, g3, g4, _, _⟩ :=
      rdwrMsg_write_good st msg buf ack0 acks rest n hn.1 hlen hwr hack0 hacks hcount t2
    obtain ⟨n1, n2⟩ := i2c_rdwr_no_pec false dec chan [msg] (by simp)
      (by rw [t5, g4]; exact t3)
    refine ⟨?_, by rw [n2, t5, g3]; rfl⟩
    rw [n1, t5, g1, t1]

/-! ## The echo: i2c_rdwr_dump read back by decodeCapture -/

theorem decodeBytes_eq (st : DecState) (ds : List Nat) :
    decodeBytes st ds = decodeNibbles st (ds.flatMap nibblesOf) := by
  induction ds generalizing st with
  | nil => rfl
  | cons d ds ih =>
    simp only [decodeBytes, List.flatMap_cons, decodeNibbles_append, ih, decodeCapture]

set_option maxRecDepth 100000 in
theorem nibblesOf_pack : ∀ p, p < 16 → ∀ q, q < 16 → nibblesOf (((p <<< 4) ||| q) % 256) = [p, q] := by
  decide

set_option maxRecDepth 100000 in
theorem delayed_pack : ∀ c, c < 16 → 8 ≤ c →
    ((c <<< 4) ||| 1) % 256 = c * 16 + 1 ∧ nibblesOf (c * 16 + 1) = [c, 1] ∧
    nibblesOf ((c * 16 + 1 + 1) % 256) = [c, 2] ∧ pend (c * 16 + 1) = [c] := by
  decide

set_option maxRecDepth 1000000 in
theorem dumpTriple_fin : ∀ x, x < 256 → ∀ rd, rd < 2 → ∀ last : Bool,
    (8 ≤ (dumpTriple rd (if last then 1 else 2) x).1 ∧ (dumpTriple rd (if last then 1 else 2) x).1 ≤ 15) ∧
    (8 ≤ (dumpTriple rd (if last then 1 else 2) x).2.1 ∧ (dumpTriple rd (if last then 1 else 2) x).2.1 ≤ 15) ∧
    (8 ≤ (dumpTriple rd (if last then 1 else 2) x).2.2 ∧ (dumpTriple rd (if last then 1 else 2) x).2.2 ≤ 15) ∧
    groupValue (dumpTriple rd (if last then 1 else 2) x).1 (dumpTriple rd (if last then 1 else 2) x).2.1
      (dumpTriple rd (if last then 1 else 2) x).2.2 = 2 * x + (if last then rd else 0) := by
  decide

theorem dumpTriple_len (rd len x : Nat) :
    dumpTriple rd len x = dumpTriple rd (if decide (len = 1) then 1 else 2) x := by
  unfold dumpTriple
  by_cases h : len = 1
  · simp [h]
  · simp [h]

theorem dumpTriple_range (rd len x : Nat) (hx : x < 256) (hrd : rd < 2) :
    (8 ≤ (dumpTriple rd len x).1 ∧ (dumpTriple rd len x).1 ≤ 15) ∧
    (8 ≤ (dumpTriple rd len x).2.1 ∧ (dumpTriple rd len x).2.1 ≤ 15) ∧
    (8 ≤ (dumpTriple rd len x).2.2 ∧ (dumpTriple rd len x).2.2 ≤ 15) ∧
    groupValue (dumpTriple rd len x).1 (dumpTriple rd len x).2.1 (dumpTriple rd len x).2.2 =
      2 * x + (if len = 1 then rd else 0) := by
  rw [dumpTriple_len]
  have := dumpTriple_fin x hx rd hrd (decide (len = 1))
  simpa using this

theorem headD_lt (buf : List Nat) (h : ∀ x ∈ buf, x < 256) : buf.headD 0 < 256 := by
  cases buf with
  | nil => simp
  | cons x xs => exact h x (List.mem_cons_self _ _)

theorem tail_lt (buf : List Nat) (h : ∀ x ∈ buf, x < 256) : ∀ x ∈ buf.tail, x < 256 :=
  fun x hx => h x (List.mem_of_mem_tail hx)

theorem dumpLoop_nibs (rd : Nat) (hrd : rd < 2) : ∀ (len : Nat) (a b c : Nat) (buf : List Nat),
    (8 ≤ a ∧ a ≤ 15) → (8 ≤ b ∧ b ≤ 15) → (8 ≤ c ∧ c ≤ 15) → (∀ x ∈ buf, x < 256) →
    ((dumpLoop rd len false a b c buf).1.flatMap nibblesOf ++ pend (dumpLoop rd len false a b c buf).2 =
        [a, b, c] ++ dataNibs rd len buf ∧ DelayedOk (dumpLoop rd len false a b c buf).2) ∧
    ((dumpLoop rd len true a b c buf).1.flatMap nibblesOf ++ pend (dumpLoop rd len true a b c buf).2 =
        dataNibs rd len buf ∧ DelayedOk (dumpLoop rd len true a b c buf).2) := by
  intro len
  induction len with
  | zero =>
    intro a b c buf ha hb hc _
    obtain ⟨d1, _, _, d4⟩ := delayed_pack c (by omega) hc.1
    refine ⟨⟨?_, Or.inr ⟨c, hc.1, hc.2, ?_⟩⟩, ?_, Or.inl rfl⟩
    · simp only [dumpLoop, List.flatMap_cons, List.flatMap_nil, List.append_nil, dataNibs, d1, d4,
        nibblesOf_pack a (by omega) b (by omega)]
      rfl
    · simp only [dumpLoop, d1]
    · simp [dumpLoop, dataNibs, pend]
  | succ len ih =>
    intro a b c buf ha hb hc hbuf
    obtain ⟨t1, t2, t3, _⟩ := dumpTriple_range rd (len + 1) (buf.headD 0) (headD_lt buf hbuf) hrd
    obtain ⟨⟨_, _⟩, ⟨i3, i4⟩⟩ := ih (dumpTriple rd (len + 1) (buf.headD 0)).1
      (dumpTriple rd (len + 1) (buf.headD 0)).2.1 (dumpTriple rd (len + 1) (buf.headD 0)).2.2 buf.tail
      t1 t2 t3 (tail_lt buf hbuf)
    obtain ⟨⟨j1, j2⟩, _⟩ := ih (dumpTriple rd (len + 1) (buf.headD 0)).1
      (dumpTriple rd (len + 1) (buf.headD 0)).2.1 (dumpTriple rd (len + 1) (buf.headD 0)).2.2 buf.tail
      t1 t2 t3 (tail_lt buf hbuf)
    refine ⟨⟨?_, ?_⟩, ?_, ?_⟩
    · simp only [dumpLoop, List.flatMap_append, List.flatMap_cons, List.flatMap_nil,
        List.append_nil, dataNibs, List.append_assoc, i3,
        nibblesOf_pack a (by omega) b (by omega),
        nibblesOf_pack c (by omega) _ (by omega : (dumpTriple rd (len + 1) (buf.headD 0)).1 < 16),
        nibblesOf_pack _ (by omega : (dumpTriple rd (len + 1) (buf.headD 0)).2.1 < 16) _
          (by omega : (dumpTriple rd (len + 1) (buf.headD 0)).2.2 < 16)]
      rfl
    · simpa only [dumpLoop] using i4
    · simpa only [dumpLoop, dataNibs] using j1
    · simpa only [dumpLoop] using j2

set_option maxRecDepth 1000000 in
theorem addrNibs_fin : ∀ addr, addr < 128 → ∀ rd, rd < 2 →
    ∃ a b c, addrNibs addr rd = [a, b, c] ∧ (8 ≤ a ∧ a ≤ 15) ∧ (8 ≤ b ∧ b ≤ 15) ∧
      (8 ≤ c ∧ c ≤ 15) ∧ groupValue a b c = 4 * addr + 2 * rd := by
  intro addr ha rd hr
  refine ⟨_, _, _, rfl, ?_⟩
  revert rd
  revert addr
  decide

theorem rd_lt (flags : Nat) : flags &&& I2C_M_RD < 2 := by
  simp only [I2C_M_RD, Nat.and_one_is_mod]
  omega

theorem dumpMsg_nibs (d : Nat) (msg : i2c_msg) (buf : List Nat) (hd : d = 255 ∨ DelayedOk d)
    (haddr : msg.addr < 128) (hbuf : ∀ x ∈ buf, x < 256) :
    pend d ++ (if d = 255 then [] else [1]) ++ msgNibs msg buf =
      (dumpMsg d msg buf).1.flatMap nibblesOf ++ pend (dumpMsg d msg buf).2 ∧
    DelayedOk (dumpMsg d msg buf).2 := by
  have hrd := rd_lt msg.flags
  obtain ⟨a, b, c, habc, ha, hb, hc, _⟩ := addrNibs_fin msg.addr haddr _ hrd
  have hab : addrNibs msg.addr (msg.flags &&& I2C_M_RD) = [a, b, c] := habc
  simp only [addrNibs, List.cons.injEq, and_true] at habc
  obtain ⟨ea, eb, ec⟩ := habc
  obtain ⟨⟨l1, l2⟩, l3, l4⟩ := dumpLoop_nibs (msg.flags &&& I2C_M_RD) hrd (echoLen msg buf) a b c buf
    ha hb hc hbuf
  have hlen : (if msg.flags &&& I2C_M_RECV_LEN ≠ 0 then buf.headD 0 + 1 else msg.len) =
      echoLen msg buf := rfl
  unfold dumpMsg
  dsimp only
  rw [ea, eb, ec, hlen, msgNibs, hab]
  generalize echoLen msg buf = len at l1 l2 l3 l4 ⊢
  rcases hd with rfl | rfl | ⟨c0, hc1, hc2, rfl⟩
  · -- first message
    simp only [show ¬ (255 = 0) by decide, ↓reduceIte, ne_eq, not_true_eq_false]
    exact ⟨by rw [l1]; simp [pend], l2⟩
  · -- the previous message ended on a byte boundary
    simp only [↓reduceIte]
    refine ⟨?_, l4⟩
    simp only [List.flatMap_append, List.flatMap_cons, List.flatMap_nil, List.append_nil,
      List.append_assoc, l3, nibblesOf_pack 1 (by decide) a (by omega),
      nibblesOf_pack b (by omega) c (by omega)]
    simp [pend]
  · -- the last nibble of the previous message is held back
    obtain ⟨_, d2, _, d4⟩ := delayed_pack c0 (by omega) hc1
    have h0 : ¬ (c0 * 16 + 1 = 0) := by omega
    have h255 : c0 * 16 + 1 ≠ 255 := by omega
    simp only [h0, h255, ↓reduceIte, ne_eq, not_false_eq_true]
    refine ⟨?_, l2⟩
    simp only [List.flatMap_cons, List.append_assoc, l1, d2, d4]
    rfl

theorem DelayedOk_ne_255 {d : Nat} (h : DelayedOk d) : d ≠ 255 := by
  rcases h with rfl | ⟨c, _, _, rfl⟩ <;> omega

theorem dumpMsgs_nibs : ∀ (msgs : List i2c_msg) (d : Nat), (d = 255 ∨ DelayedOk d) →
    (∀ msg ∈ msgs, EchoOk msg) →
    pend d ++ msgsNibs (decide (d = 255)) msgs =
      (dumpMsgs true d msgs).1.flatMap nibblesOf ++ pend (dumpMsgs true d msgs).2 ∧
    ((dumpMsgs true d msgs).2 = 255 ∨ DelayedOk (dumpMsgs true d msgs).2) := by
  intro msgs
  induction msgs with
  | nil =>
    intro d hd _
    simp [msgsNibs, dumpMsgs, hd]
  | cons msg rest ih =>
    intro d hd hok
    obtain ⟨buf, hb, haddr, _, hbytes⟩ := hok msg (List.mem_cons_self _ _)
    obtain ⟨m1, m2⟩ := dumpMsg_nibs d msg buf hd haddr hbytes
    obtain ⟨i1, i2⟩ := ih (dumpMsg d msg buf).2 (Or.inr m2)
      (fun m hm => hok m (List.mem_cons_of_mem _ hm))
    have hne : decide ((dumpMsg d msg buf).2 = 255) = false := by
      simpa using DelayedOk_ne_255 m2
    rw [hne] at i1
    have hstep : dumpMsgs true d (msg :: rest) =
        ((dumpMsg d msg buf).1 ++ (dumpMsgs true (dumpMsg d msg buf).2 rest).1,
         (dumpMsgs true (dumpMsg d msg buf).2 rest).2) := by
      simp [dumpMsgs, hb]
    rw [hstep]
    refine ⟨?_, i2⟩
    have hfirst : (if decide (d = 255) = true then ([] : List Nat) else [1]) =
        (if d = 255 then [] else [1]) := by
      by_cases h : d = 255 <;> simp [h]
    simp only [msgsNibs, hb, Option.getD_some, List.flatMap_append, List.append_assoc, hfirst]
    rw [← i1, ← List.append_assoc _ (pend _), ← m1]
    simp only [List.append_assoc]

theorem dumpFeed_nibs (msgs : List i2c_msg) (hok : ∀ msg ∈ msgs, EchoOk msg) :
    ∃ tl, (tl = [] ∨ tl = [0]) ∧
      (dumpFeed msgs true).flatMap nibblesOf = [0, 1] ++ (msgsNibs true msgs ++ ([2] ++ tl)) := by
  obtain ⟨m1, m2⟩ := dumpMsgs_nibs msgs 255 (Or.inl rfl) hok
  simp only [decide_True, pend, or_true, ↓reduceIte, List.nil_append] at m1
  unfold dumpFeed
  dsimp only
  generalize dumpMsgs true 255 msgs = r at m1 m2 ⊢
  simp only [List.flatMap_append, List.flatMap_cons, List.flatMap_nil, List.append_nil]
  rcases m2 with h | h | ⟨c, hc1, hc2, h⟩
  · refine ⟨[0], Or.inr rfl, ?_⟩
    rw [m1, h]
    simp only [List.append_assoc]
    rfl
  · refine ⟨[0], Or.inr rfl, ?_⟩
    rw [m1, h]
    simp only [List.append_assoc]
    rfl
  · obtain ⟨_, _, d3, d4⟩ := delayed_pack c (by omega) hc1
    refine ⟨[], Or.inl rfl, ?_⟩
    have hne : ¬ (r.2 = 0 ∨ r.2 = 255) := by rw [h]; omega
    rw [m1, if_neg hne, if_neg hne, h, d3]
    simp only [List.append_assoc, List.append_nil]
    have : c * 16 + 1 = r.2 := h.symm
    have hdiv : (c * 16 + 1) / 16 = c := by omega
    rw [hdiv]
    rfl

theorem shr1 (v : Nat) : v >>> 1 = v / 2 := by
  rw [Nat.shiftRight_eq_div_pow]

theorem shr2 (v : Nat) : v >>> 2 = v / 4 := by
  rw [Nat.shiftRight_eq_div_pow]

theorem decode_data (rd : Nat) (hrd : rd < 2) : ∀ (len : Nat) (buf : List Nat),
    len ≤ buf.length → (∀ x ∈ buf, x < 256) →
    decodeNibbles { count := 0, cur := 0, inData := true } (dataNibs rd len buf) =
      ({ count := 0, cur := 0, inData := true }, dataEvents (decide (rd ≠ 0)) (buf.take len)) := by
  intro len
  induction len with
  | zero => intro buf _ _; simp [dataNibs, decodeNibbles, dataEvents]
  | succ len ih =>
    intro buf hlen hbuf
    rcases buf with _ | ⟨x, xs⟩
    · simp at hlen
    have hx : x < 256 := hbuf x (List.mem_cons_self _ _)
    have hxs : ∀ y ∈ xs, y < 256 := fun y hy => hbuf y (List.mem_cons_of_mem _ hy)
    have hl : len ≤ xs.length := by simpa using hlen
    obtain ⟨t1, t2, t3, t4⟩ := dumpTriple_range rd (len + 1) x hx hrd
    have hg := decodeNibbles_group _ _ _ t1 t2 t3 true
    simp only [dataNibs, List.headD_cons, List.tail_cons, decodeNibbles_append, hg, ih xs hl hxs,
      List.take_succ_cons, dataEvents, List.singleton_append, Prod.mk.injEq, List.cons.injEq,
      and_true, true_and, t4, groupOut, ↓reduceIte]
    have hempty : (xs.take len = []) ↔ len = 0 := by
      constructor
      · intro h
        have := congrArg List.length h
        simp only [List.length_take, List.length_nil] at this
        omega
      · intro h; subst h; rfl
    have hr : rd = 0 ∨ rd = 1 := by omega
    simp only [shr1]
    by_cases h0 : len = 0
    · subst h0
      rcases hr with rfl | rfl
      · simp
      · simp only [↓reduceIte, ne_eq, one_ne_zero, not_false_eq_true, decide_True, List.take_zero,
          and_self]
        congr 1 <;> omega
    · have hne : ¬ (xs.take len = []) := fun h => h0 (hempty.1 h)
      have h1 : ¬ (len + 1 = 1) := by omega
      simp only [h1, hne, and_false, ↓reduceIte, Nat.add_zero]
      congr 1 <;> omega

theorem decode_msg (msg : i2c_msg) (buf : List Nat) (hb : msg.buf = some buf)
    (haddr : msg.addr < 128) (hlen : echoLen msg buf ≤ buf.length) (hbuf : ∀ x ∈ buf, x < 256) :
    decodeNibbles { count := 0, cur := 0, inData := false } (msgNibs msg buf) =
      ({ count := 0, cur := 0, inData := true }, msgEvents msg) := by
  have hrd := rd_lt msg.flags
  obtain ⟨a, b, c, habc, ha, hb2, hc, hv⟩ := addrNibs_fin msg.addr haddr _ hrd
  have hg := decodeNibbles_group a b c ha hb2 hc false
  rw [msgNibs, habc, decodeNibbles_append, hg, decode_data _ hrd _ buf hlen hbuf]
  simp only [msgEvents, hb, Option.getD_some, groupOut, hv, List.singleton_append, Prod.mk.injEq,
    List.cons.injEq, and_true, true_and, Bool.false_eq_true, ↓reduceIte, Out.addressByte.injEq]
  simp only [shr1, shr2]
  exact ⟨by omega, decide_eq_decide.2 (by omega), by omega⟩

theorem decode_tail : ∀ (msgs : List i2c_msg) (tl : List Nat), (tl = [] ∨ tl = [0]) →
    (∀ msg ∈ msgs, EchoOk msg) →
    decodeNibbles { count := 0, cur := 0, inData := true } (msgsNibs false msgs ++ ([2] ++ tl)) =
      ({ count := 0, cur := 0, inData := false }, echoTail msgs) := by
  intro msgs
  induction msgs with
  | nil =>
    intro tl htl _
    rcases htl with rfl | rfl <;> simp [msgsNibs, decodeNibbles, decodeNibble, echoTail]
  | cons msg rest ih =>
    intro tl htl hok
    obtain ⟨buf, hb, haddr, hlen, hbytes⟩ := hok msg (List.mem_cons_self _ _)
    have hm := decode_msg msg buf hb haddr hlen hbytes
    have hs : decodeNibbles { count := 0, cur := 0, inData := true } [1] =
        ({ count := 0, cur := 0, inData := false }, [Out.start]) := by
      simp [decodeNibbles, decodeNibble]
    have e : msgsNibs false (msg :: rest) ++ ([2] ++ tl) =
        [1] ++ (msgNibs msg buf ++ (msgsNibs false rest ++ ([2] ++ tl))) := by
      simp [msgsNibs, hb]
    rw [e, decodeNibbles_append, hs, decodeNibbles_append, hm,
      ih tl htl (fun m hm => hok m (List.mem_cons_of_mem _ hm))]
    rfl

theorem decode_feed (msgs : List i2c_msg) (tl : List Nat) (htl : tl = [] ∨ tl = [0])
    (hok : ∀ msg ∈ msgs, EchoOk msg) (inData : Bool) :
    decodeNibbles { count := 0, cur := 0, inData := inData }
        ([0, 1] ++ (msgsNibs true msgs ++ ([2] ++ tl))) =
      ({ count := 0, cur := 0, inData := false }, echoEvents msgs) := by
  have hs : decodeNibbles { count := 0, cur := 0, inData := inData } [0, 1] =
      ({ count := 0, cur := 0, inData := false }, [Out.start]) := by
    simp [decodeNibbles, decodeNibble]
  rcases msgs with _ | ⟨msg, rest⟩
  · rw [decodeNibbles_append, hs]
    rcases htl with rfl | rfl <;> simp [msgsNibs, decodeNibbles, decodeNibble, echoEvents]
  · obtain ⟨buf, hb, haddr, hlen, hbytes⟩ := hok msg (List.mem_cons_self _ _)
    have hm := decode_msg msg buf hb haddr hlen hbytes
    have e : [0, 1] ++ (msgsNibs true (msg :: rest) ++ ([2] ++ tl)) =
        [0, 1] ++ (msgNibs msg buf ++ (msgsNibs false rest ++ ([2] ++ tl))) := by
      simp [msgsNibs, hb]
    rw [e, decodeNibbles_append, hs, decodeNibbles_append, hm,
      decode_tail rest tl htl (fun m hm => hok m (List.mem_cons_of_mem _ hm))]
    rfl

/-- Claim C8. For every Transfer whose messages have non-null buffers holding
the bytes to echo and addresses below 128, the bytes `i2c_rdwr_dump`
(`dumpwrites = true`) feeds to `decodeCapture`, decoded from a state with no
group in progress, print exactly: Start; for each message in order a repeated
Start (after the first message), the address byte with the 7-bit address, the
read/write bit and ACK, and one data byte per payload byte (`buf[0] + 1` bytes
for a dynamic read, the length byte first), each ACKed except the last byte of
a read, which is NACKed; finally Stop.  No framing error and no undocumented
code is printed, and no group is left in progress. -/
theorem i2c_rdwr_dump_decodes (msgs : List i2c_msg) (hok : ∀ msg ∈ msgs, EchoOk msg)
    (inData : Bool) :
    decodeBytes { count := 0, cur := 0, inData := inData } (dumpFeed msgs true) =
      ({ count := 0, cur := 0, inData := false }, echoEvents msgs) ∧
    (∀ (add_pec : Bool) (pec : Nat),
      i2c_rdwr_dump add_pec { count := 0, cur := 0, inData := inData } msgs true pec =
        ({ count := 0, cur := 0, inData := false },
         echoEvents msgs ++ (if add_pec then [Out.pec pec] else []) ++ [Out.endl])) := by
  obtain ⟨tl, htl, hn⟩ := dumpFeed_nibs msgs hok
  have h := decode_feed msgs tl htl hok inData
  have hd : decodeBytes { count := 0, cur := 0, inData := inData } (dumpFeed msgs true) =
      ({ count := 0, cur := 0, inData := false }, echoEvents msgs) := by
    rw [decodeBytes_eq, hn, h]
  refine ⟨hd, ?_⟩
  intro add_pec pec
  simp only [i2c_rdwr_dump, hd]

/-! ## The theorems at concrete inputs -/

theorem i2c_rdwr_read_chunks_witness :
    ∃ (ls : List Nat) (k : Nat), ls.sum + k = 3 ∧
      (i2c_rdwr false { count := 0, cur := 0, inData := false }
        { log := [], rx := none :: ([some 0b110001, none] ++ ([1, 2, 3].map some ++ [])) }
        [{ addr := 0x50, flags := 1, len := 3, buf := some [0, 0, 0] }]).chan.tx =
      [] ++ [(TxKind.start, [0x73, ((0x50 <<< 1) ||| (1 &&& I2C_M_RD)) % 256])] ++
        ls.map (fun l => (TxKind.readAck, [0x61, l])) ++
        [(TxKind.readNack, [0x80 ||| (k - 1)]), (TxKind.stop, [0x70])] := by
  obtain ⟨ls, k, _, _, _, _, _, hs, _, _, _, h⟩ :=
    i2c_rdwr_read_chunks { addr := 0x50, flags := 1, len := 3, buf := some [0, 0, 0] } [0, 0, 0]
      [1, 2, 3] [some 0b110001, none] [] 3 (by decide) rfl rfl (by decide) (by decide) rfl rfl
      (Or.inl rfl)
  exact ⟨ls, k, hs, (h false _ _ rfl).1⟩

theorem i2c_rdwr_write_chunks_witness :
    ∃ ls : List Nat, ls.sum = 2 ∧ payloadsOf (writeChunks ls [0x12, 0x34]) = [0x12, 0x34] ∧
      (i2c_rdwr false { count := 0, cur := 0, inData := false }
        { log := [], rx := none :: ([some 0b110001, none] ++ ([[some 0b110001, none]].flatten ++ [])) }
        [{ addr := 0x50, flags := 0, len := 2, buf := some [0x12, 0x34] }]).chan.tx =
      [] ++ [(TxKind.start, [0x73, ((0x50 <<< 1) ||| (0 &&& I2C_M_RD)) % 256])] ++
        writeChunks ls [0x12, 0x34] ++ [(TxKind.stop, [0x70])] := by
  obtain ⟨ls, _, _, _, hs, hp, _, _, h⟩ :=
    i2c_rdwr_write_chunks { addr := 0x50, flags := 0, len := 2, buf := some [0x12, 0x34] }
      [0x12, 0x34] [some 0b110001, none] [[some 0b110001, none]] [] 2 (by decide) rfl rfl
      (by decide) rfl (Or.inl rfl)
      (by intro a ha; rw [List.mem_singleton.1 ha]; exact Or.inl rfl) rfl
  exact ⟨ls, hs, hp, (h _ _ rfl).1⟩

theorem i2c_rdwr_stop_once_witness :
    ∃ mid, (i2c_rdwr true { count := 0, cur := 0, inData := false } { log := [], rx := [] }
        [{ addr := 0x50, flags := 0, len := 1, buf := some [0xAB] }]).chan.log =
        [] ++ mid ++ [Ev.tx TxKind.stop [0x70]] ∧
      ∀ e ∈ mid, ∀ bs, e ≠ Ev.tx TxKind.stop bs :=
  i2c_rdwr_stop_once true { count := 0, cur := 0, inData := false } { log := [], rx := [] }
    [{ addr := 0x50, flags := 0, len := 1, buf := some [0xAB] }] (by simp)

theorem i2c_rdwr_pec_chunk_witness :
    (i2c_rdwr true { count := 0, cur := 0, inData := false }
        { log := [], rx := [none, some 0b110001, none, some 0b110001, none, some 0b110001, none] }
        [{ addr := 0x50, flags := 0, len := 1, buf := some [0xAB] },
         { addr := 0x50, flags := 1, len := 0, buf := some [] }]).chan.log =
      (atEnd true
        { log := [], rx := [none, some 0b110001, none, some 0b110001, none, some 0b110001, none] }
        [{ addr := 0x50, flags := 0, len := 1, buf := some [0xAB] },
         { addr := 0x50, flags := 1, len := 0, buf := some [] }]).chan.log ++
      [Ev.tx TxKind.stop [0x70]] :=
  (i2c_rdwr_pec_chunk true { count := 0, cur := 0, inData := false }
    { log := [], rx := [none, some 0b110001, none, some 0b110001, none, some 0b110001, none] }
    [{ addr := 0x50, flags := 0, len := 1, buf := some [0xAB] },
     { addr := 0x50, flags := 1, len := 0, buf := some [] }] (by simp)).2.2.2
    ⟨{ addr := 0x50, flags := 1, len := 0, buf := some [] }, by simp, by simp, Or.inr rfl⟩

theorem i2c_rdwr_pec_wire_witness :
    ∃ body, (i2c_rdwr true { count := 0, cur := 0, inData := false }
        { log := [], rx := [none, some 0b110001, none, some 0b110001, none, some 0b110001, none] }
        [{ addr := 0x50, flags := 0, len := 2, buf := some [0x12, 0x34] }]).chan.log = [] ++ body ∧
      (i2c_rdwr true { count := 0, cur := 0, inData := false }
        { log := [], rx := [none, some 0b110001, none, some 0b110001, none, some 0b110001, none] }
        [{ addr := 0x50, flags := 0, len := 2, buf := some [0x12, 0x34] }]).pec =
        CRC_PEC.addBuf 0 (wire body) := by
  obtain ⟨body, h1, h2, _⟩ := i2c_rdwr_pec_wire true { count := 0, cur := 0, inData := false }
    { log := [], rx := [none, some 0b110001, none, some 0b110001, none, some 0b110001, none] }
    [{ addr := 0x50, flags := 0, len := 2, buf := some [0x12, 0x34] }]
    (by
      intro msg hm buf hb
      rw [List.mem_singleton.1 hm] at hb ⊢
      simp only [Option.some.injEq] at hb
      subst hb
      exact ⟨by decide, by decide⟩)
    (by
      intro b hb
      simp only [List.mem_cons, Option.some.injEq, reduceCtorEq, false_or, List.mem_singleton,
        List.not_mem_nil, or_false, or_self] at hb
      omega)
  exact ⟨body, h1, h2⟩

theorem i2c_rdwr_abort_witness :
    [Ev.tx TxKind.stop [0x70]] = [Ev.tx TxKind.stop [0x70]] ∧
      (i2c_rdwr true { count := 0, cur := 0, inData := false } { log := [], rx := [] }
        [{ addr := 0x50, flags := 0, len := 1, buf := some [0xAB] },
         { addr := 0x51, flags := 1, len := 2, buf := some [0, 0] }]).ok = false :=
  i2c_rdwr_abort true { count := 0, cur := 0, inData := false } { log := [], rx := [] }
    [{ addr := 0x50, flags := 0, len := 1, buf := some [0xAB] },
     { addr := 0x51, flags := 1, len := 2, buf := some [0, 0] }] (by simp)
    [Ev.rx RxKind.drain 32 [], Ev.tx TxKind.start [0x73, 0xA0]] [Ev.tx TxKind.stop [0x70]]
    (Ev.rx RxKind.status 2 []) (by decide) (by decide)

theorem i2c_rdwr_dump_decodes_witness :
    decodeBytes { count := 0, cur := 0, inData := false }
        (dumpFeed [{ addr := 0x50, flags := 0, len := 2, buf := some [0x12, 0x34] },
                   { addr := 0x50, flags := 1, len := 2, buf := some [0xAB, 0xCD] }] true) =
      ({ count := 0, cur := 0, inData := false },
       [Out.start, Out.addressByte 0x50 false 0, Out.dataByte 0x12 0, Out.dataByte 0x34 0,
        Out.start, Out.addressByte 0x50 true 0, Out.dataByte 0xAB 0, Out.dataByte 0xCD 1,
        Out.stop]) :=
  (i2c_rdwr_dump_decodes [{ addr := 0x50, flags := 0, len := 2, buf := some [0x12, 0x34] },
                   { addr := 0x50, flags := 1, len := 2, buf := some [0xAB, 0xCD] }]
    (by
      intro msg hm
      simp only [List.mem_cons, List.mem_singleton, List.not_mem_nil, or_false] at hm
      rcases hm with rfl | rfl
      · exact ⟨[0x12, 0x34], rfl, by decide, by decide, by decide⟩
      · exact ⟨[0xAB, 0xCD], rfl, by decide, by decide, by decide⟩) false).1

/-! ## The loops run to their end -/

/-- The loop `while (len > 64)` is left only by its condition or by an I/O
error: the recursion depth `len` given to `ackAllLoop` is never used up, and
"at this point 1 <= len <= 64" holds. -/
theorem ackAllLoop_exit (fuel : Nat) : ∀ s : Loc, s.len ≤ fuel → 1 ≤ s.len →
    (ackAllLoop fuel s).ioerror = true ∨
      (1 ≤ (ackAllLoop fuel s).len ∧ (ackAllLoop fuel s).len ≤ 64) := by
  induction fuel with
  | zero => intro s h0 h1; omega
  | succ fuel ih =>
    intro s h0 h1
    unfold ackAllLoop
    by_cases hlen : s.len > 64
    · simp only [hlen, ↓reduceIte]
      generalize hl : (if s.len > 255 then 255 else s.len - 1) = l
      have hl1 : 64 ≤ l ∧ l < s.len := by
        rw [← hl]; split <;> omega
      by_cases hgot : (rxTake l s.chan.rx).1.length = l
      · simp only [read_got, writeAll_rx, hgot, ne_eq, not_true_eq_false, ↓reduceIte]
        exact ih _ (by simp only; omega) (by simp only; omega)
      · simp only [read_got, writeAll_rx, ne_eq, hgot, not_false_eq_true, ↓reduceIte, true_or]
    · simp only [hlen, ↓reduceIte]
      exact Or.inr ⟨h1, by omega⟩

/-- The loop `while (len > 0)` is left only by its condition or by an I/O
error: the recursion depth `len` given to `writeLoop` is never used up. -/
theorem writeLoop_exit (fuel : Nat) : ∀ s : Loc, s.len ≤ fuel →
    (writeLoop fuel s).ioerror = true ∨ (writeLoop fuel s).len = 0 := by
  induction fuel with
  | zero =>
    intro s h0
    right
    simp only [writeLoop]
    omega
  | succ fuel ih =>
    intro s h0
    unfold writeLoop
    by_cases hlen : s.len > 0
    · simp only [hlen, ↓reduceIte]
      generalize hl : (if s.len > 64 then 64 else s.len) = l
      have hl1 : 1 ≤ l ∧ l ≤ s.len := by
        rw [← hl]; split <;> omega
      split
      · exact Or.inl rfl
      · exact ih _ (by simp only; omega)
    · simp only [hlen, ↓reduceIte]
      right
      omega

/-- The static variables of `decodeCapture` keep `count <= 2`, and `cur = 0`
whenever no group is in progress: the states with no group in progress are
those with `count = 0` and `cur = 0`. -/
theorem decodeNibble_state (st : DecState) (b : Nat) (hc : st.count ≤ 2)
    (hu : st.count = 0 → st.cur = 0) :
    (decodeNibble st b).1.count ≤ 2 ∧
      ((decodeNibble st b).1.count = 0 → (decodeNibble st b).1.cur = 0) := by
  obtain ⟨count, cur, inData⟩ := st
  simp only at hc hu
  have h3 : count = 0 ∨ count = 1 ∨ count = 2 := by omega
  by_cases hb : b ≥ 8
  · have hb8 : ¬ b < 8 := by omega
    rcases h3 with rfl | rfl | rfl <;> cases inData <;> simp [decodeNibble, hb, hb8]
  · have hb8 : b < 8 := by omega
    rcases h3 with rfl | rfl | rfl
    · have h0 := hu rfl
      subst h0
      interval_cases b <;> simp [decodeNibble]
    · interval_cases b <;> simp [decodeNibble]
    · interval_cases b <;> simp [decodeNibble]

/-! ## The C library: numbers in decimal notation -/

theorem digitValue_digitChar (d : Nat) (h : d < 10) :
    digitValue (Nat.digitChar d) = d ∧ isspace (Nat.digitChar d) = false ∧
      Nat.digitChar d ≠ '-' ∧ Nat.digitChar d ≠ '+' ∧ Nat.digitChar d ≠ 'x' ∧
      Nat.digitChar d ≠ 'X' ∧ (Nat.digitChar d = '0' ↔ d = 0) := by
  interval_cases d <;> decide

theorem toDigitsCore_append (fuel : Nat) : ∀ (n : Nat) (ds : List Char),
    Nat.toDigitsCore 10 fuel n ds = Nat.toDigitsCore 10 fuel n [] ++ ds := by
  induction fuel with
  | zero => intro n ds; rfl
  | succ k ih =>
    intro n ds
    unfold Nat.toDigitsCore
    dsimp only
    by_cases h : n / 10 = 0
    · rw [if_pos h, if_pos h]; rfl
    · rw [if_neg h, if_neg h, ih (n / 10) (Nat.digitChar (n % 10) :: ds),
        ih (n / 10) [Nat.digitChar (n % 10)]]
      simp

theorem scanDigits_cons (base acc : Nat) (c : Char) (cs : List Char) :
    scanDigits base acc (c :: cs) =
      if digitValue c < base then scanDigits base (acc * base + digitValue c) cs
      else (acc, c :: cs) := rfl

theorem scanDigits_toDigitsCore (fuel : Nat) : ∀ (n : Nat) (ds : List Char), n < fuel →
    scanDigits 10 0 (Nat.toDigitsCore 10 fuel n ds) = scanDigits 10 n ds := by
  induction fuel with
  | zero => intro n ds h; omega
  | succ k ih =>
    intro n ds hn
    have hd := (digitValue_digitChar (n % 10) (Nat.mod_lt n (by decide))).1
    unfold Nat.toDigitsCore
    dsimp only
    by_cases h : n / 10 = 0
    · rw [if_pos h, scanDigits_cons, hd, if_pos (Nat.mod_lt n (by decide))]
      congr 1
      omega
    · rw [if_neg h, ih (n / 10) _ (by omega), scanDigits_cons, hd,
        if_pos (Nat.mod_lt n (by decide))]
      congr 1
      omega

theorem toDigitsCore_head (fuel : Nat) : ∀ (n : Nat) (ds : List Char), n < fuel → 0 < n →
    ∃ d tl, 1 ≤ d ∧ d < 10 ∧ Nat.toDigitsCore 10 fuel n ds = Nat.digitChar d :: tl := by
  induction fuel with
  | zero => intro n ds h; omega
  | succ k ih =>
    intro n ds hn h0
    unfold Nat.toDigitsCore
    dsimp only
    by_cases h : n / 10 = 0
    · rw [if_pos h]
      exact ⟨n % 10, ds, by omega, Nat.mod_lt n (by decide), rfl⟩
    · rw [if_neg h]
      exact ih (n / 10) _ (by omega) (by omega)

theorem toDigits_zero : Nat.toDigits 10 0 = ['0'] := by decide

theorem toDigits_head (n : Nat) (h0 : 0 < n) :
    ∃ d tl, 1 ≤ d ∧ d < 10 ∧ Nat.toDigits 10 n = Nat.digitChar d :: tl :=
  toDigitsCore_head (n + 1) n [] (by omega) h0

theorem scanDigits_toDigits (n : Nat) (ds : List Char) :
    scanDigits 10 0 (Nat.toDigits 10 n ++ ds) = scanDigits 10 n ds := by
  unfold Nat.toDigits
  rw [← toDigitsCore_append]
  exact scanDigits_toDigitsCore (n + 1) n ds (by omega)

theorem strtoParts_decimal (c : Char) (tl : List Char) (hsp : isspace c = false)
    (hm : c ≠ '-') (hp : c ≠ '+') (h0 : c ≠ '0') :
    strtoParts (c :: tl) =
      if (scanDigits 10 0 (c :: tl)).2.length = (c :: tl).length then none
      else some (false, (scanDigits 10 0 (c :: tl)).1, (scanDigits 10 0 (c :: tl)).2) := by
  unfold strtoParts
  simp only [List.dropWhile, hsp, List.head?]
  have e1 : (some c == some '-') = false := by simp [hm]
  have e2 : (some c == some '+') = false := by simp [hp]
  simp only [e1, e2]
  simp only [Bool.false_eq_true, or_self, if_false]
  split
  · rename_i x t heq
    injection heq with h1 h2
    exact absurd h1 h0
  · rename_i heq
    injection heq with h1 h2
    exact absurd h1 h0
  · rfl

theorem strtoParts_zero (c : Char) (tl : List Char) (hx : c ≠ 'x') (hX : c ≠ 'X') :
    strtoParts ('0' :: c :: tl) =
      some (false, (scanDigits 8 0 (c :: tl)).1, (scanDigits 8 0 (c :: tl)).2) := by
  unfold strtoParts
  have e0 : isspace '0' = false := by decide
  simp only [List.dropWhile, e0, List.head?]
  have e1 : (some '0' == some '-') = false := by decide
  have e2 : (some '0' == some '+') = false := by decide
  simp only [e1, e2]
  simp only [Bool.false_eq_true, or_self, if_false]
  rw [if_neg (by simp [hx, hX])]

theorem scanDigits_stops (base n : Nat) (ds : List Char) (hb : base ≤ 10)
    (hs : stops ds = true) : scanDigits base n ds = (n, ds) := by
  cases ds with
  | nil => rfl
  | cons c t =>
    simp only [stops, Bool.and_eq_true, decide_eq_true_eq] at hs
    rw [scanDigits_cons, if_neg (by omega)]

theorem stops_ne (ds : List Char) (hs : stops ds = true) :
    ∀ c t, ds = c :: t → c ≠ 'x' ∧ c ≠ 'X' := by
  intro c t e
  subst e
  simp only [stops, Bool.and_eq_true, decide_eq_true_eq, bne_iff_ne] at hs
  exact ⟨hs.1.1, hs.1.2⟩

theorem strtoParts_toDigits (n : Nat) (ds : List Char) (hs : stops ds = true) :
    strtoParts (Nat.toDigits 10 n ++ ds) = some (false, n, ds) := by
  rcases Nat.eq_zero_or_pos n with h0 | h0
  · subst h0
    rw [toDigits_zero]
    cases ds with
    | nil => rfl
    | cons c t =>
      have hc := stops_ne _ hs c t rfl
      show strtoParts ('0' :: c :: t) = _
      rw [strtoParts_zero c t hc.1 hc.2, scanDigits_stops 8 0 _ (by decide) hs]
  · have hsc := scanDigits_toDigits n ds
    rw [scanDigits_stops 10 n ds (by decide) hs] at hsc
    obtain ⟨d, tl, h1, h2, e⟩ := toDigits_head n h0
    have hd := digitValue_digitChar d h2
    have hlen : ds.length ≠ (Nat.toDigits 10 n ++ ds).length := by
      rw [e]; simp; omega
    rw [e] at hsc hlen ⊢
    show strtoParts (Nat.digitChar d :: (tl ++ ds)) = _
    rw [strtoParts_decimal _ _ hd.2.1 hd.2.2.1 hd.2.2.2.1
      (fun h => by have := hd.2.2.2.2.2.2.1 h; omega)]
    have hsc2 : scanDigits 10 0 (Nat.digitChar d :: (tl ++ ds)) = (n, ds) := hsc
    rw [hsc2]
    exact if_neg hlen

theorem strtoul_toDigits (n : Nat) (ds : List Char) (hn : n ≤ ULONG_MAX)
    (hs : stops ds = true) : strtoul (Nat.toDigits 10 n ++ ds) = (n, ds) := by
  unfold strtoul
  rw [strtoParts_toDigits n ds hs]
  simp only [Bool.false_eq_true, if_false]
  rw [if_neg (by omega)]

theorem strtol_toDigits (n : Nat) (ds : List Char) (hs : stops ds = true) :
    strtol (Nat.toDigits 10 n ++ ds) =
      (if n > LONG_MAX then (LONG_MAX : Int) else (n : Int), ds) := by
  unfold strtol
  rw [strtoParts_toDigits n ds hs]
  simp only [Bool.false_eq_true, if_false]

theorem toDigits_length (n : Nat) (ds : List Char) :
    ds.length ≠ (Nat.toDigits 10 n ++ ds).length := by
  rcases Nat.eq_zero_or_pos n with h0 | h0
  · subst h0; rw [toDigits_zero]; simp
  · obtain ⟨d, tl, _, _, e⟩ := toDigits_head n h0
    rw [e]; simp; omega

theorem skipZeros_toDigits (n : Nat) : skipZeros (Nat.toDigits 10 n) = Nat.toDigits 10 n := by
  rcases Nat.eq_zero_or_pos n with h0 | h0
  · subst h0; rfl
  · obtain ⟨d, tl, h1, h2, e⟩ := toDigits_head n h0
    have hd := digitValue_digitChar d h2
    rw [e]
    cases tl with
    | nil => rfl
    | cons c t =>
      unfold skipZeros
      rw [if_neg]
      intro h
      have := hd.2.2.2.2.2.2.1 h.2.2
      omega

theorem Int7_toDigits (n : Nat) :
    Int7 (Nat.toDigits 10 n) = if n < 128 then (n : Int) else -1 := by
  have h := strtol_toDigits n [] rfl
  rw [List.append_nil] at h
  have hl := toDigits_length n []
  rw [List.append_nil] at hl
  unfold Int7
  dsimp only
  rw [skipZeros_toDigits, h]
  dsimp only
  by_cases h128 : n < 128
  · have h2 : ¬ n > LONG_MAX := by unfold LONG_MAX; omega
    rw [if_neg h2, if_pos h128, if_pos]
    exact ⟨hl, rfl, by omega, by omega⟩
  · rw [if_neg h128, if_neg]
    intro hh
    by_cases h2 : n > LONG_MAX
    · rw [if_pos h2] at hh
      unfold LONG_MAX at hh
      have := hh.2.2.2
      omega
    · rw [if_neg h2] at hh
      have := hh.2.2.2
      omega

/-! ## The C library: what strtoul leaves unread -/

theorem scanDigits_split (base : Nat) (s : List Char) : ∀ acc : Nat,
    ∃ pre, s = pre ++ (scanDigits base acc s).2 ∧ ∀ c ∈ pre, digitValue c < base := by
  induction s with
  | nil => intro acc; exact ⟨[], rfl, by simp⟩
  | cons c cs ih =>
    intro acc
    rw [scanDigits_cons]
    by_cases h : digitValue c < base
    · rw [if_pos h]
      obtain ⟨pre, e, hp⟩ := ih (acc * base + digitValue c)
      refine ⟨c :: pre, by rw [List.cons_append, ← e], ?_⟩
      intro x hx
      rcases List.mem_cons.1 hx with hx | hx
      · rw [hx]; exact h
      · exact hp x hx
    · rw [if_neg h]
      exact ⟨[], rfl, by simp⟩

theorem scanDigits_at (base : Nat) (s : List Char) (acc : Nat) (hb : base ≤ 36) :
    ∃ pre, s = pre ++ (scanDigits base acc s).2 ∧ '@' ∉ pre := by
  obtain ⟨pre, e, hp⟩ := scanDigits_split base s acc
  refine ⟨pre, e, ?_⟩
  intro h
  have := hp _ h
  have e36 : digitValue '@' = 36 := by decide
  omega

theorem strtoParts_split (s : List Char) :
    ∀ neg v rest, strtoParts s = some (neg, v, rest) → ∃ pre, s = pre ++ rest ∧ '@' ∉ pre := by
  intro neg v rest h
  have hs : s = s.takeWhile isspace ++ s.dropWhile isspace :=
    (List.takeWhile_append_dropWhile isspace s).symm
  have hw : '@' ∉ s.takeWhile isspace := by
    intro hm
    have := List.mem_takeWhile_imp hm
    revert this
    decide
  have key : ∀ (sg : List Char) (s2 : List Char), s.dropWhile isspace = sg ++ s2 → '@' ∉ sg →
      ∀ rest2, (∃ pre2, s2 = pre2 ++ rest2 ∧ '@' ∉ pre2) → ∃ pre, s = pre ++ rest2 ∧ '@' ∉ pre := by
    intro sg s2 e1 hsg rest2 ⟨pre2, e2, hp2⟩
    refine ⟨s.takeWhile isspace ++ sg ++ pre2, ?_, ?_⟩
    · rw [List.append_assoc, List.append_assoc, ← e2, ← e1]; exact hs
    · simp only [List.mem_append, not_or]
      exact ⟨⟨hw, hsg⟩, hp2⟩
  unfold strtoParts at h
  dsimp only at h
  generalize hs1 : s.dropWhile isspace = s1 at h key
  have hsplit : ∃ sg, s1 = sg ++
      (if s1.head? == some '-' ∨ s1.head? == some '+' then s1.tail else s1) ∧ '@' ∉ sg := by
    cases s1 with
    | nil => exact ⟨[], by simp, by simp⟩
    | cons c t =>
      by_cases hc : c = '-' ∨ c = '+'
      · refine ⟨[c], ?_, ?_⟩
        · rcases hc with hc | hc <;> subst hc <;> simp
        · rcases hc with hc | hc <;> subst hc <;> decide
      · refine ⟨[], ?_, by simp⟩
        have : ¬ ((c :: t).head? == some '-' ∨ (c :: t).head? == some '+') := by
          simpa using hc
        rw [if_neg this]
        rfl
  obtain ⟨sg, esg, hsg⟩ := hsplit
  generalize hs2 : (if s1.head? == some '-' ∨ s1.head? == some '+' then s1.tail else s1) = s2
    at h esg
  have key2 := key sg s2 esg hsg
  clear key
  split at h
  · rename_i x t
    by_cases hx : x = 'x' ∨ x = 'X'
    · rw [if_pos hx] at h
      by_cases hl : (scanDigits 16 0 t).2.length = t.length
      · rw [if_pos hl] at h
        injection h with h; injection h with h1 h2; injection h2 with h2 h3
        subst h3
        exact key2 _ ⟨['0'], rfl, by decide⟩
      · rw [if_neg hl] at h
        injection h with h; injection h with h1 h2; injection h2 with h2 h3
        subst h3
        obtain ⟨pre, e, hp⟩ := scanDigits_at 16 t 0 (by decide)
        refine key2 _ ⟨'0' :: x :: pre, ?_, ?_⟩
        · rw [List.cons_append, List.cons_append, ← e]
        · intro hm
          rcases List.mem_cons.1 hm with hm | hm
          · revert hm; decide
          · rcases List.mem_cons.1 hm with hm | hm
            · rcases hx with hx | hx <;> subst hx <;> revert hm <;> decide
            · exact hp hm
    · rw [if_neg hx] at h
      injection h with h; injection h with h1 h2; injection h2 with h2 h3
      subst h3
      obtain ⟨pre, e, hp⟩ := scanDigits_at 8 (x :: t) 0 (by decide)
      refine key2 _ ⟨'0' :: pre, ?_, ?_⟩
      · rw [List.cons_append, ← e]
      · intro hm
        rcases List.mem_cons.1 hm with hm | hm
        · revert hm; decide
        · exact hp hm
  · injection h with h; injection h with h1 h2; injection h2 with h2 h3
    subst h3
    exact key2 _ ⟨['0'], rfl, by decide⟩
  · by_cases hl : (scanDigits 10 0 s2).2.length = s2.length
    · rw [if_pos hl] at h
      cases h
    · rw [if_neg hl] at h
      injection h with h; injection h with h1 h2; injection h2 with h2 h3
      subst h3
      obtain ⟨pre, e, hp⟩ := scanDigits_at 10 s2 0 (by decide)
      exact key2 _ ⟨pre, e, hp⟩

theorem strtoul_split (s : List Char) : ∃ pre, s = pre ++ (strtoul s).2 ∧ '@' ∉ pre := by
  unfold strtoul
  cases h : strtoParts s with
  | none => exact ⟨[], rfl, by simp⟩
  | some r =>
    obtain ⟨neg, v, rest⟩ := r
    exact strtoParts_split s neg v rest h

theorem strtol_split (s : List Char) : ∃ pre, s = pre ++ (strtol s).2 := by
  unfold strtol
  cases h : strtoParts s with
  | none => exact ⟨[], rfl⟩
  | some r =>
    obtain ⟨neg, v, rest⟩ := r
    obtain ⟨pre, e, _⟩ := strtoParts_split s neg v rest h
    exact ⟨pre, e⟩

/-! ## Arg::Int7 -/

theorem Int7_range (arg : List Char) : Int7 arg = -1 ∨ (0 ≤ Int7 arg ∧ Int7 arg < 128) := by
  unfold Int7
  dsimp only
  split
  · rename_i h; exact Or.inr ⟨h.2.2.1, h.2.2.2⟩
  · exact Or.inl rfl

theorem Int7_rest (arg : List Char) (h : (strtol (skipZeros arg)).2 ≠ []) : Int7 arg = -1 := by
  unfold Int7
  dsimp only
  rw [if_neg]
  intro hh
  exact h hh.2.1

/-! ## parse_transfer: the steps -/

theorem at_split (pre1 pre2 A1 A2 : List Char) (h1 : '@' ∉ pre1) (h2 : '@' ∉ pre2)
    (e : pre1 ++ '@' :: A1 = pre2 ++ '@' :: A2) : pre1 = pre2 ∧ A1 = A2 := by
  induction pre1 generalizing pre2 with
  | nil =>
    cases pre2 with
    | nil => simpa using e
    | cons c t =>
      simp only [List.nil_append, List.cons_append, List.cons.injEq] at e
      exact absurd (by rw [← e.1]; exact List.mem_cons_self _ _) h2
  | cons c t ih =>
    cases pre2 with
    | nil =>
      simp only [List.nil_append, List.cons_append, List.cons.injEq] at e
      exact absurd (by rw [e.1]; exact List.mem_cons_self _ _) h1
    | cons c2 t2 =>
      simp only [List.cons_append, List.cons.injEq] at e
      have := ih t2 (fun h => h1 (List.mem_cons_of_mem _ h))
        (fun h => h2 (List.mem_cons_of_mem _ h)) e.2
      exact ⟨by rw [e.1, this.1], this.2⟩

theorem descAddr_ok (st : ParseSt) (flags len : Nat) (rest : List Char)
    (h : (descAddr st flags len rest).2 = true) :
    (rest = [] ∧ 0 ≤ st.address ∧ (descAddr st flags len rest).1 = descStore st flags len st.address) ∨
      (∃ A, rest = '@' :: A ∧ 0 ≤ Int7 A ∧
        (descAddr st flags len rest).1 = descStore st flags len (Int7 A)) := by
  unfold descAddr at h ⊢
  cases rest with
  | nil =>
    dsimp only at h ⊢
    by_cases ha : st.address < 0
    · rw [if_pos ha] at h; cases h
    · rw [if_neg ha]; exact Or.inl ⟨rfl, by omega, rfl⟩
  | cons c r =>
    dsimp only at h ⊢
    by_cases hc : c ≠ '@'
    · rw [if_pos hc] at h; cases h
    · rw [if_neg hc] at h ⊢
      by_cases ha : Int7 r < 0
      · rw [if_pos ha] at h; cases h
      · rw [if_neg ha]
        have hc2 : c = '@' := by simpa using hc
        exact Or.inr ⟨r, by rw [hc2], by omega, rfl⟩

theorem parseDesc_ok (st : ParseSt) (tok : List Char) (h : (parseDesc st tok).2 = true) :
    ∃ pre flags len, '@' ∉ pre ∧ FlagsOk flags len ∧
      ((tok = pre ∧ 0 ≤ st.address ∧ (parseDesc st tok).1 = descStore st flags len st.address) ∨
        (∃ A, tok = pre ++ '@' :: A ∧ 0 ≤ Int7 A ∧
          (parseDesc st tok).1 = descStore st flags len (Int7 A))) := by
  unfold parseDesc at h ⊢
  cases tok with
  | nil => cases h
  | cons d rest =>
    dsimp only at h ⊢
    by_cases hd : d ≠ 'r' ∧ d ≠ 'w'
    · rw [if_pos hd] at h; cases h
    · rw [if_neg hd] at h ⊢
      have hd1 : d ≠ '@' := by
        intro e; subst e; exact hd (by decide)
      have hd2 : ¬ '@' = d := fun e => hd1 e.symm
      have hfl : (if d = 'r' then I2C_M_RD else 0) = 0 ∨
          (if d = 'r' then I2C_M_RD else 0) = I2C_M_RD := by
        by_cases hr : d = 'r'
        · rw [if_pos hr]; exact Or.inr rfl
        · rw [if_neg hr]; exact Or.inl rfl
      generalize (if d = 'r' then I2C_M_RD else 0) = flags at h hfl ⊢
      split at h
      · rename_i rest1
        by_cases hf : flags &&& I2C_M_RD = 0
        · rw [if_pos hf] at h; cases h
        · rw [if_neg hf] at h ⊢
          have hf1 : flags = I2C_M_RD := by
            rcases hfl with e | e
            · subst e; exact absurd rfl hf
            · exact e
          subst hf1
          rcases descAddr_ok st _ 256 rest1 h with ⟨e, ha, hs⟩ | ⟨A, e, ha, hs⟩
          · subst e
            exact ⟨[d, '?'], _, 256, by simp [hd2], Or.inr ⟨rfl, rfl⟩, Or.inl ⟨rfl, ha, hs⟩⟩
          · subst e
            exact ⟨[d, '?'], _, 256, by simp [hd2], Or.inr ⟨rfl, rfl⟩, Or.inr ⟨A, rfl, ha, hs⟩⟩
      · by_cases hl : (strtoul rest).1 > 0xffff ∨ (strtoul rest).2.length = rest.length
        · rw [if_pos hl] at h; cases h
        · rw [if_neg hl] at h ⊢
          obtain ⟨pre, e, hp⟩ := strtoul_split rest
          have hlen : (strtoul rest).1 ≤ 0xffff := by omega
          rcases descAddr_ok st flags _ _ h with ⟨e2, ha, hs⟩ | ⟨A, e2, ha, hs⟩
          · refine ⟨d :: pre, flags, _, ?_, Or.inl ⟨hfl, hlen⟩, Or.inl ⟨?_, ha, hs⟩⟩
            · simp [hd2, hp]
            · rw [e2, List.append_nil] at e; rw [← e]
          · refine ⟨d :: pre, flags, _, ?_, Or.inl ⟨hfl, hlen⟩, Or.inr ⟨A, ?_, ha, hs⟩⟩
            · simp [hd2, hp]
            · rw [e2] at e; rw [List.cons_append, ← e]

/-! ## parse_transfer: the shape of the variables -/

theorem allocBuf_length (flags len : Nat) : (allocBuf flags len).length = len := by
  unfold allocBuf
  split <;> simp

theorem FlagsOk_good (flags len : Nat) (hf : FlagsOk flags len) :
    len ≤ 65535 ∧ (flags &&& I2C_M_RECV_LEN ≠ 0 → len = 256 ∧ flags &&& I2C_M_RD ≠ 0) := by
  rcases hf with ⟨h1 | h1, h2⟩ | ⟨h1, h2⟩
  · subst h1; exact ⟨h2, fun h => absurd (by decide) h⟩
  · subst h1; exact ⟨h2, fun h => absurd (by decide) h⟩
  · subst h1; subst h2; exact ⟨by decide, fun _ => ⟨rfl, by decide⟩⟩

theorem descStore_inv (st : ParseSt) (flags len : Nat) (address : Int) (hinv : ParseInv st)
    (hs : st.state = parse_state.PARSE_GET_DESC) (hf : FlagsOk flags len)
    (ha : 0 ≤ address ∧ address < 128) :
    ParseInv (descStore st flags len address) ∧
      (descStore st flags len address).address = address ∧
      ∃ new, (descStore st flags len address).msgs = st.msgs ++ [new] ∧
        (new.addr : Int) = address ∧ new.flags = flags ∧ new.len = len ∧
        new.buf = some (allocBuf flags len) := by
  obtain ⟨done, fdone, hlen, hfa, hgood, hcase⟩ := hinv
  rcases hcase with ⟨_, hm, hfi, _, _⟩ | ⟨hs2, _⟩
  swap
  · rw [hs] at hs2; cases hs2
  obtain ⟨n, hn⟩ := Int.eq_ofNat_of_zero_le ha.1
  subst hn
  have hn : n < 128 := by omega
  have hfg := FlagsOk_good flags len hf
  have haddr : ((n : Int).toNat % 65536) = n := by
    rw [Int.toNat_ofNat]; omega
  have hl : len % 65536 = len := by omega
  have hflen := hfa.length_eq
  have e1 : setMsg st.msgs st.nmsgs { addr := n, flags := flags, len := len, buf := some (allocBuf flags len) } = done ++ [{ addr := n, flags := flags, len := len, buf := some (allocBuf flags len) }] := by
    unfold setMsg
    rw [hm, ← hlen, List.take_length]
  have e2 : st.filled.take st.nmsgs ++ [0] = fdone ++ [0] := by
    rw [hfi, ← hlen, hflen, List.take_length]
  have hnew : GoodMsg { addr := n, flags := flags, len := len, buf := some (allocBuf flags len) } :=
    ⟨hn, hfg.1, hfg.2, _, rfl, allocBuf_length flags len⟩
  unfold descStore
  dsimp only
  rw [haddr, hl, e1, e2]
  by_cases hb : flags &&& I2C_M_RD ≠ 0 ∨ len = 0
  · rw [if_pos hb]
    refine ⟨⟨done ++ [_], fdone ++ [0], ?_, ?_, ?_, Or.inl ⟨hs, rfl, rfl, ?_, ?_⟩⟩, rfl,
      _, by rw [hm], rfl, rfl, rfl, rfl⟩
    · simp [hlen]
    · refine List.rel_append hfa (List.Forall₂.cons ?_ List.Forall₂.nil)
      intro h0
      rcases hb with hb | hb
      · exact absurd h0 hb
      · exact hb.symm
    · intro m hmem
      rcases List.mem_append.1 hmem with h | h
      · exact hgood m h
      · rw [List.mem_singleton.1 h]; exact hnew
    · intro h; simp at h
    · intro m hmm
      have e : (done ++ [({ addr := n, flags := flags, len := len, buf := some (allocBuf flags len) } : i2c_msg)]).getLast? = some { addr := n, flags := flags, len := len, buf := some (allocBuf flags len) } := by simp
      rw [e] at hmm
      injection hmm with hmm
      rw [← hmm]
  · rw [if_neg hb]
    have hb2 : flags &&& I2C_M_RD = 0 ∧ 0 < len := by
      constructor
      · by_contra h; exact hb (Or.inl h)
      · rcases Nat.eq_zero_or_pos len with h | h
        · exact absurd (Or.inr h) hb
        · exact h
    refine ⟨⟨done, fdone, hlen, hfa, hgood, Or.inr ⟨rfl, _, rfl, rfl, hnew, hb2.1, hb2.2, rfl⟩⟩,
      rfl, _, by rw [hm], rfl, rfl, rfl, rfl⟩

theorem parseDesc_step (st : ParseSt) (tok : List Char) (hinv : ParseInv st)
    (hs : st.state = parse_state.PARSE_GET_DESC) (h : (parseDesc st tok).2 = true) :
    ParseInv (parseDesc st tok).1 ∧
      ∃ new, (parseDesc st tok).1.msgs = st.msgs ++ [new] ∧ GoodMsg new ∧
        (parseDesc st tok).1.address = (new.addr : Int) ∧
        ('@' ∉ tok → (parseDesc st tok).1.address = st.address ∧
          ∃ prev, st.msgs.getLast? = some prev ∧ new.addr = prev.addr) ∧
        (∀ pre A, tok = pre ++ '@' :: A → '@' ∉ pre → (new.addr : Int) = Int7 A) := by
  obtain ⟨pre, flags, len, hpre, hf, hc⟩ := parseDesc_ok st tok h
  have hfg := FlagsOk_good flags len hf
  have hprev : 0 ≤ st.address → st.address < 128 ∧
      ∃ prev, st.msgs.getLast? = some prev ∧ st.address = (prev.addr : Int) := by
    intro h0
    obtain ⟨done, fdone, hlen, hfa, hgood, hcase⟩ := hinv
    rcases hcase with ⟨_, hm, hfi, hnil, hlast⟩ | ⟨hs2, _⟩
    swap
    · rw [hs] at hs2; cases hs2
    rw [hm]
    cases hl : done.getLast? with
    | none =>
      have := hnil (List.getLast?_eq_none_iff.1 hl)
      omega
    | some prev =>
      have h1 := hlast prev hl
      have h2 := (hgood prev (List.mem_of_getLast?_eq_some hl)).1
      exact ⟨by omega, prev, rfl, h1⟩
  rcases hc with ⟨e, ha, hst⟩ | ⟨A, e, ha, hst⟩
  · obtain ⟨h128, prev, hp1, hp2⟩ := hprev ha
    obtain ⟨hi, had, new, hn1, hn2, hn3, hn4, hn5⟩ :=
      descStore_inv st flags len st.address hinv hs hf ⟨ha, h128⟩
    rw [hst]
    refine ⟨hi, new, hn1, ?_, ?_, ?_, ?_⟩
    · exact ⟨by omega, by rw [hn4]; exact hfg.1, by rw [hn3, hn4]; exact hfg.2, _, hn5,
        by rw [hn4]; exact allocBuf_length flags len⟩
    · rw [had, hn2]
    · intro _
      exact ⟨had, prev, hp1, by omega⟩
    · intro pre2 A2 e2 _
      rw [← e, e2] at hpre
      exact absurd (by simp) hpre
  · have h128 : Int7 A < 128 := by
      rcases Int7_range A with h1 | h1
      · omega
      · exact h1.2
    obtain ⟨hi, had, new, hn1, hn2, hn3, hn4, hn5⟩ :=
      descStore_inv st flags len (Int7 A) hinv hs hf ⟨ha, h128⟩
    rw [hst]
    refine ⟨hi, new, hn1, ?_, ?_, ?_, ?_⟩
    · exact ⟨by omega, by rw [hn4]; exact hfg.1, by rw [hn3, hn4]; exact hfg.2, _, hn5,
        by rw [hn4]; exact allocBuf_length flags len⟩
    · rw [had, hn2]
    · intro hno
      rw [e] at hno
      exact absurd (by simp) hno
    · intro pre2 A2 e2 hp2
      rw [e] at e2
      rw [← (at_split pre pre2 A A2 hpre hp2 e2).2]
      exact hn2

theorem fillLoop_facts (e : List Char) (len : Nat) : ∀ (fuel : Nat) (buf : List Nat)
    (idx data : Nat), idx ≤ len →
    (fillLoop e fuel buf idx len data).1.length = buf.length ∧
      idx ≤ (fillLoop e fuel buf idx len data).2.1 ∧
      (fillLoop e fuel buf idx len data).2.1 ≤ len := by
  intro fuel
  induction fuel with
  | zero => intro buf idx data h; exact ⟨rfl, Nat.le_refl _, h⟩
  | succ k ih =>
    intro buf idx data h
    unfold fillLoop
    by_cases hlt : idx < len
    · rw [if_pos hlt]
      cases e with
      | nil => exact ⟨by simp, by simp, hlt⟩
      | cons c t =>
        dsimp only
        cases hsx : suffixStep c data with
        | none => exact ⟨by simp, by simp, hlt⟩
        | some d1 =>
          dsimp only
          have := ih (buf.set idx data) (idx + 1) d1 hlt
          exact ⟨by rw [this.1]; simp, by omega, this.2.2⟩
    · rw [if_neg hlt]
      exact ⟨rfl, Nat.le_refl _, h⟩

theorem parseData_step (st : ParseSt) (tok : List Char) (hinv : ParseInv st)
    (hs : st.state = parse_state.PARSE_GET_DATA) (h : (parseData st tok).2 = true) :
    ParseInv (parseData st tok).1 ∧ (parseData st tok).1.address = st.address ∧
      (parseData st tok).1.msgs.length = st.msgs.length := by
  obtain ⟨done, fdone, hlen, hfa, hgood, hcase⟩ := hinv
  rcases hcase with ⟨hs2, _⟩ | ⟨_, m, hm, hfi, hg, hrd, hidx, hadr⟩
  · rw [hs] at hs2; cases hs2
  have hflen := hfa.length_eq
  have e0 : st.msgs.getD st.nmsgs { addr := 0, flags := 0, len := 0, buf := none } = m := by
    rw [hm, ← hlen]; simp
  have e1 : ∀ x, setMsg st.msgs st.nmsgs x = done ++ [x] := by
    intro x
    unfold setMsg
    rw [hm, ← hlen, List.take_left]
  have e2 : ∀ x, st.filled.take st.nmsgs ++ [x] = fdone ++ [x] := by
    intro x
    rw [hfi, ← hlen, hflen, List.take_left]
  obtain ⟨buf, hb1, hb2⟩ := hg.2.2.2
  unfold parseData at h ⊢
  dsimp only at h ⊢
  by_cases hr : (strtoul tok).1 > 0xff ∨ (strtoul tok).2.length = tok.length
  · rw [if_pos hr] at h; cases h
  rw [if_neg hr] at h ⊢
  rw [e0, e1, e2] at h ⊢
  have hfl := fillLoop_facts (strtoul tok).2 m.len m.len (m.buf.getD []) st.buf_idx
    (strtoul tok).1 (Nat.le_of_lt hidx)
  generalize fillLoop (strtoul tok).2 m.len (m.buf.getD []) st.buf_idx m.len (strtoul tok).1 = f
    at h hfl ⊢
  have hg2 : GoodMsg { m with buf := some f.1 } :=
    ⟨hg.1, hg.2.1, hg.2.2.1, _, rfl, by rw [hfl.1, hb1]; exact hb2⟩
  by_cases hok : f.2.2 = false
  · rw [if_pos hok] at h; cases h
  rw [if_neg hok] at h ⊢
  by_cases hc : f.2.1 = m.len
  · rw [if_pos hc]
    refine ⟨⟨done ++ [_], fdone ++ [f.2.1], by simp [hlen], ?_, ?_,
      Or.inl ⟨rfl, rfl, rfl, ?_, ?_⟩⟩, rfl, by rw [hm]; simp⟩
    · exact List.rel_append hfa (List.Forall₂.cons (fun _ => hc) List.Forall₂.nil)
    · intro x hx
      rcases List.mem_append.1 hx with hx | hx
      · exact hgood x hx
      · rw [List.mem_singleton.1 hx]; exact hg2
    · intro hnil; simp at hnil
    · intro x hx
      have e : (done ++ [({ m with buf := some f.1 } : i2c_msg)]).getLast? = some { m with buf := some f.1 } := by simp
      rw [e] at hx
      injection hx with hx
      rw [← hx]
      exact hadr
  · rw [if_neg hc]
    refine ⟨⟨done, fdone, hlen, hfa, hgood, Or.inr ⟨hs, _, rfl, rfl, hg2, hrd, ?_, hadr⟩⟩,
      rfl, by rw [hm]; simp⟩
    show f.2.1 < m.len
    omega

/-! ## parse_transfer: the loop -/

theorem parseLoop_cons (arg : List Char) (rest : List (List Char)) (st : ParseSt) :
    parseLoop (arg :: rest) st =
      if st.nmsgs > I2C_RDWR_IOCTL_MAX_MSGS then (st, false)
      else
        match st.state with
        | parse_state.PARSE_GET_DESC =>
          if (parseDesc st arg).2 then parseLoop rest (parseDesc st arg).1
          else ((parseDesc st arg).1, false)
        | parse_state.PARSE_GET_DATA =>
          if (parseData st arg).2 then parseLoop rest (parseData st arg).1
          else ((parseData st arg).1, false) := rfl

theorem parseLoop_append (pre post : List (List Char)) : ∀ st : ParseSt,
    parseLoop (pre ++ post) st =
      if (parseLoop pre st).2 then parseLoop post (parseLoop pre st).1 else parseLoop pre st := by
  induction pre with
  | nil => intro st; rfl
  | cons a t ih =>
    intro st
    rw [List.cons_append]
    simp only [parseLoop_cons]
    by_cases h : st.nmsgs > I2C_RDWR_IOCTL_MAX_MSGS
    · simp [h]
    · simp only [if_neg h]
      cases st.state with
      | PARSE_GET_DESC =>
        dsimp only
        by_cases h2 : (parseDesc st a).2 = true
        · simp only [if_pos h2]; exact ih _
        · simp [h2]
      | PARSE_GET_DATA =>
        dsimp only
        by_cases h2 : (parseData st a).2 = true
        · simp only [if_pos h2]; exact ih _
        · simp [h2]

theorem parseInit_inv : ParseInv parseInit :=
  ⟨[], [], rfl, List.Forall₂.nil, by simp,
    Or.inl ⟨rfl, rfl, rfl, fun _ => rfl, by simp⟩⟩

theorem parseLoop_inv (toks : List (List Char)) : ∀ st : ParseSt, ParseInv st →
    (parseLoop toks st).2 = true → ParseInv (parseLoop toks st).1 := by
  induction toks with
  | nil => intro st h _; exact h
  | cons a t ih =>
    intro st hinv h
    rw [parseLoop_cons] at h ⊢
    by_cases h1 : st.nmsgs > I2C_RDWR_IOCTL_MAX_MSGS
    · rw [if_pos h1] at h; cases h
    · rw [if_neg h1] at h ⊢
      cases hs : st.state with
      | PARSE_GET_DESC =>
        rw [hs] at h
        dsimp only at h ⊢
        by_cases h2 : (parseDesc st a).2 = true
        · rw [if_pos h2] at h ⊢
          exact ih _ (parseDesc_step st a hinv hs h2).1 h
        · rw [if_neg h2] at h; cases h
      | PARSE_GET_DATA =>
        rw [hs] at h
        dsimp only at h ⊢
        by_cases h2 : (parseData st a).2 = true
        · rw [if_pos h2] at h ⊢
          exact ih _ (parseData_step st a hinv hs h2).1 h
        · rw [if_neg h2] at h; cases h

theorem parseLoop_fail (toks : List (List Char)) : ∀ st : ParseSt,
    (parseLoop toks st).2 = false → ∀ more, (parseLoop (toks ++ more) st).2 = false := by
  intro st h more
  rw [parseLoop_append, h]
  simp [h]

/-! ## parse_transfer: tokens in decimal notation -/

theorem toDigits_cons (n : Nat) : ∃ d tl, d < 10 ∧ Nat.toDigits 10 n = Nat.digitChar d :: tl := by
  rcases Nat.eq_zero_or_pos n with h0 | h0
  · subst h0; exact ⟨0, [], by decide, rfl⟩
  · obtain ⟨d, tl, _, h2, e⟩ := toDigits_head n h0
    exact ⟨d, tl, h2, e⟩

theorem digitChar_ne_q (d : Nat) (h : d < 10) : Nat.digitChar d ≠ '?' := by
  interval_cases d <;> decide

theorem stops_at (t : List Char) : stops ('@' :: t) = true := by
  show ('@' != 'x' && '@' != 'X' && decide (10 ≤ digitValue '@')) = true
  decide

theorem parseDesc_num (st : ParseSt) (d c : Char) (tl : List Char) (hd : d = 'r' ∨ d = 'w')
    (hc : c ≠ '?') :
    parseDesc st (d :: c :: tl) =
      if (strtoul (c :: tl)).1 > 0xffff ∨ (strtoul (c :: tl)).2.length = (c :: tl).length then
        (st, false)
      else descAddr st (if d = 'r' then I2C_M_RD else 0) (strtoul (c :: tl)).1 (strtoul (c :: tl)).2 := by
  unfold parseDesc
  dsimp only
  rw [if_neg (by rcases hd with h | h <;> subst h <;> decide)]
  split
  · rename_i rest1 heq
    injection heq with h1 h2
    exact absurd h1 hc
  · rfl

theorem parseDesc_gen (st : ParseSt) (d : Char) (n a : Nat) (hd : d = 'r' ∨ d = 'w')
    (hn : n ≤ 65535) (ha : a < 128) :
    parseDesc st (d :: (Nat.toDigits 10 n ++ '@' :: Nat.toDigits 10 a)) =
      (descStore st (if d = 'r' then I2C_M_RD else 0) n (a : Int), true) := by
  obtain ⟨x, tl, hx, e⟩ := toDigits_cons n
  have hs := strtoul_toDigits n ('@' :: Nat.toDigits 10 a) (by unfold ULONG_MAX; omega) (stops_at _)
  have hl := toDigits_length n ('@' :: Nat.toDigits 10 a)
  rw [e] at hs hl ⊢
  rw [List.cons_append] at hs hl ⊢
  rw [parseDesc_num st d _ _ hd (digitChar_ne_q x hx), hs]
  dsimp only
  rw [if_neg (by
    intro h
    rcases h with h | h
    · omega
    · exact hl h)]
  unfold descAddr
  dsimp only
  rw [if_neg (by simp), Int7_toDigits, if_pos ha, if_neg (by omega)]

theorem parseDesc_gen_reuse (st : ParseSt) (d : Char) (n : Nat) (hd : d = 'r' ∨ d = 'w')
    (hn : n ≤ 65535) :
    parseDesc st (d :: Nat.toDigits 10 n) =
      if st.address < 0 then (st, false)
      else (descStore st (if d = 'r' then I2C_M_RD else 0) n st.address, true) := by
  obtain ⟨x, tl, hx, e⟩ := toDigits_cons n
  have hs := strtoul_toDigits n [] (by unfold ULONG_MAX; omega) rfl
  have hl := toDigits_length n []
  rw [List.append_nil] at hs hl
  rw [e] at hs hl ⊢
  rw [parseDesc_num st d _ _ hd (digitChar_ne_q x hx), hs]
  dsimp only
  rw [if_neg (by
    intro h
    rcases h with h | h
    · omega
    · exact hl h)]
  rfl

theorem set_append_length (pre post : List Nat) (x d : Nat) :
    (pre ++ x :: post).set pre.length d = pre ++ d :: post := by
  induction pre with
  | nil => rfl
  | cons a t ih => simp [ih]

theorem fillLoop_plain (fuel : Nat) (pre post : List Nat) (x len data : Nat)
    (hl : pre.length < len) :
    fillLoop [] (fuel + 1) (pre ++ x :: post) pre.length len data =
      (pre ++ data :: post, pre.length + 1, true) := by
  unfold fillLoop
  rw [if_pos hl]
  dsimp only
  rw [set_append_length]

theorem fillLoop_suffix (c : Char) (more : List Char) (f : Nat → Nat)
    (hf : ∀ d, suffixStep c d = some (f d)) (len : Nat) : ∀ (post pre : List Nat)
    (fuel data : Nat), post.length ≤ fuel → len = pre.length + post.length →
    fillLoop (c :: more) fuel (pre ++ post) pre.length len data =
      (pre ++ List.iterate f data post.length, len, true) := by
  intro post
  induction post with
  | nil =>
    intro pre fuel data _ hlen
    rw [List.length_nil, Nat.add_zero] at hlen
    cases fuel with
    | zero => simp [fillLoop, hlen, List.iterate]
    | succ k =>
      unfold fillLoop
      rw [if_neg (by omega)]
      simp [hlen, List.iterate]
  | cons x post ih =>
    intro pre fuel data hfuel hlen
    rw [List.length_cons] at hfuel hlen
    cases fuel with
    | zero => omega
    | succ k =>
      unfold fillLoop
      rw [if_pos (by omega)]
      dsimp only
      rw [hf data]
      dsimp only
      rw [set_append_length]
      have e : pre ++ data :: post = (pre ++ [data]) ++ post := by simp
      have e2 : pre.length + 1 = (pre ++ [data]).length := by simp
      rw [e, e2, ih (pre ++ [data]) k (f data) (by omega) (by simp; omega)]
      simp [List.iterate]

/-- The bound on the turns of `fillLoop` is never what ends the loop: with
`len - buf_idx` turns or more, and so with the `len` turns `parseData` allows,
the result is the same. -/
theorem fillLoop_exit (e : List Char) (len : Nat) : ∀ (fuel : Nat) (buf : List Nat)
    (idx data : Nat), len - idx ≤ fuel →
    fillLoop e fuel buf idx len data = fillLoop e (len - idx) buf idx len data := by
  intro fuel
  induction fuel with
  | zero =>
    intro buf idx data h
    have : len - idx = 0 := by omega
    rw [this]
  | succ k ih =>
    intro buf idx data h
    by_cases hlt : idx < len
    · obtain ⟨j, hj⟩ : ∃ j, len - idx = j + 1 := ⟨len - idx - 1, by omega⟩
      rw [hj]
      unfold fillLoop
      rw [if_pos hlt, if_pos hlt]
      cases e with
      | nil => rfl
      | cons c t =>
        dsimp only
        cases hsx : suffixStep c data with
        | none => rfl
        | some d1 =>
          dsimp only
          have hj2 : j = len - (idx + 1) := by omega
          rw [ih _ _ _ (by omega), hj2]
    · have : len - idx = 0 := by omega
      rw [this]
      unfold fillLoop
      rw [if_neg hlt]

theorem parseData_dataSt (A : Int) (done : List i2c_msg) (fdone : List Nat) (ad fl len : Nat)
    (pre post : List Nat) (tok : List Char) (hfd : fdone.length = done.length)
    (h1 : (strtoul tok).1 ≤ 0xff) (h2 : (strtoul tok).2.length ≠ tok.length)
    (buf1 : List Nat) (idx1 : Nat)
    (hfill : fillLoop (strtoul tok).2 len (pre ++ post) pre.length len (strtoul tok).1 =
      (buf1, idx1, true)) :
    parseData (dataSt A done fdone ad fl len pre post) tok =
      if idx1 = len then
        (descSt A (done ++ [{ addr := ad, flags := fl, len := len, buf := some buf1 }])
          (fdone ++ [idx1]) idx1, true)
      else
        ({ address := A, nmsgs := done.length, msgs := done ++ [{ addr := ad, flags := fl, len := len, buf := some buf1 }], state := parse_state.PARSE_GET_DATA, buf_idx := idx1, filled := fdone ++ [idx1] }, true) := by
  unfold parseData
  dsimp only
  rw [if_neg (by
    intro h
    rcases h with h | h
    · omega
    · exact h2 h)]
  have e0 : (dataSt A done fdone ad fl len pre post).msgs.getD
      (dataSt A done fdone ad fl len pre post).nmsgs { addr := 0, flags := 0, len := 0, buf := none } =
      { addr := ad, flags := fl, len := len, buf := some (pre ++ post) } := by
    simp [dataSt]
  rw [e0]
  dsimp only
  have e1 : (some (pre ++ post)).getD [] = pre ++ post := rfl
  have e2 : (dataSt A done fdone ad fl len pre post).buf_idx = pre.length := rfl
  rw [e1, e2, hfill]
  dsimp only
  have e3 : ∀ x, setMsg (dataSt A done fdone ad fl len pre post).msgs
      (dataSt A done fdone ad fl len pre post).nmsgs x = done ++ [x] := by
    intro x
    simp [setMsg, dataSt]
  have e4 : ∀ x, (dataSt A done fdone ad fl len pre post).filled.take
      (dataSt A done fdone ad fl len pre post).nmsgs ++ [x] = fdone ++ [x] := by
    intro x
    simp [dataSt, ← hfd]
  rw [e3, e4, if_neg (by simp)]
  by_cases hc : idx1 = len
  · rw [if_pos hc, if_pos hc]
    simp [descSt, dataSt]
  · rw [if_neg hc, if_neg hc]
    simp [dataSt]

theorem parseData_plain (A : Int) (done : List i2c_msg) (fdone : List Nat) (ad fl len : Nat)
    (pre post : List Nat) (x d : Nat) (hfd : fdone.length = done.length) (hd : d < 256)
    (hlen : len = pre.length + (post.length + 1)) :
    parseData (dataSt A done fdone ad fl len pre (x :: post)) (Nat.toDigits 10 d) =
      if post = [] then
        (descSt A (done ++ [{ addr := ad, flags := fl, len := len, buf := some (pre ++ [d]) }])
          (fdone ++ [len]) len, true)
      else (dataSt A done fdone ad fl len (pre ++ [d]) post, true) := by
  have hs := strtoul_toDigits d [] (by unfold ULONG_MAX; omega) rfl
  have hl := toDigits_length d []
  rw [List.append_nil] at hs hl
  have hfill : fillLoop (strtoul (Nat.toDigits 10 d)).2 len (pre ++ x :: post) pre.length len
      (strtoul (Nat.toDigits 10 d)).1 = (pre ++ d :: post, pre.length + 1, true) := by
    rw [hs]
    obtain ⟨k, hk⟩ : ∃ k, len = k + 1 := ⟨pre.length + post.length, by omega⟩
    rw [hk, fillLoop_plain k pre post x (k + 1) d (by omega)]
  rw [parseData_dataSt A done fdone ad fl len pre (x :: post) _ hfd (by rw [hs]; omega)
    (by rw [hs]; exact hl) _ _ hfill]
  cases post with
  | nil =>
    have h1 : pre.length + 1 = len := by simp at hlen; omega
    rw [if_pos h1, if_pos (rfl : ([] : List Nat) = [])]
    simp [h1]
  | cons y t =>
    have h1 : ¬ pre.length + 1 = len := by simp at hlen; omega
    rw [if_neg h1, if_neg (List.cons_ne_nil y t)]
    simp [dataSt]

theorem parseData_suffix (A : Int) (done : List i2c_msg) (fdone : List Nat) (ad fl len : Nat)
    (pre post : List Nat) (tok : List Char) (c : Char) (more : List Char) (v : Nat)
    (f : Nat → Nat) (hfd : fdone.length = done.length) (hlen : len = pre.length + post.length)
    (hs : strtoul tok = (v, c :: more)) (hv : v ≤ 0xff) (hl : (c :: more).length ≠ tok.length)
    (hf : ∀ d, suffixStep c d = some (f d)) :
    parseData (dataSt A done fdone ad fl len pre post) tok =
      (descSt A (done ++ [{ addr := ad, flags := fl, len := len, buf := some (pre ++ List.iterate f v post.length) }])
        (fdone ++ [len]) len, true) := by
  have hfill : fillLoop (strtoul tok).2 len (pre ++ post) pre.length len (strtoul tok).1 =
      (pre ++ List.iterate f v post.length, len, true) := by
    rw [hs]
    exact fillLoop_suffix c more f hf len post pre len v (by omega) hlen
  rw [parseData_dataSt A done fdone ad fl len pre post tok hfd (by rw [hs]; exact hv)
    (by rw [hs]; exact hl) _ _ hfill, if_pos rfl]

theorem parseLoop_plain (A : Int) (done : List i2c_msg) (fdone : List Nat) (ad fl len : Nat)
    (more : List (List Char)) (hfd : fdone.length = done.length)
    (hdone : done.length ≤ I2C_RDWR_IOCTL_MAX_MSGS) : ∀ (ds pre post : List Nat),
    (∀ d ∈ ds, d < 256) → len = pre.length + post.length → ds.length ≤ post.length →
    post ≠ [] →
    parseLoop (ds.map (Nat.toDigits 10) ++ more) (dataSt A done fdone ad fl len pre post) =
      if ds.length = post.length then
        parseLoop more (descSt A
          (done ++ [{ addr := ad, flags := fl, len := len, buf := some (pre ++ ds) }])
          (fdone ++ [len]) len)
      else parseLoop more (dataSt A done fdone ad fl len (pre ++ ds) (post.drop ds.length)) := by
  intro ds
  induction ds with
  | nil =>
    intro pre post _ _ _ hp
    have : ¬ ([] : List Nat).length = post.length := by
      intro h; exact hp (List.length_eq_zero.1 h.symm)
    rw [if_neg this]
    simp
  | cons d ds ih =>
    intro pre post hds hlen hle hp
    cases post with
    | nil => exact absurd rfl hp
    | cons x post =>
      rw [List.map_cons, List.cons_append, parseLoop_cons]
      have hn : ¬ (dataSt A done fdone ad fl len pre (x :: post)).nmsgs > I2C_RDWR_IOCTL_MAX_MSGS := by
        show ¬ done.length > I2C_RDWR_IOCTL_MAX_MSGS
        omega
      rw [if_neg hn]
      have hst : (dataSt A done fdone ad fl len pre (x :: post)).state =
          parse_state.PARSE_GET_DATA := rfl
      rw [hst]
      dsimp only
      rw [List.length_cons] at hlen
      rw [parseData_plain A done fdone ad fl len pre post x d hfd
        (hds d (List.mem_cons_self _ _)) hlen]
      simp only [List.length_cons] at hle ⊢
      cases post with
      | nil =>
        have hds0 : ds = [] := List.length_eq_zero.1 (by simpa using hle)
        subst hds0
        simp
      | cons y post =>
        rw [if_neg (List.cons_ne_nil y post)]
        dsimp only
        rw [if_pos (rfl : true = true), ih (pre ++ [d]) (y :: post)
          (fun z hz => hds z (List.mem_cons_of_mem _ hz)) (by simp at hlen ⊢; omega)
          (by simpa using hle) (by simp)]
        simp

theorem descStore_descSt (A : Int) (done : List i2c_msg) (fdone : List Nat) (bi flags len a : Nat)
    (hfd : fdone.length = done.length) (ha : a < 128) (hl : len ≤ 65535) :
    descStore (descSt A done fdone bi) flags len (a : Int) =
      if flags &&& I2C_M_RD ≠ 0 ∨ len = 0 then
        descSt (a : Int)
          (done ++ [{ addr := a, flags := flags, len := len, buf := some (allocBuf flags len) }])
          (fdone ++ [0]) bi
      else dataSt (a : Int) done fdone a flags len [] (allocBuf flags len) := by
  have e1 : (a : Int).toNat % 65536 = a := by rw [Int.toNat_ofNat]; omega
  have e2 : len % 65536 = len := by omega
  unfold descStore
  dsimp only
  rw [e1, e2]
  by_cases h : flags &&& I2C_M_RD ≠ 0 ∨ len = 0
  · rw [if_pos h, if_pos h]
    simp [descSt, setMsg, ← hfd]
  · rw [if_neg h, if_neg h]
    simp [descSt, dataSt, setMsg, ← hfd]

theorem parseInit_descSt : parseInit = descSt (-1) [] [] 0 := rfl

theorem parse_transfer_ok (toks : List (List Char)) :
    (parse_transfer toks).ok = true ↔
      (parseLoop toks parseInit).2 = true ∧
        (parseLoop toks parseInit).1.state = parse_state.PARSE_GET_DESC ∧
        (parseLoop toks parseInit).1.nmsgs ≠ 0 := by
  unfold parse_transfer
  dsimp only
  by_cases h1 : (parseLoop toks parseInit).2 = false
  · rw [if_pos h1]; simp [h1]
  · rw [if_neg h1]
    have h1t : (parseLoop toks parseInit).2 = true := by simpa using h1
    by_cases h2 : (parseLoop toks parseInit).1.state ≠ parse_state.PARSE_GET_DESC ∨
        (parseLoop toks parseInit).1.nmsgs = 0
    · rw [if_pos h2]
      constructor
      · intro h; cases h
      · intro h
        rcases h2 with h2 | h2
        · exact absurd h.2.1 h2
        · exact absurd h2 h.2.2
    · rw [if_neg h2]
      constructor
      · intro _
        exact ⟨h1t, by by_contra h; exact h2 (Or.inl h), fun h => h2 (Or.inr h)⟩
      · intro _; rfl

theorem parse_transfer_fields (toks : List (List Char)) :
    (parse_transfer toks).nmsgs = (parseLoop toks parseInit).1.nmsgs ∧
      (parse_transfer toks).msgs = (parseLoop toks parseInit).1.msgs ∧
      (parse_transfer toks).filled = (parseLoop toks parseInit).1.filled := by
  unfold parse_transfer
  dsimp only
  split
  · exact ⟨rfl, rfl, rfl⟩
  · split <;> exact ⟨rfl, rfl, rfl⟩

theorem parse_transfer_descSt (toks : List (List Char)) (A : Int) (done : List i2c_msg)
    (fdone : List Nat) (bi : Nat) (h : parseLoop toks parseInit = (descSt A done fdone bi, true))
    (hd : done ≠ []) :
    parse_transfer toks = { ok := true, nmsgs := done.length, msgs := done, filled := fdone } := by
  unfold parse_transfer
  dsimp only
  rw [h]
  dsimp only
  rw [if_neg (by simp), if_neg]
  · rfl
  · intro hh
    rcases hh with hh | hh
    · exact hh rfl
    · exact hd (List.length_eq_zero.1 hh)

theorem parseLoop_write (A : Int) (done : List i2c_msg) (fdone : List Nat) (bi a n : Nat)
    (ds : List Nat) (more : List (List Char)) (hfd : fdone.length = done.length)
    (hdone : done.length ≤ I2C_RDWR_IOCTL_MAX_MSGS) (ha : a < 128) (hn : 1 ≤ n ∧ n ≤ 65535)
    (hlen : ds.length ≤ n) (hds : ∀ d ∈ ds, d < 256) :
    parseLoop (('w' :: (Nat.toDigits 10 n ++ '@' :: Nat.toDigits 10 a)) ::
        (ds.map (Nat.toDigits 10) ++ more)) (descSt A done fdone bi) =
      if ds.length = n then
        parseLoop more (descSt (a : Int)
          (done ++ [{ addr := a, flags := 0, len := n, buf := some ds }]) (fdone ++ [n]) n)
      else
        parseLoop more (dataSt (a : Int) done fdone a 0 n ds (List.replicate (n - ds.length) 0)) := by
  rw [parseLoop_cons]
  have hn0 : ¬ (descSt A done fdone bi).nmsgs > I2C_RDWR_IOCTL_MAX_MSGS := by
    show ¬ done.length > I2C_RDWR_IOCTL_MAX_MSGS
    omega
  have hst : (descSt A done fdone bi).state = parse_state.PARSE_GET_DESC := rfl
  rw [if_neg hn0, hst]
  dsimp only
  rw [parseDesc_gen _ 'w' n a (Or.inr rfl) hn.2 ha]
  dsimp only
  have e0 : (if 'w' = 'r' then I2C_M_RD else 0) = 0 := by decide
  rw [if_pos (rfl : true = true), e0, descStore_descSt A done fdone bi 0 n a hfd ha hn.2,
    if_neg (by
      intro h
      rcases h with h | h
      · exact h (by decide)
      · omega)]
  have e1 : allocBuf 0 n = List.replicate n 0 := by
    unfold allocBuf
    rw [if_neg (by decide)]
  rw [e1, parseLoop_plain (a : Int) done fdone a 0 n more hfd hdone ds [] (List.replicate n 0) hds
    (by simp) (by simpa using hlen) (by
      intro h
      have := congrArg List.length h
      simp at this
      omega)]
  simp

/-! ## parse_transfer: write messages with plain data tokens -/

/-- Claim C11. For every address `a < 128`, every `n` with `1 ≤ n ≤ 65535` and
all byte values `ds` (`n` of them), `parse_transfer` on the tokens `w<n>@<a>`,
`d1`, ..., `dn` in decimal notation succeeds with exactly one message: a write
(flags 0) with address `a`, length `n` and the data `ds` in order.  It consumes
exactly the `n` data tokens: with any tokens `more` after them the loop goes on
with `more` in the state `PARSE_GET_DESC` with that one message.  The tokens
`w2@0x50`, `0x12`, `0x34` give one write message to address 0x50 with the bytes
0x12, 0x34. -/
theorem parse_transfer_write (a n : Nat) (ds : List Nat) (ha : a < 128)
    (hn : 1 ≤ n ∧ n ≤ 65535) (hlen : ds.length = n) (hds : ∀ d ∈ ds, d < 256) :
    parse_transfer (('w' :: (Nat.toDigits 10 n ++ '@' :: Nat.toDigits 10 a)) ::
        ds.map (Nat.toDigits 10)) =
      { ok := true, nmsgs := 1,
        msgs := [{ addr := a, flags := 0, len := n, buf := some ds }], filled := [n] } ∧
    (∀ more, parseLoop (('w' :: (Nat.toDigits 10 n ++ '@' :: Nat.toDigits 10 a)) ::
        (ds.map (Nat.toDigits 10) ++ more)) parseInit =
      parseLoop more
        { address := a, nmsgs := 1,
          msgs := [{ addr := a, flags := 0, len := n, buf := some ds }],
          state := parse_state.PARSE_GET_DESC, buf_idx := n, filled := [n] }) ∧
    parse_transfer ["w2@0x50".toList, "0x12".toList, "0x34".toList] =
      { ok := true, nmsgs := 1,
        msgs := [{ addr := 0x50, flags := 0, len := 2, buf := some [0x12, 0x34] }],
        filled := [2] } := by
  have key : ∀ more, parseLoop (('w' :: (Nat.toDigits 10 n ++ '@' :: Nat.toDigits 10 a)) ::
      (ds.map (Nat.toDigits 10) ++ more)) parseInit =
      parseLoop more (descSt (a : Int) [{ addr := a, flags := 0, len := n, buf := some ds }] [n] n) := by
    intro more
    rw [parseInit_descSt, parseLoop_write (-1) [] [] 0 a n ds more rfl (by decide) ha hn
      (by omega) hds, if_pos hlen]
    rfl
  refine ⟨?_, key, by decide⟩
  have h := key []
  rw [List.append_nil] at h
  exact parse_transfer_descSt _ _ _ _ _ h (by simp)

theorem parse_transfer_write_witness :
    parse_transfer (('w' :: (Nat.toDigits 10 3 ++ '@' :: Nat.toDigits 10 80)) ::
        [7, 0, 255].map (Nat.toDigits 10)) =
      { ok := true, nmsgs := 1,
        msgs := [{ addr := 80, flags := 0, len := 3, buf := some [7, 0, 255] }], filled := [3] } :=
  (parse_transfer_write 80 3 [7, 0, 255] (by decide) (by decide) rfl (by decide)).1

/-! ## parse_transfer: the address of a descriptor -/

theorem parse_transfer_not_ok (toks : List (List Char))
    (h : (parseLoop toks parseInit).2 = false) : (parse_transfer toks).ok = false := by
  cases hk : (parse_transfer toks).ok with
  | false => rfl
  | true =>
    have := ((parse_transfer_ok toks).1 hk).1
    rw [h] at this
    cases this

theorem parseLoop_desc_fail (st : ParseSt) (tok : List Char) (more : List (List Char))
    (hs : st.state = parse_state.PARSE_GET_DESC) (hf : (parseDesc st tok).2 = false) :
    (parseLoop (tok :: more) st).2 = false := by
  rw [parseLoop_cons]
  by_cases h : st.nmsgs > I2C_RDWR_IOCTL_MAX_MSGS
  · rw [if_pos h]
  · rw [if_neg h, hs]
    dsimp only
    rw [hf]
    rfl

theorem parse_transfer_desc_fail (toks : List (List Char)) (tok : List Char)
    (more : List (List Char))
    (hs : (parseLoop toks parseInit).1.state = parse_state.PARSE_GET_DESC)
    (hf : ParseInv (parseLoop toks parseInit).1 →
      (parseDesc (parseLoop toks parseInit).1 tok).2 = false) :
    (parse_transfer (toks ++ tok :: more)).ok = false := by
  apply parse_transfer_not_ok
  rw [parseLoop_append]
  by_cases h : (parseLoop toks parseInit).2 = true
  · rw [if_pos h]
    exact parseLoop_desc_fail _ tok more hs (hf (parseLoop_inv toks parseInit parseInit_inv h))
  · rw [if_neg h]
    simpa using h

/-- Claim C12. Let the tokens `toks` be parsed without error and leave the
parser in the state `PARSE_GET_DESC`, so that the next token `tok` is read as a
descriptor, and let `tok` be accepted.  Then `tok` adds one message `new`.  If
`tok` has no `@`, there is a message before it and `new` has the address of
the last one (which, by the same rule, is the address of the most recent
descriptor that stated one); if `tok` is `pre@A` with no `@` in `pre`, the
address of `new` is `Int7 A`.  A token list whose first descriptor has no `@`
is a parse error.  The tokens `w2@0x50`, `0x12`, `0x34`, `r2` give a second
message that is a read of length 2 at address 0x50. -/
theorem parse_transfer_address (toks : List (List Char)) (tok : List Char)
    (hok : (parseLoop toks parseInit).2 = true)
    (hs : (parseLoop toks parseInit).1.state = parse_state.PARSE_GET_DESC)
    (hd : (parseDesc (parseLoop toks parseInit).1 tok).2 = true) :
    (∃ new, (parseDesc (parseLoop toks parseInit).1 tok).1.msgs =
        (parseLoop toks parseInit).1.msgs ++ [new] ∧
      ('@' ∉ tok → ∃ prev, (parseLoop toks parseInit).1.msgs.getLast? = some prev ∧
        new.addr = prev.addr) ∧
      (∀ pre A, tok = pre ++ '@' :: A → '@' ∉ pre → (new.addr : Int) = Int7 A)) ∧
    (∀ t more, '@' ∉ t → (parse_transfer (t :: more)).ok = false) ∧
    parse_transfer ["w2@0x50".toList, "0x12".toList, "0x34".toList, "r2".toList] =
      { ok := true, nmsgs := 2,
        msgs := [{ addr := 0x50, flags := 0, len := 2, buf := some [0x12, 0x34] },
                 { addr := 0x50, flags := I2C_M_RD, len := 2, buf := some [0, 0] }],
        filled := [2, 0] } := by
  refine ⟨?_, ?_, by decide⟩
  · obtain ⟨_, new, h1, _, _, h4, h5⟩ :=
      parseDesc_step _ tok (parseLoop_inv toks parseInit parseInit_inv hok) hs hd
    exact ⟨new, h1, fun h => (h4 h).2, h5⟩
  · intro t more ht
    apply parse_transfer_desc_fail [] t more rfl
    intro hinv
    cases hp : (parseDesc (parseLoop [] parseInit).1 t).2 with
    | false => rfl
    | true =>
      obtain ⟨_, new, _, _, _, h4, _⟩ := parseDesc_step _ t hinv rfl hp
      obtain ⟨_, prev, h, _⟩ := h4 ht
      cases h

theorem parse_transfer_address_witness :
    ((parseLoop ["w2@0x50".toList, "0x12".toList, "0x34".toList] parseInit).2 = true ∧
      (parseLoop ["w2@0x50".toList, "0x12".toList, "0x34".toList] parseInit).1.state =
        parse_state.PARSE_GET_DESC ∧
      (parseDesc (parseLoop ["w2@0x50".toList, "0x12".toList, "0x34".toList] parseInit).1
        "r2".toList).2 = true) ∧
    ∃ new, (parseDesc (parseLoop ["w2@0x50".toList, "0x12".toList, "0x34".toList] parseInit).1
        "r2".toList).1.msgs =
        (parseLoop ["w2@0x50".toList, "0x12".toList, "0x34".toList] parseInit).1.msgs ++ [new] ∧
      ('@' ∉ "r2".toList →
        ∃ prev, (parseLoop ["w2@0x50".toList, "0x12".toList, "0x34".toList]
          parseInit).1.msgs.getLast? = some prev ∧ new.addr = prev.addr) ∧
      (∀ pre A, "r2".toList = pre ++ '@' :: A → '@' ∉ pre → (new.addr : Int) = Int7 A) :=
  ⟨⟨by decide, by decide, by decide⟩,
    (parse_transfer_address ["w2@0x50".toList, "0x12".toList, "0x34".toList] "r2".toList
      (by decide) (by decide) (by decide)).1⟩

/-! ## parse_transfer: data tokens with a suffix -/

set_option maxRecDepth 100000 in
theorem suffixStep_genStep : ∀ v : Fin 256,
    suffixStep '=' v = some (genStep '=' v) ∧ suffixStep '+' v = some (genStep '+' v) ∧
      suffixStep '-' v = some (genStep '-' v) ∧ suffixStep 'p' v = some (genStep 'p' v) ∧
      genStep '=' v < 256 ∧ genStep '+' v < 256 ∧ genStep '-' v < 256 ∧ genStep 'p' v < 256 := by
  decide

theorem suffixStep_some (c : Char) (hc : c = '=' ∨ c = '+' ∨ c = '-' ∨ c = 'p') (d : Nat) :
    suffixStep c d = some ((suffixStep c d).getD 0) := by
  rcases hc with h | h | h | h <;> subst h <;> simp [suffixStep]

theorem iterate_genStep (c : Char) (hc : c = '=' ∨ c = '+' ∨ c = '-' ∨ c = 'p') (k : Nat) :
    ∀ v, v < 256 → List.iterate (fun d => (suffixStep c d).getD 0) v k =
      List.iterate (genStep c) v k := by
  induction k with
  | zero => intro v _; rfl
  | succ k ih =>
    intro v hv
    have h := suffixStep_genStep ⟨v, hv⟩
    dsimp only at h
    have e : (suffixStep c v).getD 0 = genStep c v ∧ genStep c v < 256 := by
      rcases hc with hc | hc | hc | hc <;> subst hc
      · rw [h.1]; exact ⟨rfl, h.2.2.2.2.1⟩
      · rw [h.2.1]; exact ⟨rfl, h.2.2.2.2.2.1⟩
      · rw [h.2.2.1]; exact ⟨rfl, h.2.2.2.2.2.2.1⟩
      · rw [h.2.2.2.1]; exact ⟨rfl, h.2.2.2.2.2.2.2⟩
    simp only [List.iterate, List.cons.injEq, true_and]
    rw [e.1]
    exact ih _ e.2

theorem ParseInv_data (st : ParseSt) (hinv : ParseInv st)
    (hs : st.state = parse_state.PARSE_GET_DATA) :
    ∃ done fdone m pre post, st = dataSt st.address done fdone m.addr m.flags m.len pre post ∧
      m.len = pre.length + post.length ∧ post ≠ [] ∧ fdone.length = done.length ∧
      done.length = st.nmsgs ∧ pre.length = st.buf_idx ∧ st.msgs = done ++ [m] ∧
      m.buf = some (pre ++ post) ∧ m.flags &&& I2C_M_RD = 0 := by
  obtain ⟨done, fdone, hlen, hfa, hgood, hcase⟩ := hinv
  rcases hcase with ⟨hs2, _⟩ | ⟨_, m, hm, hfi, hg, hrd, hidx, hadr⟩
  · rw [hs] at hs2; cases hs2
  obtain ⟨buf, hb1, hb2⟩ := hg.2.2.2
  have hpl : (buf.take st.buf_idx).length = st.buf_idx := by
    rw [List.length_take]; omega
  refine ⟨done, fdone, m, buf.take st.buf_idx, buf.drop st.buf_idx, ?_, ?_, ?_,
    hfa.length_eq.symm, hlen, hpl, hm, ?_, hrd⟩
  · cases st with
    | mk address nmsgs msgs state buf_idx filled =>
      cases m with
      | mk ad fl len b =>
        simp only at hlen hm hfi hs hb1 hpl
        subst hlen; subst hm; subst hfi; subst hs; subst hb1
        simp [dataSt, hpl]
  · rw [hpl, List.length_drop]; omega
  · intro h
    have := congrArg List.length h
    rw [List.length_drop] at this
    simp at this
    omega
  · rw [List.take_append_drop]; exact hb1

/-- Claim C13. Let the tokens `toks` be parsed without error and leave the
parser in the state `PARSE_GET_DATA`, and let the next token `tok` be a number
`v` of at most 255 followed by one of the suffixes `=`, `+`, `-`, `p`.  The
parser is then at a position `j`, the length of `pre`, of a write message `m`
whose buffer is `pre ++ post`, and `tok` alone completes the message: the
buffer becomes `pre` followed by `v`, `step v`, `step (step v)`, ... up to the
declared length, with `step = genStep c`, the message is counted and the state
is `PARSE_GET_DESC`, so that the next token is read as a descriptor.  The tokens
`w4@0x10`, `0p` give the bytes 0x00, 0x50, 0xB0, 0x71; `0+` gives 0, 1, 2, ...
and `0xff-` gives 0xff, 0xfe, 0xfd, ... -/
theorem parse_transfer_suffix (toks : List (List Char)) (tok : List Char) (c : Char)
    (more : List Char) (v : Nat)
    (hok : (parseLoop toks parseInit).2 = true)
    (hst : (parseLoop toks parseInit).1.state = parse_state.PARSE_GET_DATA)
    (hs : strtoul tok = (v, c :: more)) (hv : v ≤ 0xff) (hl : (c :: more).length ≠ tok.length)
    (hc : c = '=' ∨ c = '+' ∨ c = '-' ∨ c = 'p') :
    (∃ done m pre post, (parseLoop toks parseInit).1.msgs = done ++ [m] ∧
      m.flags &&& I2C_M_RD = 0 ∧ m.buf = some (pre ++ post) ∧
      pre.length = (parseLoop toks parseInit).1.buf_idx ∧
      pre.length + post.length = m.len ∧ post ≠ [] ∧
      (parseData (parseLoop toks parseInit).1 tok).2 = true ∧
      (parseData (parseLoop toks parseInit).1 tok).1.state = parse_state.PARSE_GET_DESC ∧
      (parseData (parseLoop toks parseInit).1 tok).1.nmsgs =
        (parseLoop toks parseInit).1.nmsgs + 1 ∧
      (parseData (parseLoop toks parseInit).1 tok).1.msgs =
        done ++ [{ m with buf := some (pre ++ List.iterate (genStep c) v post.length) }]) ∧
    parse_transfer ["w4@0x10".toList, "0p".toList] =
      { ok := true, nmsgs := 1,
        msgs := [{ addr := 0x10, flags := 0, len := 4, buf := some [0x00, 0x50, 0xB0, 0x71] }],
        filled := [4] } ∧
    (parse_transfer ["w5@0x10".toList, "0+".toList]).msgs =
      [{ addr := 0x10, flags := 0, len := 5, buf := some [0, 1, 2, 3, 4] }] ∧
    (parse_transfer ["w5@0x10".toList, "0xff-".toList]).msgs =
      [{ addr := 0x10, flags := 0, len := 5, buf := some [0xff, 0xfe, 0xfd, 0xfc, 0xfb] }] ∧
    (parse_transfer ["w5@0x10".toList, "9".toList, "7=".toList, "r1".toList]).msgs =
      [{ addr := 0x10, flags := 0, len := 5, buf := some [9, 7, 7, 7, 7] },
       { addr := 0x10, flags := I2C_M_RD, len := 1, buf := some [0] }] := by
  refine ⟨?_, by decide, by decide, by decide, by decide⟩
  obtain ⟨done, fdone, m, pre, post, e, hlen, hp, hfd, hdl, hpl, hm, hb, hrd⟩ :=
    ParseInv_data _ (parseLoop_inv toks parseInit parseInit_inv hok) hst
  have h := parseData_suffix (parseLoop toks parseInit).1.address done fdone m.addr m.flags m.len
    pre post tok c more v _ hfd hlen hs hv hl (suffixStep_some c hc)
  rw [← e, iterate_genStep c hc post.length v (by omega)] at h
  refine ⟨done, m, pre, post, hm, hrd, hb, hpl, hlen.symm, hp, ?_, ?_, ?_, ?_⟩
  · rw [h]
  · rw [h]; rfl
  · rw [h, ← hdl]; simp [descSt]
  · rw [h]; rfl

theorem parse_transfer_suffix_witness :
    (parseData (parseLoop ["w4@0x10".toList, "7".toList] parseInit).1 "0p".toList).1.msgs =
      [{ addr := 0x10, flags := 0, len := 4,
         buf := some ([7] ++ List.iterate (genStep 'p') 0 3) }] := by
  obtain ⟨done, m, pre, post, h1, _, h3, h4, h5, _, _, _, _, h10⟩ :=
    (parse_transfer_suffix ["w4@0x10".toList, "7".toList] "0p".toList 'p' [] 0
      (by decide) (by decide) (by decide) (by decide) (by decide) (by decide)).1
  have e1 : (parseLoop ["w4@0x10".toList, "7".toList] parseInit).1.msgs =
      [{ addr := 0x10, flags := 0, len := 4, buf := some [7, 0, 0, 0] }] := by decide
  have e2 : (parseLoop ["w4@0x10".toList, "7".toList] parseInit).1.buf_idx = 1 := by decide
  rw [e1] at h1
  rw [e2] at h4
  cases done with
  | cons d t =>
    have := congrArg List.length h1
    simp at this
  | nil =>
    simp only [List.nil_append, List.cons.injEq, and_true] at h1
    subst h1
    cases pre with
    | nil => cases h4
    | cons p ps =>
      have hps : ps = [] := List.length_eq_zero.1 (by simpa using h4)
      subst hps
      simp only [Option.some.injEq, List.cons_append, List.nil_append, List.cons.injEq] at h3
      rw [h10, ← h3.1, ← h3.2]
      rfl

/-! ## parse_transfer: reads of dynamic length -/

theorem ParseInv_desc (st : ParseSt) (hinv : ParseInv st)
    (hs : st.state = parse_state.PARSE_GET_DESC) :
    st.msgs.length = st.nmsgs ∧ st.filled.length = st.nmsgs ∧ List.Forall₂ Complete st.msgs st.filled ∧
      ∀ m ∈ st.msgs, GoodMsg m := by
  obtain ⟨done, fdone, hlen, hfa, hgood, hcase⟩ := hinv
  rcases hcase with ⟨_, hm, hfi, _, _⟩ | ⟨hs2, _⟩
  · rw [hm, hfi]
    exact ⟨hlen, by rw [← hfa.length_eq]; exact hlen, hfa, hgood⟩
  · rw [hs] at hs2; cases hs2

set_option maxRecDepth 100000 in
theorem allocBuf_dynamic :
    allocBuf (I2C_M_RD ||| I2C_M_RECV_LEN) 256 = 1 :: List.replicate 255 0 := by
  decide

theorem parseDesc_q (st : ParseSt) (d : Char) (rest1 : List Char) (hd : d = 'r' ∨ d = 'w') :
    parseDesc st (d :: '?' :: rest1) =
      if (if d = 'r' then I2C_M_RD else 0) &&& I2C_M_RD = 0 then (st, false)
      else descAddr st ((if d = 'r' then I2C_M_RD else 0) ||| I2C_M_RECV_LEN) 256 rest1 := by
  unfold parseDesc
  dsimp only
  rw [if_neg (by rcases hd with h | h <;> subst h <;> decide)]
  split
  · rename_i r heq
    injection heq with _ h2
    subst h2
    rfl
  · rename_i hne
    exact absurd rfl (hne rest1)

theorem parseDesc_dynamic (st : ParseSt) (A : List Char) (hA : 0 ≤ Int7 A)
    (h1 : st.msgs.length = st.nmsgs) (h2 : st.filled.length = st.nmsgs) :
    parseDesc st ('r' :: '?' :: '@' :: A) =
      ({ st with address := Int7 A, msgs := st.msgs ++ [{ addr := (Int7 A).toNat, flags := I2C_M_RD ||| I2C_M_RECV_LEN, len := 256, buf := some (1 :: List.replicate 255 0) }], filled := st.filled ++ [0], nmsgs := st.nmsgs + 1 }, true) := by
  have h128 : Int7 A < 128 := by
    rcases Int7_range A with h | h
    · omega
    · exact h.2
  have e1 : (Int7 A).toNat % 65536 = (Int7 A).toNat := by omega
  have e0 : (if 'r' = 'r' then I2C_M_RD else 0) = I2C_M_RD := by decide
  have e3 : ¬ (I2C_M_RD &&& I2C_M_RD = 0) := by decide
  have e4 : (I2C_M_RD ||| I2C_M_RECV_LEN) &&& I2C_M_RD ≠ 0 ∨ 256 = 0 := Or.inl (by decide)
  have e5 : ¬ ('@' ≠ '@') := by decide
  have e6 : ¬ (Int7 A < 0) := by omega
  rw [parseDesc_q st 'r' _ (Or.inl rfl), e0, if_neg e3]
  unfold descAddr
  dsimp only
  rw [if_neg e5, if_neg e6]
  unfold descStore
  dsimp only
  have e9 : st.filled.take st.nmsgs = st.filled := by rw [← h2, List.take_length]
  have e10 : st.msgs.take st.nmsgs = st.msgs := by rw [← h1, List.take_length]
  rw [if_pos e4, e1, allocBuf_dynamic]
  simp only [setMsg, e9, e10]

set_option maxRecDepth 100000 in
theorem parse_transfer_r77 :
    parse_transfer ["r?@0x77".toList] =
      { ok := true, nmsgs := 1,
        msgs := [{ addr := 0x77, flags := I2C_M_RD ||| I2C_M_RECV_LEN, len := 256,
                   buf := some (1 :: List.replicate 255 0) }],
        filled := [0] } := by
  decide

/-- Claim C14. Let the tokens `toks` be parsed without error and leave the
parser in the state `PARSE_GET_DESC`.  Then a descriptor `r?@A` with a valid
address `A` (`Int7 A` is not negative) is accepted and adds one message: a read
flagged `I2C_M_RD` and `I2C_M_RECV_LEN` with the address `Int7 A`, the length
256 and a buffer of 256 bytes, the first 1 and the others 0; as the only token
it gives a successful parse with that one message, and `r?@0x77` gives one
dynamic-length read at address 0x77.  Every descriptor that starts with `w?` is
refused, whatever the variables of the parser, and makes the parse fail. -/
theorem parse_transfer_dynamic (toks : List (List Char)) (A : List Char)
    (hok : (parseLoop toks parseInit).2 = true)
    (hs : (parseLoop toks parseInit).1.state = parse_state.PARSE_GET_DESC)
    (hA : 0 ≤ Int7 A) :
    parseDesc (parseLoop toks parseInit).1 ('r' :: '?' :: '@' :: A) =
      ({ (parseLoop toks parseInit).1 with
          address := Int7 A,
          msgs := (parseLoop toks parseInit).1.msgs ++
            [{ addr := (Int7 A).toNat, flags := I2C_M_RD ||| I2C_M_RECV_LEN, len := 256,
               buf := some (1 :: List.replicate 255 0) }],
          filled := (parseLoop toks parseInit).1.filled ++ [0],
          nmsgs := (parseLoop toks parseInit).1.nmsgs + 1 }, true) ∧
    parse_transfer ['r' :: '?' :: '@' :: A] =
      { ok := true, nmsgs := 1,
        msgs := [{ addr := (Int7 A).toNat, flags := I2C_M_RD ||| I2C_M_RECV_LEN, len := 256,
                   buf := some (1 :: List.replicate 255 0) }],
        filled := [0] } ∧
    parse_transfer ["r?@0x77".toList] =
      { ok := true, nmsgs := 1,
        msgs := [{ addr := 0x77, flags := I2C_M_RD ||| I2C_M_RECV_LEN, len := 256,
                   buf := some (1 :: List.replicate 255 0) }],
        filled := [0] } ∧
    (∀ st rest, (parseDesc st ('w' :: '?' :: rest)).2 = false) ∧
    (∀ pre rest more, (parseLoop pre parseInit).1.state = parse_state.PARSE_GET_DESC →
      (parse_transfer (pre ++ ('w' :: '?' :: rest) :: more)).ok = false) := by
  have hw : ∀ st rest, (parseDesc st ('w' :: '?' :: rest)).2 = false := by
    intro st rest
    have e0 : (if 'w' = 'r' then I2C_M_RD else 0) = 0 := by decide
    have e1 : 0 &&& I2C_M_RD = 0 := by decide
    rw [parseDesc_q st 'w' rest (Or.inr rfl), e0, if_pos e1]
  have hi := ParseInv_desc _ (parseLoop_inv toks parseInit parseInit_inv hok) hs
  refine ⟨parseDesc_dynamic _ A hA hi.1 hi.2.1, ?_, parse_transfer_r77, hw, ?_⟩
  · have h : parseLoop ['r' :: '?' :: '@' :: A] parseInit =
        (descSt (Int7 A) [{ addr := (Int7 A).toNat, flags := I2C_M_RD ||| I2C_M_RECV_LEN, len := 256, buf := some (1 :: List.replicate 255 0) }] [0] 0, true) := by
      have e7 : ¬ parseInit.nmsgs > I2C_RDWR_IOCTL_MAX_MSGS := by decide
      rw [parseLoop_cons, if_neg e7]
      have hst : parseInit.state = parse_state.PARSE_GET_DESC := rfl
      rw [hst]
      dsimp only
      rw [parseDesc_dynamic parseInit A hA rfl rfl]
      rfl
    exact parse_transfer_descSt _ _ _ _ _ h (List.cons_ne_nil _ _)
  · intro pre rest more hpre
    exact parse_transfer_desc_fail pre _ more hpre (fun _ => hw _ rest)

theorem parse_transfer_dynamic_witness :
    0 ≤ Int7 "119".toList ∧
    parse_transfer ["r?@119".toList] =
      { ok := true, nmsgs := 1,
        msgs := [{ addr := 119, flags := I2C_M_RD ||| I2C_M_RECV_LEN, len := 256,
                   buf := some (1 :: List.replicate 255 0) }],
        filled := [0] } :=
  ⟨by decide, (parse_transfer_dynamic [] "119".toList rfl rfl (by decide)).2.1⟩

/-! ## parse_transfer: incomplete token lists -/

theorem parse_transfer_data_fail (toks : List (List Char))
    (h : (parseLoop toks parseInit).1.state = parse_state.PARSE_GET_DATA) :
    (parse_transfer toks).ok = false := by
  cases hk : (parse_transfer toks).ok with
  | false => rfl
  | true =>
    have := ((parse_transfer_ok toks).1 hk).2.1
    rw [h] at this
    cases this

/-- Claim C15. `parse_transfer` fails for the empty token list and for every
token list `toks` after which the parser is in the state `PARSE_GET_DATA`; when
the tokens were read without error that state means exactly that the last
entry of `msgs` is a write message, not yet counted in `nmsgs`, that still
lacks data bytes (`buf_idx` is less than its length).  So a write descriptor of
length `n` followed by fewer than `n` data tokens fails, as do the tokens
`w3@0x50`, `1`, `2`.  Whenever `parse_transfer` succeeds, `nmsgs` is at least
1, `msgs` holds `nmsgs` messages, each with a buffer of its length, and into
every write message as many bytes were stored as its length says. -/
theorem parse_transfer_complete (toks : List (List Char)) :
    (parse_transfer []).ok = false ∧
    ((parseLoop toks parseInit).1.state = parse_state.PARSE_GET_DATA →
      (parse_transfer toks).ok = false) ∧
    ((parseLoop toks parseInit).2 = true →
      ((parseLoop toks parseInit).1.state = parse_state.PARSE_GET_DATA ↔
        ∃ done m, (parseLoop toks parseInit).1.msgs = done ++ [m] ∧
          done.length = (parseLoop toks parseInit).1.nmsgs ∧ m.flags &&& I2C_M_RD = 0 ∧
          (parseLoop toks parseInit).1.buf_idx < m.len ∧
          (parseLoop toks parseInit).1.filled.getLast? =
            some (parseLoop toks parseInit).1.buf_idx)) ∧
    (∀ (a n : Nat) (ds : List Nat), a < 128 → 1 ≤ n ∧ n ≤ 65535 → ds.length < n →
      (∀ d ∈ ds, d < 256) →
      (parse_transfer (('w' :: (Nat.toDigits 10 n ++ '@' :: Nat.toDigits 10 a)) ::
        ds.map (Nat.toDigits 10))).ok = false) ∧
    (parse_transfer ["w3@0x50".toList, "1".toList, "2".toList]).ok = false ∧
    ((parse_transfer toks).ok = true →
      1 ≤ (parse_transfer toks).nmsgs ∧
      (parse_transfer toks).msgs.length = (parse_transfer toks).nmsgs ∧
      List.Forall₂ Complete (parse_transfer toks).msgs (parse_transfer toks).filled ∧
      ∀ m ∈ (parse_transfer toks).msgs, ∃ buf, m.buf = some buf ∧ buf.length = m.len) := by
  refine ⟨by decide, parse_transfer_data_fail toks, ?_, ?_, by decide, ?_⟩
  · intro hok
    have hinv := parseLoop_inv toks parseInit parseInit_inv hok
    constructor
    · intro hst
      obtain ⟨done, fdone, m, pre, post, e, hlen, hp, hfd, hdl, hpl, hm, hb, hrd⟩ :=
        ParseInv_data _ hinv hst
      refine ⟨done, m, hm, hdl, hrd, ?_, ?_⟩
      · have : 0 < post.length := List.length_pos.2 hp
        omega
      · rw [e]
        simp [dataSt, hpl]
    · intro ⟨done, m, hm, hdl, _⟩
      cases hst : (parseLoop toks parseInit).1.state with
      | PARSE_GET_DATA => rfl
      | PARSE_GET_DESC =>
        have h := (ParseInv_desc _ hinv hst).1
        rw [hm] at h
        simp at h
        omega
  · intro a n ds ha hn hlen hds
    apply parse_transfer_data_fail
    have h := parseLoop_write (-1) [] [] 0 a n ds [] rfl (by decide) ha hn (by omega) hds
    rw [List.append_nil, ← parseInit_descSt, if_neg (by omega)] at h
    rw [h]
    rfl
  · intro hk
    obtain ⟨hok, hst, hn⟩ := (parse_transfer_ok toks).1 hk
    obtain ⟨f1, f2, f3⟩ := parse_transfer_fields toks
    obtain ⟨i1, _, i3, i4⟩ := ParseInv_desc _ (parseLoop_inv toks parseInit parseInit_inv hok) hst
    rw [f1, f2, f3]
    exact ⟨by omega, i1, i3, fun m hm => (i4 m hm).2.2.2⟩

theorem parse_transfer_complete_witness :
    ((parseLoop ["w3@0x50".toList, "1".toList, "2".toList] parseInit).1.state =
        parse_state.PARSE_GET_DATA ∧
      (parse_transfer ["w3@0x50".toList, "1".toList, "2".toList]).ok = false) ∧
    ((parse_transfer ["w2@0x50".toList, "0x12".toList, "0x34".toList, "r2".toList]).ok = true ∧
      List.Forall₂ Complete
        (parse_transfer ["w2@0x50".toList, "0x12".toList, "0x34".toList, "r2".toList]).msgs
        (parse_transfer ["w2@0x50".toList, "0x12".toList, "0x34".toList, "r2".toList]).filled) :=
  ⟨⟨by decide,
    (parse_transfer_complete ["w3@0x50".toList, "1".toList, "2".toList]).2.1 (by decide)⟩,
   ⟨by decide,
    ((parse_transfer_complete
      ["w2@0x50".toList, "0x12".toList, "0x34".toList, "r2".toList]).2.2.2.2.2 (by decide)).2.2.1⟩⟩

/-! ## parse_transfer: the ranges of addresses and lengths -/

theorem strtoParts_neg (c : Char) (tl : List Char) (h0 : c ≠ '0') :
    strtoParts ('-' :: c :: tl) =
      if (scanDigits 10 0 (c :: tl)).2.length = (c :: tl).length then none
      else some (true, (scanDigits 10 0 (c :: tl)).1, (scanDigits 10 0 (c :: tl)).2) := by
  unfold strtoParts
  have e0 : isspace '-' = false := by decide
  simp only [List.dropWhile, e0, List.head?, List.tail]
  have e1 : (some '-' == some '-') = true := by decide
  simp only [e1]
  simp only [true_or, if_true]
  split
  · rename_i x t heq
    injection heq with h1 h2
    exact absurd h1 h0
  · rename_i heq
    injection heq with h1 h2
    exact absurd h1 h0
  · rfl

theorem scanDigits_pos (n : Nat) (c : Char) (t : List Char) (hc : 10 ≤ digitValue c) :
    scanDigits 10 0 (Nat.toDigits 10 n ++ c :: t) = (n, c :: t) := by
  rw [scanDigits_toDigits, scanDigits_cons, if_neg (by omega)]

theorem strtol_pos (n : Nat) (c : Char) (t : List Char) (hn : 1 ≤ n) (hc : 10 ≤ digitValue c) :
    (strtol (Nat.toDigits 10 n ++ c :: t)).2 = c :: t := by
  have hsc := scanDigits_pos n c t hc
  obtain ⟨d, tl, h1, h2, e⟩ := toDigits_head n hn
  have hd := digitValue_digitChar d h2
  have hlen := toDigits_length n (c :: t)
  rw [e] at hsc hlen ⊢
  unfold strtol
  have hsc2 : scanDigits 10 0 (Nat.digitChar d :: (tl ++ c :: t)) = (n, c :: t) := hsc
  have e2 : strtoParts (Nat.digitChar d :: tl ++ c :: t) = some (false, n, c :: t) := by
    show strtoParts (Nat.digitChar d :: (tl ++ c :: t)) = _
    rw [strtoParts_decimal _ _ hd.2.1 hd.2.2.1 hd.2.2.2.1
      (fun h => by have := hd.2.2.2.2.2.2.1 h; omega), hsc2]
    exact if_neg hlen
  rw [e2]

theorem strtol_neg (v : Nat) (hv : 1 ≤ v) : (strtol ('-' :: Nat.toDigits 10 v)).1 < 0 := by
  have hsc := scanDigits_toDigits v []
  rw [List.append_nil] at hsc
  have hs0 : scanDigits 10 v [] = (v, []) := rfl
  rw [hs0] at hsc
  obtain ⟨d, tl, h1, h2, e⟩ := toDigits_head v hv
  have hd := digitValue_digitChar d h2
  rw [e] at hsc ⊢
  unfold strtol
  rw [strtoParts_neg _ _ (fun h => by have := hd.2.2.2.2.2.2.1 h; omega), hsc,
    if_neg (by simp)]
  dsimp only
  rw [if_pos rfl]
  unfold LONG_MAX
  split <;> omega

theorem Int7_neg (v : Nat) (hv : 1 ≤ v) : Int7 ('-' :: Nat.toDigits 10 v) = -1 := by
  obtain ⟨d, tl, h1, h2, e⟩ := toDigits_head v hv
  have hsk : skipZeros ('-' :: Nat.toDigits 10 v) = '-' :: Nat.toDigits 10 v := by
    rw [e]
    unfold skipZeros
    rw [if_neg]
    intro h
    exact absurd h.2.2 (by decide)
  have := strtol_neg v hv
  unfold Int7
  dsimp only
  rw [hsk, if_neg]
  intro h
  omega

theorem strtoul_big (n : Nat) (ds : List Char) (hn : 65535 < n) (hs : stops ds = true) :
    (strtoul (Nat.toDigits 10 n ++ ds)).1 > 0xffff := by
  unfold strtoul
  rw [strtoParts_toDigits n ds hs]
  dsimp only
  unfold ULONG_MAX
  split
  · decide
  · simp only [Bool.false_eq_true, if_false]
    omega

theorem parseDesc_len_fail (st : ParseSt) (d : Char) (rest : List Char)
    (hq : rest.head? ≠ some '?')
    (h : (strtoul rest).2.length = rest.length ∨ (strtoul rest).1 > 0xffff) :
    (parseDesc st (d :: rest)).2 = false := by
  unfold parseDesc
  dsimp only
  by_cases hd : d ≠ 'r' ∧ d ≠ 'w'
  · rw [if_pos hd]
  · rw [if_neg hd]
    split
    · exact absurd rfl hq
    · rw [if_pos (Or.symm h)]

/-- Claim C16, not met by the code. The address part `0+5` is the number `0`
followed by the extra characters `+5`, for which `Arg::Int7` is to return -1
as its test `*endptr == 0` does for `5+0`.  It returns 5: the loop that skips
leading zeros, there to prevent the interpretation as octal, drops the `0`
before a character that is no digit, and `strtol` reads `+5` to the end.  The
descriptor `r1@0+5` is so accepted as a read at the address 5, while `r1@5+0`
is a parse error. -/
theorem Int7_extra_accepted :
    Int7 "0+5".toList = 5 ∧
    parse_transfer ["r1@0+5".toList] =
      { ok := true, nmsgs := 1,
        msgs := [{ addr := 5, flags := I2C_M_RD, len := 1, buf := some [0] }],
        filled := [0] } ∧
    Int7 "5+0".toList = -1 ∧
    (parse_transfer ["r1@5+0".toList]).ok = false := by
  decide

/-- The ranges that `parse_transfer` enforces. Whenever `parse_transfer`
succeeds, every message has an address below 128 and a length of at most
65535, which is 256 for a message of dynamic length.  `Arg::Int7` returns -1
or a number in 0..127; it returns -1 for the empty string, for a negative
number, for a number of 128 or more, for every string in which `strtol` leaves
characters unread after the leading zeros were skipped, and so for a number of
at least 1 followed by a character that is no digit.  A token read as a
descriptor makes the parse fail when its address part (what follows the first
`@`) has `Int7` equal to -1, when no length follows the direction letter, or
when the length is larger than 65535. -/
theorem parse_transfer_ranges (toks : List (List Char))
    (hok : (parse_transfer toks).ok = true) :
    (∀ m ∈ (parse_transfer toks).msgs,
      m.addr < 128 ∧ m.len ≤ 65535 ∧ (m.flags &&& I2C_M_RECV_LEN ≠ 0 → m.len = 256)) ∧
    (∀ A, Int7 A = -1 ∨ (0 ≤ Int7 A ∧ Int7 A < 128)) ∧
    Int7 [] = -1 ∧
    (∀ v, 1 ≤ v → Int7 ('-' :: Nat.toDigits 10 v) = -1) ∧
    (∀ v, 128 ≤ v → Int7 (Nat.toDigits 10 v) = -1) ∧
    (∀ A, (strtol (skipZeros A)).2 ≠ [] → Int7 A = -1) ∧
    (∀ v c t, 1 ≤ v → 10 ≤ digitValue c → Int7 (Nat.toDigits 10 v ++ c :: t) = -1) ∧
    (∀ pre hd A more,
      (parseLoop pre parseInit).1.state = parse_state.PARSE_GET_DESC → '@' ∉ hd →
      Int7 A = -1 → (parse_transfer (pre ++ (hd ++ '@' :: A) :: more)).ok = false) ∧
    (∀ pre d rest more,
      (parseLoop pre parseInit).1.state = parse_state.PARSE_GET_DESC →
      rest.head? ≠ some '?' →
      (strtoul rest).2.length = rest.length ∨ (strtoul rest).1 > 0xffff →
      (parse_transfer (pre ++ (d :: rest) :: more)).ok = false) ∧
    (∀ pre d A more,
      (parseLoop pre parseInit).1.state = parse_state.PARSE_GET_DESC →
      (parse_transfer (pre ++ [d] :: more)).ok = false ∧
      (parse_transfer (pre ++ (d :: '@' :: A) :: more)).ok = false) ∧
    (∀ pre d n A more,
      (parseLoop pre parseInit).1.state = parse_state.PARSE_GET_DESC → 65535 < n →
      (parse_transfer (pre ++ (d :: (Nat.toDigits 10 n ++ '@' :: A)) :: more)).ok = false) := by
  have hlenfail : ∀ pre d rest more,
      (parseLoop pre parseInit).1.state = parse_state.PARSE_GET_DESC →
      rest.head? ≠ some '?' →
      (strtoul rest).2.length = rest.length ∨ (strtoul rest).1 > 0xffff →
      (parse_transfer (pre ++ (d :: rest) :: more)).ok = false := by
    intro pre d rest more hs hq h
    exact parse_transfer_desc_fail pre _ more hs (fun _ => parseDesc_len_fail _ d rest hq h)
  refine ⟨?_, Int7_range, by decide, Int7_neg, ?_, Int7_rest, ?_, ?_, hlenfail, ?_, ?_⟩
  · obtain ⟨h1, h2, _⟩ := (parse_transfer_ok toks).1 hok
    obtain ⟨_, f2, _⟩ := parse_transfer_fields toks
    obtain ⟨_, _, _, i4⟩ := ParseInv_desc _ (parseLoop_inv toks parseInit parseInit_inv h1) h2
    rw [f2]
    intro m hm
    have := i4 m hm
    exact ⟨this.1, this.2.1, fun h => (this.2.2.1 h).1⟩
  · intro v hv
    rw [Int7_toDigits, if_neg (by omega)]
  · intro v c t hv hc
    apply Int7_rest
    obtain ⟨d, tl, h1, h2, e⟩ := toDigits_head v hv
    have hd := digitValue_digitChar d h2
    have hsk : skipZeros (Nat.toDigits 10 v ++ c :: t) = Nat.toDigits 10 v ++ c :: t := by
      rw [e]
      cases tl with
      | nil =>
        show skipZeros (Nat.digitChar d :: c :: t) = _
        unfold skipZeros
        rw [if_neg]
        · rfl
        · intro h
          have := hd.2.2.2.2.2.2.1 h.2.2
          omega
      | cons y ys =>
        show skipZeros (Nat.digitChar d :: y :: (ys ++ c :: t)) = _
        unfold skipZeros
        rw [if_neg]
        · rfl
        · intro h
          have := hd.2.2.2.2.2.2.1 h.2.2
          omega
    rw [hsk, strtol_pos v c t hv hc]
    exact List.cons_ne_nil c t
  · intro pre hd A more hs hat hA
    apply parse_transfer_desc_fail pre _ more hs
    intro hinv
    cases hp : (parseDesc (parseLoop pre parseInit).1 (hd ++ '@' :: A)).2 with
    | false => rfl
    | true =>
      obtain ⟨_, new, _, _, _, _, h5⟩ := parseDesc_step _ _ hinv hs hp
      have := h5 hd A rfl hat
      omega
  · intro pre d A more hs
    exact ⟨hlenfail pre d [] more hs (by simp) (Or.inl rfl),
      hlenfail pre d ('@' :: A) more hs (by simp) (Or.inl (by
        have h := strtoul_split ('@' :: A)
        obtain ⟨p, e, hp⟩ := h
        cases p with
        | nil => rw [List.nil_append] at e; rw [← e]
        | cons x xs =>
          rw [List.cons_append] at e
          injection e with e1 e2
          exact absurd (by rw [← e1]; exact List.mem_cons_self _ _) hp))⟩
  · intro pre d n A more hs hn
    refine hlenfail pre d _ more hs ?_ (Or.inr (strtoul_big n _ hn (stops_at A)))
    obtain ⟨x, tl, hx, e⟩ := toDigits_cons n
    rw [e]
    show some (Nat.digitChar x) ≠ some '?'
    intro h
    injection h with h
    exact digitChar_ne_q x hx h

theorem parse_transfer_ranges_witness :
    (parse_transfer ["w2@0x50".toList, "0x12".toList, "0x34".toList, "r1@0x7f".toList]).ok =
        true ∧
    ∀ m ∈ (parse_transfer
        ["w2@0x50".toList, "0x12".toList, "0x34".toList, "r1@0x7f".toList]).msgs,
      m.addr < 128 ∧ m.len ≤ 65535 ∧ (m.flags &&& I2C_M_RECV_LEN ≠ 0 → m.len = 256) :=
  ⟨by decide,
    (parse_transfer_ranges ["w2@0x50".toList, "0x12".toList, "0x34".toList, "r1@0x7f".toList]
      (by decide)).1⟩

/-! ## parse_transfer: the number of messages -/

theorem descStore_nmsgs (st : ParseSt) (flags len : Nat) (address : Int) :
    (descStore st flags len address).nmsgs ≤ st.nmsgs + 1 := by
  unfold descStore
  dsimp only
  split
  · exact Nat.le_refl _
  · exact Nat.le_succ _

theorem parseDesc_nmsgs (st : ParseSt) (tok : List Char) (h : (parseDesc st tok).2 = true) :
    (parseDesc st tok).1.nmsgs ≤ st.nmsgs + 1 := by
  obtain ⟨_, flags, len, _, _, hc⟩ := parseDesc_ok st tok h
  rcases hc with ⟨_, _, e⟩ | ⟨_, _, _, e⟩ <;> rw [e] <;> exact descStore_nmsgs _ _ _ _

theorem parseData_nmsgs (st : ParseSt) (tok : List Char) :
    (parseData st tok).1.nmsgs ≤ st.nmsgs + 1 := by
  unfold parseData
  dsimp only
  split
  · exact Nat.le_succ _
  · split
    · exact Nat.le_succ _
    · split
      · exact Nat.le_refl _
      · exact Nat.le_succ _

theorem parseLoop_nmsgs (toks : List (List Char)) : ∀ st : ParseSt,
    st.nmsgs ≤ I2C_RDWR_IOCTL_MAX_MSGS + 1 → (parseLoop toks st).2 = true →
    (parseLoop toks st).1.nmsgs ≤ I2C_RDWR_IOCTL_MAX_MSGS + 1 := by
  induction toks with
  | nil => intro st h _; exact h
  | cons a t ih =>
    intro st hn h
    rw [parseLoop_cons] at h ⊢
    by_cases h1 : st.nmsgs > I2C_RDWR_IOCTL_MAX_MSGS
    · rw [if_pos h1] at h; cases h
    · rw [if_neg h1] at h ⊢
      cases hs : st.state with
      | PARSE_GET_DESC =>
        rw [hs] at h
        dsimp only at h ⊢
        by_cases h2 : (parseDesc st a).2 = true
        · rw [if_pos h2] at h ⊢
          have := parseDesc_nmsgs st a h2
          exact ih _ (by omega) h
        · rw [if_neg h2] at h; cases h
      | PARSE_GET_DATA =>
        rw [hs] at h
        dsimp only at h ⊢
        by_cases h2 : (parseData st a).2 = true
        · rw [if_pos h2] at h ⊢
          have := parseData_nmsgs st a
          exact ih _ (by omega) h
        · rw [if_neg h2] at h; cases h

set_option maxRecDepth 1000000 in
theorem parse_transfer_43 :
    (parse_transfer ("r1@1".toList :: List.replicate 42 "r1".toList)).ok = true ∧
    (parse_transfer ("r1@1".toList :: List.replicate 42 "r1".toList)).nmsgs = 43 ∧
    (parse_transfer ("r1@1".toList :: List.replicate 42 "r1".toList)).msgs.length = 43 ∧
    (parse_transfer ("r1@1".toList :: List.replicate 42 "r1".toList)).msgs.getD 42
        { addr := 0, flags := 0, len := 0, buf := none } =
      { addr := 1, flags := I2C_M_RD, len := 1, buf := some [0] } ∧
    (parse_transfer ("r1@1".toList :: List.replicate 43 "r1".toList)).ok = false := by
  decide

/-- Claim C17, not met by the code. The array `msgs` has
`I2C_RDWR_IOCTL_MAX_MSGS` = 42 entries, `msgs[0]` to `msgs[41]`, but the loop of
`parse_transfer` refuses a token only when `nmsgs` is larger than 42: on the 43
descriptors `r1@1`, `r1`, ..., `r1` it succeeds, reports `nmsgs` = 43 and has
stored a message at the index 42, outside the array.  What the code does
enforce is one more than the maximum: a successful parse has at most 43
messages, and 44 descriptors are a parse error. -/
theorem parse_transfer_max_msgs :
    I2C_RDWR_IOCTL_MAX_MSGS = 42 ∧
    (parse_transfer ("r1@1".toList :: List.replicate 42 "r1".toList)).ok = true ∧
    (parse_transfer ("r1@1".toList :: List.replicate 42 "r1".toList)).nmsgs = 43 ∧
    (parse_transfer ("r1@1".toList :: List.replicate 42 "r1".toList)).msgs.length = 43 ∧
    (parse_transfer ("r1@1".toList :: List.replicate 42 "r1".toList)).msgs.getD 42
        { addr := 0, flags := 0, len := 0, buf := none } =
      { addr := 1, flags := I2C_M_RD, len := 1, buf := some [0] } ∧
    (parse_transfer ("r1@1".toList :: List.replicate 43 "r1".toList)).ok = false ∧
    (∀ toks, (parse_transfer toks).ok = true →
      (parse_transfer toks).nmsgs ≤ I2C_RDWR_IOCTL_MAX_MSGS + 1) := by
  refine ⟨rfl, parse_transfer_43.1, parse_transfer_43.2.1, parse_transfer_43.2.2.1,
    parse_transfer_43.2.2.2.1, parse_transfer_43.2.2.2.2, ?_⟩
  intro toks hok
  rw [(parse_transfer_fields toks).1]
  exact parseLoop_nmsgs toks parseInit (by decide) ((parse_transfer_ok toks).1 hok).1

/-! ## i2c_rdwr: messages of length 0 -/

theorem rdwrMsg_zero (st : RdwrState) (msg : i2c_msg) (buf : List Nat) (h0 : msg.len = 0) :
    (rdwrMsg st msg buf).1.chan.log = st.chan.log ++
        [Ev.tx TxKind.start [0x73, ((msg.addr <<< 1) ||| 1) % 256],
         Ev.rx RxKind.status 2 (rxTake 2 st.chan.rx).1] ∧
      ((rdwrMsg st msg buf).1.ioerror = true ∨ (rdwrMsg st msg buf).1.do_add_pec = false) ∧
      ((rdwrMsg st msg buf).2.1 =
          { msg with flags := ((msg.flags ||| I2C_M_RD) &&& (0xFFFF ^^^ I2C_M_RECV_LEN)) % 65536 } ∨
        (rdwrMsg st msg buf).2.1 =
          { msg with flags := ((msg.flags ||| I2C_M_RD) &&& (0xFFFF ^^^ I2C_M_RECV_LEN)) % 65536,
                     buf := some buf }) := by
  have hf := flags_rewrite_rd msg.flags
  have hr := flags_rewrite_recv msg.flags
  unfold rdwrMsg
  dsimp only
  rw [if_pos h0]
  dsimp only
  rw [hf]
  by_cases he : (i2cdriverErr (st.chan.writeAll TxKind.start [0x73, ((msg.addr <<< 1) ||| 1) % 256])).1 = true
  · rw [if_pos he]
    exact ⟨by simp [File.writeAll], Or.inl rfl, Or.inl rfl⟩
  · rw [if_neg he, if_pos (show (1 : Nat) ≠ 0 by decide)]
    refine ⟨?_, Or.inr ?_, Or.inr ?_⟩ <;>
      simp [rdwrRead, hr, h0, readExit, File.writeAll]

/-- Claim C18. For a message of length 0, and so for a write message of length
0, the body of the message loop of `i2c_rdwr` (`rdwrMsg`, from any state `st`
and for every behaviour of the adapter) rewrites the flags before it sends the
START: the message it leaves has the bit `I2C_M_RD` set, the bit
`I2C_M_RECV_LEN` cleared and the length 0, the second byte of the START command
is `(addr << 1) | 1`, and the only calls on the channel for the message are the
write of the START command and the read of its status: no write command, no
payload and no read command.  A transfer of this one message writes the START
and the STOP and nothing else. -/
theorem i2c_rdwr_zero_length (st : RdwrState) (msg : i2c_msg) (buf : List Nat)
    (h0 : msg.len = 0) :
    (rdwrMsg st msg buf).2.1.flags &&& I2C_M_RD = 1 ∧
    (rdwrMsg st msg buf).2.1.flags &&& I2C_M_RECV_LEN = 0 ∧
    (rdwrMsg st msg buf).2.1.len = 0 ∧
    (rdwrMsg st msg buf).2.1.addr = msg.addr ∧
    (rdwrMsg st msg buf).1.chan.log = st.chan.log ++
      [Ev.tx TxKind.start [0x73, ((msg.addr <<< 1) ||| 1) % 256],
       Ev.rx RxKind.status 2 (rxTake 2 st.chan.rx).1] ∧
    (∀ add_pec dec chan, msg.buf = some buf →
      (i2c_rdwr add_pec dec chan [msg]).chan.tx = chan.tx ++
        [(TxKind.start, [0x73, ((msg.addr <<< 1) ||| 1) % 256]), (TxKind.stop, [0x70])] ∧
      (i2c_rdwr add_pec dec chan [msg]).msgs =
        [{ msg with flags := ((msg.flags ||| I2C_M_RD) &&& (0xFFFF ^^^ I2C_M_RECV_LEN)) % 65536 }]) := by
  obtain ⟨z1, z2, z3⟩ := rdwrMsg_zero st msg buf h0
  have hf := flags_rewrite_rd msg.flags
  have hr := flags_rewrite_recv msg.flags
  refine ⟨?_, ?_, ?_, ?_, z1, ?_⟩
  · rcases z3 with e | e <;> rw [e] <;> exact hf
  · rcases z3 with e | e <;> rw [e] <;> exact hr
  · rcases z3 with e | e <;> rw [e] <;> exact h0
  · rcases z3 with e | e <;> rw [e]
  · intro add_pec dec chan hb
    obtain ⟨y1, y2, y3⟩ := rdwrMsg_zero
      { chan := (chan.read RxKind.drain 32).2, pec := 0, ioerror := false, do_add_pec := add_pec }
      msg buf h0
    have hst := rdwrLoop_single
      { chan := (chan.read RxKind.drain 32).2, pec := 0, ioerror := false, do_add_pec := add_pec }
      msg buf hb
    obtain ⟨_, _, e3⟩ := i2c_rdwr_end add_pec dec chan [msg] (by simp) _ rfl
    rw [hst] at e3
    dsimp only at e3
    obtain ⟨l1, _⟩ := e3 (by
      intro hh
      rcases y2 with y | y
      · rw [hh.2] at y; cases y
      · rw [hh.1] at y; cases y)
    constructor
    · rw [File.tx, l1, y1]
      simp [txOf_append, txOf, File.read, File.tx]
    · unfold i2c_rdwr
      rw [if_neg (by simp)]
      dsimp only
      rw [hst]
      dsimp only
      rcases y3 with e | e
      · rw [e]
      · rw [e]
        cases msg with
        | mk ad fl len b =>
          simp only at hb
          rw [hb]

theorem i2c_rdwr_zero_length_witness :
    (rdwrMsg { chan := { log := [], rx := [some 0x31] }, pec := 0, ioerror := false, do_add_pec := true }
      { addr := 0x50, flags := I2C_M_RECV_LEN, len := 0, buf := some [] } []).2.1.flags = I2C_M_RD ∧
    (rdwrMsg { chan := { log := [], rx := [some 0x31] }, pec := 0, ioerror := false, do_add_pec := true }
      { addr := 0x50, flags := I2C_M_RECV_LEN, len := 0, buf := some [] } []).1.chan.log =
      [Ev.tx TxKind.start [0x73, 0xa1], Ev.rx RxKind.status 2 [0x31]] :=
  ⟨by decide,
   (i2c_rdwr_zero_length
      { chan := { log := [], rx := [some 0x31] }, pec := 0, ioerror := false, do_add_pec := true }
      { addr := 0x50, flags := I2C_M_RECV_LEN, len := 0, buf := some [] } [] rfl).2.2.2.2.1⟩

/-! ## PEC: splitting the bytes, and the reference values -/

theorem addBuf_foldl (bs : List Nat) : ∀ c : Nat,
    CRC_PEC.addBuf c bs = bs.foldl CRC_PEC.add c := by
  induction bs with
  | nil => intro c; rfl
  | cons b bs ih => intro c; simp [CRC_PEC.addBuf, ih]

/-- Claim C19. For every initial checksum `c` and all byte sequences `xs` and
`ys`, one call of `CRC_PEC::add(buf, count)` on `xs ++ ys` gives the same
`sum()` as a call on `xs` followed by a call on `ys`, and the same `sum()` as
one call of `add(byte)` per byte in order. -/
theorem CRC_PEC_add_split (c : Nat) (xs ys : List Nat) :
    CRC_PEC.sum (CRC_PEC.addBuf c (xs ++ ys)) =
      CRC_PEC.sum (CRC_PEC.addBuf (CRC_PEC.addBuf c xs) ys) ∧
    CRC_PEC.sum (CRC_PEC.addBuf c (xs ++ ys)) =
      CRC_PEC.sum ((xs ++ ys).foldl CRC_PEC.add c) := by
  rw [addBuf_append, ← addBuf_foldl, addBuf_append]
  exact ⟨rfl, rfl⟩

set_option maxRecDepth 100000 in
theorem addBuf_check :
    "123456789".toList.map Char.toNat = [0x31, 0x32, 0x33, 0x34, 0x35, 0x36, 0x37, 0x38, 0x39] ∧
    CRC_PEC.addBuf 0 ("123456789".toList.map Char.toNat) = 0xF4 := by
  decide

/-- Claim C20. Starting from the checksum 0, `CRC_PEC` gives the reference
values of CRC-8 with the polynomial 0x07: the byte 0x00 gives `sum()` = 0x00,
the byte 0x01 gives 0x07, and the nine ASCII bytes of `123456789` give 0xF4. -/
theorem CRC_PEC_reference_values :
    CRC_PEC.sum (CRC_PEC.addBuf 0 [0x00]) = 0x00 ∧
    CRC_PEC.sum (CRC_PEC.add 0 0x00) = 0x00 ∧
    CRC_PEC.sum (CRC_PEC.addBuf 0 [0x01]) = 0x07 ∧
    CRC_PEC.sum (CRC_PEC.add 0 0x01) = 0x07 ∧
    "123456789".toList.map Char.toNat = [0x31, 0x32, 0x33, 0x34, 0x35, 0x36, 0x37, 0x38, 0x39] ∧
    CRC_PEC.sum (CRC_PEC.addBuf 0 ("123456789".toList.map Char.toNat)) = 0xF4 :=
  ⟨by decide, by decide, by decide, by decide, addBuf_check.1, addBuf_check.2⟩

/-! ## waitReady -/

theorem waitReadyBody_eq (env : Nat → Reply) (f : TtyFile) :
    waitReadyBody env f =
      if (reply1 env f).head? = some 10 then
        if (reply2 env f).head? = some 0 then
          Attempt.ready { calls := f.calls + 4, written := f.written ++ [[64, 105, 32, 101, 10], [101, 0]], err := (env (f.calls + 3)).err }
        else if (env (f.calls + 3)).err.isSome ∧ (env (f.calls + 3)).err ≠ some EWOULDBLOCK then
          Attempt.ioerror { calls := f.calls + 4, written := f.written ++ [[64, 105, 32, 101, 10], [101, 0]], err := (env (f.calls + 3)).err }
        else
          Attempt.again { calls := f.calls + 4, written := f.written ++ [[64, 105, 32, 101, 10], [101, 0]], err := none }
      else if (env (f.calls + 1)).err.isSome ∧ (env (f.calls + 1)).err ≠ some EWOULDBLOCK then
        Attempt.ioerror { calls := f.calls + 2, written := f.written ++ [[64, 105, 32, 101, 10]], err := (env (f.calls + 1)).err }
      else
        Attempt.again { calls := f.calls + 2, written := f.written ++ [[64, 105, 32, 101, 10]], err := none } := by
  unfold waitReadyBody reply1 reply2
  simp only [TtyFile.writeAll, TtyFile.read, Nat.add_assoc, List.append_assoc, List.singleton_append]

theorem attemptFatal_iff (env : Nat → Reply) (f : TtyFile) :
    attemptFatal env f = true ↔
      ((attemptErr env f).isSome ∧ attemptErr env f ≠ some EWOULDBLOCK) := by
  unfold attemptFatal
  simp

theorem waitReadyBody_cases (env : Nat → Reply) (f : TtyFile) :
    (attemptReady env f = true ∧
      waitReadyBody env f = Attempt.ready { calls := f.calls + 4, written := f.written ++ [[64, 105, 32, 101, 10], [101, 0]], err := (env (f.calls + 3)).err }) ∨
    (attemptReady env f = false ∧ attemptFatal env f = true ∧
      ∃ g, waitReadyBody env f = Attempt.ioerror g ∧
        (g.written = f.written ++ [[64, 105, 32, 101, 10]] ∨
          g.written = f.written ++ [[64, 105, 32, 101, 10], [101, 0]])) ∨
    (attemptReady env f = false ∧ attemptFatal env f = false ∧
      waitReadyBody env f = Attempt.again (nextStart env f)) := by
  rw [waitReadyBody_eq]
  have hfat := attemptFatal_iff env f
  by_cases h1 : (reply1 env f).head? = some 10
  · have herr : attemptErr env f = (env (f.calls + 3)).err := by
      unfold attemptErr; rw [if_pos h1]
    have hnext : nextStart env f = { calls := f.calls + 4, written := f.written ++ [[64, 105, 32, 101, 10], [101, 0]], err := none } := by
      unfold nextStart; rw [if_pos h1]
    rw [if_pos h1]
    by_cases h2 : (reply2 env f).head? = some 0
    · rw [if_pos h2]
      exact Or.inl ⟨by simp [attemptReady, h1, h2], rfl⟩
    · rw [if_neg h2]
      have hr : attemptReady env f = false := by simp [attemptReady, h2]
      rw [herr] at hfat
      by_cases h3 : (env (f.calls + 3)).err.isSome ∧ (env (f.calls + 3)).err ≠ some EWOULDBLOCK
      · rw [if_pos h3]
        exact Or.inr (Or.inl ⟨hr, hfat.2 h3, _, rfl, Or.inr rfl⟩)
      · rw [if_neg h3, hnext]
        refine Or.inr (Or.inr ⟨hr, ?_, rfl⟩)
        cases hf : attemptFatal env f with
        | false => rfl
        | true => exact absurd (hfat.1 hf) h3
  · have herr : attemptErr env f = (env (f.calls + 1)).err := by
      unfold attemptErr; rw [if_neg h1]
    have hnext : nextStart env f = { calls := f.calls + 2, written := f.written ++ [[64, 105, 32, 101, 10]], err := none } := by
      unfold nextStart; rw [if_neg h1]
    rw [if_neg h1]
    have hr : attemptReady env f = false := by simp [attemptReady, h1]
    rw [herr] at hfat
    by_cases h3 : (env (f.calls + 1)).err.isSome ∧ (env (f.calls + 1)).err ≠ some EWOULDBLOCK
    · rw [if_pos h3]
      exact Or.inr (Or.inl ⟨hr, hfat.2 h3, _, rfl, Or.inl rfl⟩)
    · rw [if_neg h3, hnext]
      refine Or.inr (Or.inr ⟨hr, ?_, rfl⟩)
      cases hf : attemptFatal env f with
      | false => rfl
      | true => exact absurd (hfat.1 hf) h3

theorem startOf_shift (env : Nat → Reply) (k : Nat) : ∀ f : TtyFile,
    startOf env f (k + 1) = startOf env (nextStart env f) k := by
  induction k with
  | zero => intro f; rfl
  | succ k ih =>
    intro f
    show nextStart env (startOf env f (k + 1)) = nextStart env (startOf env (nextStart env f) k)
    rw [ih]

theorem waitReadyLoop_again (env : Nat → Reply) (k : Nat) : ∀ (n : Nat) (f : TtyFile),
    k ≤ n →
    (∀ j < k, attemptReady env (startOf env f j) = false ∧
      attemptFatal env (startOf env f j) = false) →
    waitReadyLoop env n f = waitReadyLoop env (n - k) (startOf env f k) := by
  induction k with
  | zero => intro n f _ _; rfl
  | succ k ih =>
    intro n f hk h
    obtain ⟨m, hm⟩ : ∃ m, n = m + 1 := ⟨n - 1, by omega⟩
    subst hm
    have h0 : attemptReady env f = false ∧ attemptFatal env f = false := h 0 (by omega)
    rcases waitReadyBody_cases env f with ⟨c, _⟩ | ⟨_, c, _⟩ | ⟨_, _, c⟩
    · rw [h0.1] at c; cases c
    · rw [h0.2] at c; cases c
    · have e : waitReadyLoop env (m + 1) f = waitReadyLoop env m (nextStart env f) := by
        show (match waitReadyBody env f with
          | Attempt.ready g => ((0 : Int), g)
          | Attempt.ioerror g => (-1, g)
          | Attempt.again g => waitReadyLoop env m g) = _
        rw [c]
      rw [e, ih m (nextStart env f) (by omega) (fun j hj => by
        have := h (j + 1) (by omega)
        rw [startOf_shift] at this
        exact this), startOf_shift]
      congr 1
      omega

theorem count_probe :
    List.count [64, 105, 32, 101, 10] [[64, 105, 32, 101, 10], [101, 0]] = 1 ∧
      List.count [64, 105, 32, 101, 10] [[64, 105, 32, 101, 10]] = 1 := by
  decide

theorem startOf_written (env : Nat → Reply) (f : TtyFile) (k : Nat) :
    ∃ w, (startOf env f k).written = f.written ++ w ∧ w.count [64, 105, 32, 101, 10] = k := by
  induction k with
  | zero => exact ⟨[], by simp [startOf], rfl⟩
  | succ k ih =>
    obtain ⟨w, h1, h2⟩ := ih
    show ∃ w, (nextStart env (startOf env f k)).written = f.written ++ w ∧ _
    unfold nextStart
    split
    · refine ⟨w ++ [[64, 105, 32, 101, 10], [101, 0]], by simp [h1], ?_⟩
      rw [List.count_append, h2]
      rw [count_probe.1]
    · refine ⟨w ++ [[64, 105, 32, 101, 10]], by simp [h1], ?_⟩
      rw [List.count_append, h2]
      rw [count_probe.2]

theorem waitReadyLoop_at (env : Nat → Reply) (f : TtyFile) (n k : Nat) (hk : k < n)
    (h : ∀ j < k, attemptReady env (startOf env f j) = false ∧
      attemptFatal env (startOf env f j) = false) :
    (attemptReady env (startOf env f k) = true →
      (waitReadyLoop env n f).1 = 0 ∧
      ∃ w, (waitReadyLoop env n f).2.written = f.written ++ w ∧
        w.count [64, 105, 32, 101, 10] = k + 1) ∧
    (attemptReady env (startOf env f k) = false → attemptFatal env (startOf env f k) = true →
      (waitReadyLoop env n f).1 = -1 ∧
      ∃ w, (waitReadyLoop env n f).2.written = f.written ++ w ∧
        w.count [64, 105, 32, 101, 10] = k + 1) := by
  rw [waitReadyLoop_again env k n f (by omega) h]
  obtain ⟨m, hm⟩ : ∃ m, n - k = m + 1 := ⟨n - k - 1, by omega⟩
  rw [hm]
  obtain ⟨w, hw1, hw2⟩ := startOf_written env f k
  have unf : waitReadyLoop env (m + 1) (startOf env f k) =
      (match waitReadyBody env (startOf env f k) with
        | Attempt.ready g => ((0 : Int), g)
        | Attempt.ioerror g => (-1, g)
        | Attempt.again g => waitReadyLoop env m g) := rfl
  rw [unf]
  constructor
  · intro hr
    rcases waitReadyBody_cases env (startOf env f k) with ⟨_, c⟩ | ⟨c, _⟩ | ⟨c, _⟩
    · rw [c]
      refine ⟨rfl, w ++ [[64, 105, 32, 101, 10], [101, 0]], by simp [hw1], ?_⟩
      rw [List.count_append, hw2]
      rw [count_probe.1]
    · rw [hr] at c; cases c
    · rw [hr] at c; cases c
  · intro hr hf
    rcases waitReadyBody_cases env (startOf env f k) with ⟨c, _⟩ | ⟨_, _, g, c, hg⟩ | ⟨_, c, _⟩
    · rw [hr] at c; cases c
    · rw [c]
      refine ⟨rfl, ?_⟩
      rcases hg with hg | hg
      · refine ⟨w ++ [[64, 105, 32, 101, 10]], by simp [hg, hw1], ?_⟩
        rw [List.count_append, hw2]
        rw [count_probe.2]
      · refine ⟨w ++ [[64, 105, 32, 101, 10], [101, 0]], by simp [hg, hw1], ?_⟩
        rw [List.count_append, hw2]
        rw [count_probe.1]
    · rw [hf] at c; cases c

theorem waitReadyLoop_all (env : Nat → Reply) (f : TtyFile) (n : Nat)
    (h : ∀ j < n, attemptReady env (startOf env f j) = false ∧
      attemptFatal env (startOf env f j) = false) :
    waitReadyLoop env n f = (1, startOf env f n) := by
  rw [waitReadyLoop_again env n n f (Nat.le_refl n) h, Nat.sub_self]
  rfl

theorem startOf_silent (env : Nat → Reply) (f : TtyFile)
    (h : ∀ i, (env i).got = [] ∧ ((env i).err = none ∨ (env i).err = some EWOULDBLOCK))
    (k : Nat) :
    attemptReady env (startOf env f k) = false ∧ attemptFatal env (startOf env f k) = false ∧
      (startOf env f k).calls = f.calls + 2 * k ∧
      (startOf env f k).written = f.written ++ List.replicate k [64, 105, 32, 101, 10] := by
  have hr : ∀ g : TtyFile, (reply1 env g).head? ≠ some 10 := by
    intro g
    unfold reply1
    rw [(h _).1]
    simp
  have hquiet : ∀ g : TtyFile, attemptReady env g = false ∧ attemptFatal env g = false := by
    intro g
    refine ⟨by simp [attemptReady, hr g], ?_⟩
    unfold attemptFatal attemptErr
    rw [if_neg (hr g)]
    rcases (h (g.calls + 1)).2 with e | e <;> rw [e] <;> rfl
  refine ⟨(hquiet _).1, (hquiet _).2, ?_⟩
  induction k with
  | zero => exact ⟨rfl, by simp [startOf]⟩
  | succ k ih =>
    show (nextStart env (startOf env f k)).calls = _ ∧ (nextStart env (startOf env f k)).written = _
    unfold nextStart
    rw [if_neg (hr _)]
    dsimp only
    rw [ih.1, ih.2]
    refine ⟨by omega, ?_⟩
    rw [List.append_assoc, List.replicate_succ']

/-- Claim C21. If every call on the channel leaves no error or the would-block
error and every read receives no byte, `waitReady` returns 1 after exactly 100
turns of its loop: from any state of the channel it makes 200 calls, and what
it writes is the 5-byte probe `@i e\n`, 100 times, and nothing else, so never
the second probe. -/
theorem waitReady_silent (env : Nat → Reply) (f : TtyFile)
    (h : ∀ i, (env i).got = [] ∧ ((env i).err = none ∨ (env i).err = some EWOULDBLOCK)) :
    (waitReady env f).1 = 1 ∧
    (waitReady env f).2.written = f.written ++ List.replicate 100 [64, 105, 32, 101, 10] ∧
    (waitReady env f).2.calls = f.calls + 200 ∧
    "@i e\n".toList.map Char.toNat = [64, 105, 32, 101, 10] := by
  have e : waitReady env f = (1, startOf env f 100) :=
    waitReadyLoop_all env f 100 (fun j _ =>
      ⟨(startOf_silent env f h j).1, (startOf_silent env f h j).2.1⟩)
  have s := startOf_silent env f h 100
  rw [e]
  exact ⟨rfl, s.2.2.2, s.2.2.1, by decide⟩

theorem waitReady_silent_witness :
    (waitReady (fun _ => { got := [], err := some EWOULDBLOCK })
      { calls := 0, written := [], err := none }).1 = 1 ∧
    (waitReady (fun _ => { got := [], err := some EWOULDBLOCK })
      { calls := 0, written := [], err := none }).2.written =
      List.replicate 100 [64, 105, 32, 101, 10] :=
  ⟨(waitReady_silent (fun _ => { got := [], err := some EWOULDBLOCK })
      { calls := 0, written := [], err := none } (fun _ => ⟨rfl, Or.inr rfl⟩)).1,
   (waitReady_silent (fun _ => { got := [], err := some EWOULDBLOCK })
      { calls := 0, written := [], err := none } (fun _ => ⟨rfl, Or.inr rfl⟩)).2.1⟩

/-- Claim C22. Let the turn number `k` (counted from 0, `k < 100`) of the loop
of `waitReady` be the first that gets both replies or ends with a channel error
other than would-block.  If in that turn the reply to the first probe starts
with `'\n'` and the reply to the second probe with the byte 0, `waitReady`
returns 0; otherwise it returns -1; in both cases it has written the first
probe `k + 1` times, so it starts no further turn.  It returns 1 exactly when
none of the 100 turns gets both replies or ends with such an error. -/
theorem waitReady_result (env : Nat → Reply) (f : TtyFile) (k : Nat) (hk : k < 100)
    (h : ∀ j < k, attemptReady env (startOf env f j) = false ∧
      attemptFatal env (startOf env f j) = false) :
    (attemptReady env (startOf env f k) = true →
      (waitReady env f).1 = 0 ∧
      ∃ w, (waitReady env f).2.written = f.written ++ w ∧
        w.count [64, 105, 32, 101, 10] = k + 1) ∧
    (attemptReady env (startOf env f k) = false → attemptFatal env (startOf env f k) = true →
      (waitReady env f).1 = -1 ∧
      ∃ w, (waitReady env f).2.written = f.written ++ w ∧
        w.count [64, 105, 32, 101, 10] = k + 1) ∧
    ((waitReady env f).1 = 1 ↔
      ∀ j < 100, attemptReady env (startOf env f j) = false ∧
        attemptFatal env (startOf env f j) = false) := by
  refine ⟨(waitReadyLoop_at env f 100 k hk h).1, (waitReadyLoop_at env f 100 k hk h).2, ?_⟩
  constructor
  · intro h1
    by_contra hne
    have hex : ∃ j, j < 100 ∧ ¬ (attemptReady env (startOf env f j) = false ∧
        attemptFatal env (startOf env f j) = false) := by
      by_contra hno
      apply hne
      intro j hj
      by_contra hc
      exact hno ⟨j, hj, hc⟩
    have hspec := Nat.find_spec hex
    have hmin : ∀ j < Nat.find hex, attemptReady env (startOf env f j) = false ∧
        attemptFatal env (startOf env f j) = false := by
      intro j hj
      by_contra hc
      exact Nat.find_min hex hj ⟨by omega, hc⟩
    have hat := waitReadyLoop_at env f 100 (Nat.find hex) hspec.1 hmin
    cases hr : attemptReady env (startOf env f (Nat.find hex)) with
    | true =>
      have := (hat.1 hr).1
      unfold waitReady at h1
      omega
    | false =>
      cases hf : attemptFatal env (startOf env f (Nat.find hex)) with
      | true =>
        have := (hat.2 hr hf).1
        unfold waitReady at h1
        omega
      | false => exact hspec.2 ⟨hr, hf⟩
  · intro hall
    show (waitReadyLoop env 100 f).1 = 1
    rw [waitReadyLoop_all env f 100 hall]

theorem waitReady_result_witness :
    (waitReady (fun i => if i = 5 then { got := [10], err := none }
        else if i = 7 then { got := [0], err := none } else { got := [], err := some EWOULDBLOCK })
      { calls := 0, written := [], err := none }).1 = 0 :=
  ((waitReady_result (fun i => if i = 5 then { got := [10], err := none }
        else if i = 7 then { got := [0], err := none } else { got := [], err := some EWOULDBLOCK })
      { calls := 0, written := [], err := none } 2 (by decide) (by decide)).1 (by decide)).1

/-! ## transfer: the tokens -/

theorem leSpace_ascii (sgn : Bool) (c : Char) (h : c ≠ '\x00' ∧ c.toNat < 128) :
    ((c ≠ '\x00' ∧ (leSpace sgn c = true ∨ c = ',')) ↔ isSep c = true) ∧
      ((c ≠ '\x00' ∧ leSpace sgn c = false ∧ c ≠ ',') ↔ isSep c = false) := by
  have e : leSpace sgn c = decide (c.toNat ≤ 32) := by
    unfold leSpace
    rw [if_neg (by intro hh; omega)]
  rw [e]
  unfold isSep
  by_cases h1 : c = ','
  · subst h1; simp
  · by_cases h2 : c.toNat ≤ 32
    · simp [h1, h2, h.1]
    · simp [h1, h2, h.1]

theorem Ascii_cons (c : Char) (s : List Char) (h : Ascii (c :: s)) :
    (c ≠ '\x00' ∧ c.toNat < 128) ∧ Ascii s :=
  ⟨h c (List.mem_cons_self _ _), fun x hx => h x (List.mem_cons_of_mem _ hx)⟩

theorem zeroSeps_spec (sgn : Bool) (s : List Char) (h : Ascii s) :
    ∃ seps, s = seps ++ (zeroSeps sgn s).2 ∧ (∀ c ∈ seps, isSep c = true) ∧
      (zeroSeps sgn s).1 = List.replicate seps.length '\x00' ∧
      (∀ c r, (zeroSeps sgn s).2 = c :: r → isSep c = false) ∧
      (∀ c r, s = c :: r → isSep c = true → seps ≠ []) := by
  induction s with
  | nil => exact ⟨[], rfl, by simp, rfl, by simp [zeroSeps], by simp⟩
  | cons c cs ih =>
    obtain ⟨hc, hcs⟩ := Ascii_cons c cs h
    obtain ⟨seps, e1, e2, e3, e4, _⟩ := ih hcs
    have hl := leSpace_ascii sgn c hc
    unfold zeroSeps
    by_cases hsep : isSep c = true
    · rw [if_pos (hl.1.2 hsep)]
      refine ⟨c :: seps, by rw [List.cons_append, ← e1], ?_, by simp [e3, List.replicate_succ],
        e4, by simp⟩
      intro x hx
      rcases List.mem_cons.1 hx with hx | hx
      · rw [hx]; exact hsep
      · exact e2 x hx
    · rw [if_neg (fun hh => hsep (hl.1.1 hh))]
      refine ⟨[], rfl, by simp, rfl, ?_, ?_⟩
      · intro x r hx
        injection hx with hx1 _
        rw [← hx1]
        simpa using hsep
      · intro x r hx hx2
        injection hx with hx1 _
        rw [← hx1] at hx2
        exact absurd hx2 hsep

theorem tokChars_spec (sgn : Bool) (s : List Char) (h : Ascii s) :
    s = (tokChars sgn s).1 ++ (tokChars sgn s).2 ∧
      (∀ c ∈ (tokChars sgn s).1, isSep c = false ∧ c ≠ '\x00') ∧
      (∀ c r, (tokChars sgn s).2 = c :: r → isSep c = true) ∧
      (∀ c r, s = c :: r → isSep c = false → (tokChars sgn s).1 ≠ []) := by
  induction s with
  | nil => exact ⟨rfl, by simp [tokChars], by simp [tokChars], by simp⟩
  | cons c cs ih =>
    obtain ⟨hc, hcs⟩ := Ascii_cons c cs h
    obtain ⟨e1, e2, e3, _⟩ := ih hcs
    have hl := leSpace_ascii sgn c hc
    unfold tokChars
    by_cases hsep : isSep c = false
    · rw [if_pos (hl.2.2 hsep)]
      refine ⟨by rw [List.cons_append, ← e1], ?_, e3, by simp⟩
      intro x hx
      rcases List.mem_cons.1 hx with hx | hx
      · rw [hx]; exact ⟨hsep, hc.1⟩
      · exact e2 x hx
    · rw [if_neg (fun hh => hsep (hl.2.1 hh))]
      refine ⟨rfl, by simp, ?_, ?_⟩
      · intro x r hx
        injection hx with hx1 _
        rw [← hx1]
        simpa using hsep
      · intro x r hx hx2
        injection hx with hx1 _
        rw [← hx1] at hx2
        exact absurd hx2 hsep

theorem tokens_seps (seps r : List Char) (h : ∀ c ∈ seps, isSep c = true) :
    tokens (seps ++ r) = tokens r := by
  induction seps with
  | nil => rfl
  | cons c cs ih =>
    have hc := h c (List.mem_cons_self _ _)
    unfold tokens at ih ⊢
    rw [List.cons_append, List.splitOnP_cons, if_pos hc, List.filter_cons]
    simp only [List.isEmpty_nil, Bool.not_true, Bool.false_eq_true, if_false]
    exact ih (fun x hx => h x (List.mem_cons_of_mem _ hx))

theorem tokens_tok (t r : List Char) (ht : t ≠ []) (h : ∀ c ∈ t, isSep c = false)
    (hr : ∀ c r1, r = c :: r1 → isSep c = true) :
    tokens (t ++ r) = t :: tokens r := by
  have hne : (!t.isEmpty) = true := by
    cases t with
    | nil => exact absurd rfl ht
    | cons a b => rfl
  cases r with
  | nil =>
    unfold tokens
    rw [List.append_nil, List.splitOnP_eq_single isSep t (fun x hx => by simp [h x hx])]
    simp [hne]
  | cons c r1 =>
    have hc := hr c r1 rfl
    unfold tokens
    rw [List.splitOnP_first isSep t (fun x hx => by simp [h x hx]) c hc r1,
      List.splitOnP_cons, if_pos hc, List.filter_cons, if_pos hne, List.filter_cons]
    simp

theorem cstr_tok (pre t rz : List Char) (ht : ∀ c ∈ t, c ≠ '\x00')
    (hz : rz = [] ∨ ∃ z, rz = '\x00' :: z) : cstr (pre ++ t ++ rz) pre.length = t := by
  unfold cstr
  rw [List.append_assoc, List.drop_left]
  induction t with
  | nil =>
    rcases hz with e | ⟨z, e⟩ <;> rw [e] <;> simp [List.takeWhile]
  | cons a t ih =>
    have ha := ht a (List.mem_cons_self _ _)
    rw [List.cons_append, List.takeWhile_cons, if_pos (by simpa using ha),
      ih (fun x hx => ht x (List.mem_cons_of_mem _ hx))]

theorem Ascii_append (a b : List Char) (h : Ascii (a ++ b)) : Ascii a ∧ Ascii b :=
  ⟨fun x hx => h x (List.mem_append_left _ hx), fun x hx => h x (List.mem_append_right _ hx)⟩

theorem transferLoop_spec (sgn : Bool) (n : Nat) : ∀ (done rest : List Char) (argv : List Nat),
    Ascii rest → (tokens rest).length < n →
    ∃ rz offs, (transferLoop sgn n done rest argv).1 = done ++ rz ∧
      (transferLoop sgn n done rest argv).2 = argv ++ offs ∧
      offs.map (cstr (transferLoop sgn n done rest argv).1) = tokens rest ∧
      (rest = [] → rz = []) ∧
      (∀ c r, rest = c :: r → isSep c = true → ∃ z, rz = '\x00' :: z) := by
  induction n with
  | zero => intro done rest argv _ h; omega
  | succ n ih =>
    intro done rest argv hr hn
    obtain ⟨seps, z1, z2, z3, z4, z5⟩ := zeroSeps_spec sgn rest hr
    have hts : tokens rest = tokens (zeroSeps sgn rest).2 := by
      conv => lhs; rw [z1]
      exact tokens_seps seps _ z2
    have hzhead : ∀ c r, rest = c :: r → isSep c = true →
        ∃ z, (zeroSeps sgn rest).1 = '\x00' :: z := by
      intro c r e hc
      have := z5 c r e hc
      rw [z3]
      cases seps with
      | nil => exact absurd rfl this
      | cons a b => exact ⟨List.replicate b.length '\x00', by simp [List.replicate_succ]⟩
    unfold transferLoop
    by_cases he : (zeroSeps sgn rest).2 = []
    · rw [if_pos he]
      refine ⟨(zeroSeps sgn rest).1, [], rfl, by simp, ?_, ?_, hzhead⟩
      · rw [hts, he]; rfl
      · intro e
        rw [e]; rfl
    · rw [if_neg he]
      have hr2 : Ascii (zeroSeps sgn rest).2 := by
        have := hr
        rw [z1] at this
        exact (Ascii_append _ _ this).2
      obtain ⟨t1, t2, t3, t4⟩ := tokChars_spec sgn _ hr2
      obtain ⟨c0, r0, hc0⟩ : ∃ c r, (zeroSeps sgn rest).2 = c :: r := by
        cases h : (zeroSeps sgn rest).2 with
        | nil => exact absurd h he
        | cons c r => exact ⟨c, r, rfl⟩
      have htne : (tokChars sgn (zeroSeps sgn rest).2).1 ≠ [] := t4 c0 r0 hc0 (z4 c0 r0 hc0)
      have htok : tokens (zeroSeps sgn rest).2 =
          (tokChars sgn (zeroSeps sgn rest).2).1 :: tokens (tokChars sgn (zeroSeps sgn rest).2).2 := by
        conv => lhs; rw [t1]
        exact tokens_tok _ _ htne (fun c hc => (t2 c hc).1) t3
      have hr3 : Ascii (tokChars sgn (zeroSeps sgn rest).2).2 := by
        have := hr2
        rw [t1] at this
        exact (Ascii_append _ _ this).2
      obtain ⟨rz, offs, i1, i2, i3, i4, i5⟩ := ih
        (done ++ (zeroSeps sgn rest).1 ++ (tokChars sgn (zeroSeps sgn rest).2).1)
        (tokChars sgn (zeroSeps sgn rest).2).2 (argv ++ [(done ++ (zeroSeps sgn rest).1).length]) hr3
        (by rw [hts, htok] at hn; simpa using hn)
      refine ⟨(zeroSeps sgn rest).1 ++ (tokChars sgn (zeroSeps sgn rest).2).1 ++ rz,
        (done ++ (zeroSeps sgn rest).1).length :: offs, ?_, ?_, ?_, ?_, ?_⟩
      · rw [i1]; simp
      · rw [i2]; simp
      · rw [List.map_cons, i3, hts, htok]
        congr 1
        rw [i1]
        apply cstr_tok _ _ _ (fun c hc => (t2 c hc).2)
        cases hrest : (tokChars sgn (zeroSeps sgn rest).2).2 with
        | nil => exact Or.inl (i4 hrest)
        | cons c r => exact Or.inr (i5 c r hrest (t3 c r hrest))
      · intro e
        rw [e] at he
        exact absurd rfl he
      · intro c r e hc
        obtain ⟨z, hz⟩ := hzhead c r e hc
        exact ⟨z ++ (tokChars sgn (zeroSeps sgn rest).2).1 ++ rz, by rw [hz]; simp⟩

theorem transferArgs_tokens (sgn : Bool) (carg : List Char) (ha : Ascii carg)
    (hn : (tokens carg).length ≤ 1022) : transferArgs sgn carg = tokens carg := by
  obtain ⟨rz, offs, _, i2, i3, _, _⟩ := transferLoop_spec sgn 1023 [] carg [] ha (by omega)
  unfold transferArgs
  rw [i2, List.nil_append]
  exact i3

theorem splitOnP_no_sep (p : Char → Bool) (s : List Char) :
    ∀ t ∈ s.splitOnP p, ∀ c ∈ t, p c = false := by
  induction s with
  | nil => simp
  | cons x xs ih =>
    rw [List.splitOnP_cons]
    by_cases hx : p x = true
    · rw [if_pos hx]
      intro t ht
      rcases List.mem_cons.1 ht with e | e
      · rw [e]; simp
      · exact ih t e
    · rw [if_neg hx]
      cases hs : xs.splitOnP p with
      | nil => exact absurd hs (List.splitOnP_ne_nil p xs)
      | cons h tl =>
        rw [hs] at ih
        intro t ht
        simp only [List.modifyHead_cons, List.mem_cons] at ht
        rcases ht with e | e
        · rw [e]
          intro c hc
          rcases List.mem_cons.1 hc with e2 | e2
          · rw [e2]; simpa using hx
          · exact ih h (List.mem_cons_self _ _) c e2
        · exact ih t (List.mem_cons_of_mem _ e)

set_option maxRecDepth 100000 in
theorem transfer_examples (sgn : Bool) :
    transferArgs sgn "w2@0x50 0x12 0x34, r2".toList =
      ["w2@0x50".toList, "0x12".toList, "0x34".toList, "r2".toList] ∧
    transferArgs sgn "w2@80,18,52,r2".toList =
      ["w2@80".toList, "18".toList, "52".toList, "r2".toList] ∧
    parse_transfer ["w2@0x50".toList, "0x12".toList, "0x34".toList, "r2".toList] =
      { ok := true, nmsgs := 2,
        msgs := [{ addr := 0x50, flags := 0, len := 2, buf := some [0x12, 0x34] },
                 { addr := 0x50, flags := I2C_M_RD, len := 2, buf := some [0, 0] }],
        filled := [2, 0] } ∧
    parse_transfer ["w2@80".toList, "18".toList, "52".toList, "r2".toList] =
      parse_transfer ["w2@0x50".toList, "0x12".toList, "0x34".toList, "r2".toList] := by
  refine ⟨?_, ?_, by decide, by decide⟩
  · rw [transferArgs_tokens sgn _ (by unfold Ascii; decide) (by decide)]
    decide
  · rw [transferArgs_tokens sgn _ (by unfold Ascii; decide) (by decide)]
    decide

/-- Claim C23. For every transfer string `carg` of ASCII characters with at most
1022 tokens, and whether `char` is signed or not, the strings that `transfer`
hands to `parse_transfer` are exactly the tokens of `carg`: the maximal runs of
characters that are neither `,` nor of a code of at most 0x20, in their order
and without an empty one.  So the two examples of the usage text,
`w2@0x50 0x12 0x34, r2` and `w2@80,18,52,r2`, give the same messages: a write
of 0x12, 0x34 to the address 0x50 and a read of length 2 at the address 0x50. -/
theorem transfer_tokens (sgn : Bool) (carg : List Char) (ha : Ascii carg)
    (hn : (tokens carg).length ≤ 1022) :
    transferArgs sgn carg = tokens carg ∧
    (∀ t ∈ transferArgs sgn carg, t ≠ [] ∧ ∀ c ∈ t, isSep c = false) ∧
    transferArgs sgn "w2@0x50 0x12 0x34, r2".toList =
      ["w2@0x50".toList, "0x12".toList, "0x34".toList, "r2".toList] ∧
    transferArgs sgn "w2@80,18,52,r2".toList =
      ["w2@80".toList, "18".toList, "52".toList, "r2".toList] ∧
    parse_transfer (transferArgs sgn "w2@0x50 0x12 0x34, r2".toList) =
      { ok := true, nmsgs := 2,
        msgs := [{ addr := 0x50, flags := 0, len := 2, buf := some [0x12, 0x34] },
                 { addr := 0x50, flags := I2C_M_RD, len := 2, buf := some [0, 0] }],
        filled := [2, 0] } ∧
    parse_transfer (transferArgs sgn "w2@80,18,52,r2".toList) =
      parse_transfer (transferArgs sgn "w2@0x50 0x12 0x34, r2".toList) := by
  have key := transferArgs_tokens sgn carg ha hn
  have ex := transfer_examples sgn
  refine ⟨key, ?_, ex.1, ex.2.1, by rw [ex.1]; exact ex.2.2.1, by rw [ex.1, ex.2.1]; exact ex.2.2.2⟩
  rw [key]
  intro t ht
  unfold tokens at ht
  rw [List.mem_filter] at ht
  refine ⟨by
    intro e
    rw [e] at ht
    simp at ht, splitOnP_no_sep isSep carg t ht.1⟩

theorem transfer_tokens_witness :
    transferArgs true " w1@5,\t7 ".toList = ["w1@5".toList, "7".toList] := by
  have h := (transfer_tokens true " w1@5,\t7 ".toList (by unfold Ascii; decide) (by decide)).1
  rw [h]
  decide

/-! ## i2c_rdwr: a message of length 0 ends the Transfer -/

set_option maxRecDepth 1000000 in
theorem i2c_rdwr_zero_eval :
    (i2c_rdwr false { count := 0, cur := 0, inData := false }
      { log := [], rx := [none, some 0x31, none, some 0x31, none, some 0xAB, none] }
      [{ addr := 0x50, flags := 0, len := 0, buf := some [] },
       { addr := 0x50, flags := I2C_M_RD, len := 1, buf := some [0] }]).chan.tx =
      [(TxKind.start, [0x73, 0xA1]), (TxKind.stop, [0x70])] ∧
    (i2c_rdwr false { count := 0, cur := 0, inData := false }
      { log := [], rx := [none, some 0x31, none, some 0x31, none, some 0xAB, none] }
      [{ addr := 0x50, flags := 0, len := 0, buf := some [] },
       { addr := 0x50, flags := I2C_M_RD, len := 1, buf := some [0] }]).ok = true ∧
    (i2c_rdwr false { count := 0, cur := 0, inData := false }
      { log := [], rx := [none, some 0x31, none, some 0x31, none, some 0xAB, none] }
      [{ addr := 0x50, flags := 0, len := 0, buf := some [] },
       { addr := 0x50, flags := I2C_M_RD, len := 1, buf := some [0] }]).msgs =
      [{ addr := 0x50, flags := I2C_M_RD, len := 0, buf := some [] },
       { addr := 0x50, flags := I2C_M_RD, len := 1, buf := some [0] }] ∧
    (i2c_rdwr false { count := 0, cur := 0, inData := false }
      { log := [], rx := [none, some 0x31, none, some 7, some 0x31, none, some 0xAB, none] }
      [{ addr := 0x50, flags := I2C_M_RD, len := 1, buf := some [0] },
       { addr := 0x50, flags := I2C_M_RD, len := 1, buf := some [0] }]).chan.tx =
      [(TxKind.start, [0x73, 0xA1]), (TxKind.readNack, [0x80]),
       (TxKind.start, [0x73, 0xA1]), (TxKind.readNack, [0x80]), (TxKind.stop, [0x70])] := by
  decide

set_option maxRecDepth 1000000 in
theorem i2c_rdwr_dynamic_zero_eval :
    (i2c_rdwr false { count := 0, cur := 0, inData := false }
      { log := [], rx := [none, some 0x31, none, some 0, some 0x31, none, some 0xAB, none] }
      [{ addr := 0x50, flags := I2C_M_RD ||| I2C_M_RECV_LEN, len := 256,
         buf := some (List.replicate 256 0) },
       { addr := 0x50, flags := I2C_M_RD, len := 1, buf := some [0] }]).chan.tx =
      [(TxKind.start, [0x73, 0xA1]), (TxKind.readAck, [0x61, 1]), (TxKind.stop, [0x70])] ∧
    (i2c_rdwr false { count := 0, cur := 0, inData := false }
      { log := [], rx := [none, some 0x31, none, some 0, some 0x31, none, some 0xAB, none] }
      [{ addr := 0x50, flags := I2C_M_RD ||| I2C_M_RECV_LEN, len := 256,
         buf := some (List.replicate 256 0) },
       { addr := 0x50, flags := I2C_M_RD, len := 1, buf := some [0] }]).ok = true := by
  decide

/-- Claim C24, not met by the code. The adapter acknowledges every command and
delivers every byte asked for (after the silence that the clearing of the
input buffer meets, the stream holds the OK code for each START and the data),
and the Transfer is a write of length 0 followed by a read of length 1 at the
address 0x50.  `i2c_rdwr` writes one START and the STOP and returns success:
the read is never executed, its buffer is untouched and its acknowledgement and
data stay unread in the stream, because the message of length 0 leaves the
loop by `goto endoftransmission`.  The same holds for a dynamic read whose
length byte is 0.  For comparison, two reads of length 1, on a stream that
holds the data byte of the first read as well, get a START each. -/
theorem i2c_rdwr_zero_ends_transfer :
    (i2c_rdwr false { count := 0, cur := 0, inData := false }
      { log := [], rx := [none, some 0x31, none, some 0x31, none, some 0xAB, none] }
      [{ addr := 0x50, flags := 0, len := 0, buf := some [] },
       { addr := 0x50, flags := I2C_M_RD, len := 1, buf := some [0] }]).chan.tx =
      [(TxKind.start, [0x73, 0xA1]), (TxKind.stop, [0x70])] ∧
    (i2c_rdwr false { count := 0, cur := 0, inData := false }
      { log := [], rx := [none, some 0x31, none, some 0x31, none, some 0xAB, none] }
      [{ addr := 0x50, flags := 0, len := 0, buf := some [] },
       { addr := 0x50, flags := I2C_M_RD, len := 1, buf := some [0] }]).ok = true ∧
    (i2c_rdwr false { count := 0, cur := 0, inData := false }
      { log := [], rx := [none, some 0x31, none, some 0x31, none, some 0xAB, none] }
      [{ addr := 0x50, flags := 0, len := 0, buf := some [] },
       { addr := 0x50, flags := I2C_M_RD, len := 1, buf := some [0] }]).msgs =
      [{ addr := 0x50, flags := I2C_M_RD, len := 0, buf := some [] },
       { addr := 0x50, flags := I2C_M_RD, len := 1, buf := some [0] }] ∧
    (i2c_rdwr false { count := 0, cur := 0, inData := false }
      { log := [], rx := [none, some 0x31, none, some 0, some 0x31, none, some 0xAB, none] }
      [{ addr := 0x50, flags := I2C_M_RD ||| I2C_M_RECV_LEN, len := 256,
         buf := some (List.replicate 256 0) },
       { addr := 0x50, flags := I2C_M_RD, len := 1, buf := some [0] }]).chan.tx =
      [(TxKind.start, [0x73, 0xA1]), (TxKind.readAck, [0x61, 1]), (TxKind.stop, [0x70])] ∧
    (i2c_rdwr false { count := 0, cur := 0, inData := false }
      { log := [], rx := [none, some 0x31, none, some 0, some 0x31, none, some 0xAB, none] }
      [{ addr := 0x50, flags := I2C_M_RD ||| I2C_M_RECV_LEN, len := 256,
         buf := some (List.replicate 256 0) },
       { addr := 0x50, flags := I2C_M_RD, len := 1, buf := some [0] }]).ok = true ∧
    (i2c_rdwr false { count := 0, cur := 0, inData := false }
      { log := [], rx := [none, some 0x31, none, some 7, some 0x31, none, some 0xAB, none] }
      [{ addr := 0x50, flags := I2C_M_RD, len := 1, buf := some [0] },
       { addr := 0x50, flags := I2C_M_RD, len := 1, buf := some [0] }]).chan.tx =
      [(TxKind.start, [0x73, 0xA1]), (TxKind.readNack, [0x80]),
       (TxKind.start, [0x73, 0xA1]), (TxKind.readNack, [0x80]), (TxKind.stop, [0x70])] :=
  ⟨i2c_rdwr_zero_eval.1, i2c_rdwr_zero_eval.2.1, i2c_rdwr_zero_eval.2.2.1,
    i2c_rdwr_dynamic_zero_eval.1, i2c_rdwr_dynamic_zero_eval.2, i2c_rdwr_zero_eval.2.2.2⟩

/-! ## parse_transfer: what follows the suffix, and octal numbers -/

/-- Claim C25, not met by the code. As the first data token of a write of 2
bytes, `1+x` and `5pp` are accepted: the parser looks at the character after
the number once for every byte it stores and never at what follows that
character, so `1+x` gives the bytes 1, 2 and `5pp` gives 5, 86.  A character
after the number that is no suffix is refused, as in `1x`, and also as the
last byte of the message. -/
theorem parse_transfer_after_suffix :
    parse_transfer ["w2@0x50".toList, "1+x".toList] =
      { ok := true, nmsgs := 1,
        msgs := [{ addr := 0x50, flags := 0, len := 2, buf := some [1, 2] }], filled := [2] } ∧
    parse_transfer ["w2@0x50".toList, "5pp".toList] =
      { ok := true, nmsgs := 1,
        msgs := [{ addr := 0x50, flags := 0, len := 2, buf := some [5, 86] }], filled := [2] } ∧
    (parse_transfer ["w2@0x50".toList, "1x".toList]).ok = false ∧
    (parse_transfer ["w2@0x50".toList, "1".toList, "2x".toList]).ok = false := by
  decide

/-- Claim C26, not met by the code. `Arg::Int7` skips the leading zeros and
reads the address `010` as 10, but the length of a descriptor and the data
bytes are read by `strtoul` with base 0, which takes a numeral with a leading
zero as octal: `r010@1` is a read of length 8, and the data token `010` is the
byte 8. -/
theorem parse_transfer_octal :
    Int7 "010".toList = 10 ∧
    parse_transfer ["r010@1".toList] =
      { ok := true, nmsgs := 1,
        msgs := [{ addr := 1, flags := I2C_M_RD, len := 8, buf := some (List.replicate 8 0) }],
        filled := [0] } ∧
    parse_transfer ["w1@1".toList, "010".toList] =
      { ok := true, nmsgs := 1,
        msgs := [{ addr := 1, flags := 0, len := 1, buf := some [8] }], filled := [1] } ∧
    parse_transfer ["r10@1".toList] =
      { ok := true, nmsgs := 1,
        msgs := [{ addr := 1, flags := I2C_M_RD, len := 10, buf := some (List.replicate 10 0) }],
        filled := [0] } ∧
    (parse_transfer ["w1@1".toList, "08".toList]).ok = false := by
  decide

/-! ## crc.h: the buffer operation -/

/-- Claim C27, not met by the code. `CRC::add(buf, count)` of `crc.h` calls
`add(buf[count])` in every turn of its loop, not `add(buf[i])`: for a count
above 0 and below the length of the buffer it adds the byte `buf[count]`
`count` times, and for a count equal to the length it reads behind the buffer.
With the checksum of `CRC_PEC`, the buffer 1, 2, 3 and the count 2 it leaves
the checksum of 3, 3 and not that of 1, 2. -/
theorem CRC_add_reads_buf_count :
    (∀ (σ : Type) (add : σ → Nat → σ) (crc : σ) (buf : List Nat) (count : Nat) (b : Nat),
      0 < count → buf.get? count = some b →
      CRC.add add crc buf count = some ((List.replicate count b).foldl add crc)) ∧
    CRC.add CRC_PEC.add 0 [1, 2, 3] 2 = some (CRC_PEC.add (CRC_PEC.add 0 3) 3) ∧
    CRC.add CRC_PEC.add 0 [1, 2, 3] 2 = some 54 ∧
    CRC_PEC.add (CRC_PEC.add 0 1) 2 = 27 ∧
    CRC.add CRC_PEC.add 0 [1, 2] 2 = none := by
  refine ⟨?_, by decide, by decide, by decide, by decide⟩
  intro σ add crc buf count b hc hb
  unfold CRC.add
  rw [if_neg (by omega), hb]

/-! ## i2cdriverErr -/

/-- Claim C28. `i2cdriverErr` reads up to 2 status bytes; it returns false (no
error) exactly when at least one byte was received and every byte received is
the OK code `0b110001` (0x31), and true exactly when no byte was received or
some received byte differs from the OK code. -/
theorem i2cdriverErr_ok_code (f : File) :
    (f.read RxKind.status 2).1.length ≤ 2 ∧
    (i2cdriverErr f).2 = (f.read RxKind.status 2).2 ∧
    ((i2cdriverErr f).1 = false ↔
      (f.read RxKind.status 2).1 ≠ [] ∧ ∀ b ∈ (f.read RxKind.status 2).1, b = 0b110001) ∧
    ((i2cdriverErr f).1 = true ↔
      (f.read RxKind.status 2).1 = [] ∨ ∃ b ∈ (f.read RxKind.status 2).1, b ≠ 0b110001) ∧
    (0b110001 : Nat) = 0x31 := by
  have hl : (f.read RxKind.status 2).1.length ≤ 2 := rxTake_length_le 2 f.rx
  refine ⟨hl, rfl, ?_, ?_, rfl⟩
  · unfold i2cdriverErr
    dsimp only
    generalize (f.read RxKind.status 2).1 = got at hl
    rcases got with _ | ⟨b0, _ | ⟨b1, _ | ⟨b2, t⟩⟩⟩
    · simp
    · simp
    · simp
    · simp at hl
  · unfold i2cdriverErr
    dsimp only
    generalize (f.read RxKind.status 2).1 = got at hl
    rcases got with _ | ⟨b0, _ | ⟨b1, _ | ⟨b2, t⟩⟩⟩
    · simp
    · simp
    · simp
    · simp at hl

theorem i2cdriverErr_ok_code_witness :
    (i2cdriverErr { log := [], rx := [some 0x31, some 0x31, some 5] }).1 = false ∧
    (i2cdriverErr { log := [], rx := [some 0x31, some 5] }).1 = true ∧
    (i2cdriverErr { log := [], rx := [none, some 0x31] }).1 = true :=
  ⟨(i2cdriverErr_ok_code { log := [], rx := [some 0x31, some 0x31, some 5] }).2.2.1.2
      (by decide),
   (i2cdriverErr_ok_code { log := [], rx := [some 0x31, some 5] }).2.2.2.1.2 (by decide),
   (i2cdriverErr_ok_code { log := [], rx := [none, some 0x31] }).2.2.2.1.2 (by decide)⟩

/-! ## PEC: the update is injective -/

set_option maxRecDepth 1000000 in
theorem PEC_Table_nodup : PEC_Table.Nodup := by
  decide

theorem PEC_Table_inj (x y : Nat) (hx : x < 256) (hy : y < 256)
    (h : PEC_Table.getD x 0 = PEC_Table.getD y 0) : x = y := by
  have hlx : x < PEC_Table.length := by rw [PEC_Table_length]; exact hx
  have hly : y < PEC_Table.length := by rw [PEC_Table_length]; exact hy
  rw [List.getD_eq_getElem _ _ hlx, List.getD_eq_getElem _ _ hly] at h
  exact (PEC_Table_nodup.getElem_inj_iff).1 h

theorem add_table (c b : Nat) (hc : c < 256) (hb : b < 256) :
    c ^^^ b < 256 ∧ CRC_PEC.add c b = PEC_Table.getD (c ^^^ b) 0 := by
  have hx : c ^^^ b < 256 := Nat.xor_lt_two_pow (n := 8) hc hb
  refine ⟨hx, ?_⟩
  unfold CRC_PEC.add
  rw [crc8_eq_table_entry _ hx, Nat.mod_eq_of_lt hx]

theorem add_inj_byte (c b1 b2 : Nat) (hc : c < 256) (h1 : b1 < 256) (h2 : b2 < 256)
    (h : CRC_PEC.add c b1 = CRC_PEC.add c b2) : b1 = b2 := by
  obtain ⟨x1, e1⟩ := add_table c b1 hc h1
  obtain ⟨x2, e2⟩ := add_table c b2 hc h2
  rw [e1, e2] at h
  exact Nat.xor_right_inj.1 (PEC_Table_inj _ _ x1 x2 h)

theorem add_inj_state (b c1 c2 : Nat) (hb : b < 256) (h1 : c1 < 256) (h2 : c2 < 256)
    (h : CRC_PEC.add c1 b = CRC_PEC.add c2 b) : c1 = c2 := by
  obtain ⟨x1, e1⟩ := add_table c1 b h1 hb
  obtain ⟨x2, e2⟩ := add_table c2 b h2 hb
  rw [e1, e2] at h
  have := PEC_Table_inj _ _ x1 x2 h
  rw [Nat.xor_comm c1 b, Nat.xor_comm c2 b] at this
  exact Nat.xor_right_inj.1 this

theorem addBuf_inj_state (bs : List Nat) : ∀ c1 c2 : Nat, c1 < 256 → c2 < 256 →
    (∀ b ∈ bs, b < 256) → CRC_PEC.addBuf c1 bs = CRC_PEC.addBuf c2 bs → c1 = c2 := by
  induction bs with
  | nil => intro c1 c2 _ _ _ h; exact h
  | cons b bs ih =>
    intro c1 c2 h1 h2 hb h
    have hb0 := hb b (List.mem_cons_self _ _)
    exact add_inj_state b c1 c2 hb0 h1 h2
      (ih _ _ (add_lt c1 b) (add_lt c2 b) (fun x hx => hb x (List.mem_cons_of_mem _ hx)) h)

/-- Claim C29. On 8-bit values the update of `CRC_PEC` is injective in each
argument: for a fixed checksum `c` different bytes give different checksums
after `add`, and for a fixed byte `b` different checksums stay different.  So
two byte sequences that differ in exactly one position, `pre ++ a :: post` and
`pre ++ b :: post` with `a ≠ b`, never have the same `sum()` when folded from
the same checksum. -/
theorem CRC_PEC_add_injective (c : Nat) (hc : c < 256) :
    (∀ b1 b2, b1 < 256 → b2 < 256 → CRC_PEC.add c b1 = CRC_PEC.add c b2 → b1 = b2) ∧
    (∀ b c2, b < 256 → c2 < 256 → CRC_PEC.add c b = CRC_PEC.add c2 b → c = c2) ∧
    (∀ pre post a b, (∀ x ∈ pre, x < 256) → (∀ x ∈ post, x < 256) → a < 256 → b < 256 →
      a ≠ b →
      CRC_PEC.sum (CRC_PEC.addBuf c (pre ++ a :: post)) ≠
        CRC_PEC.sum (CRC_PEC.addBuf c (pre ++ b :: post))) := by
  refine ⟨fun b1 b2 h1 h2 h => add_inj_byte c b1 b2 hc h1 h2 h,
    fun b c2 hb h2 h => add_inj_state b c c2 hb hc h2 h, ?_⟩
  intro pre post a b _ hpost ha hb hab h
  unfold CRC_PEC.sum at h
  rw [addBuf_append, addBuf_append] at h
  have hs := addBuf_lt c pre hc
  have h2 : CRC_PEC.add (CRC_PEC.addBuf c pre) a = CRC_PEC.add (CRC_PEC.addBuf c pre) b :=
    addBuf_inj_state post _ _ (add_lt _ _) (add_lt _ _) hpost h
  exact hab (add_inj_byte _ a b hs ha hb h2)

theorem CRC_PEC_add_injective_witness :
    CRC_PEC.sum (CRC_PEC.addBuf 0 ([0x50] ++ 0x12 :: [0x34])) ≠
      CRC_PEC.sum (CRC_PEC.addBuf 0 ([0x50] ++ 0x13 :: [0x34])) :=
  (CRC_PEC_add_injective 0 (by decide)).2.2 [0x50] [0x34] 0x12 0x13 (by decide) (by decide)
    (by decide) (by decide) (by decide)

/-! ## i2c_rdwr: the reads stay inside the buffer -/

theorem dataCounts_append (a b : List Ev) : dataCounts (a ++ b) = dataCounts a ++ dataCounts b := by
  induction a with
  | nil => rfl
  | cons e a ih =>
    cases e with
    | tx k bs => simpa [dataCounts] using ih
    | rx k n got => cases k <;> simp [dataCounts, ih]

theorem ackAllLoop_succ (fuel : Nat) (s : Loc) :
    ackAllLoop (fuel + 1) s =
      if s.len > 64 then
        if ((s.chan.writeAll TxKind.readAck
              [0x61, (if s.len > 255 then 255 else s.len - 1) % 256]).read RxKind.data
              (if s.len > 255 then 255 else s.len - 1)).1.length ≠
            (if s.len > 255 then 255 else s.len - 1) then
          { s with
            chan := ((s.chan.writeAll TxKind.readAck
              [0x61, (if s.len > 255 then 255 else s.len - 1) % 256]).read RxKind.data
              (if s.len > 255 then 255 else s.len - 1)).2,
            buf := store s.buf s.datidx ((s.chan.writeAll TxKind.readAck
              [0x61, (if s.len > 255 then 255 else s.len - 1) % 256]).read RxKind.data
              (if s.len > 255 then 255 else s.len - 1)).1,
            ioerror := true }
        else
          ackAllLoop fuel
            { chan := ((s.chan.writeAll TxKind.readAck
                [0x61, (if s.len > 255 then 255 else s.len - 1) % 256]).read RxKind.data
                (if s.len > 255 then 255 else s.len - 1)).2,
              pec := CRC_PEC.addBuf s.pec
                (((store s.buf s.datidx ((s.chan.writeAll TxKind.readAck
                  [0x61, (if s.len > 255 then 255 else s.len - 1) % 256]).read RxKind.data
                  (if s.len > 255 then 255 else s.len - 1)).1).drop s.datidx).take
                  (if s.len > 255 then 255 else s.len - 1)),
              buf := store s.buf s.datidx ((s.chan.writeAll TxKind.readAck
                [0x61, (if s.len > 255 then 255 else s.len - 1) % 256]).read RxKind.data
                (if s.len > 255 then 255 else s.len - 1)).1,
              len := s.len - (if s.len > 255 then 255 else s.len - 1),
              datidx := s.datidx + (if s.len > 255 then 255 else s.len - 1),
              ioerror := false }
      else s := rfl

theorem dataCounts_read (log : List Ev) (k : TxKind) (bs : List Nat) (l : Nat) (got : List Nat) :
    dataCounts (log ++ [Ev.tx k bs] ++ [Ev.rx RxKind.data l got]) = dataCounts log ++ [l] := by
  rw [dataCounts_append, dataCounts_append]
  simp [dataCounts]

theorem ackAllLoop_one (fuel : Nat) (s : Loc) (h : s.len > 64)
    (he : (ackAllLoop 1 s).ioerror = false) :
    ackAllLoop (fuel + 1) s = ackAllLoop fuel (ackAllLoop 1 s) ∧
      (ackAllLoop 1 s).datidx = s.datidx + (if s.len > 255 then 255 else s.len - 1) ∧
      (ackAllLoop 1 s).len = s.len - (if s.len > 255 then 255 else s.len - 1) ∧
      dataCounts (ackAllLoop 1 s).chan.log =
        dataCounts s.chan.log ++ [if s.len > 255 then 255 else s.len - 1] := by
  have e1 := ackAllLoop_succ 0 s
  rw [if_pos h] at e1
  rw [ackAllLoop_succ fuel s, if_pos h]
  generalize (if s.len > 255 then 255 else s.len - 1) = l at *
  by_cases hg : ((s.chan.writeAll TxKind.readAck [0x61, l % 256]).read RxKind.data l).1.length ≠ l
  · rw [if_pos hg] at e1
    rw [e1] at he
    cases he
  · rw [if_neg hg] at e1
    rw [if_neg hg, e1]
    exact ⟨rfl, rfl, rfl, dataCounts_read _ _ _ _ _⟩

theorem ackAllLoop_fail (fuel : Nat) (s : Loc) (h : s.len > 64)
    (he : (ackAllLoop 1 s).ioerror = true) :
    ackAllLoop (fuel + 1) s = ackAllLoop 1 s ∧
      dataCounts (ackAllLoop 1 s).chan.log =
        dataCounts s.chan.log ++ [if s.len > 255 then 255 else s.len - 1] := by
  have e1 := ackAllLoop_succ 0 s
  rw [if_pos h] at e1
  rw [ackAllLoop_succ fuel s, if_pos h]
  generalize (if s.len > 255 then 255 else s.len - 1) = l at *
  by_cases hg : ((s.chan.writeAll TxKind.readAck [0x61, l % 256]).read RxKind.data l).1.length ≠ l
  · rw [if_pos hg] at e1
    rw [if_pos hg, e1]
    exact ⟨rfl, dataCounts_read _ _ _ _ _⟩
  · rw [if_neg hg] at e1
    rw [e1] at he
    cases he

theorem ackAllSpans_spec (fuel : Nat) : ∀ s : Loc,
    dataCounts (ackAllLoop fuel s).chan.log =
        dataCounts s.chan.log ++ (ackAllSpans fuel s).map Prod.snd ∧
      (∀ p ∈ ackAllSpans fuel s, p.1 + p.2 ≤ s.datidx + s.len) ∧
      ((ackAllLoop fuel s).ioerror = false →
        (ackAllLoop fuel s).datidx + (ackAllLoop fuel s).len = s.datidx + s.len) := by
  induction fuel with
  | zero => intro s; exact ⟨by simp [ackAllLoop, ackAllSpans], by simp [ackAllSpans], fun _ => rfl⟩
  | succ fuel ih =>
    intro s
    by_cases h : s.len > 64
    · have hl : (if s.len > 255 then 255 else s.len - 1) ≤ s.len := by split <;> omega
      have hsp : ackAllSpans (fuel + 1) s =
          (s.datidx, if s.len > 255 then 255 else s.len - 1) ::
            (if (ackAllLoop 1 s).ioerror then [] else ackAllSpans fuel (ackAllLoop 1 s)) := by
        conv => lhs; unfold ackAllSpans
        rw [if_pos h]
      rw [hsp]
      cases he : (ackAllLoop 1 s).ioerror with
      | true =>
        obtain ⟨e1, e2⟩ := ackAllLoop_fail fuel s h he
        rw [e1, e2]
        refine ⟨by simp, ?_, fun hh => by rw [he] at hh; cases hh⟩
        intro p hp
        simp only [Bool.true_eq_false, if_true, List.mem_singleton] at hp
        rw [hp]
        show s.datidx + _ ≤ _
        omega
      | false =>
        obtain ⟨e1, e2, e3, e4⟩ := ackAllLoop_one fuel s h he
        obtain ⟨i1, i2, i3⟩ := ih (ackAllLoop 1 s)
        rw [e1, i1, e4]
        refine ⟨by simp, ?_, ?_⟩
        · intro p hp
          simp only [Bool.false_eq_true, if_false, List.mem_cons] at hp
          rcases hp with hp | hp
          · rw [hp]
            show s.datidx + _ ≤ _
            omega
          · have := i2 p hp
            rw [e2, e3] at this
            omega
        · intro hh
          have := i3 hh
          rw [e2, e3] at this
          omega
    · have e1 : ackAllLoop (fuel + 1) s = s := by
        unfold ackAllLoop
        rw [if_neg h]
      have e2 : ackAllSpans (fuel + 1) s = [] := by
        unfold ackAllSpans
        rw [if_neg h]
      rw [e1, e2]
      exact ⟨by simp, by simp, fun _ => rfl⟩

theorem recvLen_spec (s : Loc) :
    dataCounts (recvLen s).chan.log = dataCounts s.chan.log ++ [1] ∧
      ((recvLen s).ioerror = false →
        (recvLen s).datidx = s.datidx + 1 ∧ (recvLen s).len ≤ 255) := by
  unfold recvLen
  dsimp only
  by_cases hg : ((s.chan.writeAll TxKind.readAck [0x61, 1]).read RxKind.data 1).1.length ≠ 1
  · rw [if_pos hg]
    exact ⟨dataCounts_read _ _ _ _ _, fun h => by cases h⟩
  · rw [if_neg hg]
    refine ⟨dataCounts_read _ _ _ _ _, fun _ => ⟨rfl, ?_⟩⟩
    show _ % 256 ≤ 255
    omega

theorem finalNack_spec (s : Loc) :
    dataCounts (finalNack s).chan.log = dataCounts s.chan.log ++ [s.len] := by
  unfold finalNack
  dsimp only
  split
  · exact dataCounts_read _ _ _ _ _
  · exact dataCounts_read _ _ _ _ _

theorem dataCounts_i2cdriverErr (f : File) :
    dataCounts (i2cdriverErr f).2.log = dataCounts f.log := by
  rw [i2cdriverErr_log, dataCounts_append]
  simp [dataCounts]

theorem dataCounts_writeAll (f : File) (k : TxKind) (bs : List Nat) :
    dataCounts (f.writeAll k bs).log = dataCounts f.log := by
  show dataCounts (f.log ++ [Ev.tx k bs]) = _
  rw [dataCounts_append]
  simp [dataCounts]

theorem dataCounts_writeLoop (fuel : Nat) : ∀ s : Loc,
    dataCounts (writeLoop fuel s).chan.log = dataCounts s.chan.log := by
  induction fuel with
  | zero => intro s; rfl
  | succ fuel ih =>
    intro s
    unfold writeLoop
    by_cases h : s.len > 0
    · rw [if_pos h]
      dsimp only
      generalize (if s.len > 64 then 64 else s.len) = l
      by_cases he : (i2cdriverErr ((s.chan.writeAll TxKind.writeCmd
          [((l - 1) ||| 0b11000000) % 256]).writeAll TxKind.payload
          ((s.buf.drop s.datidx).take l))).1 = true
      · rw [if_pos he]
        show dataCounts (i2cdriverErr _).2.log = _
        rw [dataCounts_i2cdriverErr, dataCounts_writeAll, dataCounts_writeAll]
      · rw [if_neg he, ih]
        show dataCounts (i2cdriverErr _).2.log = _
        rw [dataCounts_i2cdriverErr, dataCounts_writeAll, dataCounts_writeAll]
    · rw [if_neg h]

theorem readSpans_spec (st : RdwrState) (msg : i2c_msg) (buf : List Nat) (len : Nat) :
    dataCounts (rdwrRead st msg buf len).1.chan.log =
        dataCounts st.chan.log ++ (readSpans st msg buf len).map Prod.snd ∧
      ∀ p ∈ readSpans st msg buf len,
        (msg.flags &&& I2C_M_RECV_LEN = 0 → p.1 + p.2 ≤ len) ∧
        (msg.flags &&& I2C_M_RECV_LEN ≠ 0 → p.1 + p.2 ≤ 256) := by
  unfold rdwrRead readSpans
  dsimp only
  by_cases hd : msg.flags &&& I2C_M_RECV_LEN ≠ 0
  · rw [if_pos hd, if_pos hd]
    generalize hs0 : Loc.mk st.chan st.pec buf len 0 false = s0
    have hlog0 : s0.chan.log = st.chan.log := by rw [← hs0]
    obtain ⟨r1, r2⟩ := recvLen_spec s0
    rw [hlog0] at r1
    have hidx0 : s0.datidx = 0 := by rw [← hs0]
    by_cases he : (recvLen s0).ioerror = true
    · rw [if_pos he, if_pos (Or.inl he)]
      refine ⟨by simpa [readExit] using r1, ?_⟩
      intro p hp
      simp only [List.append_nil, List.mem_singleton] at hp
      rw [hp]
      exact ⟨fun h => absurd h hd, fun _ => by omega⟩
    · obtain ⟨r3, r4⟩ := r2 (by simpa using he)
      rw [if_neg he]
      by_cases hz : (recvLen s0).len = 0
      · rw [if_pos hz, if_pos (Or.inr hz)]
        refine ⟨by simpa [readExit] using r1, ?_⟩
        intro p hp
        simp only [List.append_nil, List.mem_singleton] at hp
        rw [hp]
        exact ⟨fun h => absurd h hd, fun _ => by omega⟩
      · rw [if_neg hz, if_neg (not_or.mpr ⟨he, hz⟩)]
        obtain ⟨a1, a2, a3⟩ := ackAllSpans_spec (recvLen s0).len (recvLen s0)
        by_cases he2 : (ackAllLoop (recvLen s0).len (recvLen s0)).ioerror = true
        · rw [if_pos he2, if_pos he2]
          refine ⟨by simp [readExit, a1, r1], ?_⟩
          intro p hp
          simp only [List.append_nil, List.mem_append, List.mem_singleton] at hp
          refine ⟨fun h => absurd h hd, fun _ => ?_⟩
          rcases hp with hp | hp
          · rw [hp]; omega
          · have := a2 p hp
            omega
        · rw [if_neg he2, if_neg he2]
          have a4 := a3 (by simpa using he2)
          refine ⟨by simp [readExit, finalNack_spec, a1, r1], ?_⟩
          intro p hp
          simp only [List.mem_append, List.mem_singleton] at hp
          refine ⟨fun h => absurd h hd, fun _ => ?_⟩
          rcases hp with hp | hp | hp
          · rw [hp]; omega
          · have := a2 p hp
            omega
          · rw [hp]
            show (ackAllLoop (recvLen s0).len (recvLen s0)).datidx +
              (ackAllLoop (recvLen s0).len (recvLen s0)).len ≤ 256
            omega
  · rw [if_neg hd, if_neg hd]
    generalize hs0 : Loc.mk st.chan st.pec buf len 0 false = s0
    have hlog0 : s0.chan.log = st.chan.log := by rw [← hs0]
    have hidx0 : s0.datidx = 0 := by rw [← hs0]
    have hlen0 : s0.len = len := by rw [← hs0]
    have he0 : ¬ s0.ioerror = true := by rw [← hs0]; simp
    rw [if_neg he0]
    by_cases hz : s0.len = 0
    · rw [if_pos hz, if_pos (Or.inr hz)]
      exact ⟨by simp [readExit, hlog0], by simp⟩
    · rw [if_neg hz, if_neg (not_or.mpr ⟨he0, hz⟩)]
      obtain ⟨a1, a2, a3⟩ := ackAllSpans_spec s0.len s0
      by_cases he2 : (ackAllLoop s0.len s0).ioerror = true
      · rw [if_pos he2, if_pos he2]
        refine ⟨by simp [readExit, a1, hlog0], ?_⟩
        intro p hp
        simp only [List.append_nil, List.nil_append] at hp
        refine ⟨fun _ => ?_, fun h => absurd h hd⟩
        have := a2 p hp
        omega
      · rw [if_neg he2, if_neg he2]
        have a4 := a3 (by simpa using he2)
        refine ⟨by simp [readExit, finalNack_spec, a1, hlog0], ?_⟩
        intro p hp
        simp only [List.nil_append, List.mem_append, List.mem_singleton] at hp
        refine ⟨fun _ => ?_, fun h => absurd h hd⟩
        rcases hp with hp | hp
        · have := a2 p hp
          omega
        · rw [hp]
          show (ackAllLoop s0.len s0).datidx + (ackAllLoop s0.len s0).len ≤ len
          omega

theorem msgSpans_example :
    msgSpans { chan := { log := [], rx := [some 0x31, none, some 7, some 8] }, pec := 0,
               ioerror := false, do_add_pec := false }
        { addr := 5, flags := I2C_M_RD, len := 2, buf := some [0, 0] } [0, 0] = [(0, 2)] ∧
      msgSpans { chan := { log := [], rx := [some 0x31, none, some 70] }, pec := 0,
                 ioerror := false, do_add_pec := false }
        { addr := 5, flags := I2C_M_RD ||| I2C_M_RECV_LEN, len := 256, buf := none }
        (List.replicate 256 0) = [(0, 1), (1, 69)] := by
  decide

/-- Claim C30: for a message whose buffer holds `msg.len` bytes, and 256 bytes
for a read of dynamic length (`MsgOk`), and for every channel, that is every
behaviour of the adapter, every read that the body of the `for` loop of
`i2c_rdwr` makes into the buffer stays inside it.  The reads of payload bytes
that the body logs on the channel are those of `msgSpans`, one for one; for
each, offset plus byte count is at most the length of the buffer, at most
`msg.len` when the read is of fixed length, and at most 256 when it is of
dynamic length. -/
theorem i2c_rdwr_reads_inside (st : RdwrState) (msg0 : i2c_msg) (buf : List Nat)
    (hbuf : MsgOk msg0 buf) :
    dataCounts (rdwrMsg st msg0 buf).1.chan.log =
        dataCounts st.chan.log ++ (msgSpans st msg0 buf).map Prod.snd ∧
      ∀ p ∈ msgSpans st msg0 buf,
        p.1 + p.2 ≤ buf.length ∧
        (msg0.flags &&& I2C_M_RECV_LEN = 0 → p.1 + p.2 ≤ msg0.len) ∧
        (msg0.flags &&& I2C_M_RECV_LEN ≠ 0 → p.1 + p.2 ≤ 256) := by
  obtain ⟨hb1, hb2⟩ := hbuf
  unfold rdwrMsg msgSpans
  dsimp only
  have hm : ∀ msg : i2c_msg,
      msg = (if msg0.len = 0 then
        { msg0 with flags := ((msg0.flags ||| I2C_M_RD) &&& (0xFFFF ^^^ I2C_M_RECV_LEN)) % 65536 }
        else msg0) →
      (msg.flags &&& I2C_M_RECV_LEN ≠ 0 → msg0.flags &&& I2C_M_RECV_LEN ≠ 0) ∧
      (msg.flags &&& I2C_M_RECV_LEN = 0 → msg0.flags &&& I2C_M_RECV_LEN ≠ 0 → msg0.len = 0) := by
    intro msg hmsg
    by_cases hz : msg0.len = 0
    · rw [if_pos hz] at hmsg
      have : msg.flags &&& I2C_M_RECV_LEN = 0 := by
        rw [hmsg]
        exact flags_rewrite_recv msg0.flags
      exact ⟨fun h => absurd this h, fun _ _ => hz⟩
    · rw [if_neg hz] at hmsg
      rw [hmsg]
      exact ⟨fun h => h, fun h h2 => absurd h h2⟩
  generalize hmsg : (if msg0.len = 0 then
        ({ msg0 with flags := ((msg0.flags ||| I2C_M_RD) &&& (0xFFFF ^^^ I2C_M_RECV_LEN)) % 65536 } : i2c_msg)
        else msg0) = msg
  obtain ⟨hm1, hm2⟩ := hm msg hmsg.symm
  generalize hab : ((msg.addr <<< 1) ||| (msg.flags &&& I2C_M_RD)) % 256 = ab
  by_cases he : (i2cdriverErr (st.chan.writeAll TxKind.start [0x73, ab])).1 = true
  · rw [if_pos he, if_pos he]
    refine ⟨?_, by simp⟩
    show dataCounts (i2cdriverErr _).2.log = _
    rw [dataCounts_i2cdriverErr, dataCounts_writeAll]
    simp
  · rw [if_neg he, if_neg he]
    by_cases hr : msg.flags &&& I2C_M_RD ≠ 0
    · rw [if_pos hr, if_pos hr]
      obtain ⟨s1, s2⟩ := readSpans_spec
        { st with chan := (i2cdriverErr (st.chan.writeAll TxKind.start [0x73, ab])).2,
                  pec := CRC_PEC.add st.pec ab, ioerror := false } msg buf msg0.len
      refine ⟨?_, ?_⟩
      · rw [s1]
        show dataCounts (i2cdriverErr _).2.log ++ _ = _
        rw [dataCounts_i2cdriverErr, dataCounts_writeAll]
      · intro p hp
        obtain ⟨t1, t2⟩ := s2 p hp
        by_cases hd : msg.flags &&& I2C_M_RECV_LEN = 0
        · have := t1 hd
          refine ⟨by omega, fun _ => this, fun h => ?_⟩
          have := hm2 hd h
          omega
        · have := t2 hd
          have h0 := hm1 hd
          have := hb2 h0
          exact ⟨by omega, fun h => absurd h h0, fun _ => t2 hd⟩
    · rw [if_neg hr, if_neg hr]
      refine ⟨?_, by simp⟩
      show dataCounts (writeLoop _ _).chan.log = _
      rw [dataCounts_writeLoop]
      show dataCounts (i2cdriverErr _).2.log = _
      rw [dataCounts_i2cdriverErr, dataCounts_writeAll]
      simp

theorem i2c_rdwr_reads_inside_witness :
    MsgOk { addr := 5, flags := I2C_M_RD, len := 2, buf := some [0, 0] } [0, 0] ∧
      dataCounts (rdwrMsg { chan := { log := [], rx := [some 0x31, none, some 7, some 8] },
                            pec := 0, ioerror := false, do_add_pec := false }
          { addr := 5, flags := I2C_M_RD, len := 2, buf := some [0, 0] } [0, 0]).1.chan.log =
        dataCounts ([] : List Ev) ++
          (msgSpans { chan := { log := [], rx := [some 0x31, none, some 7, some 8] },
                      pec := 0, ioerror := false, do_add_pec := false }
            { addr := 5, flags := I2C_M_RD, len := 2, buf := some [0, 0] } [0, 0]).map Prod.snd ∧
      ∀ p ∈ msgSpans { chan := { log := [], rx := [some 0x31, none, some 7, some 8] },
                       pec := 0, ioerror := false, do_add_pec := false }
            { addr := 5, flags := I2C_M_RD, len := 2, buf := some [0, 0] } [0, 0],
        p.1 + p.2 ≤ [0, 0].length ∧
        (I2C_M_RD &&& I2C_M_RECV_LEN = 0 → p.1 + p.2 ≤ 2) ∧
        (I2C_M_RD &&& I2C_M_RECV_LEN ≠ 0 → p.1 + p.2 ≤ 256) :=
  ⟨⟨by decide, by decide⟩,
   i2c_rdwr_reads_inside
     { chan := { log := [], rx := [some 0x31, none, some 7, some 8] }, pec := 0,
       ioerror := false, do_add_pec := false }
     { addr := 5, flags := I2C_M_RD, len := 2, buf := some [0, 0] } [0, 0]
     ⟨by decide, by decide⟩⟩

/-! ## decodeCapture: the pending group stays in range -/

theorem cur_step (c x n : Nat) (hc : c < 8 ^ n) (hx : x < 8) :
    ((c <<< 3) ||| x) % 2 ^ 32 < 8 ^ (n + 1) := by
  have e : (8 : Nat) ^ (n + 1) = 2 ^ (3 * (n + 1)) := by
    rw [pow_mul]
    norm_num
  have h1 : c <<< 3 < 2 ^ (3 * (n + 1)) := by
    rw [← e, Nat.shiftLeft_eq, pow_succ]
    omega
  have h2 : x < 2 ^ (3 * (n + 1)) := by
    rw [← e]
    have : 8 ^ 1 ≤ 8 ^ (n + 1) := Nat.pow_le_pow_right (by norm_num) (by omega)
    omega
  have h3 := Nat.or_lt_two_pow h1 h2
  rw [e]
  exact lt_of_le_of_lt (Nat.mod_le _ _) h3

theorem group_parts (v : Nat) (hv : v < 512) :
    v &&& 1 < 2 ∧ v >>> 1 < 256 ∧ v >>> 1 >>> 1 < 128 := by
  refine ⟨?_, ?_, ?_⟩
  · have := @Nat.and_le_right v 1
    omega
  · rw [Nat.shiftRight_eq_div_pow]
    omega
  · rw [Nat.shiftRight_eq_div_pow, Nat.shiftRight_eq_div_pow]
    omega

theorem decodeNibble_inv (st : DecState) (b : Nat) (hb : b < 16) (hi : DecInv st) :
    DecInv (decodeNibble st b).1 ∧ ∀ o ∈ (decodeNibble st b).2, OutOk o := by
  obtain ⟨count, cur, inData⟩ := st
  obtain ⟨hc, hu⟩ := hi
  simp only at hc hu
  by_cases h8 : b ≥ 8
  · have hf : (decide (count > 0) && decide (b < 8)) = false := by
      simp
      omega
    have hx : b - 8 < 8 := by omega
    have hs := cur_step cur (b - 8) count hu hx
    unfold decodeNibble
    simp only [hf, Bool.false_eq_true, if_false, if_pos h8]
    generalize ((cur <<< 3) ||| (b - 8)) % 2 ^ 32 = v at hs ⊢
    by_cases h3 : count + 1 = 3
    · have h2 : count = 2 := by omega
      subst h2
      obtain ⟨g1, g2, g3⟩ := group_parts v hs
      rw [if_pos h3]
      cases inData
      · simp only [Bool.not_false, if_true, List.nil_append, List.mem_singleton]
        refine ⟨⟨by decide, by decide⟩, ?_⟩
        intro o ho
        rw [ho]
        exact ⟨g3, g1⟩
      · simp only [Bool.not_true, Bool.false_eq_true, if_false, List.nil_append,
          List.mem_singleton]
        refine ⟨⟨by decide, by decide⟩, ?_⟩
        intro o ho
        rw [ho]
        exact ⟨g2, g1⟩
    · rw [if_neg h3]
      refine ⟨⟨by show count + 1 ≤ 2; omega, hs⟩, by simp⟩
  · have hb8 : b < 8 := by omega
    by_cases h0 : count = 0
    · subst h0
      have hu0 : cur = 0 := by simpa using hu
      subst hu0
      interval_cases b <;> simp [decodeNibble, DecInv, OutOk]
    · have hf : (decide (count > 0) && decide (b < 8)) = true := by
        simp
        omega
      have hfe : ∀ o ∈ [Out.framingError cur (count * 3)], OutOk o := by
        intro o ho
        rw [List.mem_singleton] at ho
        rw [ho]
        have hc12 : count = 1 ∨ count = 2 := by omega
        rcases hc12 with rfl | rfl
        · exact ⟨Or.inl rfl, by simpa using hu, by norm_num at hu; omega⟩
        · exact ⟨Or.inr rfl, by norm_num at hu ⊢; omega, by norm_num at hu; omega⟩
      unfold decodeNibble
      simp only [hf, if_true, if_neg h8]
      have hni : (count == 0) = false := by simpa using h0
      interval_cases b
      all_goals
        refine ⟨by simp [DecInv], ?_⟩
        intro o ho
        simp [hni] at ho
        rcases ho with ho | ho
        · exact hfe o (List.mem_singleton.mpr ho)
        · rw [ho]
          trivial

theorem nibblesOf_lt (d b : Nat) (h : b ∈ nibblesOf d) : b < 16 := by
  rw [nibblesOf_eq] at h
  simp only [List.mem_cons, List.mem_singleton, List.not_mem_nil, or_false] at h
  rcases h with h | h <;> omega

theorem decodeNibbles_inv (bs : List Nat) : ∀ st : DecState, DecInv st → (∀ b ∈ bs, b < 16) →
    DecInv (decodeNibbles st bs).1 ∧ ∀ o ∈ (decodeNibbles st bs).2, OutOk o := by
  induction bs with
  | nil =>
    intro st hi _
    exact ⟨hi, by simp [decodeNibbles]⟩
  | cons b bs ih =>
    intro st hi hb
    obtain ⟨h1, h2⟩ := decodeNibble_inv st b (hb b (List.mem_cons_self _ _)) hi
    obtain ⟨h3, h4⟩ := ih (decodeNibble st b).1 h1 (fun x hx => hb x (List.mem_cons_of_mem _ hx))
    refine ⟨h3, ?_⟩
    intro o ho
    simp only [decodeNibbles, List.mem_append] at ho
    rcases ho with ho | ho
    · exact h2 o ho
    · exact h4 o ho

theorem decodeInit_inv : DecInv decodeInit := ⟨by decide, by decide⟩

theorem decodeAfter_inv (ds : List Nat) (k : Nat) : DecInv (decodeAfter ds k) := by
  unfold decodeAfter
  refine (decodeNibbles_inv _ decodeInit decodeInit_inv ?_).1
  intro b hb
  have hb2 := List.mem_of_mem_take hb
  rw [List.mem_flatMap] at hb2
  obtain ⟨d, _, hd⟩ := hb2
  exact nibblesOf_lt d b hd

theorem decodeBytes_out (ds : List Nat) : ∀ o ∈ (decodeBytes decodeInit ds).2, OutOk o := by
  rw [decodeBytes_eq]
  refine (decodeNibbles_inv _ decodeInit decodeInit_inv ?_).2
  intro b hb
  rw [List.mem_flatMap] at hb
  obtain ⟨d, _, hd⟩ := hb
  exact nibblesOf_lt d b hd

/-- Claim C31. For every stream of bytes `ds` given to `decodeCapture` from its
initial state, and after every number `k` of nibbles processed, `count` is 0,
1 or 2 and `cur` is below `8 ^ count`, so `cur` is 0 when no group is in
progress; after all nibbles the state is the one that the calls of
`decodeCapture` leave.  So every framing error printed reports 3 or 6 bits and
partial bits below 64 (below 8 for 3 bits), and every group that is completed
has a value of 9 bits: the value of `cur` that the third DATA nibble gives is
below 512, an address printed is below 128, a data byte printed is below 256,
and the acknowledge bit is 0 or 1. -/
theorem decodeCapture_pending_range (ds : List Nat) :
    (∀ k, (decodeAfter ds k).count ≤ 2 ∧
      (decodeAfter ds k).cur < 8 ^ (decodeAfter ds k).count ∧
      ((decodeAfter ds k).count = 0 → (decodeAfter ds k).cur = 0)) ∧
    (∀ k, (ds.flatMap nibblesOf).length ≤ k →
      decodeAfter ds k = (decodeBytes decodeInit ds).1) ∧
    (∀ cur bits, Out.framingError cur bits ∈ (decodeBytes decodeInit ds).2 →
      (bits = 3 ∨ bits = 6) ∧ cur < 2 ^ bits ∧ cur < 64) ∧
    (∀ k b, (decodeAfter ds k).count = 2 → 8 ≤ b → b < 16 →
      (((decodeAfter ds k).cur <<< 3) ||| (b - 8)) % 2 ^ 32 < 2 ^ 9) ∧
    (∀ addr isRead ack, Out.addressByte addr isRead ack ∈ (decodeBytes decodeInit ds).2 →
      addr < 128 ∧ ack < 2) ∧
    (∀ value ack, Out.dataByte value ack ∈ (decodeBytes decodeInit ds).2 →
      value < 256 ∧ ack < 2) := by
  refine ⟨?_, ?_, ?_, ?_, ?_, ?_⟩
  · intro k
    obtain ⟨h1, h2⟩ := decodeAfter_inv ds k
    refine ⟨h1, h2, fun h0 => ?_⟩
    rw [h0] at h2
    omega
  · intro k hk
    unfold decodeAfter
    rw [List.take_of_length_le hk, decodeBytes_eq]
  · intro cur bits h
    exact decodeBytes_out ds _ h
  · intro k b h2 h8 h16
    have h := (decodeAfter_inv ds k).2
    rw [h2] at h
    exact cur_step _ (b - 8) 2 h (by omega)
  · intro addr isRead ack h
    exact decodeBytes_out ds _ h
  · intro value ack h
    exact decodeBytes_out ds _ h

theorem decodeCapture_pending_range_witness :
    Out.framingError 10 6 ∈ (decodeBytes decodeInit [0x9A, 0x10]).2 ∧
      ((6 = 3 ∨ 6 = 6) ∧ 10 < 2 ^ 6 ∧ 10 < 64) ∧
      decodeAfter [0x9A, 0x10] 2 = { count := 2, cur := 10, inData := false } ∧
      (decodeAfter [0x9A, 0x10] 2).cur < 8 ^ (decodeAfter [0x9A, 0x10] 2).count :=
  ⟨by decide, (decodeCapture_pending_range [0x9A, 0x10]).2.2.1 10 6 (by decide), by decide,
    ((decodeCapture_pending_range [0x9A, 0x10]).1 2).2.1⟩

/-! ## i2c_rdwr: the checksum is folded over the bytes of the messages -/

theorem recvChunks_cons (l : Nat) (ls : List Nat) (rx : List (Option Nat)) :
    recvChunks (l :: ls) rx =
      if (rxTake l rx).1.length = l then
        ((rxTake l rx).1 ++ (recvChunks ls (rxTake l rx).2).1,
         (recvChunks ls (rxTake l rx).2).2.1, (recvChunks ls (rxTake l rx).2).2.2)
      else ([], (rxTake l rx).2, true) := rfl

theorem sentChunks_cons (l : Nat) (ls data : List Nat) (rx : List (Option Nat)) :
    sentChunks (l :: ls) data rx =
      if isAck (rxTake 2 rx).1 then
        (data.take l ++ (sentChunks ls (data.drop l) (rxTake 2 rx).2).1,
         (sentChunks ls (data.drop l) (rxTake 2 rx).2).2.1,
         (sentChunks ls (data.drop l) (rxTake 2 rx).2).2.2)
      else (data.take l, (rxTake 2 rx).2, true) := rfl

theorem recvChunks_append (a b : List Nat) : ∀ rx : List (Option Nat),
    recvChunks (a ++ b) rx =
      if (recvChunks a rx).2.2 = true then recvChunks a rx
      else ((recvChunks a rx).1 ++ (recvChunks b (recvChunks a rx).2.1).1,
            (recvChunks b (recvChunks a rx).2.1).2.1, (recvChunks b (recvChunks a rx).2.1).2.2) := by
  induction a with
  | nil => intro rx; simp [recvChunks]
  | cons l ls ih =>
    intro rx
    rw [List.cons_append, recvChunks_cons, recvChunks_cons]
    by_cases h : (rxTake l rx).1.length = l
    · simp only [if_pos h]
      rw [ih (rxTake l rx).2]
      by_cases h2 : (recvChunks ls (rxTake l rx).2).2.2 = true
      · simp [h2]
      · simp [h2]
    · simp [if_neg h]

theorem wire_read (k : TxKind) (bs : List Nat) (hk : k ≠ TxKind.start) (hp : k ≠ TxKind.payload)
    (l : Nat) (got : List Nat) :
    wire [Ev.tx k bs, Ev.rx RxKind.data l got] = if got.length = l then got else [] := by
  cases k <;> simp [wire] at hk hp ⊢

theorem ackAllSizes_succ (fuel len : Nat) :
    ackAllSizes (fuel + 1) len =
      if len > 64 then
        (if len > 255 then 255 else len - 1) ::
          ackAllSizes fuel (len - (if len > 255 then 255 else len - 1))
      else [] := rfl

theorem ackAllLoop_wire (fuel : Nat) : ∀ s : Loc,
    (∃ body, (ackAllLoop fuel s).chan.log = s.chan.log ++ body ∧
      wire body = (recvChunks (ackAllSizes fuel s.len) s.chan.rx).1) ∧
    (ackAllLoop fuel s).chan.rx = (recvChunks (ackAllSizes fuel s.len) s.chan.rx).2.1 ∧
    (s.ioerror = false →
      (ackAllLoop fuel s).ioerror = (recvChunks (ackAllSizes fuel s.len) s.chan.rx).2.2) ∧
    ((ackAllLoop fuel s).ioerror = false →
      (ackAllLoop fuel s).len = s.len - (ackAllSizes fuel s.len).sum) := by
  induction fuel with
  | zero =>
    intro s
    exact ⟨⟨[], by simp [ackAllLoop], by simp [ackAllSizes, recvChunks, wire]⟩, rfl,
      fun h => h, fun _ => rfl⟩
  | succ fuel ih =>
    intro s
    rw [ackAllLoop_succ, ackAllSizes_succ]
    by_cases h : s.len > 64
    · rw [if_pos h, if_pos h]
      generalize (if s.len > 255 then 255 else s.len - 1) = l
      simp only [read_got, writeAll_rx, recvChunks_cons]
      by_cases hg : (rxTake l s.chan.rx).1.length = l
      · rw [if_neg (not_not.mpr hg), if_pos hg]
        obtain ⟨⟨body, b1, b2⟩, b3, b4, b5⟩ := ih
          { chan := ((s.chan.writeAll TxKind.readAck [0x61, l % 256]).read RxKind.data l).2,
            pec := CRC_PEC.addBuf s.pec
              (((store s.buf s.datidx (rxTake l s.chan.rx).1).drop s.datidx).take l),
            buf := store s.buf s.datidx (rxTake l s.chan.rx).1,
            len := s.len - l, datidx := s.datidx + l, ioerror := false }
        refine ⟨⟨[Ev.tx TxKind.readAck [0x61, l % 256],
          Ev.rx RxKind.data l (rxTake l s.chan.rx).1] ++ body, ?_, ?_⟩, b3, fun _ => b4 rfl, ?_⟩
        · rw [b1]
          simp
        · rw [wire_append, wire_read _ _ (by decide) (by decide), if_pos hg, b2]
          rfl
        · intro he
          rw [b5 he]
          show s.len - l - _ = _
          simp only [List.sum_cons]
          omega
      · rw [if_pos hg, if_neg hg]
        refine ⟨⟨[Ev.tx TxKind.readAck [0x61, l % 256],
          Ev.rx RxKind.data l (rxTake l s.chan.rx).1], by simp, ?_⟩, rfl, fun _ => rfl, ?_⟩
        · rw [wire_read _ _ (by decide) (by decide), if_neg hg]
        · intro he
          cases he
    · rw [if_neg h, if_neg h]
      exact ⟨⟨[], by simp, by simp [recvChunks, wire]⟩, rfl, fun h => h, fun _ => rfl⟩

theorem finalNack_wire (s : Loc) :
    (∃ body, (finalNack s).chan.log = s.chan.log ++ body ∧
      wire body = (recvChunks [s.len] s.chan.rx).1) ∧
    (finalNack s).chan.rx = (recvChunks [s.len] s.chan.rx).2.1 ∧
    (finalNack s).ioerror = (recvChunks [s.len] s.chan.rx).2.2 := by
  unfold finalNack
  simp only [read_got, writeAll_rx, recvChunks_cons]
  by_cases hg : (rxTake s.len s.chan.rx).1.length = s.len
  · rw [if_neg (not_not.mpr hg), if_pos hg]
    refine ⟨⟨[Ev.tx TxKind.readNack [((s.len - 1) ||| 0b10000000) % 256],
      Ev.rx RxKind.data s.len (rxTake s.len s.chan.rx).1], by simp, ?_⟩, rfl, rfl⟩
    rw [wire_read _ _ (by decide) (by decide), if_pos hg]
    simp [recvChunks]
  · rw [if_pos hg, if_neg hg]
    refine ⟨⟨[Ev.tx TxKind.readNack [((s.len - 1) ||| 0b10000000) % 256],
      Ev.rx RxKind.data s.len (rxTake s.len s.chan.rx).1], by simp, ?_⟩, rfl, rfl⟩
    rw [wire_read _ _ (by decide) (by decide), if_neg hg]

theorem readChunks_wire (s : Loc) (hs : s.ioerror = false) :
    (∃ body, (if (ackAllLoop s.len s).ioerror = true then ackAllLoop s.len s
        else finalNack (ackAllLoop s.len s)).chan.log = s.chan.log ++ body ∧
      wire body = (recvChunks (readSizes s.len) s.chan.rx).1) ∧
    (if (ackAllLoop s.len s).ioerror = true then ackAllLoop s.len s
      else finalNack (ackAllLoop s.len s)).chan.rx = (recvChunks (readSizes s.len) s.chan.rx).2.1 ∧
    (if (ackAllLoop s.len s).ioerror = true then ackAllLoop s.len s
      else finalNack (ackAllLoop s.len s)).ioerror = (recvChunks (readSizes s.len) s.chan.rx).2.2 := by
  obtain ⟨⟨body, a1, a2⟩, a3, a4, a5⟩ := ackAllLoop_wire s.len s
  have a4 := a4 hs
  unfold readSizes
  rw [recvChunks_append]
  by_cases he : (ackAllLoop s.len s).ioerror = true
  · have hc : (recvChunks (ackAllSizes s.len s.len) s.chan.rx).2.2 = true := by
      rw [← a4]
      exact he
    simp only [if_pos he, if_pos hc]
    exact ⟨⟨body, a1, a2⟩, a3, a4⟩
  · have hef : (ackAllLoop s.len s).ioerror = false := by simpa using he
    have hc : ¬ (recvChunks (ackAllSizes s.len s.len) s.chan.rx).2.2 = true := by
      rw [← a4]
      exact he
    simp only [if_neg he, if_neg hc]
    obtain ⟨⟨body2, f1, f2⟩, f3, f4⟩ := finalNack_wire (ackAllLoop s.len s)
    rw [a5 hef, a3] at f2 f3 f4
    refine ⟨⟨body ++ body2, ?_, ?_⟩, f3, f4⟩
    · rw [f1, a1, List.append_assoc]
    · rw [wire_append, a2, f2]

theorem recvLen_wire (s : Loc) (h0 : s.datidx = 0) (hrx : ∀ b, some b ∈ s.chan.rx → b < 256) :
    (∃ body, (recvLen s).chan.log = s.chan.log ++ body ∧
      wire body = (if (rxTake 1 s.chan.rx).1.length = 1 then (rxTake 1 s.chan.rx).1 else [])) ∧
    (recvLen s).chan.rx = (rxTake 1 s.chan.rx).2 ∧
    ((recvLen s).ioerror = true ↔ (rxTake 1 s.chan.rx).1.length ≠ 1) ∧
    (∀ n, (rxTake 1 s.chan.rx).1 = [n] → (recvLen s).len = n) := by
  unfold recvLen
  simp only [read_got, writeAll_rx]
  by_cases hg : (rxTake 1 s.chan.rx).1.length = 1
  · rw [if_neg (not_not.mpr hg), if_pos hg]
    refine ⟨⟨[Ev.tx TxKind.readAck [0x61, 1], Ev.rx RxKind.data 1 (rxTake 1 s.chan.rx).1],
      by simp, ?_⟩, rfl, by simp [hg], ?_⟩
    · rw [wire_read _ _ (by decide) (by decide), if_pos hg]
    · intro n hn
      show (store s.buf s.datidx (rxTake 1 s.chan.rx).1).getD s.datidx 0 % 256 = n
      rw [hn, h0, store_getD]
      have : some n ∈ s.chan.rx := (rxTake_sub 1 s.chan.rx).1 n (by rw [hn]; simp)
      exact Nat.mod_eq_of_lt (hrx n this)
  · rw [if_pos hg, if_neg hg]
    refine ⟨⟨[Ev.tx TxKind.readAck [0x61, 1], Ev.rx RxKind.data 1 (rxTake 1 s.chan.rx).1],
      by simp, ?_⟩, rfl, by simp [hg], ?_⟩
    · rw [wire_read _ _ (by decide) (by decide), if_neg hg]
    · intro n hn
      rw [hn] at hg
      exact absurd rfl hg

theorem readTail_wire (s1 : Loc) (msg : i2c_msg) (hs : s1.ioerror = false) (hz : s1.len ≠ 0) :
    (∃ body, (if s1.ioerror = true then readExit s1 msg true
        else if s1.len = 0 then readExit s1 msg true
        else if (ackAllLoop s1.len s1).ioerror = true then readExit (ackAllLoop s1.len s1) msg true
        else readExit (finalNack (ackAllLoop s1.len s1)) msg
          (finalNack (ackAllLoop s1.len s1)).ioerror).1.chan.log = s1.chan.log ++ body ∧
      wire body = (recvChunks (readSizes s1.len) s1.chan.rx).1) ∧
    (if s1.ioerror = true then readExit s1 msg true
      else if s1.len = 0 then readExit s1 msg true
      else if (ackAllLoop s1.len s1).ioerror = true then readExit (ackAllLoop s1.len s1) msg true
      else readExit (finalNack (ackAllLoop s1.len s1)) msg
        (finalNack (ackAllLoop s1.len s1)).ioerror).1.chan.rx =
      (recvChunks (readSizes s1.len) s1.chan.rx).2.1 ∧
    (if s1.ioerror = true then readExit s1 msg true
      else if s1.len = 0 then readExit s1 msg true
      else if (ackAllLoop s1.len s1).ioerror = true then readExit (ackAllLoop s1.len s1) msg true
      else readExit (finalNack (ackAllLoop s1.len s1)) msg
        (finalNack (ackAllLoop s1.len s1)).ioerror).2.2 =
      (recvChunks (readSizes s1.len) s1.chan.rx).2.2 := by
  have hs1 : ¬ s1.ioerror = true := by simp [hs]
  simp only [if_neg hs1, if_neg hz]
  obtain ⟨c1, c2, c3⟩ := readChunks_wire s1 hs
  by_cases he : (ackAllLoop s1.len s1).ioerror = true
  · simp only [if_pos he] at c1 c2 c3 ⊢
    refine ⟨c1, c2, ?_⟩
    rw [← c3, he]
    rfl
  · simp only [if_neg he] at c1 c2 c3 ⊢
    exact ⟨c1, c2, c3⟩

theorem rdwrRead_wire (st : RdwrState) (msg : i2c_msg) (buf : List Nat) (len : Nat)
    (m0 : i2c_msg) (hl : m0.len = len)
    (hf : len ≠ 0 → (m0.flags &&& I2C_M_RECV_LEN ≠ 0 ↔ msg.flags &&& I2C_M_RECV_LEN ≠ 0))
    (hz : len = 0 → ¬ msg.flags &&& I2C_M_RECV_LEN ≠ 0)
    (hrx : ∀ b, some b ∈ st.chan.rx → b < 256) :
    (∃ body, (rdwrRead st msg buf len).1.chan.log = st.chan.log ++ body ∧
      wire body = (readWire m0 st.chan.rx).1) ∧
    (rdwrRead st msg buf len).1.chan.rx = (readWire m0 st.chan.rx).2.1 ∧
    (rdwrRead st msg buf len).2.2 = (readWire m0 st.chan.rx).2.2 := by
  unfold rdwrRead readWire
  dsimp only
  generalize hs0 : Loc.mk st.chan st.pec buf len 0 false = s0
  have hlog0 : s0.chan.log = st.chan.log := by rw [← hs0]
  have hrx0 : s0.chan.rx = st.chan.rx := by rw [← hs0]
  have hlen0 : s0.len = len := by rw [← hs0]
  have he0 : s0.ioerror = false := by rw [← hs0]
  have hd0 : s0.datidx = 0 := by rw [← hs0]
  rw [hl]
  by_cases hlz : len = 0
  · rw [if_neg (hz hlz), if_pos hlz]
    have hs1 : ¬ s0.ioerror = true := by simp [he0]
    rw [if_neg hs1, if_pos (by rw [hlen0]; exact hlz)]
    exact ⟨⟨[], by simp [readExit, hlog0], rfl⟩, by simp [readExit, hrx0], rfl⟩
  · rw [if_neg hlz]
    by_cases hd : msg.flags &&& I2C_M_RECV_LEN ≠ 0
    · rw [if_pos hd, if_pos ((hf hlz).mpr hd)]
      obtain ⟨⟨b1, l1, w1⟩, r1, e1, n1⟩ := recvLen_wire s0 hd0 (by rw [hrx0]; exact hrx)
      rw [hrx0] at w1 r1 e1 n1
      rw [hlog0] at l1
      have hle := rxTake_length_le 1 st.chan.rx
      rcases hg : (rxTake 1 st.chan.rx).1 with _ | ⟨n, _ | ⟨n2, t⟩⟩
      · rw [hg] at w1 e1
        have hio : (recvLen s0).ioerror = true := e1.mpr (by simp)
        rw [if_pos hio]
        refine ⟨⟨b1, by simpa [readExit] using l1, by simpa using w1⟩, by simpa [readExit] using r1, rfl⟩
      · rw [hg] at w1 e1
        have hio : (recvLen s0).ioerror = false := by
          cases hx : (recvLen s0).ioerror with
          | false => rfl
          | true => exact absurd rfl (e1.mp hx)
        have hn := n1 n hg
        dsimp only
        by_cases hn0 : n = 0
        · rw [if_pos hn0, if_neg (by simp [hio]), if_pos (by rw [hn]; exact hn0)]
          refine ⟨⟨b1, by simpa [readExit] using l1, by simpa using w1⟩,
            by simpa [readExit] using r1, rfl⟩
        · rw [if_neg hn0]
          obtain ⟨⟨b2, l2, w2⟩, r2, x2⟩ := readTail_wire (recvLen s0) msg hio (by rw [hn]; exact hn0)
          have key : recvChunks (readSizes (recvLen s0).len) (recvLen s0).chan.rx =
              recvChunks (readSizes n) (rxTake 1 st.chan.rx).2 := by rw [hn, r1]
          rw [key] at w2 r2 x2
          refine ⟨⟨b1 ++ b2, ?_, ?_⟩, r2, x2⟩
          · rw [l2, l1, List.append_assoc]
          · rw [wire_append, w1, w2]
            simp
      · rw [hg] at hle
        simp at hle
    · rw [if_neg hd, if_neg (fun h => hd ((hf hlz).mp h))]
      obtain ⟨⟨b2, l2, w2⟩, r2, x2⟩ := readTail_wire s0 msg he0 (by rw [hlen0]; exact hlz)
      have key : recvChunks (readSizes s0.len) s0.chan.rx =
          recvChunks (readSizes len) st.chan.rx := by rw [hlen0, hrx0]
      rw [key] at w2 r2 x2
      rw [hlog0] at l2
      exact ⟨⟨b2, l2, w2⟩, r2, x2⟩

theorem writeLoop_succ (fuel : Nat) (s : Loc) :
    writeLoop (fuel + 1) s =
      if s.len > 0 then
        if (i2cdriverErr ((s.chan.writeAll TxKind.writeCmd
              [(((if s.len > 64 then 64 else s.len) - 1) ||| 0b11000000) % 256]).writeAll
              TxKind.payload ((s.buf.drop s.datidx).take (if s.len > 64 then 64 else s.len)))).1 = true
        then
          { s with
            chan := (i2cdriverErr ((s.chan.writeAll TxKind.writeCmd
              [(((if s.len > 64 then 64 else s.len) - 1) ||| 0b11000000) % 256]).writeAll
              TxKind.payload ((s.buf.drop s.datidx).take (if s.len > 64 then 64 else s.len)))).2,
            pec := CRC_PEC.addBuf s.pec
              ((s.buf.drop s.datidx).take (if s.len > 64 then 64 else s.len)),
            ioerror := true }
        else
          writeLoop fuel
            { s with
              chan := (i2cdriverErr ((s.chan.writeAll TxKind.writeCmd
                [(((if s.len > 64 then 64 else s.len) - 1) ||| 0b11000000) % 256]).writeAll
                TxKind.payload ((s.buf.drop s.datidx).take (if s.len > 64 then 64 else s.len)))).2,
              pec := CRC_PEC.addBuf s.pec
                ((s.buf.drop s.datidx).take (if s.len > 64 then 64 else s.len)),
              len := s.len - (if s.len > 64 then 64 else s.len),
              datidx := s.datidx + (if s.len > 64 then 64 else s.len),
              ioerror := false }
      else s := rfl

theorem writeSizes_succ (fuel len : Nat) :
    writeSizes (fuel + 1) len =
      if len > 0 then
        (if len > 64 then 64 else len) :: writeSizes fuel (len - (if len > 64 then 64 else len))
      else [] := rfl

theorem wire_chunk (c data got : List Nat) :
    wire [Ev.tx TxKind.writeCmd c, Ev.tx TxKind.payload data, Ev.rx RxKind.status 2 got] = data := by
  simp [wire]

theorem writeLoop_wire (fuel : Nat) : ∀ s : Loc,
    (∃ body, (writeLoop fuel s).chan.log = s.chan.log ++ body ∧
      wire body = (sentChunks (writeSizes fuel s.len) (s.buf.drop s.datidx) s.chan.rx).1) ∧
    (writeLoop fuel s).chan.rx =
      (sentChunks (writeSizes fuel s.len) (s.buf.drop s.datidx) s.chan.rx).2.1 ∧
    (s.ioerror = false → (writeLoop fuel s).ioerror =
      (sentChunks (writeSizes fuel s.len) (s.buf.drop s.datidx) s.chan.rx).2.2) := by
  induction fuel with
  | zero =>
    intro s
    exact ⟨⟨[], by simp [writeLoop], by simp [writeSizes, sentChunks, wire]⟩, rfl, fun h => h⟩
  | succ fuel ih =>
    intro s
    rw [writeLoop_succ, writeSizes_succ]
    by_cases h : s.len > 0
    · rw [if_pos h, if_pos h]
      generalize (if s.len > 64 then 64 else s.len) = l
      rw [sentChunks_cons]
      have e1 := i2cdriverErr_fst ((s.chan.writeAll TxKind.writeCmd
        [((l - 1) ||| 0b11000000) % 256]).writeAll TxKind.payload ((s.buf.drop s.datidx).take l))
      simp only [writeAll_rx] at e1
      by_cases ha : isAck (rxTake 2 s.chan.rx).1 = true
      · have hne : ¬ (i2cdriverErr ((s.chan.writeAll TxKind.writeCmd
            [((l - 1) ||| 0b11000000) % 256]).writeAll TxKind.payload
            ((s.buf.drop s.datidx).take l))).1 = true := by
          rw [e1, ha]
          simp
        rw [if_neg hne, if_pos ha]
        obtain ⟨⟨body, b1, b2⟩, b3, b4⟩ := ih
          { s with
            chan := (i2cdriverErr ((s.chan.writeAll TxKind.writeCmd
              [((l - 1) ||| 0b11000000) % 256]).writeAll TxKind.payload
              ((s.buf.drop s.datidx).take l))).2,
            pec := CRC_PEC.addBuf s.pec ((s.buf.drop s.datidx).take l),
            len := s.len - l, datidx := s.datidx + l, ioerror := false }
        have hdrop : (s.buf.drop s.datidx).drop l = s.buf.drop (s.datidx + l) := by
          rw [List.drop_drop]
        rw [hdrop]
        refine ⟨⟨[Ev.tx TxKind.writeCmd [((l - 1) ||| 0b11000000) % 256],
          Ev.tx TxKind.payload ((s.buf.drop s.datidx).take l),
          Ev.rx RxKind.status 2 (rxTake 2 s.chan.rx).1] ++ body, ?_, ?_⟩, ?_, fun _ => ?_⟩
        · rw [b1]
          simp
        · rw [wire_append, wire_chunk, b2]
          simp
        · rw [b3]
          simp
        · rw [b4 rfl]
          simp
      · have hpos : (i2cdriverErr ((s.chan.writeAll TxKind.writeCmd
            [((l - 1) ||| 0b11000000) % 256]).writeAll TxKind.payload
            ((s.buf.drop s.datidx).take l))).1 = true := by
          rw [e1]
          simpa using ha
        rw [if_pos hpos, if_neg ha]
        refine ⟨⟨[Ev.tx TxKind.writeCmd [((l - 1) ||| 0b11000000) % 256],
          Ev.tx TxKind.payload ((s.buf.drop s.datidx).take l),
          Ev.rx RxKind.status 2 (rxTake 2 s.chan.rx).1], by simp, wire_chunk _ _ _⟩,
          by simp, fun _ => rfl⟩
    · rw [if_neg h, if_neg h]
      exact ⟨⟨[], by simp, by simp [sentChunks, wire]⟩, rfl, fun h => h⟩

theorem addrByte_eq (msg0 : i2c_msg) :
    (((if msg0.len = 0 then
        ({ msg0 with flags := ((msg0.flags ||| I2C_M_RD) &&& (0xFFFF ^^^ I2C_M_RECV_LEN)) % 65536 } :
          i2c_msg)
      else msg0).addr <<< 1) |||
      ((if msg0.len = 0 then
        ({ msg0 with flags := ((msg0.flags ||| I2C_M_RD) &&& (0xFFFF ^^^ I2C_M_RECV_LEN)) % 65536 } :
          i2c_msg)
      else msg0).flags &&& I2C_M_RD)) % 256 = addrByte msg0 := by
  unfold addrByte
  by_cases hz : msg0.len = 0
  · rw [if_pos hz, if_pos (Or.inr hz)]
    show ((msg0.addr <<< 1) ||| ((((msg0.flags ||| I2C_M_RD) &&& (0xFFFF ^^^ I2C_M_RECV_LEN)) % 65536)
      &&& I2C_M_RD)) % 256 = _
    rw [flags_rewrite_rd]
  · rw [if_neg hz]
    have h1 : msg0.flags &&& I2C_M_RD = msg0.flags % 2 := by
      show msg0.flags &&& 1 = _
      exact Nat.and_one_is_mod _
    by_cases hr : msg0.flags &&& I2C_M_RD ≠ 0
    · rw [if_pos (Or.inl hr)]
      have : msg0.flags &&& I2C_M_RD = 1 := by
        rw [h1] at hr ⊢
        omega
      rw [this]
    · rw [if_neg (by
        intro h
        rcases h with h | h
        · exact hr h
        · exact hz h)]
      have : msg0.flags &&& I2C_M_RD = 0 := by
        by_contra hc
        exact hr hc
      rw [this]

theorem wire_start (a : Nat) (got : List Nat) :
    wire [Ev.tx TxKind.start [0x73, a], Ev.rx RxKind.status 2 got] = [a] := by
  simp [wire]

theorem rdwrMsg_wire (st : RdwrState) (msg0 : i2c_msg) (buf : List Nat)
    (hrx : ∀ b, some b ∈ st.chan.rx → b < 256) :
    (∃ body, (rdwrMsg st msg0 buf).1.chan.log = st.chan.log ++ body ∧
      wire body = (msgWire st.chan.rx msg0 buf).1) ∧
    (rdwrMsg st msg0 buf).1.chan.rx = (msgWire st.chan.rx msg0 buf).2.1 ∧
    (rdwrMsg st msg0 buf).2.2 = (msgWire st.chan.rx msg0 buf).2.2 := by
  unfold rdwrMsg msgWire
  dsimp only
  rw [addrByte_eq msg0]
  have hflag : ((if msg0.len = 0 then
        ({ msg0 with flags := ((msg0.flags ||| I2C_M_RD) &&& (0xFFFF ^^^ I2C_M_RECV_LEN)) % 65536 } :
          i2c_msg)
      else msg0).flags &&& I2C_M_RD ≠ 0) ↔ (msg0.flags &&& I2C_M_RD ≠ 0 ∨ msg0.len = 0) := by
    by_cases hz : msg0.len = 0
    · rw [if_pos hz]
      show (((msg0.flags ||| I2C_M_RD) &&& (0xFFFF ^^^ I2C_M_RECV_LEN)) % 65536) &&& I2C_M_RD ≠ 0 ↔ _
      rw [flags_rewrite_rd]
      exact ⟨fun _ => Or.inr hz, fun _ => by decide⟩
    · rw [if_neg hz]
      exact ⟨fun h => Or.inl h, fun h => h.resolve_right hz⟩
  have hrecv : ∀ msg : i2c_msg, msg = (if msg0.len = 0 then
        ({ msg0 with flags := ((msg0.flags ||| I2C_M_RD) &&& (0xFFFF ^^^ I2C_M_RECV_LEN)) % 65536 } :
          i2c_msg)
      else msg0) →
      (msg0.len ≠ 0 → (msg0.flags &&& I2C_M_RECV_LEN ≠ 0 ↔ msg.flags &&& I2C_M_RECV_LEN ≠ 0)) ∧
      (msg0.len = 0 → ¬ msg.flags &&& I2C_M_RECV_LEN ≠ 0) := by
    intro msg hmsg
    by_cases hz : msg0.len = 0
    · rw [if_pos hz] at hmsg
      refine ⟨fun h => absurd hz h, fun _ => ?_⟩
      rw [hmsg]
      show ¬ (((msg0.flags ||| I2C_M_RD) &&& (0xFFFF ^^^ I2C_M_RECV_LEN)) % 65536) &&&
        I2C_M_RECV_LEN ≠ 0
      rw [flags_rewrite_recv]
      simp
    · rw [if_neg hz] at hmsg
      rw [hmsg]
      exact ⟨fun _ => Iff.rfl, fun h => absurd h hz⟩
  generalize hmsg : (if msg0.len = 0 then
        ({ msg0 with flags := ((msg0.flags ||| I2C_M_RD) &&& (0xFFFF ^^^ I2C_M_RECV_LEN)) % 65536 } :
          i2c_msg)
      else msg0) = msg at hflag
  obtain ⟨hv1, hv2⟩ := hrecv msg hmsg.symm
  have e1 := i2cdriverErr_fst (st.chan.writeAll TxKind.start [0x73, addrByte msg0])
  simp only [writeAll_rx] at e1
  have hlog : (i2cdriverErr (st.chan.writeAll TxKind.start [0x73, addrByte msg0])).2.log =
      st.chan.log ++ [Ev.tx TxKind.start [0x73, addrByte msg0],
        Ev.rx RxKind.status 2 (rxTake 2 st.chan.rx).1] := by
    simp
  have hrx2 : (i2cdriverErr (st.chan.writeAll TxKind.start [0x73, addrByte msg0])).2.rx =
      (rxTake 2 st.chan.rx).2 := by
    simp
  by_cases ha : isAck (rxTake 2 st.chan.rx).1 = true
  · have hne : ¬ (i2cdriverErr (st.chan.writeAll TxKind.start [0x73, addrByte msg0])).1 = true := by
      rw [e1, ha]
      simp
    rw [if_neg hne, if_pos ha]
    by_cases hr : msg.flags &&& I2C_M_RD ≠ 0
    · rw [if_pos hr, if_pos (hflag.mp hr)]
      obtain ⟨⟨b2, l2, w2⟩, r2, x2⟩ := rdwrRead_wire
        { st with chan := (i2cdriverErr (st.chan.writeAll TxKind.start [0x73, addrByte msg0])).2,
                  pec := CRC_PEC.add st.pec (addrByte msg0), ioerror := false }
        msg buf msg0.len msg0 rfl hv1 hv2 (by
          intro b hb
          rw [hrx2] at hb
          exact hrx b ((rxTake_sub 2 st.chan.rx).2 _ hb))
      rw [hrx2] at w2 r2 x2
      rw [hlog] at l2
      refine ⟨⟨[Ev.tx TxKind.start [0x73, addrByte msg0],
        Ev.rx RxKind.status 2 (rxTake 2 st.chan.rx).1] ++ b2, ?_, ?_⟩, r2, x2⟩
      · rw [l2, List.append_assoc]
      · rw [wire_append, wire_start, w2]
        rfl
    · rw [if_neg hr, if_neg (fun h => hr (hflag.mpr h))]
      obtain ⟨⟨b2, l2, w2⟩, r2, x2⟩ := writeLoop_wire msg0.len
        { chan := (i2cdriverErr (st.chan.writeAll TxKind.start [0x73, addrByte msg0])).2,
          pec := CRC_PEC.add st.pec (addrByte msg0), buf := buf, len := msg0.len, datidx := 0,
          ioerror := false }
      have x2 := x2 rfl
      simp only [List.drop_zero] at w2 r2 x2
      rw [hrx2] at w2 r2 x2
      rw [hlog] at l2
      refine ⟨⟨[Ev.tx TxKind.start [0x73, addrByte msg0],
        Ev.rx RxKind.status 2 (rxTake 2 st.chan.rx).1] ++ b2, ?_, ?_⟩, r2, x2⟩
      · rw [l2, List.append_assoc]
      · rw [wire_append, wire_start, w2]
        rfl
  · have hpos : (i2cdriverErr (st.chan.writeAll TxKind.start [0x73, addrByte msg0])).1 = true := by
      rw [e1]
      simpa using ha
    rw [if_pos hpos, if_neg ha]
    exact ⟨⟨[Ev.tx TxKind.start [0x73, addrByte msg0],
      Ev.rx RxKind.status 2 (rxTake 2 st.chan.rx).1], hlog, wire_start _ _⟩, hrx2, rfl⟩

theorem rdwrLoop_wire : ∀ (msgs : List i2c_msg) (st : RdwrState),
    (∀ b, some b ∈ st.chan.rx → b < 256) →
    ∃ body, (rdwrLoop msgs st).1.chan.log = st.chan.log ++ body ∧
      wire body = wireBytes st.chan.rx msgs := by
  intro msgs
  induction msgs with
  | nil =>
    intro st _
    exact ⟨[], by simp [rdwrLoop], by simp [wireBytes, wire]⟩
  | cons msg rest ih =>
    intro st hrx
    unfold rdwrLoop wireBytes
    cases hb : msg.buf with
    | none =>
      dsimp only
      exact ih st hrx
    | some buf =>
      dsimp only
      obtain ⟨⟨b1, l1, w1⟩, r1, x1⟩ := rdwrMsg_wire st msg buf hrx
      by_cases hs : (rdwrMsg st msg buf).2.2 = true
      · rw [if_pos hs, if_pos (by rw [← x1]; exact hs)]
        exact ⟨b1, l1, by rw [w1]; simp⟩
      · rw [if_neg hs, if_neg (by rw [← x1]; exact hs)]
        obtain ⟨_, _, _, hsub, _⟩ := (rdwrMsg_inv st msg buf).1
        obtain ⟨b2, l2, w2⟩ := ih (rdwrMsg st msg buf).1 (fun b hb => hrx b (hsub _ hb))
        rw [r1] at w2
        refine ⟨b1 ++ b2, ?_, ?_⟩
        · rw [l2, l1, List.append_assoc]
        · rw [wire_append, w1, w2]

set_option maxRecDepth 100000 in
theorem i2c_rdwr_short_eval :
    (i2c_rdwr false { count := 0, cur := 0, inData := false }
      { log := [], rx := [none, some 0x31, none, some 0xAB, none] }
      [{ addr := 0x50, flags := I2C_M_RD, len := 2, buf := some [0, 0] }]).chan.log =
      [Ev.rx RxKind.drain 32 [], Ev.tx TxKind.start [0x73, 0xA1], Ev.rx RxKind.status 2 [0x31],
       Ev.tx TxKind.readNack [0x81], Ev.rx RxKind.data 2 [0xAB], Ev.tx TxKind.stop [0x70]] ∧
    (i2c_rdwr false { count := 0, cur := 0, inData := false }
      { log := [], rx := [none, some 0x31, none, some 0xAB, none] }
      [{ addr := 0x50, flags := I2C_M_RD, len := 2, buf := some [0, 0] }]).msgs =
      [{ addr := 0x50, flags := I2C_M_RD, len := 2, buf := some [0xAB, 0] }] ∧
    (i2c_rdwr false { count := 0, cur := 0, inData := false }
      { log := [], rx := [none, some 0x31, none, some 0xAB, none] }
      [{ addr := 0x50, flags := I2C_M_RD, len := 2, buf := some [0, 0] }]).pec =
      CRC_PEC.addBuf 0 [0xA1] ∧
    CRC_PEC.addBuf 0 [0xA1] ≠ CRC_PEC.addBuf 0 [0xA1, 0xAB] ∧
    (i2c_rdwr false { count := 0, cur := 0, inData := false }
      { log := [], rx := [none, some 0x31, none, some 0xAB, none] }
      [{ addr := 0x50, flags := I2C_M_RD, len := 2, buf := some [0, 0] }]).ok = false := by
  decide

theorem transferBytes_examples :
    transferBytes [none, some 0x31, none, some 2, some 7, some 8]
        [{ addr := 0x50, flags := I2C_M_RD ||| I2C_M_RECV_LEN, len := 256,
           buf := some (List.replicate 256 0) }] = [0xA1, 2, 7, 8] ∧
    transferBytes [none, some 0x30, none]
        [{ addr := 0x50, flags := 0, len := 2, buf := some [0x12, 0x34] },
         { addr := 0x50, flags := I2C_M_RD, len := 2, buf := some [0, 0] }] = [0xA0] ∧
    transferBytes [none, some 0x31, none, some 0x30, none]
        [{ addr := 0x50, flags := 0, len := 2, buf := some [0x12, 0x34] },
         { addr := 0x50, flags := I2C_M_RD, len := 2, buf := some [0, 0] }] = [0xA0, 0x12, 0x34] ∧
    transferBytes [none, some 0x31, none, some 0xAB, none]
        [{ addr := 0x50, flags := I2C_M_RD, len := 2, buf := some [0, 0] }] = [0xA1] ∧
    transferBytes [none, some 0x31, none, some 0x31, none]
        [{ addr := 0x51, flags := 0, len := 0, buf := some [] },
         { addr := 0x50, flags := I2C_M_RD, len := 1, buf := some [0] }] = [0xA3] := by
  decide

/-- Counterexample to claim C6 as stated. The Transfer is a read of 2 bytes at
the address 0x50; the adapter acknowledges the START and then delivers one
byte, 0xAB, instead of two.  The byte is received, the log shows it and it is
stored in the buffer of the message, but the short read ends the Transfer
before `pec.add`: the checksum `i2c_rdwr` holds when it finishes is the CRC-8
of the address byte 0xA1 alone, not that of 0xA1, 0xAB. -/
theorem i2c_rdwr_short_read :
    (i2c_rdwr false { count := 0, cur := 0, inData := false }
      { log := [], rx := [none, some 0x31, none, some 0xAB, none] }
      [{ addr := 0x50, flags := I2C_M_RD, len := 2, buf := some [0, 0] }]).chan.log =
      [Ev.rx RxKind.drain 32 [], Ev.tx TxKind.start [0x73, 0xA1], Ev.rx RxKind.status 2 [0x31],
       Ev.tx TxKind.readNack [0x81], Ev.rx RxKind.data 2 [0xAB], Ev.tx TxKind.stop [0x70]] ∧
    (i2c_rdwr false { count := 0, cur := 0, inData := false }
      { log := [], rx := [none, some 0x31, none, some 0xAB, none] }
      [{ addr := 0x50, flags := I2C_M_RD, len := 2, buf := some [0, 0] }]).msgs =
      [{ addr := 0x50, flags := I2C_M_RD, len := 2, buf := some [0xAB, 0] }] ∧
    (i2c_rdwr false { count := 0, cur := 0, inData := false }
      { log := [], rx := [none, some 0x31, none, some 0xAB, none] }
      [{ addr := 0x50, flags := I2C_M_RD, len := 2, buf := some [0, 0] }]).pec =
      CRC_PEC.addBuf 0 [0xA1] ∧
    (i2c_rdwr false { count := 0, cur := 0, inData := false }
      { log := [], rx := [none, some 0x31, none, some 0xAB, none] }
      [{ addr := 0x50, flags := I2C_M_RD, len := 2, buf := some [0, 0] }]).pec ≠
      CRC_PEC.addBuf 0 [0xA1, 0xAB] := by
  refine ⟨i2c_rdwr_short_eval.1, i2c_rdwr_short_eval.2.1, i2c_rdwr_short_eval.2.2.1, ?_⟩
  rw [i2c_rdwr_short_eval.2.2.1]
  exact i2c_rdwr_short_eval.2.2.2.1

/-- Claim C6, amended. For every Transfer whose buffers are large enough, on a
channel of bytes, the checksum `i2c_rdwr` holds when it finishes is the CRC-8
folded from 0 over `transferBytes`: for each processed message in order the
address byte `(addr << 1) | rw` sent in its START command, then the received
length byte if the message is a read of dynamic length, then every payload byte
of every chunk sent or received in full; the bytes of a read that comes back
short, which ends the Transfer, are not folded.  These are the bytes of the
log of the call that cross the wire, in order.  The checksum is the byte of
the PEC chunk, if one is written, and the byte passed to the echo. -/
theorem i2c_rdwr_checksum (add_pec : Bool) (dec : DecState) (chan : File) (msgs : List i2c_msg)
    (hbuf : ∀ msg ∈ msgs, ∀ buf, msg.buf = some buf → MsgOk msg buf)
    (hrx : ∀ b, some b ∈ chan.rx → b < 256) :
    (i2c_rdwr add_pec dec chan msgs).pec = CRC_PEC.addBuf 0 (transferBytes chan.rx msgs) ∧
    (∃ body, (i2c_rdwr add_pec dec chan msgs).chan.log = chan.log ++ body ∧
      wire body = transferBytes chan.rx msgs ∧
      (∀ bs, Ev.tx TxKind.pec bs ∈ body →
        bs = [0xC0, (i2c_rdwr add_pec dec chan msgs).pec])) ∧
    (msgs ≠ [] → add_pec = true →
      Out.pec (i2c_rdwr add_pec dec chan msgs).pec ∈ (i2c_rdwr add_pec dec chan msgs).out) := by
  by_cases h : msgs = []
  · subst h
    exact ⟨by simp [i2c_rdwr, transferBytes, wireBytes, CRC_PEC.addBuf],
      ⟨[], by simp [i2c_rdwr], by simp [transferBytes, wireBytes, wire], by simp⟩,
      fun hn => absurd rfl hn⟩
  · obtain ⟨e1, e2, e3⟩ := i2c_rdwr_end add_pec dec chan msgs h (atEnd add_pec chan msgs) rfl
    obtain ⟨body, d1, d2, d3, d4⟩ := drain_inv add_pec chan msgs
    obtain ⟨body2, g1, g2⟩ := rdwrLoop_wire msgs
      { chan := (chan.read RxKind.drain 32).2, pec := 0, ioerror := false, do_add_pec := add_pec }
      (fun b hb => hrx b ((rxTake_sub 32 chan.rx).2 _ (by simpa using hb)))
    have hbody : body = body2 := by
      rw [d1] at g1
      simp only [read_log, List.append_assoc, List.singleton_append] at g1
      have := List.append_cancel_left g1
      exact List.cons_injective this
    subst hbody
    have g2 : wire body = transferBytes chan.rx msgs := by
      rw [g2]
      rfl
    change (atEnd add_pec chan msgs).chan.log = _ at d1
    change Trace (atEnd add_pec chan msgs).ioerror body at d2
    change (atEnd add_pec chan msgs).pec < 256 at d3
    change _ → _ → (atEnd add_pec chan msgs).pec = _ at d4
    have hpec := d4 hbuf hrx
    have hnp : ∀ bs, Ev.tx TxKind.pec bs ∉ body := by
      intro bs hc
      have := d2.1 _ hc
      simp [Ev.isFinal] at this
    have hout : add_pec = true →
        Out.pec (i2c_rdwr add_pec dec chan msgs).pec ∈ (i2c_rdwr add_pec dec chan msgs).out := by
      intro ha
      rw [i2c_rdwr_out add_pec dec chan msgs h, ha]
      simp
    refine ⟨by rw [e1, hpec, g2], ?_, fun _ => hout⟩
    by_cases hc : (atEnd add_pec chan msgs).do_add_pec = true ∧ (atEnd add_pec chan msgs).ioerror = false
    · obtain ⟨l1, _⟩ := e2 hc
      refine ⟨Ev.rx RxKind.drain 32 (rxTake 32 chan.rx).1 :: body ++
        [Ev.tx TxKind.pec [0b11000000, (atEnd add_pec chan msgs).pec % 256],
         Ev.rx RxKind.status 2 (rxTake 2 (atEnd add_pec chan msgs).chan.rx).1,
         Ev.tx TxKind.stop [0x70]], ?_, ?_, ?_⟩
      · rw [l1, d1]; simp
      · rw [← g2]
        simp [wire, wire_append]
      · intro bs hb
        simp only [List.cons_append, List.mem_cons, List.mem_append, List.mem_singleton,
          List.not_mem_nil, or_false, reduceCtorEq, false_or, Ev.tx.injEq, true_and] at hb
        rcases hb with hb | hb | hb
        · exact absurd hb (hnp bs)
        · rw [hb, e1, Nat.mod_eq_of_lt d3]
        · exact absurd hb.1 (by decide)
    · obtain ⟨l1, _⟩ := e3 hc
      refine ⟨Ev.rx RxKind.drain 32 (rxTake 32 chan.rx).1 :: body ++ [Ev.tx TxKind.stop [0x70]],
        ?_, ?_, ?_⟩
      · rw [l1, d1]; simp
      · rw [← g2]
        simp [wire, wire_append]
      · intro bs hb
        simp only [List.cons_append, List.mem_cons, List.mem_append, List.mem_singleton,
          List.not_mem_nil, or_false, reduceCtorEq, false_or, Ev.tx.injEq] at hb
        rcases hb with hb | hb
        · exact absurd hb (hnp bs)
        · exact absurd hb.1 (by decide)

theorem i2c_rdwr_checksum_witness :
    transferBytes [none, some 0x31, none, some 0x31, none, some 0x31, none, some 7, some 8]
        [{ addr := 0x50, flags := 0, len := 2, buf := some [0x12, 0x34] },
         { addr := 0x50, flags := I2C_M_RD, len := 2, buf := some [0, 0] }] =
      [0xA0, 0x12, 0x34, 0xA1, 7, 8] ∧
    (i2c_rdwr true { count := 0, cur := 0, inData := false }
        { log := [],
          rx := [none, some 0x31, none, some 0x31, none, some 0x31, none, some 7, some 8] }
        [{ addr := 0x50, flags := 0, len := 2, buf := some [0x12, 0x34] },
         { addr := 0x50, flags := I2C_M_RD, len := 2, buf := some [0, 0] }]).pec =
      CRC_PEC.addBuf 0
        (transferBytes [none, some 0x31, none, some 0x31, none, some 0x31, none, some 7, some 8]
          [{ addr := 0x50, flags := 0, len := 2, buf := some [0x12, 0x34] },
           { addr := 0x50, flags := I2C_M_RD, len := 2, buf := some [0, 0] }]) :=
  ⟨by decide,
   (i2c_rdwr_checksum true { count := 0, cur := 0, inData := false }
      { log := [],
        rx := [none, some 0x31, none, some 0x31, none, some 0x31, none, some 7, some 8] }
      [{ addr := 0x50, flags := 0, len := 2, buf := some [0x12, 0x34] },
       { addr := 0x50, flags := I2C_M_RD, len := 2, buf := some [0, 0] }]
      (by
        intro msg hm buf hb
        simp only [List.mem_cons, List.mem_singleton, List.not_mem_nil, or_false] at hm
        rcases hm with rfl | rfl
        · simp only [Option.some.injEq] at hb
          subst hb
          exact ⟨by decide, by decide⟩
        · simp only [Option.some.injEq] at hb
          subst hb
          exact ⟨by decide, by decide⟩)
      (by
        intro b hb
        simp only [List.mem_cons, Option.some.injEq, reduceCtorEq, false_or, List.mem_singleton,
          List.not_mem_nil, or_false] at hb
        omega)).1⟩

end I2c
